import Mathlib

/-! # xk file system: block allocator, inode cache, extent store, log, directories,
file descriptors and pipes

A shallow embedding of `kernel/fs.c` (with the on-disk formats of `inc/fs.h` and the
in-memory inode of `inc/file.h`), followed by theorems about the block allocator
(`bmark`, `balloc`, `bfree`), the inode cache (`iget`, `idup`, `irelease`, `locki`,
`unlocki`) and the extent store (`readi`, `writei`, `readfromextent`, `writetoextent`,
`read_dinode`, `write_dinode`), the write-ahead log of `kernel/lio.c` (`logbegin`,
`logwrite`, `logcommit`, `logapply`), directories and paths (`dirlookup`, `skipelem`,
`namex`, `namei`, `nameiparent`), the creation and removal of files (`iopen`,
`unlink`), and the descriptor layer of `kernel/file.c` (`fopen`, `fdup`, `fclose`,
`fread`, `fwrite`, `fpipe`, `pipewrite`, `piperead`) with the descriptor copy of `fork`.

Conventions of the embedding.
* The kernel is modelled sequentially: a routine is a function from the state it reads to
  the state it leaves, wrapped in `Kres`, which records whether the routine returned,
  called `panic` (the kernel halts), or went to sleep on a lock nobody will release.
  Spin locks and the buffer locks of `bread`/`brelse` have no effect in this model.
* The single disk is a function from block numbers to blocks; `bread` is application,
  `bwrite` is `Function.update`. A block is a function from byte offsets to byte values.
  The device number `dev` is not modelled: there is one device.
* C arrays (`inode.data`, `icache.inode`) are functions from indices; pointers into the
  inode cache are values of `iptr` and are never null.
* A `for` loop with a known number of iterations is a recursion on that number; the loop
  variable is carried along.
* A call on a pipe that goes to sleep is shown with the state of the pipe at that point
  (`PipeOut.asleep`), and what the call does when it is woken is a function of the state
  it then finds.
* C integers are natural numbers or integers with exact arithmetic; narrowing stores into
  `uchar` are written `% 256` and `uint` sums `% 2 ^ 32`. Theorems about routines that
  pass `uint` arguments on as `int` state the range in which that conversion is the
  identity.
-/

namespace Xk

/-! ## Outcomes -/

/-- Result of running a kernel routine: it returns a value, the kernel panics, or the
caller sleeps forever (a sleep lock that is already held). The last case, `nofuel`, is
not a behaviour of the kernel: a routine of the model that bounds the depth of its
recursion yields it when the bound is reached. -/
inductive Kres (α : Type) where
  | ok (a : α) : Kres α
  | panic : Kres α
  | sleep : Kres α
  | nofuel : Kres α

/-- Sequencing of kernel routines: the first panic or sleep ends the run. -/
def Kres.bind {α β : Type} (r : Kres α) (f : α → Kres β) : Kres β :=
  match r with
  | Kres.ok a => f a
  | Kres.panic => Kres.panic
  | Kres.sleep => Kres.sleep
  | Kres.nofuel => Kres.nofuel

/-! ## Disk and on-disk constants (`inc/fs.h`) -/

/-- Block size in bytes. -/
abbrev BSIZE : Nat := 512

/-- Bitmap bits per block. -/
abbrev BPB : Nat := BSIZE * 8

/-- Contents of one disk block (`buf.data`), indexed by byte offset. -/
abbrev Block := Nat → Nat

/-- Contents of the disk, indexed by block number. -/
abbrev Disk := Nat → Block

/-- The super block describes the disk layout. -/
structure superblock where
  size : Nat
  nblocks : Nat
  bmapstart : Nat
  logstart : Nat
  inodestart : Nat

/-- Block of the free map containing the bit for block `b`. -/
def BBLOCK (b : Nat) (sb : superblock) : Nat := b / BPB + sb.bmapstart

/-! ## Block allocator -/

/-- The test `(bp->data[bi/8] & m) != 0` with `m = 1 << (bi % 8)`: bit `bi` of a bitmap
block is set. -/
def bitAt (data : Block) (bi : Nat) : Bool :=
  data (bi / 8) &&& (1 <<< (bi % 8)) != 0

/-- The loop of `bmark`, `cnt` iterations starting at bit `bi`:
sets the bits when `used`, otherwise clears them and panics on a bit that is already
clear. -/
def bmarkLoop (used : Bool) : Nat → Nat → Block → Kres Block
  | 0, _, data => Kres.ok data
  | cnt + 1, bi, data =>
    let m := 1 <<< (bi % 8)
    if used then
      bmarkLoop used cnt (bi + 1)
        (Function.update data (bi / 8) ((data (bi / 8) ||| m) % 256))
    else if data (bi / 8) &&& m = 0 then
      Kres.panic
    else
      bmarkLoop used cnt (bi + 1)
        (Function.update data (bi / 8) ((data (bi / 8) &&& (0xFFFFFFFF ^^^ m)) % 256))

/-- Function `bmark`: mark bits `[start, end]` of a bitmap block used or free.
The loop `for (bi = start; bi <= end; bi++)` runs `end + 1 - start` times. -/
def bmark (data : Block) (start stop : Nat) (used : Bool) : Kres Block :=
  bmarkLoop used (stop + 1 - start) start data

/-- Inner loop of `balloc` over one bitmap block, for `cnt` further bit positions from
`bi`, with `sz` the length of the current run of free bits and `i` its first bit.
Returns the pair `(i, bi)` of the first run of `n` free bits, or `none` when the loop
ends without one. -/
def ballocScan (data : Block) (n : Nat) : Nat → Nat → Nat → Nat → Option (Nat × Nat)
  | 0, _, _, _ => none
  | cnt + 1, bi, sz, i =>
    let m := 1 <<< (bi % 8)
    if data (bi / 8) &&& m = 0 then
      let sz := sz + 1
      let i := if sz = 1 then bi else i
      if sz = n then some (i, bi)
      else ballocScan data n cnt (bi + 1) sz i
    else ballocScan data n cnt (bi + 1) 0 0

/-- Outer loop of `balloc`: `cnt` further bitmap blocks starting with the one of block
`b`. The inner loop `for (bi = 0; bi < BPB && b + bi < sb.size; bi++)` runs
`min BPB (sb.size - b)` times. Falling out of the outer loop is the panic
"balloc: can't allocate contiguous blocks". -/
def ballocLoop (sb : superblock) (n : Nat) (disk : Disk) : Nat → Nat → Kres (Nat × Disk)
  | 0, _ => Kres.panic
  | cnt + 1, b =>
    let bp := disk (BBLOCK b sb)
    match ballocScan bp n (min BPB (sb.size - b)) 0 0 0 with
    | some (i, bi) =>
      (bmark bp i bi true).bind fun bp1 =>
        Kres.ok (b + i, Function.update disk (BBLOCK b sb) bp1)
    | none => ballocLoop sb n disk cnt (b + BPB)

/-- Function `balloc`: allocate `n` consecutive disk blocks and return the first block
number together with the disk after the bitmap write. The loop
`for (b = 0; b < sb.size; b += BPB)` runs once per bitmap block of the volume. -/
def balloc (sb : superblock) (disk : Disk) (n : Nat) : Kres (Nat × Disk) :=
  ballocLoop sb n disk ((sb.size + BPB - 1) / BPB) 0

/-- Function `bfree`: free `n` disk blocks starting from `b`. The two `assertm` calls
panic when they fail. -/
def bfree (sb : superblock) (disk : Disk) (b n : Nat) : Kres Disk :=
  if ¬ (n ≥ 1) then Kres.panic
  else if ¬ (BBLOCK b sb = BBLOCK (b + n - 1) sb) then Kres.panic
  else
    let bp := disk (BBLOCK b sb)
    (bmark bp (b % BPB) ((b + n - 1) % BPB) false).bind fun bp1 =>
      Kres.ok (Function.update disk (BBLOCK b sb) bp1)

/-- Block `blk` is marked in use in the free map on `disk`. -/
def inUse (sb : superblock) (disk : Disk) (blk : Nat) : Bool :=
  bitAt (disk (BBLOCK blk sb)) (blk % BPB)

/-- Bits `s .. s+n-1` of a bitmap block are all clear. -/
def RunFree (data : Block) (s n : Nat) : Prop :=
  ∀ k, s ≤ k → k < s + n → bitAt data k = false

/-- Blocks `s .. s+n-1` lie on the volume, have their bits in one bitmap block, and are
all free on `disk`. -/
def Fit (sb : superblock) (disk : Disk) (n s : Nat) : Prop :=
  s + n ≤ sb.size ∧ s / BPB = (s + n - 1) / BPB ∧
    ∀ k, s ≤ k → k < s + n → inUse sb disk k = false

/-- A run of successive `balloc` calls, one per requested length, with no `bfree` in
between; the result lists the returned ranges as pairs (first block, length). A panic of
any call ends the run. -/
def ballocSeq (sb : superblock) : Disk → List Nat → Kres (List (Nat × Nat) × Disk)
  | disk, [] => Kres.ok ([], disk)
  | disk, n :: ns =>
    match balloc sb disk n with
    | Kres.ok (s, d1) =>
      match ballocSeq sb d1 ns with
      | Kres.ok (rs, d2) => Kres.ok ((s, n) :: rs, d2)
      | Kres.panic => Kres.panic
      | Kres.sleep => Kres.sleep
      | Kres.nofuel => Kres.nofuel
    | Kres.panic => Kres.panic
    | Kres.sleep => Kres.sleep
    | Kres.nofuel => Kres.nofuel

/-- The routine panicked. -/
def Kres.isPanic {α : Type} : Kres α → Bool
  | Kres.panic => true
  | _ => false

/-- A volume of 16 blocks whose free map is block 2; used in the examples. -/
def sb16 : superblock :=
  { size := 16, nblocks := 8, bmapstart := 2, logstart := 3, inodestart := 5 }

/-- A disk for `sb16` on which blocks 0 to 5 are marked in use and everything else is
zero. -/
def disk16 : Disk := fun blk i => if blk = 2 ∧ i = 0 then 0x3F else 0

/-- A volume of 4098 blocks, so that its free map spans the two blocks 2 and 3. -/
def sbTwoMaps : superblock :=
  { size := 4098, nblocks := 4000, bmapstart := 2, logstart := 4, inodestart := 84 }

/-- A disk for `sbTwoMaps` on which every block is marked in use except 4095 (last bit of
free-map block 2) and 4096 (first bit of free-map block 3). -/
def diskTwoMaps : Disk := fun blk i =>
  if blk = 2 ∧ i = 511 then 0x7F else if blk = 3 ∧ i = 0 then 0xFE else 0xFF

end Xk

namespace Xk

/-! ## Inodes (`inc/file.h`, `inc/fs.h`) -/

/-- Modelled from the spec: `struct extent` of `extent.h`, which is not among the sources:
a contiguous run of disk blocks, recorded as start block and block count, two unsigned
32-bit words. -/
structure extent where
  startblkno : Nat
  nblocks : Nat

/-- The in-memory inode structure. `lock` is true while the sleep lock is held (by the
one thread of the model); `data` is the array of 30 extents, indexed `0 .. 29`. -/
structure inode where
  dev : Nat
  inum : Nat
  ref : Int
  valid : Int
  lock : Bool
  type : Int
  devid : Int
  size : Nat
  data : Nat → extent

/-- On-disk inode structure. -/
structure dinode where
  type : Int
  devid : Int
  size : Nat
  data : Nat → extent

/-- Modelled from the spec: inode type tag of a directory (`stat.h` is not among the
sources; the tags are distinct and nonzero, zero meaning a free in-memory slot). -/
def T_DIR : Int := 1

/-- Modelled from the spec: inode type tag of a regular file. -/
def T_FILE : Int := 2

/-- Modelled from the spec: inode type tag of a device. -/
def T_DEV : Int := 3

/-- Size of `struct dinode` in bytes: 2 + 2 + 4 + 30 * 8 + 8. -/
abbrev DINODE_SIZE : Nat := 256

/-- Offset of inode `inum` in the inode file. -/
def INODEOFF (inum : Nat) : Nat := inum * DINODE_SIZE

/-- Number of extents of an inode. -/
abbrev NEXTENT : Nat := 30

/-- Entry of the device switch: the read and write handlers of a device, if registered.
A read handler yields its result and the bytes it stored; a write handler its result. -/
structure devsw_entry where
  read : Option (inode → Nat → Int × List Nat)
  write : Option (inode → List Nat → Nat → Int)

/-- What the file system takes from the rest of the kernel: the super block read at
mount, the constants `NINODE` and `NDEV` of `param.h` (not among the sources) and the
device switch table. -/
structure Config where
  sb : superblock
  NINODE : Nat
  NDEV : Int
  devsw : Int → devsw_entry

/-- State of the file system: the disk and the inode cache `icache` (the slots
`icache.inode[NINODE]` and the inode file's own inode `icache.inodefile`). -/
structure Kernel where
  disk : Disk
  inodefile : inode
  slots : Nat → inode

/-- A `struct inode *` into the inode cache. -/
inductive iptr where
  | slot (k : Nat) : iptr
  | inodefile : iptr

/-- Dereference an inode pointer. -/
def Kernel.get (s : Kernel) : iptr → inode
  | iptr.slot k => s.slots k
  | iptr.inodefile => s.inodefile

/-- Store through an inode pointer. -/
def Kernel.set (s : Kernel) (p : iptr) (ip : inode) : Kernel :=
  match p with
  | iptr.slot k => { s with slots := Function.update s.slots k ip }
  | iptr.inodefile => { s with inodefile := ip }

/-! ### Byte layout of `struct dinode` (little endian) -/

/-- A 16-bit signed field as two bytes. -/
def le16 (v : Int) : List Nat :=
  let u := (v % 65536).toNat
  [u % 256, u / 256]

/-- A 32-bit unsigned field as four bytes. -/
def le32 (v : Nat) : List Nat :=
  [v % 256, v / 256 % 256, v / 65536 % 256, v / 16777216 % 256]

/-- Read a 16-bit signed field at byte offset `o`. -/
def rd16 (bs : List Nat) (o : Nat) : Int :=
  let u := bs.getD o 0 + 256 * bs.getD (o + 1) 0
  if u < 32768 then (u : Int) else (u : Int) - 65536

/-- Read a 32-bit unsigned field at byte offset `o`. -/
def rd32 (bs : List Nat) (o : Nat) : Nat :=
  bs.getD o 0 + 256 * bs.getD (o + 1) 0 + 65536 * bs.getD (o + 2) 0
    + 16777216 * bs.getD (o + 3) 0

/-- The 256 bytes of a `struct dinode`. The 8 bytes of `pad` are never assigned by the
code; the model stores zeros there. -/
def dinodeBytes (d : dinode) : List Nat :=
  le16 d.type ++ le16 d.devid ++ le32 d.size
    ++ (List.range NEXTENT).flatMap (fun i => le32 (d.data i).startblkno ++ le32 (d.data i).nblocks)
    ++ List.replicate 8 0

/-- The `struct dinode` held in a buffer of bytes (missing bytes read as zero). -/
def parseDinode (bs : List Nat) : dinode :=
  { type := rd16 bs 0
    devid := rd16 bs 2
    size := rd32 bs 4
    data := fun i => if i < NEXTENT then
        { startblkno := rd32 bs (8 + 8 * i), nblocks := rd32 bs (12 + 8 * i) }
      else { startblkno := 0, nblocks := 0 } }

/-! ## Extent store -/

/-- Local variables of `readfromextent`: the bytes stored to `dst` so far, `off`, `n`,
`totalsize` and `reading`. (`totalwritten` is never read and is left out.) -/
structure rstate where
  dst : List Nat
  off : Nat
  n : Nat
  totalsize : Nat
  reading : Bool

/-- Local variables of `writetoextent` together with the disk: the bytes of `src` not yet
consumed, `off`, `n`, `totalsize` and `writing`. -/
structure wstate where
  disk : Disk
  src : List Nat
  off : Nat
  n : Nat
  totalsize : Nat
  writing : Bool

/-- The bytes `memmove(dst, bp->data + o, m)` stores. -/
def blockRead (bp : Block) (o m : Nat) : List Nat :=
  (List.range m).map (fun x => bp (o + x))

/-- The block after `memset(bp->data + o, 0, m); memmove(bp->data + o, src, m)`.
Bytes of `src` past the end of the list read as zero. -/
def blockWrite (bp : Block) (o : Nat) (src : List Nat) (m : Nat) : Block :=
  fun x => if o ≤ x ∧ x < o + m then src.getD (x - o) 0 else bp x

/-- Body of the loop over the blocks of one extent in `readfromextent`, up to the test
`if (n == 0)`, for block `j` of the extent starting at `start`. -/
def readBlock (disk : Disk) (start j : Nat) (st : rstate) : rstate :=
  let st := { st with totalsize := st.totalsize + BSIZE }
  let st := if st.totalsize > st.off then { st with reading := true } else st
  if st.reading then
    let bp := disk (start + j)
    let m := min st.n (BSIZE - st.off % BSIZE)
    { st with dst := st.dst ++ blockRead bp (st.off % BSIZE) m
              n := st.n - m
              off := st.off + m }
  else st

/-- The loop over the blocks of one extent in `readfromextent`
(`for (j = blocksdeep; j < nblocks; j++)`), `cnt` iterations from block `j`.
The flag of the result is true when the loop ended in `return 0`. -/
def readBlocks (disk : Disk) (start : Nat) : Nat → Nat → rstate → Bool × rstate
  | 0, _, st => (false, st)
  | cnt + 1, j, st =>
    let st := readBlock disk start j st
    if st.n = 0 then (true, st) else readBlocks disk start cnt (j + 1) st

/-- The loop over the extents in `readfromextent` (`for (i = 0; i < 30; i++)`),
`cnt` iterations from extent `i`. Yields the return value and the local state. -/
def readExtents (disk : Disk) (data : Nat → extent) : Nat → Nat → rstate → Int × rstate
  | 0, _, st => (-1, st)
  | cnt + 1, i, st =>
    if (data i).nblocks = 0 then (-1, st)
    else if st.off > st.totalsize + (data i).nblocks * BSIZE then
      readExtents disk data cnt (i + 1)
        { st with totalsize := st.totalsize + (data i).nblocks * BSIZE }
    else
      let blocksdeep := (st.off - st.totalsize) / BSIZE
      let st := { st with totalsize := st.totalsize + blocksdeep * BSIZE }
      let r := readBlocks disk (data i).startblkno ((data i).nblocks - blocksdeep) blocksdeep st
      if r.1 then (0, r.2) else readExtents disk data cnt (i + 1) r.2

/-- Function `readfromextent`: read `n` bytes at offset `off` of an inode's file data.
Yields the return value (0 or -1) and the bytes stored to `dst`. The `int` locals are
natural numbers: no value of the run is negative, and the arithmetic is that of C as long
as offsets and sizes stay below `2^31`. -/
def readfromextent (disk : Disk) (node : inode) (off n : Nat) : Int × List Nat :=
  let r := readExtents disk node.data NEXTENT 0
    { dst := [], off := off, n := n, totalsize := 0, reading := false }
  (r.1, r.2.dst)

/-- Body of the loop over the blocks of one extent in `writetoextent`, up to the test
`if (n == 0)`, for block `j` of the extent starting at `start`. -/
def writeBlock (start j : Nat) (st : wstate) : wstate :=
  let st := { st with totalsize := st.totalsize + BSIZE }
  let st := if st.totalsize > st.off then { st with writing := true } else st
  if st.writing then
    let bp := st.disk (start + j)
    let m := min st.n (BSIZE - st.off % BSIZE)
    { st with disk := Function.update st.disk (start + j)
                (blockWrite bp (st.off % BSIZE) st.src m)
              src := st.src.drop m
              n := st.n - m
              off := st.off + m }
  else st

/-- The loop over the blocks of one extent in `writetoextent`, `cnt` iterations from
block `j`. The flag of the result is true when the loop ended in `return 0`. -/
def writeBlocks (start : Nat) : Nat → Nat → wstate → Bool × wstate
  | 0, _, st => (false, st)
  | cnt + 1, j, st =>
    let st := writeBlock start j st
    if st.n = 0 then (true, st) else writeBlocks start cnt (j + 1) st

/-- The head of the body of the loop over the extents in `writetoextent`: when slot `i`
is unused, allocate an extent for the `n` bytes still to write, rebase `off` and reset
`totalsize`. A panic of `balloc` ends the run. -/
def writeAlloc (sb : superblock) (i : Nat) (data : Nat → extent) (st : wstate) :
    Kres ((Nat → extent) × wstate) :=
  if (data i).nblocks = 0 then
    let blocks := if st.n % BSIZE = 0 then st.n / BSIZE else st.n / BSIZE + 1
    (balloc sb st.disk blocks).bind fun r =>
      Kres.ok (Function.update data i { startblkno := r.1, nblocks := blocks },
        { st with disk := r.2, off := st.off - st.totalsize, totalsize := 0 })
  else Kres.ok (data, st)

/-- The loop over the extents in `writetoextent`, `cnt` iterations from extent `i`.
Yields the return value, the extent array of the inode and the local state. -/
def writeExtents (sb : superblock) :
    Nat → Nat → (Nat → extent) → wstate → Kres (Int × (Nat → extent) × wstate)
  | 0, _, data, st => Kres.ok (-1, data, st)
  | cnt + 1, i, data, st =>
    (writeAlloc sb i data st).bind fun r =>
    let data := r.1
    let st := r.2
    if st.off > st.totalsize + (data i).nblocks * BSIZE then
      writeExtents sb cnt (i + 1) data
        { st with totalsize := st.totalsize + (data i).nblocks * BSIZE }
    else
      let blocksdeep := (st.off - st.totalsize) / BSIZE
      let st := { st with totalsize := st.totalsize + blocksdeep * BSIZE }
      let r := writeBlocks (data i).startblkno ((data i).nblocks - blocksdeep) blocksdeep st
      if r.1 then Kres.ok (0, data, r.2) else writeExtents sb cnt (i + 1) data r.2

/-- Function `writetoextent`: write `n` bytes of `src` at offset `off` of an inode's file
data, allocating an extent wherever the walk meets an unused slot. Yields the return
value (0 or -1), the inode with its extent array, and the disk. The `int` locals are
natural numbers, as in `readfromextent`. -/
def writetoextent (sb : superblock) (disk : Disk) (node : inode) (src : List Nat)
    (off n : Nat) : Kres (Int × inode × Disk) :=
  (writeExtents sb NEXTENT 0 node.data
    { disk := disk, src := src, off := off, n := n, totalsize := 0, writing := false }).bind
    fun r => Kres.ok (r.1, { node with data := r.2.1 }, r.2.2.disk)

end Xk

namespace Xk

/-! ## Inode cache -/

/-- Outcome of the scan of `iget` over the cache slots: the slot of the cached inode, or
the remembered empty slot (if any) when the inode is not cached. -/
inductive igetscan where
  | found (k : Nat) : igetscan
  | absent (empty : Option Nat) : igetscan

/-- The loop of `iget` (`for (ip = &icache.inode[0]; ip < &icache.inode[NINODE]; ip++)`),
`cnt` iterations from slot `k`; `empty` is the first slot with `ref == 0` seen so far. -/
def igetLoop (slots : Nat → inode) (dev inum : Nat) : Nat → Nat → Option Nat → igetscan
  | 0, _, empty => igetscan.absent empty
  | cnt + 1, k, empty =>
    let ip := slots k
    if ip.ref > 0 ∧ ip.dev = dev ∧ ip.inum = inum then igetscan.found k
    else
      igetLoop slots dev inum cnt (k + 1)
        (if empty = none ∧ ip.ref = 0 then some k else empty)

/-- Function `iget`: find the inode with number `inum` on device `dev` and return its
slot; does not read the inode from disk. Panics when no slot is free. -/
def iget (cfg : Config) (s : Kernel) (dev inum : Nat) : Kres (Nat × Kernel) :=
  match igetLoop s.slots dev inum cfg.NINODE 0 none with
  | igetscan.found k =>
    Kres.ok (k, s.set (iptr.slot k) { s.slots k with ref := (s.slots k).ref + 1 })
  | igetscan.absent none => Kres.panic
  | igetscan.absent (some k) =>
    Kres.ok (k, s.set (iptr.slot k)
      { s.slots k with ref := 1, valid := 0, dev := dev, inum := inum })

/-- Function `idup`: increment the reference count of `ip`. -/
def idup (s : Kernel) (p : iptr) : Kernel :=
  s.set p { s.get p with ref := (s.get p).ref + 1 }

/-- Function `irelease`: drop a reference to an in-memory inode. -/
def irelease (s : Kernel) (p : iptr) : Kernel :=
  let ip := s.get p
  let ip := if ip.ref = 1 then { ip with type := 0 } else ip
  s.set p { ip with ref := ip.ref - 1 }

/-- Function `unlocki`: unlock the given inode. -/
def unlocki (s : Kernel) (p : iptr) : Kres Kernel :=
  let ip := s.get p
  if ip.lock = false ∨ ip.ref < 1 then Kres.panic
  else Kres.ok (s.set p { ip with lock := false })

/-- Function `readi`: read data from an inode. Yields the return value and the bytes
stored to `dst`. The caller must hold the lock of the inode. `off` and `n` are `uint`;
they reach `readfromextent` as `int`, a conversion that is the identity below `2^31`. -/
def readi (cfg : Config) (s : Kernel) (p : iptr) (off n : Nat) : Kres (Int × List Nat) :=
  let ip := s.get p
  if ip.lock = false then Kres.panic
  else if ip.type = T_DEV then
    if ip.devid < 0 ∨ ip.devid ≥ cfg.NDEV then Kres.ok (-1, [])
    else
      match (cfg.devsw ip.devid).read with
      | none => Kres.ok (-1, [])
      | some f => Kres.ok (f ip n)
  else if off > ip.size ∨ (off + n) % 2 ^ 32 < off then Kres.ok (-1, [])
  else
    let n := if (off + n) % 2 ^ 32 > ip.size then ip.size - off else n
    let r := readfromextent s.disk ip off n
    if r.1 = -1 then Kres.ok (-1, r.2) else Kres.ok ((n : Int), r.2)

/-- The body of `read_dinode` between taking and releasing the lock of the inode file:
`readi(&icache.inodefile, (char *)dip, INODEOFF(inum), sizeof(*dip))`, whose return
value the code ignores. Bytes of `*dip` that `readi` does not store, which C leaves as
they were in the caller's memory, read as zero here. -/
def read_dinode_held (cfg : Config) (s : Kernel) (inum : Nat) : Kres dinode :=
  (readi cfg s iptr.inodefile (INODEOFF inum) DINODE_SIZE).bind fun r =>
    Kres.ok (parseDinode r.2)

/-- Function `locki` applied to `&icache.inodefile`. When the inode file is not valid
its own record is read with the lock just taken held, so `read_dinode` does not lock
again and the recursion of `locki` through `read_dinode` ends here. -/
def locki_inodefile (cfg : Config) (s : Kernel) : Kres Kernel :=
  let ip := s.inodefile
  if ip.ref < 1 then Kres.panic
  else if ip.lock then Kres.sleep
  else
    let s1 := { s with inodefile := { ip with lock := true } }
    if ip.valid = 0 then
      (read_dinode_held cfg s1 ip.inum).bind fun dip =>
        let ip2 : inode := { s1.inodefile with
          type := dip.type, devid := dip.devid, size := dip.size, data := dip.data, valid := 1 }
        if ip2.type = 0 then Kres.panic else Kres.ok { s1 with inodefile := ip2 }
    else Kres.ok s1

/-- Function `read_dinode`: read the dinode with the passed inum from the inode file,
taking the lock of the inode file if it is not held. -/
def read_dinode (cfg : Config) (s : Kernel) (inum : Nat) : Kres (dinode × Kernel) :=
  let holding := s.inodefile.lock
  (if holding then Kres.ok s else locki_inodefile cfg s).bind fun s1 =>
  (read_dinode_held cfg s1 inum).bind fun dip =>
  (if holding then Kres.ok s1 else unlocki s1 iptr.inodefile).bind fun s2 =>
    Kres.ok (dip, s2)

/-- Function `locki`: lock the given inode; reads the inode from disk if necessary. -/
def locki (cfg : Config) (s : Kernel) (p : iptr) : Kres Kernel :=
  match p with
  | iptr.inodefile => locki_inodefile cfg s
  | iptr.slot k =>
    let ip := s.slots k
    if ip.ref < 1 then Kres.panic
    else if ip.lock then Kres.sleep
    else
      let s1 := s.set p { ip with lock := true }
      if ip.valid = 0 then
        (locki_inodefile cfg s1).bind fun s2 =>
        (read_dinode cfg s2 ip.inum).bind fun r =>
        (unlocki r.2 iptr.inodefile).bind fun s4 =>
          let ip2 : inode := { s4.slots k with
            type := r.1.type, devid := r.1.devid, size := r.1.size, data := r.1.data,
            valid := 1 }
          if ip2.type = 0 then Kres.panic else Kres.ok (s4.set p ip2)
      else Kres.ok s1

/-- Function `write_dinode`, with the `writei` it calls on the inode file passed as `wr`
(its return value is ignored). -/
def write_dinode_with (wr : Kernel → iptr → List Nat → Nat → Nat → Kres (Int × Kernel))
    (cfg : Config) (s : Kernel) (inum : Nat) (dip : dinode) : Kres Kernel :=
  let holding := s.inodefile.lock
  (if holding then Kres.ok s else locki cfg s iptr.inodefile).bind fun s1 =>
  (wr s1 iptr.inodefile (dinodeBytes dip) (INODEOFF inum) DINODE_SIZE).bind fun r =>
    if holding then Kres.ok r.2 else unlocki r.2 iptr.inodefile

/-- Function `writei`: write data to an inode. Yields the return value and the state.
The caller must hold the lock of the inode. `off` and `n` are `uint`; the size becomes
`off + n` in 32-bit arithmetic when that is larger. They reach `writetoextent` as `int`
and `n` is returned as `int`, conversions that are the identity below `2^31`. The first
argument bounds the depth of the recursion through `write_dinode`. -/
def writei (cfg : Config) :
    Nat → Kernel → iptr → List Nat → Nat → Nat → Kres (Int × Kernel)
  | 0, _, _, _, _, _ => Kres.nofuel
  | fuel + 1, s, p, src, off, n =>
    let ip := s.get p
    if ip.lock = false then Kres.panic
    else if ip.type = T_DEV then
      if ip.devid < 0 ∨ ip.devid ≥ cfg.NDEV then Kres.ok (-1, s)
      else
        match (cfg.devsw ip.devid).write with
        | none => Kres.ok (-1, s)
        | some f => Kres.ok (f ip src n, s)
    else if n ≤ 0 then Kres.ok (-1, s)
    else
      (writetoextent cfg.sb s.disk ip src off n).bind fun r =>
        let s1 := ({ s with disk := r.2.2 }).set p r.2.1
        if r.1 = -1 then Kres.ok (-1, s1)
        else if (off + n) % 2 ^ 32 > r.2.1.size then
          let ip2 := { r.2.1 with size := (off + n) % 2 ^ 32 }
          let s2 := s1.set p ip2
          (write_dinode_with (writei cfg fuel) cfg s2 ip2.inum
              { type := ip2.type, devid := ip2.devid, size := ip2.size, data := ip2.data }).bind
            fun s3 => Kres.ok ((n : Int), s3)
        else Kres.ok ((n : Int), s1)

/-- Function `write_dinode`: write the dinode with the passed inum to the inode file. -/
def write_dinode (cfg : Config) (fuel : Nat) (s : Kernel) (inum : Nat) (dip : dinode) :
    Kres Kernel :=
  write_dinode_with (writei cfg fuel) cfg s inum dip

/-- The test of `iget` for a slot holding the inode `(dev, inum)`:
`ip->ref > 0 && ip->dev == dev && ip->inum == inum`. -/
def cached (ip : inode) (dev inum : Nat) : Prop :=
  ip.ref > 0 ∧ ip.dev = dev ∧ ip.inum = inum

/-- The inode `(dev, inum)` is resident in one of the `NINODE` cache slots. -/
def resident (cfg : Config) (s : Kernel) (dev inum : Nat) : Prop :=
  ∃ j, j < cfg.NINODE ∧ cached (s.slots j) dev inum

/-! ## Well-formedness of the extent store -/

/-- Block `blk` belongs to the extent `e`. -/
def inExtent (e : extent) (blk : Nat) : Prop :=
  e.startblkno ≤ blk ∧ blk < e.startblkno + e.nblocks

/-- Block `blk` is one of the blocks of the free map of the volume. -/
def isBitmapBlock (sb : superblock) (blk : Nat) : Prop :=
  ∃ b, b < sb.size ∧ blk = BBLOCK b sb

/-- Invariant on the position of a walk inside a block: `totalsize` is a multiple of the
block size and `off` lies in the block that starts there. -/
def inBlock (off totalsize : Nat) : Prop :=
  totalsize ≤ off ∧ off < totalsize + BSIZE ∧ totalsize % BSIZE = 0

/-- Invariant on the position of a walk at the head of the loop over the extents:
`totalsize` is a multiple of the block size and `off` is not before it. -/
def atExtent (off totalsize : Nat) : Prop :=
  totalsize ≤ off ∧ totalsize % BSIZE = 0

/-- The state in which `writetoextent` enters the blocks of an extent that it does not
skip: `totalsize += blocksdeep * BSIZE`. -/
def enterExtent (st : wstate) : wstate :=
  { st with totalsize := st.totalsize + (st.off - st.totalsize) / BSIZE * BSIZE }

/-- The state in which `readfromextent` enters the blocks of an extent that it does not
skip. -/
def enterExtentR (st : rstate) : rstate :=
  { st with totalsize := st.totalsize + (st.off - st.totalsize) / BSIZE * BSIZE }

/-- Capacity in bytes of the populated extents among the `cnt` slots from slot `i`, up to
the first unused slot. -/
def capFrom (data : Nat → extent) : Nat → Nat → Nat
  | 0, _ => 0
  | cnt + 1, i =>
    if (data i).nblocks = 0 then 0
    else (data i).nblocks * BSIZE + capFrom data cnt (i + 1)

/-- The extents of an inode are consistent with the free map on `disk`: their blocks lie
on the volume, are marked in use and are not blocks of the free map; two extents share no
block; and the blocks of the free map that lie on the volume are marked in use. -/
def extentsOK (sb : superblock) (data : Nat → extent) (disk : Disk) : Prop :=
  (∀ i blk, i < NEXTENT → inExtent (data i) blk →
      blk < sb.size ∧ inUse sb disk blk = true ∧ ¬ isBitmapBlock sb blk) ∧
  (∀ i j blk, i < NEXTENT → j < NEXTENT → i ≠ j →
      ¬ (inExtent (data i) blk ∧ inExtent (data j) blk)) ∧
  (∀ blk, blk < sb.size → isBitmapBlock sb blk → inUse sb disk blk = true)

/-- The extents of an inode share no block with each other or with the free map. -/
def extentsApart (sb : superblock) (data : Nat → extent) : Prop :=
  (∀ i j blk, i < NEXTENT → j < NEXTENT → i ≠ j →
      ¬ (inExtent (data i) blk ∧ inExtent (data j) blk)) ∧
  (∀ i blk, i < NEXTENT → inExtent (data i) blk → ¬ isBitmapBlock sb blk)

/-- The record of inode `inum` can be written in place: the inode file is referenced and
valid, is not a device, its extents share no block with each other or with the free map,
its size is a `uint`, and the record lies within its size and within its populated
extents. -/
def inodefileOK (cfg : Config) (s : Kernel) (inum : Nat) : Prop :=
  s.inodefile.ref ≥ 1 ∧ s.inodefile.valid ≠ 0 ∧ s.inodefile.type ≠ T_DEV ∧
  extentsApart cfg.sb s.inodefile.data ∧
  s.inodefile.size < 2 ^ 32 ∧
  INODEOFF inum + DINODE_SIZE ≤ s.inodefile.size ∧
  INODEOFF inum + DINODE_SIZE ≤ capFrom s.inodefile.data NEXTENT 0

/-- The file cached in slot `k` is well formed: its extents are consistent with the free
map; the blocks of the inode file lie on the volume, are marked in use and are none of
the file's blocks; and the file's record can be written in place. -/
def fileOK (cfg : Config) (s : Kernel) (k : Nat) : Prop :=
  extentsOK cfg.sb (s.slots k).data s.disk ∧
  (∀ j blk, j < NEXTENT → inExtent (s.inodefile.data j) blk →
      blk < cfg.sb.size ∧ inUse cfg.sb s.disk blk = true) ∧
  (∀ i j blk, i < NEXTENT → j < NEXTENT →
      ¬ (inExtent ((s.slots k).data i) blk ∧ inExtent (s.inodefile.data j) blk)) ∧
  inodefileOK cfg s (s.slots k).inum

/-! ## Example state -/

/-- A volume of 64 blocks: free map in block 2, inode file in blocks 5 and 6. -/
def sb64 : superblock :=
  { size := 64, nblocks := 50, bmapstart := 2, logstart := 3, inodestart := 5 }

/-- Configuration with four cache slots and no device handlers. -/
def cfg64 : Config :=
  { sb := sb64, NINODE := 4, NDEV := 2, devsw := fun _ => { read := none, write := none } }

/-- An unused cache slot. -/
def inode0 : inode :=
  { dev := 0, inum := 0, ref := 0, valid := 0, lock := false, type := 0, devid := 0,
    size := 0, data := fun _ => { startblkno := 0, nblocks := 0 } }

/-- A state for `cfg64`: blocks 0 to 6 are marked in use, the inode file has one extent of
two blocks (four inode records), and slot 0 caches the locked, empty regular file 2
with one reference. All other slots are unused. -/
def kern64 : Kernel :=
  { disk := fun blk i => if blk = 2 ∧ i = 0 then 0x7F else 0
    inodefile :=
      { dev := 1, inum := 0, ref := 1, valid := 1, lock := false, type := T_FILE, devid := 0,
        size := 1024,
        data := fun i => if i = 0 then { startblkno := 5, nblocks := 2 }
          else { startblkno := 0, nblocks := 0 } }
    slots := fun k =>
      if k = 0 then
        { dev := 1, inum := 2, ref := 1, valid := 1, lock := true, type := T_FILE, devid := 0,
          size := 0, data := fun _ => { startblkno := 0, nblocks := 0 } }
      else inode0 }

/-- The state `kern64` with the file of slot 0 holding exactly one full block: one extent
of one block (block 7) and size 512. -/
def kern64oneBlock : Kernel :=
  { kern64 with
    disk := fun blk i => if blk = 2 ∧ i = 0 then 0xFF else 0
    slots := fun k =>
      if k = 0 then
        { dev := 1, inum := 2, ref := 1, valid := 1, lock := true, type := T_FILE, devid := 0,
          size := 512,
          data := fun i => if i = 0 then { startblkno := 7, nblocks := 1 }
            else { startblkno := 0, nblocks := 0 } }
      else inode0 }

end Xk

namespace Xk

/-! ## Write-ahead log (`kernel/lio.c`)

The log occupies the header block `super.logstart` and the 79 payload blocks after it.
`LogState` collects the globals of `lio.c` together with the disk. A block has `BSIZE`
bytes, so a `memmove` of `BSIZE` bytes (or of the 512-byte header) into a buffer followed
by `bwrite` replaces the whole block. -/

/-- Number of payload blocks in the log region (`NLOGBLK`). -/
abbrev NLOGBLK : Nat := 79

/-- The `logheader` of `inc/fs.h`: commit flag, 79 destination slots, padding up to one
block. -/
structure logheader where
  commit : Int
  data : Nat → Nat
  padding : Nat → Nat

/-- Result of `memset(&header, 0, sizeof(header))`. -/
def logheader.zero : logheader :=
  { commit := 0, data := fun _ => 0, padding := fun _ => 0 }

/-- Byte `i` of the little-endian representation of `v`. -/
def byteOf (v i : Nat) : Nat := v / 256 ^ i % 256

/-- The 32-bit little-endian word at byte offset `o` of a block. -/
def word (b : Block) (o : Nat) : Nat :=
  b o + 256 * b (o + 1) + 65536 * b (o + 2) + 16777216 * b (o + 3)

/-- The 512 bytes of a `logheader`, as `memmove(logblock->data, &header, sizeof(header))`
lays them out. -/
def headerBlock (h : logheader) : Block := fun i =>
  if i < 4 then byteOf (h.commit % 4294967296).toNat i
  else if i < 4 + 4 * NLOGBLK then byteOf (h.data ((i - 4) / 4)) ((i - 4) % 4)
  else h.padding (i - (4 + 4 * NLOGBLK))

/-- The `logheader` held in a block, as `memmove(&header, logblock->data, sizeof(header))`
reads it. -/
def parseHeader (b : Block) : logheader :=
  { commit := if word b 0 < 2147483648 then (word b 0 : Int) else (word b 0 : Int) - 4294967296,
    data := fun j => if j < NLOGBLK then word b (4 + 4 * j) else 0,
    padding := fun j => b (4 + 4 * NLOGBLK + j) }

/-- Function `readsb`: the super block is the first 20 bytes of block 1. -/
def readsb (disk : Disk) : superblock :=
  { size := word (disk 1) 0, nblocks := word (disk 1) 4, bmapstart := word (disk 1) 8,
    logstart := word (disk 1) 12, inodestart := word (disk 1) 16 }

/-- Globals of `lio.c` and the disk. `writes` is the history of `bwrite` calls, oldest
first; a crash leaves the disk with a prefix of them applied. -/
structure LogState where
  disk : Disk
  writes : List (Nat × Block)
  cachedheader : logheader
  super : superblock
  loglock : Bool

/-- Function `bwrite` of a buffer for block `blk` holding `data`. -/
def LogState.bwrite (s : LogState) (blk : Nat) (data : Block) : LogState :=
  { s with disk := Function.update s.disk blk data, writes := s.writes ++ [(blk, data)] }

/-- Function `getlogheader`. -/
def getlogheader (s : LogState) : logheader :=
  parseHeader (s.disk s.super.logstart)

/-- Function `setlogheader`. -/
def setlogheader (s : LogState) (header : logheader) : LogState :=
  s.bwrite s.super.logstart (headerBlock header)

/-- Function `findlatestheaderidx`: the loop `for (i = 0; i < NLOGBLK; i++)` with `cnt`
iterations left, returning the first index whose slot is zero, or -1. -/
def findlatestheaderidxLoop (data : Nat → Nat) : Nat → Nat → Int
  | 0, _ => -1
  | cnt + 1, i => if data i = 0 then (i : Int) else findlatestheaderidxLoop data cnt (i + 1)

/-- Function `findlatestheaderidx`. -/
def findlatestheaderidx (data : Nat → Nat) : Int :=
  findlatestheaderidxLoop data NLOGBLK 0

/-- Function `logbegin`. Acquiring `loglock` while it is held never returns in this
sequential model. -/
def logbegin (s : LogState) : Kres LogState :=
  if s.loglock then Kres.sleep
  else
    let s1 : LogState := { s with loglock := true, cachedheader := logheader.zero }
    Kres.ok (setlogheader s1 logheader.zero)

/-- The replay loop of `logcommit`, at slot `i` with `cnt` iterations left: copy payload
block `i` to the block named by slot `i`, stopping at the first zero slot. -/
def logcommitLoop : Nat → Nat → LogState → LogState
  | 0, _, s => s
  | cnt + 1, i, s =>
    if s.cachedheader.data i = 0 then s
    else
      logcommitLoop cnt (i + 1)
        (s.bwrite (s.cachedheader.data i) (s.disk (s.super.logstart + 1 + i)))

/-- Function `logcommit`. -/
def logcommit (s : LogState) : LogState :=
  let s1 : LogState := { s with cachedheader := { s.cachedheader with commit := 1 } }
  let s2 := setlogheader s1 s1.cachedheader
  let s3 := logcommitLoop NLOGBLK 0 s2
  let s4 : LogState := { s3 with cachedheader := logheader.zero }
  let s5 := setlogheader s4 s4.cachedheader
  { s5 with loglock := false }

/-- The store `cachedheader.data[index] = location`. Index -1 is outside the array; with
the layout of `struct logheader` the word before `data[0]` is `commit`. -/
def logheader.store (h : logheader) (index : Int) (location : Nat) : logheader :=
  if index < 0 then
    { h with commit := if location < 2147483648 then (location : Int)
                       else (location : Int) - 4294967296 }
  else { h with data := Function.update h.data index.toNat location }

/-- Function `logwrite`, returning the C return value and the new state. After the
`logcommit(); logbegin();` of the full-header case execution continues with the lines
below it. -/
def logwrite (s : LogState) (block : Block) (location : Nat) : Kres (Int × LogState) :=
  if s.cachedheader.commit ≠ 0 then Kres.ok (-1, s)
  else
    (if s.cachedheader.data (NLOGBLK - 1) ≠ 0 then logbegin (logcommit s)
     else Kres.ok s).bind fun s1 =>
      let index := findlatestheaderidx s1.cachedheader.data
      let s2 := s1.bwrite ((s1.super.logstart : Int) + 1 + index).toNat block
      let s3 : LogState := { s2 with cachedheader := s2.cachedheader.store index location }
      Kres.ok (1, setlogheader s3 s3.cachedheader)

/-- Function `logapply`: `initsleeplock` leaves the lock free, so the acquisition that
follows succeeds. -/
def logapply (s : LogState) : LogState :=
  let s1 : LogState := { s with loglock := true, super := readsb s.disk }
  let s2 : LogState := { s1 with cachedheader := getlogheader s1 }
  if s2.cachedheader.commit = 0 then { s2 with loglock := false }
  else logcommit s2

/-- A client issuing `logwrite(c i, d i)` for `cnt` consecutive indices starting at `i`,
collecting the return values. -/
def logwriteAll (c : Nat → Block) (d : Nat → Nat) :
    Nat → Nat → LogState → Kres (List Int × LogState)
  | 0, _, s => Kres.ok ([], s)
  | cnt + 1, i, s =>
    (logwrite s (c i) (d i)).bind fun r =>
      (logwriteAll c d cnt (i + 1) r.2).bind fun q => Kres.ok (r.1 :: q.1, q.2)

/-- One transaction of `k` logged writes: `logbegin`, `logwrite(c i, d i)` for `i < k`,
`logcommit`. -/
def transaction (s : LogState) (c : Nat → Block) (d : Nat → Nat) (k : Nat) :
    Kres (List Int × LogState) :=
  (logbegin s).bind fun s1 =>
    (logwriteAll c d k 0 s1).bind fun r => Kres.ok (r.1, logcommit r.2)

/-- The disk after the block writes `ws` have reached it in order. -/
def applyWrites (disk : Disk) (ws : List (Nat × Block)) : Disk :=
  ws.foldl (fun d w => Function.update d w.1 w.2) disk

/-- The disk found after a crash that let only the first `m` block writes through. -/
def crashDisk (disk : Disk) (ws : List (Nat × Block)) (m : Nat) : Disk :=
  applyWrites disk (ws.take m)

/-- Block `blk` lies in the log region: the header block or one of the 79 payload
blocks. -/
def inLog (sb : superblock) (blk : Nat) : Prop :=
  sb.logstart ≤ blk ∧ blk ≤ sb.logstart + NLOGBLK

/-- Header slots after the first `i` destinations of `d` were recorded. -/
def slots (d : Nat → Nat) (i : Nat) : Nat → Nat := fun j => if j < i then d j else 0

/-- The disk after the writes `c j` to `d j` for `cnt` consecutive indices starting at
`i` have been applied in order; a later write to the same block wins. -/
def replayFrom (c : Nat → Block) (d : Nat → Nat) : Nat → Nat → Disk → Disk
  | 0, _, disk => disk
  | cnt + 1, i, disk => replayFrom c d cnt (i + 1) (Function.update disk (d i) (c i))

/-- State of an open transaction of `s0` after `i` logged writes: the header in memory
and on disk lists the first `i` destinations, payload block `j` holds `c j`, no block
outside the log region has changed, and every block write so far went to the log region
with an uncommitted header. -/
structure Logged (s0 : LogState) (c : Nat → Block) (d : Nat → Nat) (i : Nat)
    (s : LogState) : Prop where
  super_eq : s.super = s0.super
  locked : s.loglock = true
  header : s.cachedheader = { commit := 0, data := slots d i, padding := fun _ => 0 }
  ondisk : s.disk s0.super.logstart = headerBlock s.cachedheader
  payload : ∀ j, j < i → s.disk (s0.super.logstart + 1 + j) = c j
  frame : ∀ blk, ¬ inLog s0.super blk → s.disk blk = s0.disk blk
  history : ∃ tw, s.writes = s0.writes ++ tw ∧ s.disk = applyWrites s0.disk tw
    ∧ tw.length = 1 + 2 * i
    ∧ ∀ w, w ∈ tw →
        inLog s0.super w.1 ∧ (w.1 = s0.super.logstart → (parseHeader w.2).commit = 0)

/-- A block filled with the byte `v`. -/
def fillBlock (v : Nat) : Block := fun _ => v

/-- The transaction data of the examples: contents and destinations of the writes. -/
def exC (i : Nat) : Block := fillBlock (7 + 2 * i)

/-- Two destinations outside the log region of `sbLog`. -/
def exD (i : Nat) : Nat := if i = 0 then 120 else 121

/-- Destinations of which the first is payload block 1 of the log of `sbLog`. -/
def exDlog (i : Nat) : Nat := if i = 0 then 5 else 120

/-- Destinations of which the first is the super block. -/
def exDsuper (i : Nat) : Nat := if i = 0 then 1 else 120

/-- Block contents of which the first is a super block placing the log at block 150. -/
def exCsuper (i : Nat) : Block := fun x => if i = 0 then (if x = 12 then 150 else 0) else 9

/-- Destinations of which the first two are payload blocks 2 and 0 of the log of
`sbLog`. -/
def exDchain (i : Nat) : Nat := if i = 0 then 6 else if i = 1 then 4 else 120

/-- Memory after a reboot, over the disk a crash has left. -/
def rebooted (disk : Disk) : LogState :=
  { disk := disk, writes := [], cachedheader := logheader.zero,
    super := { size := 0, nblocks := 0, bmapstart := 0, logstart := 0, inodestart := 0 },
    loglock := false }

/-- Layout of the example log disk: log header in block 3. -/
def sbLog : superblock :=
  { size := 200, nblocks := 100, bmapstart := 2, logstart := 3, inodestart := 90 }

/-- An idle log over an empty disk whose super block (block 1) records `sbLog`. -/
def logIdle : LogState :=
  { disk := fun blk i =>
      if blk = 1 then
        (if i = 0 then 200 else if i = 4 then 100 else if i = 8 then 2
         else if i = 12 then 3 else if i = 16 then 90 else 0)
      else 0,
    writes := [], cachedheader := logheader.zero, super := sbLog, loglock := false }

/-- A transaction in progress whose 79 slots are all occupied (slot `i` names block
`100 + i`). -/
def logFull : LogState :=
  { logIdle with
    cachedheader := { commit := 0, data := fun i => if i < 79 then 100 + i else 0,
                      padding := fun _ => 0 },
    loglock := true }

end Xk

namespace Xk

/-! ## Directories (`kernel/fs.c`, `inc/fs.h`)

A `char *` is modelled by the bytes readable from it (`Nat → Nat`); a path, whose pointer
is advanced by `skipelem`, by the list of its characters, the end of the list standing for
the terminating NUL. -/

/-- Length of a name in a directory entry. -/
abbrev DIRSIZ : Nat := 14

/-- Constant `sizeof(struct dirent)`. -/
abbrev DIRENT_SIZE : Nat := 16

/-- Inode number of the root directory. -/
abbrev ROOTINO : Nat := 1

/-- Inode number of the inode file. -/
abbrev INODEFILEINO : Nat := 0

/-- Constants of `param.h` and `fcntl.h`, which are not among the sources: the device of
the root file system and the open flag asking for creation. -/
structure Params where
  ROOTDEV : Nat
  O_CREATE : Nat

/-- The directory entry: a 16-bit inode number and 14 bytes of name. -/
structure dirent where
  inum : Nat
  name : Nat → Nat

/-- The `struct dirent` held in a buffer of bytes (little endian). -/
def parseDirent (bs : List Nat) : dirent :=
  { inum := bs.getD 0 0 + 256 * bs.getD 1 0, name := fun i => bs.getD (2 + i) 0 }

/-- The 16 bytes of a `struct dirent`. -/
def direntBytes (de : dirent) : List Nat :=
  [de.inum % 256, de.inum / 256 % 256] ++ (List.range DIRSIZ).map de.name

/-- The bytes readable from a pointer to the string `l`: its characters, then NUL. -/
def cstr (l : List Nat) : Nat → Nat := fun i => l.getD i 0

/-- Modelled from the spec: `strncmp` of the kernel string library, which is not among the
sources. Names are compared byte by byte over at most `n` bytes, stopping at the first
difference or at a NUL; the result is 0 when no difference was found. The second argument
counts the bytes left, the third is the position. -/
def strncmp (p q : Nat → Nat) : Nat → Nat → Int
  | 0, _ => 0
  | n + 1, i =>
    if p i ≠ 0 ∧ p i = q i then strncmp p q n (i + 1) else (p i : Int) - (q i : Int)

/-- Function `namecmp`. -/
def namecmp (s t : Nat → Nat) : Int := strncmp s t DIRSIZ 0

/-- The loop of `dirlookup` (`for (off = 0; off < dp->size; off += sizeof(de))`) with
`cnt` iterations left; yields the slot of the inode found and the offset stored to
`*poff`. -/
def dirlookupLoop (cfg : Config) (s : Kernel) (dp : iptr) (name : Nat → Nat) :
    Nat → Nat → Kres (Option (Nat × Nat) × Kernel)
  | 0, _ => Kres.ok (none, s)
  | cnt + 1, off =>
    (readi cfg s dp off DIRENT_SIZE).bind fun r =>
      if r.1 ≠ (DIRENT_SIZE : Int) then Kres.panic
      else if (parseDirent r.2).inum = 0 then dirlookupLoop cfg s dp name cnt (off + DIRENT_SIZE)
      else if namecmp name (parseDirent r.2).name = 0 then
        (iget cfg s (s.get dp).dev (parseDirent r.2).inum).bind fun g =>
          Kres.ok (some (g.1, off), g.2)
      else dirlookupLoop cfg s dp name cnt (off + DIRENT_SIZE)

/-- Function `dirlookup`: look for a directory entry in a directory. -/
def dirlookup (cfg : Config) (s : Kernel) (dp : iptr) (name : Nat → Nat) :
    Kres (Option (Nat × Nat) × Kernel) :=
  if (s.get dp).type ≠ T_DIR then Kres.panic
  else dirlookupLoop cfg s dp name (((s.get dp).size + DIRENT_SIZE - 1) / DIRENT_SIZE) 0

/-- The character `*path`. -/
def peek (path : List Nat) : Nat := path.headD 0

/-- The loop `while (*path == '/') path++`. -/
def skipSlashes : List Nat → List Nat
  | [] => []
  | ch :: rest => if ch = 47 then skipSlashes rest else ch :: rest

/-- Number of steps of the loop `while (*path != '/' && *path != 0) path++`. -/
def elemLen : List Nat → Nat
  | [] => 0
  | ch :: rest => if ch ≠ 47 ∧ ch ≠ 0 then elemLen rest + 1 else 0

/-- Function `skipelem`: yields the returned pointer (`none` for 0) and the bytes at
`name`. -/
def skipelem (path : List Nat) (name : Nat → Nat) : Option (List Nat) × (Nat → Nat) :=
  let p1 := skipSlashes path
  if peek p1 = 0 then (none, name)
  else
    let len := elemLen p1
    let name1 : Nat → Nat :=
      if len ≥ DIRSIZ then fun i => if i < DIRSIZ then p1.getD i 0 else name i
      else fun i => if i < len then p1.getD i 0 else if i = len then 0 else name i
    (some (skipSlashes (p1.drop len)), name1)

/-- The loop of `namex` from the inode in slot `ip` on; every iteration consumes at least
one character of the path, the first argument bounds their number. Yields the slot of
the inode returned (`none` for 0), the bytes at `name` and the state. -/
def namexLoop (cfg : Config) :
    Nat → Kernel → Nat → List Nat → Bool → (Nat → Nat) →
      Kres (Option Nat × (Nat → Nat) × Kernel)
  | 0, _, _, _, _, _ => Kres.nofuel
  | fuel + 1, s, ip, path, parent, name =>
    let r := skipelem path name
    match r.1 with
    | none =>
      if parent then Kres.ok (none, r.2, irelease s (iptr.slot ip))
      else Kres.ok (some ip, r.2, s)
    | some path1 =>
      (locki cfg s (iptr.slot ip)).bind fun s1 =>
        if (s1.slots ip).type ≠ T_DIR then
          (unlocki s1 (iptr.slot ip)).bind fun s2 =>
            Kres.ok (none, r.2, irelease s2 (iptr.slot ip))
        else if parent = true ∧ peek path1 = 0 then
          (unlocki s1 (iptr.slot ip)).bind fun s2 => Kres.ok (some ip, r.2, s2)
        else
          (dirlookup cfg s1 (iptr.slot ip) r.2).bind fun d =>
            (unlocki d.2 (iptr.slot ip)).bind fun s2 =>
              match d.1 with
              | none => Kres.ok (none, r.2, irelease s2 (iptr.slot ip))
              | some next =>
                namexLoop cfg fuel (irelease s2 (iptr.slot ip)) next.1 path1 parent r.2

/-- Function `namex` for a path starting with `/`: the walk starts at the root. -/
def namexAbs (cfg : Config) (pm : Params) (s : Kernel) (path : List Nat) (parent : Bool)
    (name : Nat → Nat) : Kres (Option Nat × (Nat → Nat) × Kernel) :=
  (iget cfg s pm.ROOTDEV ROOTINO).bind fun g =>
    namexLoop cfg (path.length + 1) g.2 g.1 path parent name

/-- Function `namex`. For a path not starting with `/` the walk starts at
`idup(namei("/"))`; the name buffer of that inner call is never written. -/
def namex (cfg : Config) (pm : Params) (s : Kernel) (path : List Nat) (parent : Bool)
    (name : Nat → Nat) : Kres (Option Nat × (Nat → Nat) × Kernel) :=
  if peek path = 47 then namexAbs cfg pm s path parent name
  else
    (namexAbs cfg pm s [47] false (fun _ => 0)).bind fun r =>
      match r.1 with
      | none => Kres.panic
      | some ip =>
        namexLoop cfg (path.length + 1) (idup r.2.2 (iptr.slot ip)) ip path parent name

/-- Function `namei`; `name` is the content of its local buffer at entry. -/
def namei (cfg : Config) (pm : Params) (s : Kernel) (path : List Nat) (name : Nat → Nat) :
    Kres (Option Nat × Kernel) :=
  (namex cfg pm s path false name).bind fun r => Kres.ok (r.1, r.2.2)

/-- Function `nameiparent`. -/
def nameiparent (cfg : Config) (pm : Params) (s : Kernel) (path : List Nat)
    (name : Nat → Nat) : Kres (Option Nat × (Nat → Nat) × Kernel) :=
  namex cfg pm s path true name

/-! ### Path resolution as the specification words it -/

/-- The `/`-separated components of a path, `cur` being the component read so far. -/
def splitPath : List Nat → List Nat → List (List Nat)
  | [], cur => if cur = [] then [] else [cur]
  | ch :: rest, cur =>
    if ch = 47 then (if cur = [] then splitPath rest [] else cur :: splitPath rest [])
    else splitPath rest (cur ++ [ch])

/-- The nonempty `/`-separated components of a path, in order. -/
def pathComponents (path : List Nat) : List (List Nat) := splitPath path []

/-- The name buffer after a component was stored in it: the first 14 bytes of the
component, followed by a NUL when the component is shorter than 14 bytes. -/
def storeName (comp : List Nat) (name : Nat → Nat) : Nat → Nat := fun i =>
  if i < min comp.length DIRSIZ then comp.getD i 0
  else if comp.length < DIRSIZ ∧ i = comp.length then 0
  else name i

/-- Resolution of a list of components from the inode in slot `ip`: each component is
looked up with `dirlookup` in the inode reached so far, which must be a directory; the
result is 0 (`none`) when a lookup finds nothing or that inode is not a directory. With
`parent` the walk stops before the last component, and it fails when there is no
component. -/
def walkSpec (cfg : Config) :
    List (List Nat) → Kernel → Nat → Bool → (Nat → Nat) →
      Kres (Option Nat × (Nat → Nat) × Kernel)
  | [], s, ip, parent, name =>
    if parent then Kres.ok (none, name, irelease s (iptr.slot ip))
    else Kres.ok (some ip, name, s)
  | comp :: rest, s, ip, parent, name =>
    (locki cfg s (iptr.slot ip)).bind fun s1 =>
      if (s1.slots ip).type ≠ T_DIR then
        (unlocki s1 (iptr.slot ip)).bind fun s2 =>
          Kres.ok (none, storeName comp name, irelease s2 (iptr.slot ip))
      else if parent = true ∧ rest = [] then
        (unlocki s1 (iptr.slot ip)).bind fun s2 =>
          Kres.ok (some ip, storeName comp name, s2)
      else
        (dirlookup cfg s1 (iptr.slot ip) (cstr (comp.take DIRSIZ))).bind fun d =>
          (unlocki d.2 (iptr.slot ip)).bind fun s2 =>
            match d.1 with
            | none => Kres.ok (none, storeName comp name, irelease s2 (iptr.slot ip))
            | some next =>
              walkSpec cfg rest (irelease s2 (iptr.slot ip)) next.1 parent
                (storeName comp name)

/-- Resolution of a path as specified: start at the root inode (taking a second
reference to it when the path does not start with `/`) and walk the components. -/
def resolveSpec (cfg : Config) (pm : Params) (s : Kernel) (path : List Nat) (parent : Bool)
    (name : Nat → Nat) : Kres (Option Nat × (Nat → Nat) × Kernel) :=
  (iget cfg s pm.ROOTDEV ROOTINO).bind fun g =>
    let s1 := if peek path = 47 then g.2 else idup g.2 (iptr.slot g.1)
    walkSpec cfg (pathComponents path) s1 g.1 parent name

/-! ## Example volume with a root directory -/

/-- The bytes of a list as a block. -/
def blockOf (l : List Nat) : Block := fun i => l.getD i 0

/-- A directory entry with the given inode number and name. -/
def mkDirent (inum : Nat) (name : List Nat) : dirent := { inum := inum, name := cstr name }

/-- An extent array with one extent. -/
def oneExtent (start n : Nat) : Nat → extent := fun i =>
  if i = 0 then { startblkno := start, nblocks := n } else { startblkno := 0, nblocks := 0 }

/-- No extents. -/
def noExtent : Nat → extent := fun _ => { startblkno := 0, nblocks := 0 }

/-- Constants of the examples. -/
def pm64 : Params := { ROOTDEV := 1, O_CREATE := 512 }

/-- The disk of the example volume for `cfg64`. Blocks 0 to 9 are in use. The inode file
(blocks 5 and 6) holds four records: the inode file itself, the root directory (one block,
block 7, three entries), the regular file 2 (one block, block 8, 5 bytes) and the
directory 3 (one block, block 9, empty). The root directory lists a cleared entry with the
name `f`, then `f` (inode 2) and `d` (inode 3). -/
def diskFS : Disk := fun blk =>
  if blk = 2 then blockOf [0xFF, 0x03]
  else if blk = 5 then
    blockOf (dinodeBytes { type := T_FILE, devid := 0, size := 1024, data := oneExtent 5 2 }
      ++ dinodeBytes { type := T_DIR, devid := 0, size := 48, data := oneExtent 7 1 })
  else if blk = 6 then
    blockOf (dinodeBytes { type := T_FILE, devid := 0, size := 5, data := oneExtent 8 1 }
      ++ dinodeBytes { type := T_DIR, devid := 0, size := 0, data := oneExtent 9 1 })
  else if blk = 7 then
    blockOf (direntBytes (mkDirent 0 [102]) ++ direntBytes (mkDirent 2 [102])
      ++ direntBytes (mkDirent 3 [100]))
  else if blk = 8 then blockOf [104, 101, 108, 108, 111]
  else fun _ => 0

/-- The example volume right after mount: the inode file is loaded, no slot is in use. -/
def kernFS : Kernel :=
  { disk := diskFS
    inodefile :=
      { dev := 1, inum := 0, ref := 1, valid := 1, lock := false, type := T_FILE, devid := 0,
        size := 1024, data := oneExtent 5 2 }
    slots := fun _ => inode0 }

end Xk

namespace Xk

/-! ## Removing and creating files (`unlink`, `iopen`) -/

/-- Function `concurrent_writei`: `writei` between `locki` and `unlocki`. -/
def concurrent_writei (cfg : Config) (fuel : Nat) (s : Kernel) (p : iptr) (src : List Nat)
    (off n : Nat) : Kres (Int × Kernel) :=
  (locki cfg s p).bind fun s1 =>
    (writei cfg fuel s1 p src off n).bind fun r =>
      (unlocki r.2 p).bind fun s2 => Kres.ok (r.1, s2)

/-- The loop of `unlink` over the 30 extents of the in-memory inode, calling `bfree` for
each extent with a nonzero block count. -/
def unlinkFree (sb : superblock) (data : Nat → extent) : Nat → Nat → Disk → Kres Disk
  | 0, _, disk => Kres.ok disk
  | cnt + 1, i, disk =>
    if (data i).nblocks ≠ 0 then
      (bfree sb disk (data i).startblkno (data i).nblocks).bind fun d1 =>
        unlinkFree sb data cnt (i + 1) d1
    else unlinkFree sb data cnt (i + 1) disk

/-- A `uint` minus `sizeof(struct dirent)`. -/
def subDirent (size : Nat) : Nat := (size + 4294967296 - DIRENT_SIZE) % 4294967296

/-- Function `unlink`, yielding the return value and the state. `junk` and `junkname`
stand for the fields of the local `di` and `entry` that the code leaves uninitialised;
`fuel` bounds the recursion of the inode-file writes. The inode `node` returned by
`dirlookup` is used as the cache slot holds it: the code does not lock it. -/
def unlink (cfg : Config) (pm : Params) (fuel : Nat) (s : Kernel) (path : List Nat)
    (junk : dinode) (junkname : Nat → Nat) : Kres (Int × Kernel) :=
  (iget cfg s pm.ROOTDEV 1).bind fun g =>
  (locki cfg g.2 (iptr.slot g.1)).bind fun s1 =>
  (dirlookup cfg s1 (iptr.slot g.1) (cstr path)).bind fun d =>
  (unlocki d.2 (iptr.slot g.1)).bind fun s2 =>
    match d.1 with
    | none => Kres.ok (-1, irelease s2 (iptr.slot g.1))
    | some f =>
      if (s2.slots f.1).ref ≠ 1 then
        Kres.ok (-1, irelease (irelease s2 (iptr.slot g.1)) (iptr.slot f.1))
      else if (s2.slots f.1).type = T_DEV ∨ (s2.slots f.1).type = T_DIR then
        Kres.ok (-1, irelease (irelease s2 (iptr.slot f.1)) (iptr.slot g.1))
      else
        (unlinkFree cfg.sb (s2.slots f.1).data NEXTENT 0 s2.disk).bind fun disk1 =>
        (write_dinode cfg fuel { s2 with disk := disk1 } (s2.slots f.1).inum
            { junk with type := -1 }).bind fun s4 =>
        (concurrent_writei cfg fuel s4 (iptr.slot g.1)
            (direntBytes { inum := 0, name := junkname }) f.2 DIRENT_SIZE).bind fun w =>
          if w.1 = -1 then Kres.ok (-1, w.2)
          else
            (iget cfg w.2 pm.ROOTDEV ROOTINO).bind fun g2 =>
            (write_dinode cfg fuel g2.2 (g2.2.slots g.1).inum
                { type := (g2.2.slots g2.1).type, devid := (g2.2.slots g2.1).devid,
                  size := subDirent (g2.2.slots g2.1).size,
                  data := (g2.2.slots g2.1).data }).bind fun s5 =>
            (write_dinode cfg fuel s5 0
                { type := s5.inodefile.type, devid := s5.inodefile.devid,
                  size := subDirent s5.inodefile.size, data := s5.inodefile.data }).bind
              fun s6 =>
                Kres.ok (0, irelease (irelease s6 (iptr.slot f.1)) (iptr.slot g.1))

/-- Function `strlen`. -/
def strlen : List Nat → Nat
  | [] => 0
  | ch :: rest => if ch = 0 then 0 else strlen rest + 1

/-- A `uint` returned as `int`. -/
def toInt (v : Nat) : Int := if v < 2147483648 then (v : Int) else (v : Int) - 4294967296

/-- The innermost loop of `findemptyinodeoffset`: the records of one block, `cnt` left,
at byte `k`; yields the offset of a record of type -1 if there is one, and the running
offset. -/
def scanDinodes (bp : Block) : Nat → Nat → Nat → Option Nat × Nat
  | 0, _, offset => (none, offset)
  | cnt + 1, k, offset =>
    if (parseDinode (blockRead bp k DINODE_SIZE)).type = -1 then (some offset, offset)
    else scanDinodes bp cnt (k + DINODE_SIZE) (offset + DINODE_SIZE)

/-- The loop of `findemptyinodeoffset` over the blocks of one extent. -/
def scanDinodeBlocks (disk : Disk) (start : Nat) : Nat → Nat → Nat → Option Nat × Nat
  | 0, _, offset => (none, offset)
  | cnt + 1, j, offset =>
    let r := scanDinodes (disk (start + j)) (BSIZE / DINODE_SIZE) 0 offset
    if r.1 = none then scanDinodeBlocks disk start cnt (j + 1) r.2 else r

/-- The loop of `findemptyinodeoffset` over the extents of the inode file. -/
def findemptyinodeLoop (s : Kernel) : Nat → Nat → Nat → Int
  | 0, _, _ => -1
  | cnt + 1, i, offset =>
    if (s.inodefile.data i).nblocks = 0 then toInt s.inodefile.size
    else
      let r := scanDinodeBlocks s.disk (s.inodefile.data i).startblkno
        (s.inodefile.data i).nblocks 0 offset
      match r.1 with
      | some o => toInt o
      | none => findemptyinodeLoop s cnt (i + 1) r.2

/-- Function `findemptyinodeoffset`. -/
def findemptyinodeoffset (cfg : Config) (s : Kernel) : Kres (Int × Kernel) :=
  (locki cfg s iptr.inodefile).bind fun s1 =>
    (unlocki s1 iptr.inodefile).bind fun s2 =>
      Kres.ok (findemptyinodeLoop s1 NEXTENT 0 0, s2)

/-- The innermost loop of `findemptydirentoffset`: the entries of one block. -/
def scanDirents (bp : Block) : Nat → Nat → Nat → Option Nat × Nat
  | 0, _, offset => (none, offset)
  | cnt + 1, k, offset =>
    if (parseDirent (blockRead bp k DIRENT_SIZE)).inum = 0 then (some offset, offset)
    else scanDirents bp cnt (k + DIRENT_SIZE) (offset + DIRENT_SIZE)

/-- The loop of `findemptydirentoffset` over the blocks of one extent. -/
def scanDirentBlocks (disk : Disk) (start : Nat) : Nat → Nat → Nat → Option Nat × Nat
  | 0, _, offset => (none, offset)
  | cnt + 1, j, offset =>
    let r := scanDirents (disk (start + j)) (BSIZE / DIRENT_SIZE) 0 offset
    if r.1 = none then scanDirentBlocks disk start cnt (j + 1) r.2 else r

/-- The loop of `findemptydirentoffset` over the extents; the test for the end of the
extents reads the extents of the inode file, as the code does. -/
def findemptydirentLoop (s : Kernel) (rootdir : Nat) : Nat → Nat → Nat → Int
  | 0, _, _ => -1
  | cnt + 1, i, offset =>
    if (s.inodefile.data i).nblocks = 0 then toInt (s.slots rootdir).size
    else
      let r := scanDirentBlocks s.disk ((s.slots rootdir).data i).startblkno
        ((s.slots rootdir).data i).nblocks 0 offset
      match r.1 with
      | some o => toInt o
      | none => findemptydirentLoop s rootdir cnt (i + 1) r.2

/-- Function `findemptydirentoffset`. -/
def findemptydirentoffset (cfg : Config) (pm : Params) (s : Kernel) : Kres (Int × Kernel) :=
  (iget cfg s pm.ROOTDEV 1).bind fun g =>
    (locki cfg g.2 (iptr.slot g.1)).bind fun s1 =>
      (unlocki s1 (iptr.slot g.1)).bind fun s2 =>
        Kres.ok (findemptydirentLoop s1 g.1 NEXTENT 0 0, irelease s2 (iptr.slot g.1))

/-- The name of the entry `iopen` builds: the first `min(strlen(path), DIRSIZ)` bytes of
the path as given, in an entry that was zeroed. The store `entry.name[size + 1] = 0` that
follows hits a byte that is already zero, or, for `size + 1 >= DIRSIZ`, lies outside the
array, where the model stores nothing. -/
def iopenName (path : List Nat) : Nat → Nat := fun i =>
  if i < strlen path ∧ i < DIRSIZ then path.getD i 0 else 0

/-- Function `iopen`, yielding the inode returned (`none` for NULL), whether
`icache.openlock` is held at return, and the state. `openlock` tells whether the lock is
held at entry; `name` is the content of the name buffer of `namei` at entry. -/
def iopen (cfg : Config) (pm : Params) (fuel : Nat) (s : Kernel) (openlock : Bool)
    (path : List Nat) (mode : Nat) (name : Nat → Nat) : Kres (Option Nat × Bool × Kernel) :=
  if openlock then Kres.sleep
  else
    (namei cfg pm s path name).bind fun r =>
      match r.1 with
      | some ip =>
        (locki cfg r.2 (iptr.slot ip)).bind fun s1 =>
          (unlocki s1 (iptr.slot ip)).bind fun s2 => Kres.ok (some ip, false, s2)
      | none =>
        if pm.O_CREATE = (pm.O_CREATE &&& mode) then
          (findemptyinodeoffset cfg r.2).bind fun f =>
            if f.1 = -1 then Kres.ok (none, true, f.2)
            else
              (write_dinode cfg fuel f.2 (f.1.toNat / DINODE_SIZE)
                  { type := T_FILE, devid := (pm.ROOTDEV : Int), size := 0,
                    data := fun _ => { startblkno := 0, nblocks := 0 } }).bind fun s3 =>
              (iget cfg s3 pm.ROOTDEV ROOTINO).bind fun g =>
              (findemptydirentoffset cfg pm g.2).bind fun e =>
                if e.1 = -1 then Kres.ok (none, true, irelease e.2 (iptr.slot g.1))
                else
                  (concurrent_writei cfg fuel e.2 (iptr.slot g.1)
                      (direntBytes { inum := (f.1.toNat / DINODE_SIZE) % 65536,
                                     name := iopenName path })
                      e.1.toNat DIRENT_SIZE).bind fun w =>
                    (iget cfg (irelease w.2 (iptr.slot g.1)) pm.ROOTDEV
                        (f.1.toNat / DINODE_SIZE)).bind fun g2 =>
                      Kres.ok (some g2.1, false, g2.2)
        else Kres.ok (none, false, r.2)

/-! ### Example states for `unlink` and `iopen` -/

/-- The example volume after a file with one block (block 12) was opened, closed and
removed: slot 1 is free again and still holds the extent of the removed file, whose
block is free in the free map. -/
def kernFSstale : Kernel :=
  { kernFS with
    slots := fun k =>
      if k = 1 then
        { dev := 1, inum := 9, ref := 0, valid := 1, lock := false, type := 0, devid := 0,
          size := 512, data := oneExtent 12 1 }
      else inode0 }

/-- An uninitialised `struct dinode` on the stack. -/
def junkDinode : dinode :=
  { type := 0, devid := 0, size := 0, data := fun _ => { startblkno := 0, nblocks := 0 } }

/-- The on-disk record of inode `inum` of the example volume, read from the inode file
blocks 5 and 6. -/
def diskDinode (disk : Disk) (inum : Nat) : dinode :=
  parseDinode (blockRead (disk (5 + inum / 2)) (inum % 2 * DINODE_SIZE) DINODE_SIZE)

end Xk

namespace Xk

/-! ## Mount (`iinit`) -/

/-- Function `init_inodefile`: load the inode of the inode file from the first record of
the block `sb.inodestart`. -/
def init_inodefile (cfg : Config) (s : Kernel) (dev : Nat) : Kernel :=
  let di := parseDinode (blockRead (s.disk cfg.sb.inodestart) 0 DINODE_SIZE)
  { s with
    inodefile :=
      { s.inodefile with
        inum := INODEFILEINO, dev := dev, type := di.type, valid := 1, ref := 1,
        devid := di.devid, size := di.size,
        data := fun i => if i < NEXTENT then di.data i else s.inodefile.data i } }

/-- Function `iinit`: initialise the locks of the cache and load the inode file. The
super block is the one of `cfg`, which stands for what `readsb` reads from block 1. -/
def iinit (cfg : Config) (s : Kernel) (dev : Nat) : Kernel :=
  init_inodefile cfg
    { s with
      slots := fun k => if k < cfg.NINODE then { s.slots k with lock := false } else s.slots k
      inodefile := { s.inodefile with lock := false } } dev

/-- The kernel at boot over a given disk: the inode cache is zeroed memory, then `iinit`
runs for device 1. -/
def bootKernel (cfg : Config) (disk : Disk) : Kernel :=
  iinit cfg { disk := disk, inodefile := inode0, slots := fun _ => inode0 } 1

/-! ## File descriptors and pipes (`file.c`) -/

/-- The pipe buffer `p_buf` of `inc/file.h`. The offsets and sizes are `int`s that the
code keeps between 0 and `buffer_size`; `pipe_buf` is the data area, indexed from 0. The
spin lock of the buffer is not modelled: one thread runs at a time. -/
structure p_buf where
  wr_offset : Nat
  rd_offset : Nat
  read_open : Bool
  write_open : Bool
  buffer_size : Nat
  curr_writer_pid : Int
  size : Nat
  pipe_buf : Nat → Nat

/-- The open-file entry `file_info` of `inc/file.h`. `node` is the cache slot of the
inode (`none` for NULL), `lock` tells whether the sleep lock of the entry is held, and
`buffer` is the page of the pipe buffer (`none` for NULL). -/
structure file_info where
  node : Option Nat
  offset : Int
  mode : Nat
  reference : Int
  lock : Bool
  buffer : Option Nat

/-- Constants of `param.h`, `fcntl.h` and `spinlock.h`, which are not among the sources:
the sizes of the global open-file table, of a descriptor table and of the process table,
the open modes, and `sizeof(struct spinlock)`. -/
structure FdParams where
  NFILE : Nat
  NOFILE : Nat
  NPROC : Nat
  O_RDONLY : Nat
  O_WRONLY : Nat
  O_RDWR : Nat
  O_PIPERD : Nat
  O_PIPEWR : Nat
  SPINLOCK_SIZE : Nat

/-- State of the descriptor layer: the file system, `icache.openlock`, the global table
`filetable.infos`, the descriptor table `infos` of every process (a pointer into the
global table is the index of the entry), the pages holding pipe buffers, and the pages
passed to `kfree` so far, oldest first. -/
structure Files where
  kern : Kernel
  openlock : Bool
  infos : Nat → file_info
  procs : Nat → Nat → Option Nat
  pipes : Nat → p_buf
  freed : List Nat

/-- The store `process->infos[fd] = v` of process `pid`. -/
def setfd (procs : Nat → Nat → Option Nat) (pid fd : Nat) (v : Option Nat) :
    Nat → Nat → Option Nat :=
  Function.update procs pid (Function.update (procs pid) fd v)

/-- The loop of `add_global_file`, `cnt` entries from entry `i`. -/
def add_global_fileLoop (infos : Nat → file_info) : Nat → Nat → Option Nat
  | 0, _ => none
  | cnt + 1, i =>
    if (infos i).reference = 0 then some i else add_global_fileLoop infos cnt (i + 1)

/-- Function `add_global_file`: the first entry of the global table with reference 0
(`none` for -1). -/
def add_global_file (fp : FdParams) (infos : Nat → file_info) : Option Nat :=
  add_global_fileLoop infos fp.NFILE 0

/-- The loop of `add_process_file`, `cnt` slots from slot `i`. -/
def add_process_fileLoop (tab : Nat → Option Nat) : Nat → Nat → Option Nat
  | 0, _ => none
  | cnt + 1, i => if tab i = none then some i else add_process_fileLoop tab cnt (i + 1)

/-- Function `add_process_file`: the first NULL slot of the descriptor table of the
process (`none` for -1). -/
def add_process_file (fp : FdParams) (tab : Nat → Option Nat) : Option Nat :=
  add_process_fileLoop tab fp.NOFILE 0

/-- The mode `fopen` stores in the entry. -/
def fopenMode (pm : Params) (fp : FdParams) (mode : Nat) : Nat :=
  if mode = pm.O_CREATE ||| fp.O_RDONLY then fp.O_RDONLY
  else if mode = pm.O_CREATE ||| fp.O_WRONLY then fp.O_WRONLY
  else if mode = pm.O_CREATE ||| fp.O_RDWR then fp.O_RDWR
  else mode

/-- Function `fopen`, run by process `pid`, yielding the return value and the state. The
path is not read when the mode is a pipe mode. `fuel` and `name` are those of `iopen`. -/
def fopen (cfg : Config) (pm : Params) (fp : FdParams) (fuel : Nat) (pid : Nat)
    (st : Files) (path : List Nat) (mode : Nat) (name : Nat → Nat) : Kres (Int × Files) :=
  (if mode = fp.O_PIPERD ∨ mode = fp.O_PIPEWR then
      (Kres.ok (some none, st) : Kres (Option (Option Nat) × Files))
    else
      (iopen cfg pm fuel st.kern st.openlock path mode name).bind fun r =>
        Kres.ok (r.1.map some, { st with kern := r.2.2, openlock := r.2.1 })).bind fun n =>
    match n.1 with
    | none => Kres.ok (-1, n.2)
    | some node =>
      match add_global_file fp n.2.infos with
      | none => Kres.ok (-1, n.2)
      | some fd1 =>
        match add_process_file fp (n.2.procs pid) with
        | none => Kres.ok (-1, n.2)
        | some fd2 =>
          Kres.ok ((fd2 : Int),
            { n.2 with
              infos := Function.update n.2.infos fd1
                { node := node, offset := 0, mode := fopenMode pm fp mode, reference := 1,
                  lock := false, buffer := none }
              procs := setfd n.2.procs pid fd2 (some fd1) })

/-- Function `fdup`, run by process `pid`. The sleep lock of the entry is taken and
released; the call sleeps when it is held. -/
def fdup (fp : FdParams) (pid : Nat) (st : Files) (fd : Nat) : Kres (Int × Files) :=
  match st.procs pid fd with
  | none => Kres.ok (-1, st)
  | some e =>
    if (st.infos e).lock then Kres.sleep
    else
      match add_process_file fp (st.procs pid) with
      | none => Kres.ok (-1, st)
      | some fd1 =>
        Kres.ok ((fd1 : Int),
          { st with
            procs := setfd st.procs pid fd1 (some e)
            infos := Function.update st.infos e
              { st.infos e with reference := (st.infos e).reference + 1 } })

/-- The pipe buffer after `fclose` has marked the end of mode `mode` closed. -/
def closeEnd (fp : FdParams) (mode : Nat) (b : p_buf) : p_buf :=
  if mode = fp.O_PIPERD then { b with read_open := false } else { b with write_open := false }

/-- Function `fclose`, run by process `pid`. `kfree` of the pipe page is recorded in
`freed`; the page keeps its last content. -/
def fclose (fp : FdParams) (pid : Nat) (st : Files) (fd : Nat) : Kres (Int × Files) :=
  match st.procs pid fd with
  | none => Kres.ok (-1, st)
  | some e =>
    let fi := st.infos e
    if fi.lock then Kres.sleep
    else
      let ref := fi.reference - 1
      let kern1 :=
        match fi.node with
        | some k => if ref = 0 then irelease st.kern (iptr.slot k) else st.kern
        | none => st.kern
      let pipes1 :=
        match fi.buffer with
        | some q =>
          if ref = 0 then Function.update st.pipes q (closeEnd fp fi.mode (st.pipes q))
          else st.pipes
        | none => st.pipes
      let freed1 :=
        match fi.buffer with
        | some q =>
          if ref = 0 ∧ (pipes1 q).read_open = false ∧ (pipes1 q).write_open = false then
            st.freed ++ [q]
          else st.freed
        | none => st.freed
      Kres.ok (0,
        { st with
          kern := kern1
          pipes := pipes1
          freed := freed1
          infos := Function.update st.infos e { fi with reference := ref }
          procs := setfd st.procs pid fd none })

/-! ### Pipes -/

/-- Outcome of a call on a pipe buffer: it returned `v`, having stored the bytes `out`
to the buffer of the caller and left the pipe as `b`; or it went to sleep on the pipe,
left as `b`, before transferring byte `i`. -/
inductive PipeOut where
  | ret (v : Int) (out : List Nat) (b : p_buf) : PipeOut
  | asleep (i : Nat) (b : p_buf) : PipeOut

/-- One pass of the body of the `for` loop of `pipewrite` after the wait: store a byte
at `wr_offset`, advance the offset with wrap-around, count the byte. -/
def pipePut (b : p_buf) (x : Nat) : p_buf :=
  { b with
    pipe_buf := Function.update b.pipe_buf b.wr_offset x
    wr_offset := if b.wr_offset + 1 ≥ b.buffer_size then 0 else b.wr_offset + 1
    size := b.size + 1 }

/-- The `for` loop of `pipewrite`, `cnt` bytes left, at byte `i`: it goes to sleep when
the buffer is full, and returns `left_to_write` after the last byte. -/
def pipewriteLoop (buf : List Nat) (left_to_write : Int) : Nat → Nat → p_buf → PipeOut
  | 0, _, b => PipeOut.ret left_to_write [] b
  | cnt + 1, i, b =>
    if b.size = b.buffer_size then PipeOut.asleep i b
    else pipewriteLoop buf left_to_write cnt (i + 1) (pipePut b (buf.getD i 0))

/-- The body of `pipewrite` on the pipe buffer of the descriptor. -/
def pipewriteCore (b : p_buf) (buf : List Nat) (left_to_write : Int) : PipeOut :=
  if b.write_open = false ∨ b.read_open = false then PipeOut.ret (-1) [] b
  else pipewriteLoop buf left_to_write left_to_write.toNat 0 b

/-- What `pipewrite` does when its `sleep` before byte `i` returns and the pipe is `b`:
it fails when an end is closed, else goes on with the loop. -/
def pipewriteWake (b : p_buf) (buf : List Nat) (left_to_write : Int) (i : Nat) : PipeOut :=
  if b.write_open = false ∨ b.read_open = false then PipeOut.ret (-1) [] b
  else pipewriteLoop buf left_to_write (left_to_write.toNat - i) i b

/-- One pass of the body of the `for` loop of `piperead` after the byte was copied:
advance `rd_offset` with wrap-around, count the byte off. -/
def pipeGet (b : p_buf) : p_buf :=
  { b with
    rd_offset := if b.rd_offset + 1 ≥ b.buffer_size then 0 else b.rd_offset + 1
    size := b.size - 1 }

/-- The `for` loop of `piperead`, `cnt` bytes left; `out` are the bytes stored so far. -/
def pipereadLoop : Nat → p_buf → List Nat → List Nat × p_buf
  | 0, b, out => (out, b)
  | cnt + 1, b, out => pipereadLoop cnt (pipeGet b) (out ++ [b.pipe_buf b.rd_offset])

/-- The body of `piperead` from its `while` loop on; also what it does when its `sleep`
returns. -/
def pipereadWait (b : p_buf) (left_to_read : Int) : PipeOut :=
  if b.size = 0 then
    if b.write_open = false then PipeOut.ret 0 [] b else PipeOut.asleep 0 b
  else
    let n : Int := if (b.size : Int) < left_to_read then (b.size : Int) else left_to_read
    let r := pipereadLoop n.toNat b []
    PipeOut.ret n r.1 r.2

/-- The body of `piperead` on the pipe buffer of the descriptor. -/
def pipereadCore (b : p_buf) (left_to_read : Int) : PipeOut :=
  if b.read_open = false then PipeOut.ret (-1) [] b else pipereadWait b left_to_read

/-- Function `pipewrite`, run by process `pid` with the sleep lock of the entry held; the
lock is released at every return. A NULL pointer on the way is a fault. In the model of
one thread a sleep on the pipe does not end. -/
def pipewrite (pid : Nat) (st : Files) (fd : Nat) (buf : List Nat) (left_to_write : Int) :
    Kres (Int × Files) :=
  match st.procs pid fd with
  | none => Kres.panic
  | some e =>
    match (st.infos e).buffer with
    | none => Kres.panic
    | some q =>
      match pipewriteCore (st.pipes q) buf left_to_write with
      | PipeOut.ret v _ b =>
        Kres.ok (v,
          { st with
            pipes := Function.update st.pipes q b
            infos := Function.update st.infos e { st.infos e with lock := false } })
      | PipeOut.asleep _ _ => Kres.sleep

/-- Function `piperead`, run by process `pid`, yielding the return value, the bytes
stored to `buf` and the state. -/
def piperead (pid : Nat) (st : Files) (fd : Nat) (left_to_read : Int) :
    Kres (Int × List Nat × Files) :=
  match st.procs pid fd with
  | none => Kres.panic
  | some e =>
    match (st.infos e).buffer with
    | none => Kres.panic
    | some q =>
      match pipereadCore (st.pipes q) left_to_read with
      | PipeOut.ret v out b => Kres.ok (v, out, { st with pipes := Function.update st.pipes q b })
      | PipeOut.asleep _ _ => Kres.sleep

/-! ### Reading and writing through a descriptor -/

/-- An `int` converted to `uint`. -/
def toU32 (v : Int) : Nat := (v % 4294967296).toNat

/-- Function `concurrent_readi`: `readi` between `locki` and `unlocki`. -/
def concurrent_readi (cfg : Config) (s : Kernel) (p : iptr) (off n : Nat) :
    Kres (Int × List Nat × Kernel) :=
  (locki cfg s p).bind fun s1 =>
    (readi cfg s1 p off n).bind fun r =>
      (unlocki s1 p).bind fun s2 => Kres.ok (r.1, r.2, s2)

/-- Function `fread`, run by process `pid`, yielding the return value, the bytes stored
to `buf` and the state. The sleep lock of the entry is held from `acquiresleep` to the
return; the size of the inode is read from the cache slot as it is, without `locki`. -/
def fread (cfg : Config) (fp : FdParams) (pid : Nat) (st : Files) (fd : Nat)
    (left_to_read : Int) : Kres (Int × List Nat × Files) :=
  match st.procs pid fd with
  | none => Kres.ok (-1, [], st)
  | some e =>
    let fi := st.infos e
    if left_to_read = 0 then Kres.ok (0, [], st)
    else if fi.lock then Kres.sleep
    else if fi.mode = fp.O_PIPERD then piperead pid st fd left_to_read
    else if (fi.mode ≠ fp.O_RDONLY ∧ fi.mode ≠ fp.O_RDWR) ∨ left_to_read < 0 then
      Kres.ok (-1, [], st)
    else
      match fi.node with
      | none => Kres.panic
      | some k =>
        let avail := toU32 (((st.kern.slots k).size : Int) - fi.offset)
        let left : Int := if avail < toU32 left_to_read then toInt avail else left_to_read
        (concurrent_readi cfg st.kern (iptr.slot k) (toU32 fi.offset) (toU32 left)).bind
          fun r =>
            if r.1 = -1 then Kres.ok (-1, r.2.1, { st with kern := r.2.2 })
            else
              Kres.ok (r.1, r.2.1,
                { st with
                  kern := r.2.2
                  infos := Function.update st.infos e { fi with offset := fi.offset + r.1 } })

/-- Function `fwrite`, run by process `pid`, yielding the return value and the state. -/
def fwrite (cfg : Config) (fp : FdParams) (fuel : Nat) (pid : Nat) (st : Files) (fd : Nat)
    (buf : List Nat) (left_to_write : Int) : Kres (Int × Files) :=
  match st.procs pid fd with
  | none => Kres.ok (-1, st)
  | some e =>
    let fi := st.infos e
    if left_to_write = 0 then Kres.ok (0, st)
    else if fi.lock then Kres.sleep
    else if fi.mode = fp.O_PIPEWR then
      pipewrite pid { st with infos := Function.update st.infos e { fi with lock := true } }
        fd buf left_to_write
    else if (fi.mode ≠ fp.O_WRONLY ∧ fi.mode ≠ fp.O_RDWR) ∨ left_to_write < 0 then
      Kres.ok (-1, st)
    else
      match fi.node with
      | none => Kres.panic
      | some k =>
        (concurrent_writei cfg fuel st.kern (iptr.slot k) buf (toU32 fi.offset)
            (toU32 left_to_write)).bind fun r =>
          if r.1 = -1 then Kres.ok (-1, { st with kern := r.2 })
          else
            Kres.ok (r.1,
              { st with
                kern := r.2
                infos := Function.update st.infos e { fi with offset := fi.offset + r.1 } })

/-- Function `fpipe`, run by process `pid`, yielding the return value, the two
descriptors stored to `fds` on success, and the state. `page` is what `kalloc` returns
(`none` for NULL); the content of the fresh page is what the page held before. -/
def fpipe (cfg : Config) (pm : Params) (fp : FdParams) (fuel : Nat) (pid : Nat) (st : Files)
    (page : Option Nat) (name : Nat → Nat) : Kres (Int × Option (Nat × Nat) × Files) :=
  match page with
  | none => Kres.ok (-1, none, st)
  | some q =>
    let st0 : Files :=
      { st with
        pipes := Function.update st.pipes q
          { st.pipes q with
            buffer_size := 4096 - 5 * 4 - 1 * 2 - fp.SPINLOCK_SIZE
            rd_offset := 0, read_open := true, wr_offset := 0, write_open := true,
            size := 0 } }
    (fopen cfg pm fp fuel pid st0 [] fp.O_PIPERD name).bind fun r1 =>
    (fopen cfg pm fp fuel pid r1.2 [] fp.O_PIPEWR name).bind fun r2 =>
      if r1.1 = -1 ∧ r2.1 = -1 then Kres.ok (-1, none, r2.2)
      else if r1.1 = -1 then
        (fclose fp pid r2.2 r2.1.toNat).bind fun c => Kres.ok (-1, none, c.2)
      else if r2.1 = -1 then
        (fclose fp pid r2.2 r1.1.toNat).bind fun c => Kres.ok (-1, none, c.2)
      else
        match r2.2.procs pid r1.1.toNat, r2.2.procs pid r2.1.toNat with
        | some e1, some e2 =>
          let infos1 := Function.update r2.2.infos e1 { r2.2.infos e1 with buffer := some q }
          let infos2 := Function.update infos1 e2 { infos1 e2 with buffer := some q }
          Kres.ok (0, some (r1.1.toNat, r2.1.toNat), { r2.2 with infos := infos2 })
        | _, _ => Kres.panic

/-- The loop of `fork` that copies the descriptor table of `parent` to `child`, `cnt`
slots from slot `i`. -/
def forkFiles (parent child : Nat) : Nat → Nat → Files → Kres Files
  | 0, _, st => Kres.ok st
  | cnt + 1, i, st =>
    match st.procs parent i with
    | none => forkFiles parent child cnt (i + 1) st
    | some e =>
      if (st.infos e).lock then Kres.sleep
      else
        forkFiles parent child cnt (i + 1)
          { st with
            procs := setfd st.procs child i (some e)
            infos := Function.update st.infos e
              { st.infos e with reference := (st.infos e).reference + 1 } }

/-! ### Reference counts -/

/-- Number of descriptor slots (process below `NPROC`, descriptor below `NOFILE`) that
point at the global entry `e`. -/
def refCount (fp : FdParams) (procs : Nat → Nat → Option Nat) (e : Nat) : Nat :=
  ((Finset.range fp.NPROC ×ˢ Finset.range fp.NOFILE).filter
    (fun x => procs x.1 x.2 = some e)).card

/-- Empty tables: every global entry has reference 0 and no lock held, every descriptor
slot is NULL. -/
def emptyTables (st : Files) : Prop :=
  (∀ e, (st.infos e).reference = 0) ∧ (∀ e, (st.infos e).lock = false)
    ∧ ∀ p fd, st.procs p fd = none

/-- The states reached from empty tables by `fopen`, `fdup`, `fclose`, `fpipe` and the
descriptor copy of `fork`. The calling process is a process of the process table; `fdup`
and `fclose` get a descriptor that `argfd` accepts; the child of `fork` is a process slot
that `allocproc` found unused, whose descriptor table is empty. -/
inductive Reachable (cfg : Config) (pm : Params) (fp : FdParams) : Files → Prop where
  | init (st : Files) : emptyTables st → Reachable cfg pm fp st
  | fopen (st st1 : Files) (fuel pid : Nat) (path : List Nat) (mode : Nat)
      (name : Nat → Nat) (r : Int) :
      Reachable cfg pm fp st → pid < fp.NPROC →
      Xk.fopen cfg pm fp fuel pid st path mode name = Kres.ok (r, st1) →
      Reachable cfg pm fp st1
  | fdup (st st1 : Files) (pid fd : Nat) (r : Int) :
      Reachable cfg pm fp st → pid < fp.NPROC → fd < fp.NOFILE →
      Xk.fdup fp pid st fd = Kres.ok (r, st1) → Reachable cfg pm fp st1
  | fclose (st st1 : Files) (pid fd : Nat) (r : Int) :
      Reachable cfg pm fp st → pid < fp.NPROC → fd < fp.NOFILE →
      Xk.fclose fp pid st fd = Kres.ok (r, st1) → Reachable cfg pm fp st1
  | fpipe (st st1 : Files) (fuel pid : Nat) (page : Option Nat) (name : Nat → Nat)
      (r : Int) (fds : Option (Nat × Nat)) :
      Reachable cfg pm fp st → pid < fp.NPROC →
      Xk.fpipe cfg pm fp fuel pid st page name = Kres.ok (r, fds, st1) →
      Reachable cfg pm fp st1
  | fork (st st1 : Files) (parent child : Nat) :
      Reachable cfg pm fp st → parent < fp.NPROC → child < fp.NPROC →
      (∀ fd, st.procs child fd = none) →
      forkFiles parent child fp.NOFILE 0 st = Kres.ok st1 → Reachable cfg pm fp st1

/-! ### Pipe buffers as queues -/

/-- The bytes a pipe buffer holds, oldest first. -/
def pipeContents (b : p_buf) : List Nat :=
  (List.range b.size).map fun k => b.pipe_buf ((b.rd_offset + k) % b.buffer_size)

/-- Well-formed pipe buffer: the offsets lie in the data area, the write offset is the
read offset plus the size, wrapped, and the size is at most the capacity. -/
def pipeOK (b : p_buf) : Prop :=
  0 < b.buffer_size ∧ b.rd_offset < b.buffer_size
    ∧ b.wr_offset = (b.rd_offset + b.size) % b.buffer_size ∧ b.size ≤ b.buffer_size

/-! ### Example states of the descriptor layer -/

/-- Constants of the examples: 4 global entries, 3 descriptors per process, 2 processes,
the modes of `fcntl.h` of xk. -/
def fp64 : FdParams :=
  { NFILE := 4, NOFILE := 3, NPROC := 2, O_RDONLY := 0, O_WRONLY := 1, O_RDWR := 2,
    O_PIPERD := 4, O_PIPEWR := 8, SPINLOCK_SIZE := 104 }

/-- An unused global entry. -/
def file_info0 : file_info :=
  { node := none, offset := 0, mode := 0, reference := 0, lock := false, buffer := none }

/-- A zeroed page. -/
def p_buf0 : p_buf :=
  { wr_offset := 0, rd_offset := 0, read_open := false, write_open := false,
    buffer_size := 0, curr_writer_pid := 0, size := 0, pipe_buf := fun _ => 0 }

/-- The example volume right after boot, with empty tables. -/
def filesFS : Files :=
  { kern := kernFS, openlock := false, infos := fun _ => file_info0,
    procs := fun _ _ => none, pipes := fun _ => p_buf0, freed := [] }

/-- A table with descriptor 0 of process 0 open on the file `f` (cache slot 1),
read-only. -/
def filesOpen : Files :=
  { filesFS with
    infos := Function.update filesFS.infos 0 (file_info.mk (some 1) 0 0 1 false none)
    procs := setfd filesFS.procs 0 0 (some 0) }

/-- A table with descriptor 0 open write-only and descriptor 1 open read-only on the file
`f`. -/
def filesModes : Files :=
  { filesFS with
    infos := fun e =>
      if e = 0 then file_info.mk (some 1) 0 1 1 false none
      else if e = 1 then file_info.mk (some 1) 0 0 1 false none
      else file_info0
    procs := fun p f => if p = 0 ∧ f < 2 then some f else none }

/-- The reference field of every global entry equals the number of descriptor slots that
point at the entry. -/
def countsOK (fp : FdParams) (st : Files) : Prop :=
  ∀ e, (st.infos e).reference = (refCount fp st.procs e : Int)

/-- The pipe buffer that `fpipe` sets up in a zeroed page, for `fp64`: 3970 bytes of
capacity, empty, both ends open. -/
def pipeFresh : p_buf :=
  { p_buf0 with
    buffer_size := 4096 - 5 * 4 - 1 * 2 - fp64.SPINLOCK_SIZE
    rd_offset := 0, read_open := true, wr_offset := 0, write_open := true, size := 0 }

/-- The pipe after `hello` (5 bytes) was written to the fresh pipe. -/
def pipeHello : p_buf :=
  match pipewriteCore pipeFresh [104, 101, 108, 108, 111] 5 with
  | PipeOut.ret _ _ b => b
  | PipeOut.asleep _ b => b

end Xk

namespace Xk

/-! ## File status (`stati`, `fstat`) -/

/-- The pipe buffer that a call on a pipe leaves, whether it returned or went to
sleep. -/
def PipeOut.pipe : PipeOut → p_buf
  | PipeOut.ret _ _ b => b
  | PipeOut.asleep _ b => b

/-! ## Reachable states of the inode cache and of the log -/

/-- The empty cache: every slot has reference count 0. -/
def emptyCache (cfg : Config) (s : Kernel) : Prop :=
  ∀ k, k < cfg.NINODE → (s.slots k).ref = 0

/-- The states of the cache reached from the empty cache by `iget`, and by `idup` and
`irelease` applied to slots whose reference count is at least 1. -/
inductive CacheReach (cfg : Config) : Kernel → Prop where
  | init (s : Kernel) : emptyCache cfg s → CacheReach cfg s
  | iget (s s1 : Kernel) (dev inum k : Nat) :
      CacheReach cfg s → Xk.iget cfg s dev inum = Kres.ok (k, s1) → CacheReach cfg s1
  | idup (s : Kernel) (k : Nat) :
      CacheReach cfg s → k < cfg.NINODE → (s.slots k).ref ≥ 1 →
      CacheReach cfg (Xk.idup s (iptr.slot k))
  | irelease (s : Kernel) (k : Nat) :
      CacheReach cfg s → k < cfg.NINODE → (s.slots k).ref ≥ 1 →
      CacheReach cfg (Xk.irelease s (iptr.slot k))

/-- The nonzero slots of a log header form a prefix of the 79 slots. -/
def prefixSlots (data : Nat → Nat) : Prop :=
  ∃ k, k ≤ NLOGBLK ∧ ∀ j, j < NLOGBLK → (data j ≠ 0 ↔ j < k)

/-- The states of the log reached from `s0` by `logbegin` followed by `logwrite` calls
with nonzero destinations. -/
inductive LogReach (s0 : LogState) : LogState → Prop where
  | start (s : LogState) : logbegin s0 = Kres.ok s → LogReach s0 s
  | write (s s1 : LogState) (block : Block) (location : Nat) (r : Int) :
      LogReach s0 s → location ≠ 0 → logwrite s block location = Kres.ok (r, s1) →
      LogReach s0 s1

/-- The populated (nonzero block count) extents form a prefix of the 30 slots of an
inode. -/
def popPrefix (data : Nat → extent) : Prop :=
  ∃ k, k ≤ NEXTENT ∧ ∀ j, j < NEXTENT → ((data j).nblocks ≠ 0 ↔ j < k)

/-- Number of blocks in the `cnt` extent slots from slot `i`. -/
def blocksFrom (data : Nat → extent) : Nat → Nat → Nat
  | 0, _ => 0
  | cnt + 1, i => (data i).nblocks + blocksFrom data cnt (i + 1)

/-- Total block count of the extents of an inode. -/
def totalBlocks (data : Nat → extent) : Nat := blocksFrom data NEXTENT 0

/-- The extent invariants of an inode: populated extents form a prefix, and the size is
at most the capacity of the extents. -/
def extentInv (ip : inode) : Prop :=
  popPrefix ip.data ∧ ip.size ≤ BSIZE * totalBlocks ip.data

/-- The example volume with an inode file of 30 populated extents (blocks 5 and 6, then
one block each from block 11 on) none of whose records is marked free. -/
def kernInodesFull : Kernel :=
  { kernFS with
    inodefile :=
      { kernFS.inodefile with
        size := 1024 + 29 * 512
        data := fun i =>
          if i = 0 then { startblkno := 5, nblocks := 2 }
          else if i < 30 then { startblkno := 10 + i, nblocks := 1 }
          else { startblkno := 0, nblocks := 0 } } }

/-- A root directory block whose 32 entries all name inode 2. -/
def fullDirBlock : Block := fun x =>
  if x % 16 = 0 then 2 else if x % 16 = 2 then 102 else 0

/-- The volume of `kernInodesFull` with the record of inode 3 marked free and a root
directory of 32 entries in use. -/
def kernDirFull : Kernel :=
  { kernInodesFull with
    disk := fun blk =>
      if blk = 5 then
        blockOf (dinodeBytes { type := T_FILE, devid := 0, size := 1024 + 29 * 512,
                               data := kernInodesFull.inodefile.data }
          ++ dinodeBytes { type := T_DIR, devid := 0, size := 512, data := oneExtent 7 1 })
      else if blk = 6 then
        blockOf (dinodeBytes { type := T_FILE, devid := 0, size := 5, data := oneExtent 8 1 }
          ++ dinodeBytes { type := -1, devid := 0, size := 0, data := noExtent })
      else if blk = 7 then fullDirBlock
      else diskFS blk }

/-- Destinations of a transaction that fills the header: slot `i` names block `100 + i`,
outside the log region of `sbLog`. -/
def exD79 (i : Nat) : Nat := 100 + i

/-- The transaction `logbegin`, then `logwrite(exC i, exD79 i)` for `i < 79`, on the idle
example log. -/
def logWritten79 : Kres (List Int × LogState) :=
  (logbegin logIdle).bind fun s => logwriteAll exC exD79 79 0 s

end Xk

namespace Xk

/-! ## Bit-level facts -/

theorem and_shift_eq_zero (x j : Nat) : x &&& (1 <<< j) = 0 ↔ x.testBit j = false := by
  rw [Nat.one_shiftLeft, Nat.and_two_pow]
  cases h : x.testBit j <;> simp

theorem bitAt_eq_testBit (data : Block) (bi : Nat) :
    bitAt data bi = (data (bi / 8)).testBit (bi % 8) := by
  unfold bitAt
  cases h : (data (bi / 8)).testBit (bi % 8)
  · simp [(and_shift_eq_zero _ _).2 h]
  · have : data (bi / 8) &&& (1 <<< (bi % 8)) ≠ 0 := by
      intro h0
      rw [and_shift_eq_zero] at h0
      simp_all
    simpa using this

theorem bitAt_set (data : Block) (bi k : Nat) :
    bitAt (Function.update data (bi / 8) ((data (bi / 8) ||| 1 <<< (bi % 8)) % 256)) k
      = (decide (k = bi) || bitAt data k) := by
  rw [bitAt_eq_testBit, bitAt_eq_testBit]
  by_cases hk : k / 8 = bi / 8
  · rw [hk, Function.update_same, Nat.one_shiftLeft]
    have h256 : (256 : Nat) = 2 ^ 8 := by norm_num
    rw [h256, Nat.testBit_mod_two_pow, Nat.testBit_or, Nat.testBit_two_pow]
    have h8 : k % 8 < 8 := Nat.mod_lt _ (by norm_num)
    by_cases hkb : k = bi
    · subst hkb; simp [h8]
    · have : bi % 8 ≠ k % 8 := by omega
      simp [h8, hkb, this]
  · rw [Function.update_noteq hk]
    have : k ≠ bi := by rintro rfl; exact hk rfl
    simp [this]

theorem bitAt_clear (data : Block) (bi k : Nat) :
    bitAt (Function.update data (bi / 8)
        ((data (bi / 8) &&& (0xFFFFFFFF ^^^ 1 <<< (bi % 8))) % 256)) k
      = (!decide (k = bi) && bitAt data k) := by
  rw [bitAt_eq_testBit, bitAt_eq_testBit]
  by_cases hk : k / 8 = bi / 8
  · rw [hk, Function.update_same, Nat.one_shiftLeft]
    have h256 : (256 : Nat) = 2 ^ 8 := by norm_num
    have hff : (0xFFFFFFFF : Nat) = 2 ^ 32 - 1 := by norm_num
    rw [h256, Nat.testBit_mod_two_pow, Nat.testBit_and, Nat.testBit_xor, hff,
      Nat.testBit_two_pow_sub_one, Nat.testBit_two_pow]
    have h8 : k % 8 < 8 := Nat.mod_lt _ (by norm_num)
    have h32 : k % 8 < 32 := by omega
    by_cases hkb : k = bi
    · subst hkb; simp [h8, h32]
    · have : bi % 8 ≠ k % 8 := by omega
      simp [h8, h32, hkb, this]
  · rw [Function.update_noteq hk]
    have : k ≠ bi := by rintro rfl; exact hk rfl
    simp [this]

end Xk

namespace Xk

/-! ## `bmark` -/

theorem bmarkLoop_used (cnt : Nat) : ∀ (bi : Nat) (data : Block),
    ∃ data1, bmarkLoop true cnt bi data = Kres.ok data1 ∧
      ∀ k, bitAt data1 k = (decide (bi ≤ k ∧ k < bi + cnt) || bitAt data k) := by
  induction cnt with
  | zero =>
    intro bi data
    refine ⟨data, rfl, fun k => ?_⟩
    have : decide (bi ≤ k ∧ k < bi + 0) = false := decide_eq_false (by omega)
    rw [this]; simp
  | succ cnt ih =>
    intro bi data
    obtain ⟨data1, h1, h2⟩ := ih (bi + 1)
      (Function.update data (bi / 8) ((data (bi / 8) ||| 1 <<< (bi % 8)) % 256))
    refine ⟨data1, ?_, fun k => ?_⟩
    · simpa [bmarkLoop] using h1
    · rw [h2 k, bitAt_set]
      by_cases hk : k = bi
      · subst hk
        have : k ≤ k ∧ k < k + (cnt + 1) := by omega
        simp [this]
      · have : (bi + 1 ≤ k ∧ k < bi + 1 + cnt) ↔ (bi ≤ k ∧ k < bi + (cnt + 1)) := by omega
        simp [hk, this]

theorem bmarkLoop_free_ok (cnt : Nat) : ∀ (bi : Nat) (data : Block),
    (∀ k, bi ≤ k → k < bi + cnt → bitAt data k = true) →
    ∃ data1, bmarkLoop false cnt bi data = Kres.ok data1 ∧
      ∀ k, bitAt data1 k = (!decide (bi ≤ k ∧ k < bi + cnt) && bitAt data k) := by
  induction cnt with
  | zero =>
    intro bi data _
    refine ⟨data, rfl, fun k => ?_⟩
    have : decide (bi ≤ k ∧ k < bi + 0) = false := decide_eq_false (by omega)
    rw [this]; simp
  | succ cnt ih =>
    intro bi data hall
    have hbi : bitAt data bi = true := hall bi (le_refl _) (by omega)
    have hne : ¬ (data (bi / 8) &&& 1 <<< (bi % 8) = 0) := by
      rw [and_shift_eq_zero, ← bitAt_eq_testBit, hbi]; simp
    obtain ⟨data1, h1, h2⟩ := ih (bi + 1)
      (Function.update data (bi / 8)
        ((data (bi / 8) &&& (0xFFFFFFFF ^^^ 1 <<< (bi % 8))) % 256))
      (by
        intro k hk1 hk2
        rw [bitAt_clear]
        have : k ≠ bi := by omega
        simp [this, hall k (by omega) (by omega)])
    refine ⟨data1, ?_, fun k => ?_⟩
    · simpa [bmarkLoop, hne] using h1
    · rw [h2 k, bitAt_clear]
      by_cases hk : k = bi
      · subst hk
        have : k ≤ k ∧ k < k + (cnt + 1) := by omega
        simp [this]
      · have : (bi + 1 ≤ k ∧ k < bi + 1 + cnt) ↔ (bi ≤ k ∧ k < bi + (cnt + 1)) := by omega
        simp [hk, this]

theorem bmarkLoop_free_panic (cnt : Nat) : ∀ (bi : Nat) (data : Block),
    (∃ k, bi ≤ k ∧ k < bi + cnt ∧ bitAt data k = false) →
    bmarkLoop false cnt bi data = Kres.panic := by
  induction cnt with
  | zero =>
    rintro bi data ⟨k, h1, h2, _⟩
    omega
  | succ cnt ih =>
    rintro bi data ⟨k, h1, h2, h3⟩
    by_cases hbi : data (bi / 8) &&& 1 <<< (bi % 8) = 0
    · simp [bmarkLoop, hbi]
    · have hkb : k ≠ bi := by
        rintro rfl
        rw [and_shift_eq_zero, ← bitAt_eq_testBit] at hbi
        exact hbi h3
      have := ih (bi + 1)
        (Function.update data (bi / 8)
          ((data (bi / 8) &&& (0xFFFFFFFF ^^^ 1 <<< (bi % 8))) % 256))
        ⟨k, by omega, by omega, by rw [bitAt_clear]; simp [h3]⟩
      simpa [bmarkLoop, hbi] using this

/-! ## `balloc` -/

theorem ballocScan_zero (data : Block) (cnt : Nat) : ∀ bi sz i,
    ballocScan data 0 cnt bi sz i = none := by
  induction cnt with
  | zero => intros; rfl
  | succ cnt ih =>
    intro bi sz i
    simp only [ballocScan]
    split
    · rw [if_neg (by omega)]; exact ih _ _ _
    · exact ih _ _ _

theorem ballocScan_spec (data : Block) (n : Nat) (hn : 1 ≤ n) (cnt : Nat) :
    ∀ bi sz i, sz ≤ bi → sz < n → (1 ≤ sz → i = bi - sz) →
      (∀ k, bi - sz ≤ k → k < bi → bitAt data k = false) →
      (sz < bi → bitAt data (bi - sz - 1) = true) →
      (∀ s, s + n ≤ bi → ¬ RunFree data s n) →
      match ballocScan data n cnt bi sz i with
      | some (i1, bi1) => bi1 + 1 = i1 + n ∧ bi1 < bi + cnt ∧ RunFree data i1 n ∧
          ∀ s, s < i1 → ¬ RunFree data s n
      | none => ∀ s, s + n ≤ bi + cnt → ¬ RunFree data s n := by
  induction cnt with
  | zero =>
    intro bi sz i _ _ _ _ _ hno
    simpa [ballocScan] using hno
  | succ cnt ih =>
    intro bi sz i h1 h2 h3 h4 h5 hno
    simp only [ballocScan]
    by_cases hbit : data (bi / 8) &&& 1 <<< (bi % 8) = 0
    · have hfree : bitAt data bi = false := by
        rw [bitAt_eq_testBit]; exact (and_shift_eq_zero _ _).1 hbit
      rw [if_pos hbit]
      have hi : (if sz + 1 = 1 then bi else i) = bi - sz := by
        by_cases hs : sz = 0
        · simp [hs]
        · rw [if_neg (by omega)]; exact h3 (by omega)
      rw [hi]
      by_cases hsz : sz + 1 = n
      · rw [if_pos hsz]
        refine ⟨by omega, by omega, ?_, ?_⟩
        · intro k hk1 hk2
          by_cases hkb : k = bi
          · rw [hkb]; exact hfree
          · exact h4 k hk1 (by omega)
        · intro s hs
          exact hno s (by omega)
      · rw [if_neg hsz]
        have := ih (bi + 1) (sz + 1) (bi - sz) (by omega) (by omega) (by intro _; omega)
          (by
            intro k hk1 hk2
            by_cases hkb : k = bi
            · rw [hkb]; exact hfree
            · exact h4 k (by omega) (by omega))
          (by
            intro hlt
            have := h5 (by omega)
            have e : bi + 1 - (sz + 1) - 1 = bi - sz - 1 := by omega
            rw [e]; exact this)
          (by
            intro s hs hrun
            by_cases hs2 : s + n ≤ bi
            · exact hno s hs2 hrun
            · have hb := h5 (by omega)
              have := hrun (bi - sz - 1) (by omega) (by omega)
              rw [this] at hb
              exact Bool.noConfusion hb)
        have e : bi + 1 + cnt = bi + (cnt + 1) := by omega
        rw [e] at this
        exact this
    · have hused : bitAt data bi = true := by
        rw [bitAt_eq_testBit]
        cases h : (data (bi / 8)).testBit (bi % 8)
        · exact absurd ((and_shift_eq_zero _ _).2 h) hbit
        · rfl
      rw [if_neg hbit]
      have := ih (bi + 1) 0 0 (by omega) (by omega) (by intro h; omega)
        (by intro k hk1 hk2; omega)
        (by intro _; simpa using hused)
        (by
          intro s hs hrun
          by_cases hs2 : s + n ≤ bi
          · exact hno s hs2 hrun
          · have := hrun bi (by omega) (by omega)
            rw [this] at hused
            exact Bool.noConfusion hused)
      have e : bi + 1 + cnt = bi + (cnt + 1) := by omega
      rw [e] at this
      exact this

end Xk

namespace Xk

theorem inUse_chunk (sb : superblock) (disk : Disk) (c bi : Nat) (h : bi < BPB) :
    bitAt (disk (BBLOCK (c * BPB) sb)) bi = inUse sb disk (c * BPB + bi) := by
  unfold inUse BBLOCK
  have e1 : (c * BPB + bi) / BPB = c * BPB / BPB := by
    simp only [BPB, BSIZE] at *; omega
  have e2 : (c * BPB + bi) % BPB = bi := by
    simp only [BPB, BSIZE] at *; omega
  rw [e1, e2]

theorem ballocLoop_spec (sb : superblock) (disk : Disk) (n : Nat) (hn : 1 ≤ n) (cnt : Nat) :
    ∀ c, sb.size ≤ (c + cnt) * BPB → (∀ s, Fit sb disk n s → c * BPB ≤ s) →
      match ballocLoop sb n disk cnt (c * BPB) with
      | Kres.ok (s, disk1) => Fit sb disk n s ∧ (∀ t, t < s → ¬ Fit sb disk n t) ∧
          (∀ k, inUse sb disk1 k = (decide (s ≤ k ∧ k < s + n) || inUse sb disk k)) ∧
          (∀ blk, blk ≠ BBLOCK s sb → disk1 blk = disk blk)
      | Kres.panic => ∀ s, ¬ Fit sb disk n s
      | Kres.sleep => False
      | Kres.nofuel => False := by
  induction cnt with
  | zero =>
    intro c hsz hlow
    simp only [ballocLoop]
    intro s hfit
    have h1 := hlow s hfit
    have h2 := hfit.1
    simp only [BPB, BSIZE] at *
    omega
  | succ cnt ih =>
    intro c hsz hlow
    simp only [ballocLoop]
    have hsc := ballocScan_spec (disk (BBLOCK (c * BPB) sb)) n hn
      (min BPB (sb.size - c * BPB)) 0 0 0 (le_refl _) (by omega) (by intro h; omega)
      (by intro k h1 h2; omega) (by intro h; omega) (by intro s h; omega)
    cases hscan : ballocScan (disk (BBLOCK (c * BPB) sb)) n
        (min BPB (sb.size - c * BPB)) 0 0 0 with
    | none =>
      rw [hscan] at hsc
      simp only []
      have e : c * BPB + BPB = (c + 1) * BPB := by ring
      rw [e]
      apply ih (c + 1) (by rw [show c + 1 + cnt = c + (cnt + 1) by omega]; exact hsz)
      intro s hfit
      by_contra hlt
      have h1 := hlow s hfit
      obtain ⟨f1, f2, f3⟩ := hfit
      apply hsc (s - c * BPB)
      · simp only [BPB, BSIZE] at *; omega
      · intro k hk1 hk2
        have hkb : k < BPB := by simp only [BPB, BSIZE] at *; omega
        rw [inUse_chunk sb disk c k hkb]
        apply f3 <;> omega
    | some p =>
      obtain ⟨i, bi⟩ := p
      rw [hscan] at hsc
      simp only [] at hsc
      obtain ⟨g1, g2, g3, g4⟩ := hsc
      have hbi : bi < BPB := by omega
      have hbs : c * BPB + bi < sb.size := by omega
      obtain ⟨bp1, hm1, hm2⟩ := bmarkLoop_used (bi + 1 - i) i (disk (BBLOCK (c * BPB) sb))
      simp only [bmark, hm1, Kres.bind]
      have hchunk : ∀ k, c * BPB + i ≤ k → k < c * BPB + i + n → k / BPB = c := by
        intro k h1 h2
        simp only [BPB, BSIZE] at *; omega
      refine ⟨⟨by omega, ?_, ?_⟩, ?_, ?_, ?_⟩
      · rw [hchunk (c * BPB + i) (le_refl _) (by omega),
          hchunk (c * BPB + i + n - 1) (by omega) (by omega)]
      · intro k hk1 hk2
        have := g3 (k - c * BPB) (by omega) (by omega)
        rw [inUse_chunk sb disk c (k - c * BPB) (by omega)] at this
        rw [← this]; congr 1; omega
      · intro t ht hfit
        have h1 := hlow t hfit
        obtain ⟨f1, f2, f3⟩ := hfit
        apply g4 (t - c * BPB) (by omega)
        intro k hk1 hk2
        have hkb : k < BPB := by omega
        rw [inUse_chunk sb disk c k hkb]
        apply f3 <;> omega
      · intro k
        by_cases hk : k / BPB = c
        · have hk2 : k = c * BPB + k % BPB := by
            simp only [BPB, BSIZE] at *; omega
          have hB : BBLOCK k sb = BBLOCK (c * BPB) sb := by
            unfold BBLOCK; rw [hk]; simp
          unfold inUse
          rw [hB, Function.update_same, hm2]
          congr 1
          apply decide_eq_decide.2
          omega
        · have hB : BBLOCK k sb ≠ BBLOCK (c * BPB) sb := by
            unfold BBLOCK; simp; exact hk
          unfold inUse
          rw [Function.update_noteq hB]
          have : ¬ (c * BPB + i ≤ k ∧ k < c * BPB + i + n) := by
            intro h; exact hk (hchunk k h.1 h.2)
          simp [this]
      · intro blk hblk
        have hB : BBLOCK (c * BPB + i) sb = BBLOCK (c * BPB) sb := by
          unfold BBLOCK; rw [hchunk (c * BPB + i) (le_refl _) (by omega)]; simp
        rw [hB] at hblk
        exact Function.update_noteq hblk _ _

end Xk

namespace Xk

theorem ballocLoop_zero (sb : superblock) (disk : Disk) (cnt : Nat) :
    ∀ b, ballocLoop sb 0 disk cnt b = Kres.panic := by
  induction cnt with
  | zero => intro b; rfl
  | succ cnt ih =>
    intro b
    simp only [ballocLoop, ballocScan_zero]
    exact ih _

theorem balloc_spec (sb : superblock) (disk : Disk) (n : Nat) (hn : 1 ≤ n) :
    match balloc sb disk n with
    | Kres.ok (s, disk1) => Fit sb disk n s ∧ (∀ t, t < s → ¬ Fit sb disk n t) ∧
        (∀ k, inUse sb disk1 k = (decide (s ≤ k ∧ k < s + n) || inUse sb disk k)) ∧
        (∀ blk, blk ≠ BBLOCK s sb → disk1 blk = disk blk)
    | Kres.panic => ∀ s, ¬ Fit sb disk n s
    | Kres.sleep => False
    | Kres.nofuel => False := by
  have := ballocLoop_spec sb disk n hn ((sb.size + BPB - 1) / BPB) 0
    (by simp only [BPB, BSIZE]; omega) (by intro s _; omega)
  simpa [balloc] using this

theorem balloc_ok (sb : superblock) (disk : Disk) (n s : Nat) (disk1 : Disk)
    (h : balloc sb disk n = Kres.ok (s, disk1)) :
    1 ≤ n ∧ Fit sb disk n s ∧ (∀ t, t < s → ¬ Fit sb disk n t) ∧
      (∀ k, inUse sb disk1 k = (decide (s ≤ k ∧ k < s + n) || inUse sb disk k)) ∧
      (∀ blk, blk ≠ BBLOCK s sb → disk1 blk = disk blk) := by
  have hn : 1 ≤ n := by
    by_contra h0
    have : n = 0 := by omega
    subst this
    simp [balloc, ballocLoop_zero] at h
  have := balloc_spec sb disk n hn
  rw [h] at this
  exact ⟨hn, this⟩

theorem ballocSeq_aux (sb : superblock) (ns : List Nat) :
    ∀ (disk : Disk) (rs : List (Nat × Nat)) (disk2 : Disk),
      ballocSeq sb disk ns = Kres.ok (rs, disk2) →
      rs.Pairwise (fun r1 r2 => r1.1 + r1.2 ≤ r2.1 ∨ r2.1 + r2.2 ≤ r1.1) ∧
      (∀ r ∈ rs, 1 ≤ r.2 ∧ ∀ k, r.1 ≤ k → k < r.1 + r.2 → inUse sb disk k = false) ∧
      (∀ k, inUse sb disk k = true → inUse sb disk2 k = true) := by
  induction ns with
  | nil =>
    intro disk rs disk2 h
    simp only [ballocSeq, Kres.ok.injEq, Prod.mk.injEq] at h
    obtain ⟨h1, h2⟩ := h
    subst h1; subst h2
    simp
  | cons n ns ih =>
    intro disk rs disk2 h
    simp only [ballocSeq] at h
    cases hb : balloc sb disk n with
    | panic => rw [hb] at h; cases h
    | sleep => rw [hb] at h; cases h
    | nofuel => rw [hb] at h; cases h
    | ok p =>
      obtain ⟨s, d1⟩ := p
      rw [hb] at h
      simp only [] at h
      cases hs : ballocSeq sb d1 ns with
      | panic => rw [hs] at h; cases h
      | sleep => rw [hs] at h; cases h
      | nofuel => rw [hs] at h; cases h
      | ok q =>
        obtain ⟨rs1, d2⟩ := q
        rw [hs] at h
        simp only [Kres.ok.injEq, Prod.mk.injEq] at h
        obtain ⟨h1, h2⟩ := h
        subst h1; subst h2
        obtain ⟨hn, hfit, _, hbits, _⟩ := balloc_ok sb disk n s d1 hb
        obtain ⟨ip, ifree, imono⟩ := ih d1 rs1 d2 hs
        have hmono1 : ∀ k, inUse sb disk k = true → inUse sb d1 k = true := by
          intro k hk; rw [hbits, hk]; simp
        refine ⟨List.Pairwise.cons ?_ ip, ?_, ?_⟩
        · intro r hr
          obtain ⟨hr1, hr2⟩ := ifree r hr
          by_contra hcon
          have hk := hr2 (max s r.1) (by omega) (by omega)
          rw [hbits] at hk
          have : s ≤ max s r.1 ∧ max s r.1 < s + n := by omega
          simp [this] at hk
        · intro r hr
          rcases List.mem_cons.1 hr with rfl | hr
          · exact ⟨hn, hfit.2.2⟩
          · obtain ⟨hr1, hr2⟩ := ifree r hr
            refine ⟨hr1, fun k hk1 hk2 => ?_⟩
            have := hr2 k hk1 hk2
            cases hu : inUse sb disk k
            · rfl
            · rw [hmono1 k hu] at this; exact this
        · intro k hk
          exact imono k (hmono1 k hk)

end Xk

namespace Xk

/-- C3: when `balloc(dev, n)` returns `s`, the bitmap bits `s .. s+n-1` were clear before
the call and are set after it, no other bitmap bit and no other disk block changes; and
in a run of successful `balloc` calls with no `bfree` in between the returned ranges are
pairwise disjoint. -/
theorem balloc_marks_exclusive (sb : superblock) (disk : Disk) (n s : Nat) (disk1 : Disk)
    (ns : List Nat) (rs : List (Nat × Nat)) (disk2 : Disk)
    (hcall : balloc sb disk n = Kres.ok (s, disk1))
    (hrun : ballocSeq sb disk ns = Kres.ok (rs, disk2)) :
    ((∀ k, s ≤ k → k < s + n → inUse sb disk k = false) ∧
     (∀ k, s ≤ k → k < s + n → inUse sb disk1 k = true) ∧
     (∀ k, ¬ (s ≤ k ∧ k < s + n) → inUse sb disk1 k = inUse sb disk k) ∧
     (∀ blk, blk ≠ BBLOCK s sb → disk1 blk = disk blk)) ∧
    rs.Pairwise (fun r1 r2 => r1.1 + r1.2 ≤ r2.1 ∨ r2.1 + r2.2 ≤ r1.1) := by
  obtain ⟨_, hfit, _, hbits, hframe⟩ := balloc_ok sb disk n s disk1 hcall
  refine ⟨⟨hfit.2.2, ?_, ?_, hframe⟩, (ballocSeq_aux sb ns disk rs disk2 hrun).1⟩
  · intro k h1 h2
    rw [hbits]
    have : s ≤ k ∧ k < s + n := ⟨h1, h2⟩
    simp [this]
  · intro k hk
    rw [hbits]
    simp [hk]

theorem balloc_marks_exclusive_witness :
    ∃ d1 d2, (balloc sb16 disk16 2 = Kres.ok (6, d1) ∧
        ballocSeq sb16 disk16 [2, 1, 3] = Kres.ok ([(6, 2), (8, 1), (9, 3)], d2)) ∧
      inUse sb16 d1 7 = true ∧
      [((6 : Nat), (2 : Nat)), (8, 1), (9, 3)].Pairwise
        (fun r1 r2 => r1.1 + r1.2 ≤ r2.1 ∨ r2.1 + r2.2 ≤ r1.1) :=
  ⟨_, _, ⟨rfl, rfl⟩,
    (balloc_marks_exclusive sb16 disk16 2 6 _ [2, 1, 3] _ _ rfl rfl).1.2.1 7
      (by decide) (by decide),
    (balloc_marks_exclusive sb16 disk16 2 6 _ [2, 1, 3] _ _ rfl rfl).2⟩

set_option maxRecDepth 1000000 in
/-- C4, the claim as stated fails: on a volume of 4098 blocks whose only free blocks are
4095 and 4096, the run `[4095, 4097)` of two free blocks lies on the volume, yet
`balloc(dev, 2)` panics, because the two bits sit in different bitmap blocks. -/
theorem balloc_misses_run_across_bitmap_blocks :
    (balloc sbTwoMaps diskTwoMaps 2).isPanic = true ∧
      4095 + 2 ≤ sbTwoMaps.size ∧
      inUse sbTwoMaps diskTwoMaps 4095 = false ∧ inUse sbTwoMaps diskTwoMaps 4096 = false := by
  decide!

/-- C4 (amended): for every `n >= 1` and every bitmap, `balloc(dev, n)` never sleeps; it
returns the lowest block number `s` such that `s + n <= sb.size`, blocks `s .. s+n-1`
are all free and their bits lie in one bitmap block, and it panics exactly when no such
run exists. -/
theorem balloc_first_fit_in_bitmap_block (sb : superblock) (disk : Disk) (n : Nat)
    (hn : 1 ≤ n) :
    match balloc sb disk n with
    | Kres.ok (s, _) => Fit sb disk n s ∧ ∀ t, t < s → ¬ Fit sb disk n t
    | Kres.panic => ∀ s, ¬ Fit sb disk n s
    | Kres.sleep => False
    | Kres.nofuel => False := by
  have := balloc_spec sb disk n hn
  cases hb : balloc sb disk n with
  | ok p =>
    obtain ⟨s, d1⟩ := p
    rw [hb] at this
    exact ⟨this.1, this.2.1⟩
  | panic => rw [hb] at this; exact this
  | sleep => rw [hb] at this; exact this
  | nofuel => rw [hb] at this; exact this

theorem balloc_first_fit_in_bitmap_block_witness :
    1 ≤ 2 ∧
    match balloc sb16 disk16 2 with
    | Kres.ok (s, _) => Fit sb16 disk16 2 s ∧ ∀ t, t < s → ¬ Fit sb16 disk16 2 t
    | Kres.panic => ∀ s, ¬ Fit sb16 disk16 2 s
    | Kres.sleep => False
    | Kres.nofuel => False :=
  ⟨by decide, balloc_first_fit_in_bitmap_block sb16 disk16 2 (by decide)⟩

/-- C5: for a run `[b, b+n)` with `n >= 1` whose bits lie in one bitmap block,
`bfree(dev, b, n)` panics if some bit of the run is already clear; otherwise it returns,
having cleared exactly the `n` bits of the run: every other bitmap bit and every other
disk block is unchanged. -/
theorem bfree_clears_run_or_panics (sb : superblock) (disk : Disk) (b n : Nat)
    (hn : 1 ≤ n) (hblk : b / BPB = (b + n - 1) / BPB) :
    ((∃ k, b ≤ k ∧ k < b + n ∧ inUse sb disk k = false) →
        bfree sb disk b n = Kres.panic) ∧
    ((∀ k, b ≤ k → k < b + n → inUse sb disk k = true) →
        ∃ disk1, bfree sb disk b n = Kres.ok disk1 ∧
          (∀ k, b ≤ k → k < b + n → inUse sb disk1 k = false) ∧
          (∀ k, ¬ (b ≤ k ∧ k < b + n) → inUse sb disk1 k = inUse sb disk k) ∧
          (∀ blk, blk ≠ BBLOCK b sb → disk1 blk = disk blk)) := by
  have hB : BBLOCK b sb = BBLOCK (b + n - 1) sb := by unfold BBLOCK; rw [hblk]
  have hcnt : (b + n - 1) % BPB + 1 - b % BPB = n := by
    simp only [BPB, BSIZE] at *; omega
  have hb0 : b = b / BPB * BPB + b % BPB := by
    simp only [BPB, BSIZE] at *; omega
  have hBc : BBLOCK b sb = BBLOCK (b / BPB * BPB) sb := by
    unfold BBLOCK; simp
  have hin : ∀ k, b ≤ k → k < b + n →
      bitAt (disk (BBLOCK b sb)) (k % BPB) = inUse sb disk k := by
    intro k h1 h2
    have : BBLOCK k sb = BBLOCK b sb := by
      unfold BBLOCK
      have : k / BPB = b / BPB := by simp only [BPB, BSIZE] at *; omega
      rw [this]
    unfold inUse; rw [this]
  have hmod : ∀ k, b ≤ k → k < b + n → b % BPB ≤ k % BPB ∧ k % BPB < b % BPB + n := by
    intro k h1 h2
    simp only [BPB, BSIZE] at *; omega
  constructor
  · rintro ⟨k, h1, h2, h3⟩
    have hp := bmarkLoop_free_panic n (b % BPB) (disk (BBLOCK b sb))
      ⟨k % BPB, (hmod k h1 h2).1, (hmod k h1 h2).2, by rw [hin k h1 h2]; exact h3⟩
    simp [bfree, hn, hB.symm, bmark, hcnt, hp, Kres.bind]
  · intro hall
    obtain ⟨bp1, hm1, hm2⟩ := bmarkLoop_free_ok n (b % BPB) (disk (BBLOCK b sb)) (by
      intro j hj1 hj2
      have hj : j = (b / BPB * BPB + j) % BPB := by
        simp only [BPB, BSIZE] at *; omega
      have := hin (b / BPB * BPB + j) (by omega) (by omega)
      rw [← hj] at this
      rw [this]
      exact hall _ (by omega) (by omega))
    refine ⟨Function.update disk (BBLOCK b sb) bp1, ?_, ?_, ?_, ?_⟩
    · simp [bfree, hn, hB.symm, bmark, hcnt, hm1, Kres.bind]
    · intro k h1 h2
      have hk : BBLOCK k sb = BBLOCK b sb := by
        unfold BBLOCK
        have : k / BPB = b / BPB := by simp only [BPB, BSIZE] at *; omega
        rw [this]
      unfold inUse
      rw [hk, Function.update_same, hm2]
      have := hmod k h1 h2
      simp [this]
    · intro k hk
      unfold inUse
      by_cases hkb : BBLOCK k sb = BBLOCK b sb
      · rw [hkb, Function.update_same, hm2]
        have hdiv : k / BPB = b / BPB := by
          unfold BBLOCK at hkb; omega
        have : ¬ (b % BPB ≤ k % BPB ∧ k % BPB < b % BPB + n) := by
          simp only [BPB, BSIZE] at *; omega
        simp [this]
      · rw [Function.update_noteq hkb]
    · intro blk hblk
      exact Function.update_noteq hblk _ _

theorem bfree_clears_run_or_panics_witness :
    (1 ≤ 2 ∧ 4 / BPB = (4 + 2 - 1) / BPB) ∧
    (∃ disk1, bfree sb16 disk16 4 2 = Kres.ok disk1 ∧
          (∀ k, 4 ≤ k → k < 4 + 2 → inUse sb16 disk1 k = false) ∧
          (∀ k, ¬ (4 ≤ k ∧ k < 4 + 2) → inUse sb16 disk1 k = inUse sb16 disk16 k) ∧
          (∀ blk, blk ≠ BBLOCK 4 sb16 → disk1 blk = disk16 blk)) ∧
    bfree sb16 disk16 5 2 = Kres.panic :=
  ⟨⟨by decide, by decide⟩,
   (bfree_clears_run_or_panics sb16 disk16 4 2 (by decide) (by decide)).2 (by
      intro k h1 h2
      have : k = 4 ∨ k = 5 := by omega
      rcases this with rfl | rfl <;> decide),
   (bfree_clears_run_or_panics sb16 disk16 5 2 (by decide) (by decide)).1
      ⟨6, by decide, by decide, by decide⟩⟩

end Xk

namespace Xk

/-! ## Inode cache -/

@[simp] theorem Kernel.get_set (s : Kernel) (p : iptr) (ip : inode) :
    (s.set p ip).get p = ip := by
  cases p <;> simp [Kernel.set, Kernel.get]

@[simp] theorem Kernel.disk_set (s : Kernel) (p : iptr) (ip : inode) :
    (s.set p ip).disk = s.disk := by
  cases p <;> rfl

theorem Kernel.set_set (s : Kernel) (p : iptr) (a b : inode) :
    (s.set p a).set p b = s.set p b := by
  cases p <;> simp [Kernel.set]

theorem Kernel.set_get (s : Kernel) (p : iptr) : s.set p (s.get p) = s := by
  cases p <;> simp [Kernel.set, Kernel.get]

theorem igetLoop_found (slots : Nat → inode) (dev inum : Nat) (cnt : Nat) :
    ∀ k0 e k, igetLoop slots dev inum cnt k0 e = igetscan.found k ↔
      (k0 ≤ k ∧ k < k0 + cnt ∧ cached (slots k) dev inum ∧
        ∀ j, k0 ≤ j → j < k → ¬ cached (slots j) dev inum) := by
  induction cnt with
  | zero =>
    intro k0 e k
    simp only [igetLoop]
    constructor
    · intro h; cases h
    · rintro ⟨h1, h2, _⟩; omega
  | succ cnt ih =>
    intro k0 e k
    simp only [igetLoop]
    by_cases hit : (slots k0).ref > 0 ∧ (slots k0).dev = dev ∧ (slots k0).inum = inum
    · rw [if_pos hit]
      constructor
      · intro h
        injection h with h
        subst h
        exact ⟨le_refl _, by omega, hit, fun j h1 h2 => by omega⟩
      · rintro ⟨h1, h2, h3, h4⟩
        by_cases hk : k = k0
        · rw [hk]
        · exact absurd hit (h4 k0 (le_refl _) (by omega))
    · rw [if_neg hit, ih]
      constructor
      · rintro ⟨h1, h2, h3, h4⟩
        refine ⟨by omega, by omega, h3, fun j hj1 hj2 => ?_⟩
        by_cases hj : j = k0
        · rw [hj]; exact hit
        · exact h4 j (by omega) hj2
      · rintro ⟨h1, h2, h3, h4⟩
        have hk : k ≠ k0 := by rintro rfl; exact hit h3
        exact ⟨by omega, by omega, h3, fun j hj1 hj2 => h4 j (by omega) hj2⟩

theorem igetLoop_absent (slots : Nat → inode) (dev inum : Nat) (cnt : Nat) :
    ∀ k0 e, (∀ j, k0 ≤ j → j < k0 + cnt → ¬ cached (slots j) dev inum) →
      ∃ e1, igetLoop slots dev inum cnt k0 e = igetscan.absent e1 ∧
        (∀ x, e = some x → e1 = some x) ∧
        (e = none → (e1 = none ∧ ∀ j, k0 ≤ j → j < k0 + cnt → (slots j).ref ≠ 0) ∨
          ∃ j, e1 = some j ∧ k0 ≤ j ∧ j < k0 + cnt ∧ (slots j).ref = 0 ∧
            ∀ i, k0 ≤ i → i < j → (slots i).ref ≠ 0) := by
  induction cnt with
  | zero =>
    intro k0 e _
    refine ⟨e, rfl, fun x hx => hx, fun he => Or.inl ⟨he, fun j h1 h2 => by omega⟩⟩
  | succ cnt ih =>
    intro k0 e hno
    have hit : ¬ ((slots k0).ref > 0 ∧ (slots k0).dev = dev ∧ (slots k0).inum = inum) :=
      hno k0 (le_refl _) (by omega)
    simp only [igetLoop, if_neg hit]
    obtain ⟨e1, h1, h2, h3⟩ := ih (k0 + 1)
      (if e = none ∧ (slots k0).ref = 0 then some k0 else e)
      (fun j hj1 hj2 => hno j (by omega) (by omega))
    refine ⟨e1, h1, ?_, ?_⟩
    · intro x hx
      apply h2
      rw [if_neg (by rw [hx]; simp), hx]
    · intro he
      by_cases hz : (slots k0).ref = 0
      · right
        refine ⟨k0, ?_, le_refl _, by omega, hz, fun i hi1 hi2 => by omega⟩
        apply h2
        rw [if_pos ⟨he, hz⟩]
      · have hcond : ¬ (e = none ∧ (slots k0).ref = 0) := fun h => hz h.2
        rw [if_neg hcond] at h3
        rcases h3 he with ⟨h4, h5⟩ | ⟨j, h4, h5, h6, h7, h8⟩
        · left
          refine ⟨h4, fun j hj1 hj2 => ?_⟩
          by_cases hj : j = k0
          · rw [hj]; exact hz
          · exact h5 j (by omega) (by omega)
        · right
          refine ⟨j, h4, by omega, by omega, h7, fun i hi1 hi2 => ?_⟩
          by_cases hi : i = k0
          · rw [hi]; exact hz
          · exact h8 i (by omega) hi2

theorem igetLoop_cases (slots : Nat → inode) (dev inum n : Nat) :
    (∃ k, igetLoop slots dev inum n 0 none = igetscan.found k ∧ k < n ∧
        cached (slots k) dev inum ∧ ∀ j, j < k → ¬ cached (slots j) dev inum) ∨
    ((∀ j, j < n → ¬ cached (slots j) dev inum) ∧
      ((igetLoop slots dev inum n 0 none = igetscan.absent none ∧
          ∀ j, j < n → (slots j).ref ≠ 0) ∨
        ∃ k, igetLoop slots dev inum n 0 none = igetscan.absent (some k) ∧ k < n ∧
          (slots k).ref = 0 ∧ ∀ i, i < k → (slots i).ref ≠ 0)) := by
  by_cases hex : ∃ j, j < n ∧ cached (slots j) dev inum
  · left
    classical
    let k := Nat.find hex
    have hk : k < n ∧ cached (slots k) dev inum := Nat.find_spec hex
    have hmin : ∀ j, j < k → ¬ cached (slots j) dev inum := by
      intro j hj hc
      exact Nat.find_min hex hj ⟨by omega, hc⟩
    refine ⟨k, ?_, hk.1, hk.2, hmin⟩
    rw [igetLoop_found]
    exact ⟨Nat.zero_le _, by omega, hk.2, fun j _ hj => hmin j hj⟩
  · right
    have hno : ∀ j, j < n → ¬ cached (slots j) dev inum := fun j hj hc => hex ⟨j, hj, hc⟩
    refine ⟨hno, ?_⟩
    obtain ⟨e1, h1, _, h3⟩ := igetLoop_absent slots dev inum n 0 none
      (fun j _ hj => hno j (by omega))
    rcases h3 rfl with ⟨h4, h5⟩ | ⟨j, h4, _, h6, h7, h8⟩
    · left
      rw [h1, h4]
      exact ⟨rfl, fun j hj => h5 j (Nat.zero_le _) (by omega)⟩
    · right
      refine ⟨j, ?_, by omega, h7, fun i hi => h8 i (Nat.zero_le _) hi⟩
      rw [h1, h4]

end Xk

namespace Xk

/-- C6: when `iget(dev, inum)` does not panic, a second `iget(dev, inum)` returns the same
cache slot; the reference count of that slot is then 2 higher than the count the identity
had before the first call (the count of its slot if it was resident, 0 if not), and the
first call on a non-resident identity leaves the slot invalid. -/
theorem iget_twice_same_slot (cfg : Config) (s : Kernel) (dev inum k : Nat) (s1 : Kernel)
    (h : iget cfg s dev inum = Kres.ok (k, s1)) :
    ∃ s2, iget cfg s1 dev inum = Kres.ok (k, s2) ∧ k < cfg.NINODE ∧
      (resident cfg s dev inum →
        cached (s.slots k) dev inum ∧ (s2.slots k).ref = (s.slots k).ref + 2) ∧
      (¬ resident cfg s dev inum →
        (s1.slots k).valid = 0 ∧ (s1.slots k).ref = 1 ∧ (s2.slots k).ref = 2) := by
  unfold iget at h
  rcases igetLoop_cases s.slots dev inum cfg.NINODE with
    ⟨k1, hf, hk1, hc, hmin⟩ | ⟨hno, ⟨ha, _⟩ | ⟨k1, ha, hk1, hz, _⟩⟩
  · -- resident: the first call finds slot `k1`
    rw [hf] at h
    simp only [Kres.ok.injEq, Prod.mk.injEq] at h
    obtain ⟨hk, hs⟩ := h
    subst hk; subst hs
    have hc1 : cached ((s.set (iptr.slot k1)
        { s.slots k1 with ref := (s.slots k1).ref + 1 }).slots k1) dev inum := by
      simp only [Kernel.set, Function.update_same]
      refine ⟨?_, hc.2.1, hc.2.2⟩
      show (s.slots k1).ref + 1 > 0
      have := hc.1; omega
    have hf2 : igetLoop (s.set (iptr.slot k1)
        { s.slots k1 with ref := (s.slots k1).ref + 1 }).slots dev inum cfg.NINODE 0 none
        = igetscan.found k1 := by
      rw [igetLoop_found]
      refine ⟨Nat.zero_le _, by omega, hc1, fun j _ hj => ?_⟩
      simp only [Kernel.set]
      rw [Function.update_noteq (by omega)]
      exact hmin j hj
    refine ⟨_, by unfold iget; rw [hf2], hk1, fun _ => ⟨hc, ?_⟩, fun hnr => ?_⟩
    · simp only [Kernel.set, Function.update_same]
      omega
    · exact absurd ⟨k1, hk1, hc⟩ hnr
  · rw [ha] at h; cases h
  · -- not resident: the first call claims the empty slot `k1`
    rw [ha] at h
    simp only [Kres.ok.injEq, Prod.mk.injEq] at h
    obtain ⟨hk, hs⟩ := h
    subst hk; subst hs
    have hf2 : igetLoop (s.set (iptr.slot k1)
        { s.slots k1 with ref := 1, valid := 0, dev := dev, inum := inum }).slots
        dev inum cfg.NINODE 0 none = igetscan.found k1 := by
      rw [igetLoop_found]
      refine ⟨Nat.zero_le _, by omega, ?_, fun j _ hj => ?_⟩
      · simp only [Kernel.set, Function.update_same]
        exact ⟨Int.one_pos, rfl, rfl⟩
      · simp only [Kernel.set]
        rw [Function.update_noteq (by omega)]
        exact hno j (by omega)
    refine ⟨_, by unfold iget; rw [hf2], hk1, fun hr => ?_, fun _ => ?_⟩
    · obtain ⟨j, hj, hcj⟩ := hr
      exact absurd hcj (hno j hj)
    · simp [Kernel.set]

theorem iget_twice_same_slot_witness :
    ∃ s1 s2, iget cfg64 kern64 1 7 = Kres.ok (1, s1) ∧
      iget cfg64 s1 1 7 = Kres.ok (1, s2) ∧ (s1.slots 1).valid = 0 ∧ (s2.slots 1).ref = 2 := by
  obtain ⟨s2, h2, _, _, h4⟩ := iget_twice_same_slot cfg64 kern64 1 7 1 _ rfl
  have hnr : ¬ resident cfg64 kern64 1 7 := by
    rintro ⟨j, hj, hc⟩
    have hj4 : j < 4 := hj
    have : j = 0 ∨ j = 1 ∨ j = 2 ∨ j = 3 := by omega
    rcases this with rfl | rfl | rfl | rfl
    · exact absurd hc.2.2 (by decide)
    · exact absurd hc.1 (by decide)
    · exact absurd hc.1 (by decide)
    · exact absurd hc.1 (by decide)
  exact ⟨_, s2, rfl, h2, (h4 hnr).1, (h4 hnr).2.2⟩

/-- C7: `irelease` on a cached inode with `ref == 1` sets `ref` to 0 and the in-memory
type to 0, after which `iget` of an identity that is not resident claims the first slot
with `ref == 0`, which is this slot or a lower one; with `ref > 1` it only decrements
`ref`; in both cases the disk is unchanged; and `idup` followed by `irelease` on an inode
with `ref >= 1` gives back the state before. -/
theorem irelease_frees_slot (cfg : Config) (s : Kernel) (k : Nat) (hk : k < cfg.NINODE) :
    ((s.slots k).ref = 1 →
      ((irelease s (iptr.slot k)).slots k).ref = 0 ∧
      ((irelease s (iptr.slot k)).slots k).type = 0 ∧
      ∀ dev inum, ¬ resident cfg (irelease s (iptr.slot k)) dev inum →
        ∃ j s2, iget cfg (irelease s (iptr.slot k)) dev inum = Kres.ok (j, s2) ∧ j ≤ k ∧
          ((∀ i, i < k → (s.slots i).ref ≠ 0) → j = k)) ∧
    ((s.slots k).ref > 1 →
      (irelease s (iptr.slot k)).slots k = { s.slots k with ref := (s.slots k).ref - 1 }) ∧
    (irelease s (iptr.slot k)).disk = s.disk ∧
    ((s.slots k).ref ≥ 1 → irelease (idup s (iptr.slot k)) (iptr.slot k) = s) := by
  refine ⟨fun h1 => ?_, fun h1 => ?_, ?_, fun h1 => ?_⟩
  · have hr : ((irelease s (iptr.slot k)).slots k).ref = 0 := by
      simp [irelease, Kernel.set, Kernel.get, h1]
    refine ⟨hr, by simp [irelease, Kernel.set, Kernel.get, h1], fun dev inum hnr => ?_⟩
    rcases igetLoop_cases (irelease s (iptr.slot k)).slots dev inum cfg.NINODE with
      ⟨k1, _, hk1, hc, _⟩ | ⟨_, ⟨_, hnz⟩ | ⟨k1, ha, hk1, hz, hmin⟩⟩
    · exact absurd ⟨k1, hk1, hc⟩ hnr
    · exact absurd hr (hnz k hk)
    · have hle : k1 ≤ k := by
        by_contra hlt
        exact hmin k (by omega) hr
      refine ⟨k1, _, by unfold iget; rw [ha], hle, fun hall => ?_⟩
      by_contra hne
      have hlt : k1 < k := by omega
      apply hall k1 hlt
      have : (irelease s (iptr.slot k)).slots k1 = s.slots k1 := by
        simp only [irelease, Kernel.set]
        exact Function.update_noteq (by omega) _ _
      rw [← this]; exact hz
  · have hne : (s.slots k).ref ≠ 1 := by omega
    simp [irelease, Kernel.set, Kernel.get, hne]
  · simp [irelease]
  · have hne : ¬ ((s.slots k).ref + 1 = 1) := by omega
    simp [irelease, idup, Kernel.set, Kernel.get, hne]

theorem irelease_frees_slot_witness :
    (0 < cfg64.NINODE ∧ (kern64.slots 0).ref = 1) ∧
    ((irelease kern64 (iptr.slot 0)).slots 0).ref = 0 ∧
    ((irelease kern64 (iptr.slot 0)).slots 0).type = 0 ∧
    irelease (idup kern64 (iptr.slot 0)) (iptr.slot 0) = kern64 :=
  ⟨⟨by decide, by decide⟩,
   ((irelease_frees_slot cfg64 kern64 0 (by decide)).1 (by decide)).1,
   ((irelease_frees_slot cfg64 kern64 0 (by decide)).1 (by decide)).2.1,
   (irelease_frees_slot cfg64 kern64 0 (by decide)).2.2.2 (by decide)⟩

/-- C8, the claim as stated fails: `irelease` on an unused slot (reference count 0) does
not halt; it returns with the count driven to -1, and `idup` on it returns as well. -/
theorem irelease_drives_ref_negative :
    (kern64.slots 1).ref = 0 ∧ ((irelease kern64 (iptr.slot 1)).slots 1).ref = -1 ∧
      ((idup kern64 (iptr.slot 1)).slots 1).ref = 1 := by
  decide

/-- C8 (amended): `locki` and `unlocki` invoked on an inode whose reference count is
`<= 0` panic; `idup` and `irelease` make no such check, they add 1 to, respectively
subtract 1 from, the count whatever its value, so that `irelease` leaves a count that was
`>= 1` at `>= 0`. -/
theorem lock_ops_panic_without_reference (cfg : Config) (s : Kernel) (p : iptr) :
    ((s.get p).ref ≤ 0 → locki cfg s p = Kres.panic ∧ unlocki s p = Kres.panic) ∧
    ((idup s p).get p).ref = (s.get p).ref + 1 ∧
    ((irelease s p).get p).ref = (s.get p).ref - 1 ∧
    ((s.get p).ref ≥ 1 → ((irelease s p).get p).ref ≥ 0) := by
  have hrel : ((irelease s p).get p).ref = (s.get p).ref - 1 := by
    unfold irelease
    simp only [Kernel.get_set]
    split <;> rfl
  refine ⟨fun h => ⟨?_, ?_⟩, by simp [idup], hrel, fun h => by rw [hrel]; omega⟩
  · cases p with
    | slot k =>
      have : (s.slots k).ref < 1 := by
        have : (s.get (iptr.slot k)).ref ≤ 0 := h
        simp only [Kernel.get] at this; omega
      simp [locki, this]
    | inodefile =>
      have : s.inodefile.ref < 1 := by
        have : (s.get iptr.inodefile).ref ≤ 0 := h
        simp only [Kernel.get] at this; omega
      simp [locki, locki_inodefile, this]
  · have : (s.get p).ref < 1 := by omega
    simp [unlocki, this]

theorem lock_ops_panic_without_reference_witness :
    (kern64.get (iptr.slot 1)).ref ≤ 0 ∧
    locki cfg64 kern64 (iptr.slot 1) = Kres.panic ∧
    unlocki kern64 (iptr.slot 1) = Kres.panic :=
  ⟨by decide,
   ((lock_ops_panic_without_reference cfg64 kern64 (iptr.slot 1)).1 (by decide)).1,
   ((lock_ops_panic_without_reference cfg64 kern64 (iptr.slot 1)).1 (by decide)).2⟩

end Xk

namespace Xk

/-! ## Extent store: one block -/

theorem blockRead_blockWrite (bp : Block) (o : Nat) (src : List Nat) (m : Nat)
    (h : m ≤ src.length) : blockRead (blockWrite bp o src m) o m = src.take m := by
  apply List.ext_getElem
  · simp [blockRead, h]
  · intro i h1 h2
    simp only [blockRead, List.length_map, List.length_range] at h1
    simp only [blockRead, List.getElem_map, List.getElem_range, blockWrite, List.getElem_take]
    rw [if_pos ⟨by omega, by omega⟩]
    have e : o + i - o = i := by omega
    rw [e, List.getD_eq_getElem _ _ (by omega)]

theorem blockRead_length (bp : Block) (o m : Nat) : (blockRead bp o m).length = m := by
  simp [blockRead]

theorem inBlock_mod {off ts : Nat} (h : inBlock off ts) : off % BSIZE = off - ts := by
  obtain ⟨h1, h2, h3⟩ := h
  simp only [BSIZE] at *
  omega

/-- One iteration of the block loop of `writetoextent` when `off` lies in the block. -/
theorem writeBlocks_succ (start cnt j : Nat) (st : wstate) (hQ : inBlock st.off st.totalsize) :
    writeBlocks start (cnt + 1) j st =
      if st.n ≤ BSIZE - (st.off - st.totalsize) then
        (true, { disk := Function.update st.disk (start + j)
                  (blockWrite (st.disk (start + j)) (st.off - st.totalsize) st.src st.n)
                 src := st.src.drop st.n
                 off := st.off + st.n
                 n := 0
                 totalsize := st.totalsize + BSIZE
                 writing := true })
      else
        writeBlocks start cnt (j + 1)
          { disk := Function.update st.disk (start + j)
              (blockWrite (st.disk (start + j)) (st.off - st.totalsize) st.src
                (BSIZE - (st.off - st.totalsize)))
            src := st.src.drop (BSIZE - (st.off - st.totalsize))
            off := st.totalsize + BSIZE
            n := st.n - (BSIZE - (st.off - st.totalsize))
            totalsize := st.totalsize + BSIZE
            writing := true } := by
  have hmod := inBlock_mod hQ
  obtain ⟨h1, h2, h3⟩ := hQ
  have hgt : st.totalsize + BSIZE > st.off := h2
  simp only [writeBlocks, writeBlock, hgt, if_true, hmod]
  by_cases hn : st.n ≤ BSIZE - (st.off - st.totalsize)
  · have hm : min st.n (BSIZE - (st.off - st.totalsize)) = st.n := min_eq_left hn
    simp [hn, hm]
  · have hm : min st.n (BSIZE - (st.off - st.totalsize)) = BSIZE - (st.off - st.totalsize) :=
      min_eq_right (by omega)
    have hne : ¬ (st.n - (BSIZE - (st.off - st.totalsize)) = 0) := by omega
    have hoff : st.off + (BSIZE - (st.off - st.totalsize)) = st.totalsize + BSIZE := by omega
    simp only [hn, hm, hne, if_false, hoff]

/-- One iteration of the block loop of `readfromextent` when `off` lies in the block. -/
theorem readBlocks_succ (disk : Disk) (start cnt j : Nat) (st : rstate)
    (hQ : inBlock st.off st.totalsize) :
    readBlocks disk start (cnt + 1) j st =
      if st.n ≤ BSIZE - (st.off - st.totalsize) then
        (true, { dst := st.dst ++ blockRead (disk (start + j)) (st.off - st.totalsize) st.n
                 off := st.off + st.n
                 n := 0
                 totalsize := st.totalsize + BSIZE
                 reading := true })
      else
        readBlocks disk start cnt (j + 1)
          { dst := st.dst ++ blockRead (disk (start + j)) (st.off - st.totalsize)
              (BSIZE - (st.off - st.totalsize))
            off := st.totalsize + BSIZE
            n := st.n - (BSIZE - (st.off - st.totalsize))
            totalsize := st.totalsize + BSIZE
            reading := true } := by
  have hmod := inBlock_mod hQ
  obtain ⟨h1, h2, h3⟩ := hQ
  have hgt : st.totalsize + BSIZE > st.off := h2
  simp only [readBlocks, readBlock, hgt, if_true, hmod]
  by_cases hn : st.n ≤ BSIZE - (st.off - st.totalsize)
  · have hm : min st.n (BSIZE - (st.off - st.totalsize)) = st.n := min_eq_left hn
    simp [hn, hm]
  · have hm : min st.n (BSIZE - (st.off - st.totalsize)) = BSIZE - (st.off - st.totalsize) :=
      min_eq_right (by omega)
    have hne : ¬ (st.n - (BSIZE - (st.off - st.totalsize)) = 0) := by omega
    have hoff : st.off + (BSIZE - (st.off - st.totalsize)) = st.totalsize + BSIZE := by omega
    simp only [hn, hm, hne, if_false, hoff]

theorem writeBlock_frame (start j : Nat) (st : wstate) (blk : Nat) (h : blk ≠ start + j) :
    (writeBlock start j st).disk blk = st.disk blk := by
  unfold writeBlock
  simp only []
  split_ifs <;> simp [Function.update_noteq h]

/-- The block loop of `writetoextent` writes only blocks `start + j .. start + j + cnt - 1`. -/
theorem writeBlocks_frame (start cnt : Nat) : ∀ (j : Nat) (st : wstate) (blk : Nat),
    ¬ (start + j ≤ blk ∧ blk < start + j + cnt) →
    (writeBlocks start cnt j st).2.disk blk = st.disk blk := by
  induction cnt with
  | zero => intro j st blk _; rfl
  | succ cnt ih =>
    intro j st blk hblk
    simp only [writeBlocks]
    split
    · exact writeBlock_frame start j st blk (by omega)
    · rw [ih (j + 1) _ blk (by omega)]
      exact writeBlock_frame start j st blk (by omega)

end Xk

namespace Xk

/-- What the block loop of `writetoextent` leaves, when `off` lies in its first block:
it returns (flag true) exactly when the bytes still to write fit in the `cnt` blocks. -/
theorem writeBlocks_spec (start cnt : Nat) : ∀ (j : Nat) (st : wstate) (r : Bool × wstate),
    inBlock st.off st.totalsize → writeBlocks start cnt j st = r →
    r.2.n ≤ st.n ∧ r.2.src = st.src.drop (st.n - r.2.n) ∧
    (r.1 = true → 1 ≤ cnt ∧ st.n + (st.off - st.totalsize) ≤ cnt * BSIZE ∧ r.2.n = 0) ∧
    (r.1 = false →
      r.2.n = st.n - (cnt * BSIZE - (st.off - st.totalsize)) ∧
      (1 ≤ cnt → st.n + (st.off - st.totalsize) > cnt * BSIZE ∧
        r.2.off = r.2.totalsize ∧ r.2.totalsize = st.totalsize + cnt * BSIZE) ∧
      (cnt = 0 → r.2 = st)) := by
  induction cnt with
  | zero =>
    intro j st r _ hr
    simp only [writeBlocks] at hr
    subst hr
    simp
  | succ cnt ih =>
    intro j st r hQ hr
    rw [writeBlocks_succ start cnt j st hQ] at hr
    obtain ⟨h1, h2, h3⟩ := hQ
    by_cases hn : st.n ≤ BSIZE - (st.off - st.totalsize)
    · rw [if_pos hn] at hr
      subst hr
      refine ⟨Nat.zero_le _, by simp, fun _ => ⟨by omega, ?_, by simp⟩,
        fun h => by simp at h⟩
      simp only [BSIZE] at *; omega
    · rw [if_neg hn] at hr
      have hQ1 : inBlock (st.totalsize + BSIZE) (st.totalsize + BSIZE) :=
        ⟨le_refl _, by simp only [BSIZE]; omega, by simp only [BSIZE] at *; omega⟩
      obtain ⟨g1, g2, g3, g4⟩ := ih (j + 1) _ r hQ1 hr
      simp only [] at g1 g2 g3 g4
      refine ⟨by omega, ?_, fun h => ?_, fun h => ?_⟩
      · rw [g2, List.drop_drop]
        congr 1
        simp only [BSIZE] at *; omega
      · obtain ⟨a, b, c⟩ := g3 h
        refine ⟨by omega, ?_, c⟩
        simp only [BSIZE] at *; omega
      · obtain ⟨a, b, c⟩ := g4 h
        refine ⟨?_, fun _ => ?_, fun h0 => by omega⟩
        · simp only [BSIZE] at *; omega
        · by_cases hc : cnt = 0
          · have := c hc
            rw [this]
            dsimp only
            subst hc
            refine ⟨?_, rfl, ?_⟩
            · simp only [BSIZE] at *; omega
            · simp only [BSIZE]
          · obtain ⟨b1, b2, b3⟩ := b (by omega)
            refine ⟨?_, b2, ?_⟩ <;> (simp only [BSIZE] at *; omega)

/-- The block loop of `readfromextent`, run on a disk that holds what the block loop of
`writetoextent` left in the blocks of the extent, ends the same way and stores the bytes
that were written. -/
theorem readBlocks_sim (start cnt : Nat) :
    ∀ (j : Nat) (ws : wstate) (rs : rstate) (D : Disk) (wr : Bool × wstate),
    inBlock ws.off ws.totalsize → inBlock rs.off rs.totalsize →
    rs.off - rs.totalsize = ws.off - ws.totalsize → rs.n = ws.n →
    ws.n ≤ ws.src.length →
    writeBlocks start cnt j ws = wr →
    (∀ t, t < cnt → D (start + j + t) = wr.2.disk (start + j + t)) →
    (readBlocks D start cnt j rs).1 = wr.1 ∧
    (readBlocks D start cnt j rs).2.dst = rs.dst ++ ws.src.take (ws.n - wr.2.n) ∧
    (readBlocks D start cnt j rs).2.n = wr.2.n ∧
    (wr.1 = false → 1 ≤ cnt →
      (readBlocks D start cnt j rs).2.off = (readBlocks D start cnt j rs).2.totalsize ∧
      (readBlocks D start cnt j rs).2.totalsize % BSIZE = 0) ∧
    (cnt = 0 → (readBlocks D start cnt j rs).2 = rs) := by
  induction cnt with
  | zero =>
    intro j ws rs D wr _ _ _ hn _ hw _
    simp only [writeBlocks] at hw
    subst hw
    simp [readBlocks, hn]
  | succ cnt ih =>
    intro j ws rs D wr hQw hQr hrel hn hlen hw hD
    rw [writeBlocks_succ start cnt j ws hQw] at hw
    rw [readBlocks_succ D start cnt j rs hQr]
    rw [hrel, hn]
    obtain ⟨w1, w2, w3⟩ := hQw
    obtain ⟨r1, r2, r3⟩ := hQr
    by_cases hfit : ws.n ≤ BSIZE - (ws.off - ws.totalsize)
    · rw [if_pos hfit] at hw
      rw [if_pos hfit]
      subst hw
      have hD0 := hD 0 (by omega)
      simp only [Nat.add_zero, Function.update_same] at hD0
      simp only []
      rw [hD0, blockRead_blockWrite _ _ _ _ hlen]
      refine ⟨by simp, by simp, by simp, fun h => by simp at h, fun h => by omega⟩
    · rw [if_neg hfit] at hw
      rw [if_neg hfit]
      have hQ1 : inBlock (ws.totalsize + BSIZE) (ws.totalsize + BSIZE) :=
        ⟨le_refl _, by simp only [BSIZE]; omega, by simp only [BSIZE] at *; omega⟩
      have hQ2 : inBlock (rs.totalsize + BSIZE) (rs.totalsize + BSIZE) :=
        ⟨le_refl _, by simp only [BSIZE]; omega, by simp only [BSIZE] at *; omega⟩
      have hm : BSIZE - (ws.off - ws.totalsize) ≤ ws.src.length := by omega
      have hD0 : D (start + j) = blockWrite (ws.disk (start + j)) (ws.off - ws.totalsize)
          ws.src (BSIZE - (ws.off - ws.totalsize)) := by
        have := hD 0 (by omega)
        rw [Nat.add_zero] at this
        rw [this, ← hw, writeBlocks_frame start cnt (j + 1) _ (start + j) (by omega)]
        simp
      have := ih (j + 1) _
        { dst := rs.dst ++ blockRead (D (start + j)) (ws.off - ws.totalsize)
            (BSIZE - (ws.off - ws.totalsize))
          off := rs.totalsize + BSIZE
          n := ws.n - (BSIZE - (ws.off - ws.totalsize))
          totalsize := rs.totalsize + BSIZE
          reading := true } D wr hQ1 hQ2 (by simp) rfl
        (by simp only [List.length_drop]; omega) hw
        (by
          intro t ht
          have := hD (t + 1) (by omega)
          have e : start + j + (t + 1) = start + (j + 1) + t := by omega
          rw [e] at this
          exact this)
      obtain ⟨g1, g2, g3, g4, g5⟩ := this
      obtain ⟨k1, k2, _, _⟩ := writeBlocks_spec start cnt (j + 1) _ wr hQ1 hw
      simp only [] at k1 k2 g2
      refine ⟨g1, ?_, g3, fun h _ => ?_, fun h => by omega⟩
      · rw [g2, hD0, blockRead_blockWrite _ _ _ _ hm, List.append_assoc]
        congr 1
        have e : ws.n - wr.2.n = (BSIZE - (ws.off - ws.totalsize))
            + (ws.n - (BSIZE - (ws.off - ws.totalsize)) - wr.2.n) := by omega
        rw [e, List.take_add]
      · by_cases hc : cnt = 0
        · rw [g5 hc]
          dsimp only
          exact ⟨rfl, by simp only [BSIZE] at *; omega⟩
        · exact g4 h (by omega)

end Xk

namespace Xk

/-! ## Extent store: the walk over the extents -/

theorem Kres.bind_ok_iff {α β : Type} (r : Kres α) (f : α → Kres β) (b : β) :
    r.bind f = Kres.ok b ↔ ∃ a, r = Kres.ok a ∧ f a = Kres.ok b := by
  cases r <;> simp [Kres.bind]

/-- What `writeAlloc` returns: the slot was populated and nothing changes, or `balloc`
returned a fresh extent for the bytes still to write. -/
theorem writeAlloc_ok (sb : superblock) (i : Nat) (data data1 : Nat → extent)
    (st st1 : wstate) (h : writeAlloc sb i data st = Kres.ok (data1, st1)) :
    ((data i).nblocks ≠ 0 ∧ data1 = data ∧ st1 = st) ∨
    ((data i).nblocks = 0 ∧ ∃ s d1 blocks,
      balloc sb st.disk blocks = Kres.ok (s, d1) ∧ 1 ≤ blocks ∧ st.n ≤ blocks * BSIZE ∧
      data1 = Function.update data i { startblkno := s, nblocks := blocks } ∧
      st1 = { st with disk := d1, off := st.off - st.totalsize, totalsize := 0 }) := by
  unfold writeAlloc at h
  by_cases hz : (data i).nblocks = 0
  · right
    rw [if_pos hz] at h
    simp only [Kres.bind_ok_iff] at h
    obtain ⟨⟨s, d1⟩, hb, hr⟩ := h
    simp only [Kres.ok.injEq, Prod.mk.injEq] at hr
    refine ⟨hz, s, d1, _, hb, (balloc_ok sb st.disk _ s d1 hb).1, ?_, hr.1.symm, hr.2.symm⟩
    split <;> (simp only [BSIZE] at *; omega)
  · left
    rw [if_neg hz] at h
    simp only [Kres.ok.injEq, Prod.mk.injEq] at h
    exact ⟨hz, h.1.symm, h.2.symm⟩

theorem writeAlloc_populated (sb : superblock) (i : Nat) (data : Nat → extent) (st : wstate)
    (h : (data i).nblocks ≠ 0) : writeAlloc sb i data st = Kres.ok (data, st) := by
  unfold writeAlloc
  rw [if_neg h]

/-- The extent in slot `i` after `writeAlloc` is populated; other slots are unchanged. -/
theorem writeAlloc_data (sb : superblock) (i : Nat) (data data1 : Nat → extent)
    (st st1 : wstate) (h : writeAlloc sb i data st = Kres.ok (data1, st1)) :
    (data1 i).nblocks ≠ 0 ∧ (∀ j, j ≠ i → data1 j = data j) ∧
      (∀ j, (data j).nblocks ≠ 0 → data1 j = data j) := by
  rcases writeAlloc_ok sb i data data1 st st1 h with ⟨h1, h2, _⟩ | ⟨h1, s, d1, b, _, hb, _, h2, _⟩
  · subst h2
    exact ⟨h1, fun _ _ => rfl, fun _ _ => rfl⟩
  · subst h2
    refine ⟨by simp; omega, fun j hj => Function.update_noteq hj _ _, fun j hj => ?_⟩
    have : j ≠ i := by rintro rfl; exact hj h1
    exact Function.update_noteq this _ _

/-- The position invariant of the walk holds again after `writeAlloc`, with the same
distance between `off` and `totalsize`. -/
theorem writeAlloc_pos (sb : superblock) (i : Nat) (data data1 : Nat → extent)
    (st st1 : wstate) (h : writeAlloc sb i data st = Kres.ok (data1, st1))
    (hP : atExtent st.off st.totalsize) :
    atExtent st1.off st1.totalsize ∧ st1.off - st1.totalsize = st.off - st.totalsize ∧
      st1.n = st.n ∧ st1.src = st.src := by
  rcases writeAlloc_ok sb i data data1 st st1 h with ⟨_, _, h2⟩ | ⟨_, s, d1, b, _, _, _, _, h2⟩
  · subst h2
    exact ⟨hP, rfl, rfl, rfl⟩
  · subst h2
    exact ⟨⟨Nat.zero_le _, by simp⟩, by simp, rfl, rfl⟩

/-- One iteration of the loop over the extents of `writetoextent`, after `writeAlloc`. -/
theorem writeExtents_succ (sb : superblock) (cnt i : Nat) (data data1 : Nat → extent)
    (st st1 : wstate) (h : writeAlloc sb i data st = Kres.ok (data1, st1)) :
    writeExtents sb (cnt + 1) i data st =
      if st1.off > st1.totalsize + (data1 i).nblocks * BSIZE then
        writeExtents sb cnt (i + 1) data1
          { st1 with totalsize := st1.totalsize + (data1 i).nblocks * BSIZE }
      else
        if (writeBlocks (data1 i).startblkno
            ((data1 i).nblocks - (st1.off - st1.totalsize) / BSIZE)
            ((st1.off - st1.totalsize) / BSIZE) (enterExtent st1)).1 then
          Kres.ok (0, data1, (writeBlocks (data1 i).startblkno
            ((data1 i).nblocks - (st1.off - st1.totalsize) / BSIZE)
            ((st1.off - st1.totalsize) / BSIZE) (enterExtent st1)).2)
        else
          writeExtents sb cnt (i + 1) data1 (writeBlocks (data1 i).startblkno
            ((data1 i).nblocks - (st1.off - st1.totalsize) / BSIZE)
            ((st1.off - st1.totalsize) / BSIZE) (enterExtent st1)).2 := by
  simp only [writeExtents, h, Kres.bind, enterExtent]

/-- If the loop over the extents of `writetoextent` returns, `writeAlloc` returned. -/
theorem writeExtents_alloc_ok (sb : superblock) (cnt i : Nat) (data : Nat → extent)
    (st : wstate) (r : Int × (Nat → extent) × wstate)
    (h : writeExtents sb (cnt + 1) i data st = Kres.ok r) :
    ∃ data1 st1, writeAlloc sb i data st = Kres.ok (data1, st1) := by
  simp only [writeExtents, Kres.bind_ok_iff] at h
  obtain ⟨⟨data1, st1⟩, h1, _⟩ := h
  exact ⟨data1, st1, h1⟩

/-- The position in the first block visited of an extent that is not skipped. -/
theorem inBlock_of_atExtent {off ts : Nat} (h : atExtent off ts) :
    inBlock off (ts + (off - ts) / BSIZE * BSIZE) := by
  obtain ⟨h1, h2⟩ := h
  refine ⟨?_, ?_, ?_⟩ <;> (simp only [BSIZE] at *; omega)

/-- The loop over the extents of `writetoextent` changes only unused slots among the
`cnt` slots from `i`. -/
theorem writeExtents_data (sb : superblock) (cnt : Nat) :
    ∀ (i : Nat) (data : Nat → extent) (st : wstate) (ret : Int) (data' : Nat → extent)
      (st' : wstate), writeExtents sb cnt i data st = Kres.ok (ret, data', st') →
      ∀ j, (j < i ∨ i + cnt ≤ j ∨ (data j).nblocks ≠ 0) → data' j = data j := by
  induction cnt with
  | zero =>
    intro i data st ret data' st' h j _
    simp only [writeExtents, Kres.ok.injEq, Prod.mk.injEq] at h
    rw [← h.2.1]
  | succ cnt ih =>
    intro i data st ret data' st' h j hj
    obtain ⟨data1, st1, ha⟩ := writeExtents_alloc_ok sb cnt i data st _ h
    obtain ⟨_, hd1, hd2⟩ := writeAlloc_data sb i data data1 st st1 ha
    have hj1 : data1 j = data j := by
      rcases hj with hj | hj | hj
      · exact hd1 j (by omega)
      · exact hd1 j (by omega)
      · exact hd2 j hj
    rw [writeExtents_succ sb cnt i data data1 st st1 ha] at h
    split at h
    · rw [ih (i + 1) data1 _ ret data' st' h j (by
        rcases hj with hj | hj | hj
        · left; omega
        · right; left; omega
        · right; right; rw [hj1]; exact hj), hj1]
    · split at h
      · simp only [Kres.ok.injEq, Prod.mk.injEq] at h
        rw [← h.2.1, hj1]
      · rw [ih (i + 1) data1 _ ret data' st' h j (by
          rcases hj with hj | hj | hj
          · left; omega
          · right; left; omega
          · right; right; rw [hj1]; exact hj), hj1]

end Xk

namespace Xk

theorem inUse_of_bitmap_eq (sb : superblock) (disk disk1 : Disk) (k : Nat) (hk : k < sb.size)
    (h : ∀ blk, isBitmapBlock sb blk → disk1 blk = disk blk) :
    inUse sb disk1 k = inUse sb disk k := by
  unfold inUse
  rw [h (BBLOCK k sb) ⟨k, hk, rfl⟩]

/-- The disk after `writeAlloc` differs from the disk before only in blocks of the free
map. -/
theorem writeAlloc_frame (sb : superblock) (i : Nat) (data data1 : Nat → extent)
    (st st1 : wstate) (h : writeAlloc sb i data st = Kres.ok (data1, st1)) (blk : Nat)
    (hb : ¬ isBitmapBlock sb blk) : st1.disk blk = st.disk blk := by
  rcases writeAlloc_ok sb i data data1 st st1 h with
    ⟨_, _, h2⟩ | ⟨_, s, d1, b, hbal, hb1, _, _, h2⟩
  · rw [h2]
  · subst h2
    obtain ⟨_, hfit, _, _, hfr⟩ := balloc_ok sb st.disk b s d1 hbal
    apply hfr
    rintro rfl
    exact hb ⟨s, by have := hfit.1; omega, rfl⟩

/-- The loop over the extents of `writetoextent` changes only blocks of the free map and
blocks of the extents it leaves in the slots it visits. -/
theorem writeExtents_frame (sb : superblock) (cnt : Nat) :
    ∀ (i : Nat) (data : Nat → extent) (st : wstate) (ret : Int) (data' : Nat → extent)
      (st' : wstate), writeExtents sb cnt i data st = Kres.ok (ret, data', st') →
      ∀ blk, ¬ isBitmapBlock sb blk →
        (∀ j, i ≤ j → j < i + cnt → ¬ inExtent (data' j) blk) →
        st'.disk blk = st.disk blk := by
  induction cnt with
  | zero =>
    intro i data st ret data' st' h blk _ _
    simp only [writeExtents, Kres.ok.injEq, Prod.mk.injEq] at h
    rw [← h.2.2]
  | succ cnt ih =>
    intro i data st ret data' st' h blk hb hout
    obtain ⟨data1, st1, ha⟩ := writeExtents_alloc_ok sb cnt i data st _ h
    have hfa := writeAlloc_frame sb i data data1 st st1 ha blk hb
    rw [writeExtents_succ sb cnt i data data1 st st1 ha] at h
    split at h
    · rw [ih (i + 1) data1 _ ret data' st' h blk hb
        (fun j h1 h2 => hout j (by omega) (by omega))]
      exact hfa
    · have hblocks : ∀ data2 : Nat → extent, data2 i = data1 i →
          (∀ j, i ≤ j → j < i + (cnt + 1) → ¬ inExtent (data2 j) blk) →
          (writeBlocks (data1 i).startblkno
            ((data1 i).nblocks - (st1.off - st1.totalsize) / BSIZE)
            ((st1.off - st1.totalsize) / BSIZE) (enterExtent st1)).2.disk blk = st.disk blk := by
        intro data2 h2 hout2
        rw [writeBlocks_frame]
        · exact hfa
        · have := hout2 i (le_refl _) (by omega)
          rw [h2] at this
          unfold inExtent at this
          generalize (st1.off - st1.totalsize) / BSIZE = bd
          omega
      split at h
      · simp only [Kres.ok.injEq, Prod.mk.injEq] at h
        obtain ⟨_, h2, h3⟩ := h
        rw [← h3]
        exact hblocks data' (by rw [h2]) hout
      · rw [ih (i + 1) data1 _ ret data' st' h blk hb
          (fun j h1 h2 => hout j (by omega) (by omega))]
        exact hblocks data'
          (writeExtents_data sb cnt (i + 1) data1 _ ret data' st' h i (Or.inl (by omega))) hout

theorem extentsOK_of_bitmap_eq (sb : superblock) (data : Nat → extent) (disk disk1 : Disk)
    (h : extentsOK sb data disk) (heq : ∀ blk, isBitmapBlock sb blk → disk1 blk = disk blk) :
    extentsOK sb data disk1 := by
  obtain ⟨h1, h2, h3⟩ := h
  refine ⟨fun i blk hi hin => ?_, h2, fun blk hb1 hb2 => ?_⟩
  · obtain ⟨a, b, c⟩ := h1 i blk hi hin
    exact ⟨a, by rw [inUse_of_bitmap_eq sb disk disk1 blk a heq]; exact b, c⟩
  · rw [inUse_of_bitmap_eq sb disk disk1 blk hb1 heq]
    exact h3 blk hb1 hb2

/-- `writeAlloc` keeps the extents consistent with the free map; blocks in use stay in
use, and the blocks of a new extent were free. -/
theorem writeAlloc_extentsOK (sb : superblock) (i : Nat) (hi : i < NEXTENT)
    (data data1 : Nat → extent) (st st1 : wstate)
    (h : writeAlloc sb i data st = Kres.ok (data1, st1)) (hok : extentsOK sb data st.disk) :
    extentsOK sb data1 st1.disk ∧
    (∀ blk, inUse sb st.disk blk = true → inUse sb st1.disk blk = true) ∧
    (∀ j blk, inExtent (data1 j) blk →
      inExtent (data j) blk ∨ (blk < sb.size ∧ inUse sb st.disk blk = false)) := by
  rcases writeAlloc_ok sb i data data1 st st1 h with
    ⟨_, h1, h2⟩ | ⟨hz, s, d1, b, hbal, hb1, _, h1, h2⟩
  · subst h1; subst h2
    exact ⟨hok, fun _ h => h, fun _ _ h => Or.inl h⟩
  · subst h1; subst h2
    obtain ⟨_, ⟨hf1, _, hf3⟩, _, hbits, _⟩ := balloc_ok sb st.disk b s d1 hbal
    obtain ⟨k1, k2, k3⟩ := hok
    have hmono : ∀ blk, inUse sb st.disk blk = true → inUse sb d1 blk = true := by
      intro blk hblk; rw [hbits, hblk]; simp
    have hnew : ∀ blk, inExtent { startblkno := s, nblocks := b } blk →
        blk < sb.size ∧ inUse sb st.disk blk = false := by
      intro blk hin
      simp only [inExtent] at hin
      exact ⟨by omega, hf3 blk hin.1 hin.2⟩
    refine ⟨⟨fun j blk hj hin => ?_, fun j1 j2 blk hj1 hj2 hne hboth => ?_,
      fun blk hb1 hb2 => hmono blk (k3 blk hb1 hb2)⟩, hmono, fun j blk hin => ?_⟩
    · by_cases hji : j = i
      · subst hji
        rw [Function.update_same] at hin
        obtain ⟨a, c⟩ := hnew blk hin
        refine ⟨a, ?_, fun hbm => ?_⟩
        · rw [hbits]
          simp only [inExtent] at hin
          simp [hin.1, hin.2]
        · rw [k3 blk a hbm] at c
          exact Bool.noConfusion c
      · rw [Function.update_noteq hji] at hin
        obtain ⟨a, c, e⟩ := k1 j blk hj hin
        exact ⟨a, hmono blk c, e⟩
    · obtain ⟨hin1, hin2⟩ := hboth
      by_cases hj1i : j1 = i
      · subst hj1i
        rw [Function.update_same] at hin1
        rw [Function.update_noteq (Ne.symm hne)] at hin2
        have := (hnew blk hin1).2
        rw [(k1 j2 blk hj2 hin2).2.1] at this
        exact Bool.noConfusion this
      · rw [Function.update_noteq hj1i] at hin1
        by_cases hj2i : j2 = i
        · subst hj2i
          rw [Function.update_same] at hin2
          have := (hnew blk hin2).2
          rw [(k1 j1 blk hj1 hin1).2.1] at this
          exact Bool.noConfusion this
        · rw [Function.update_noteq hj2i] at hin2
          exact k2 j1 j2 blk hj1 hj2 hne ⟨hin1, hin2⟩
    · by_cases hji : j = i
      · subst hji
        rw [Function.update_same] at hin
        exact Or.inr (hnew blk hin)
      · rw [Function.update_noteq hji] at hin
        exact Or.inl hin

end Xk

namespace Xk

/-- Writing the blocks of an extent that is consistent with the free map leaves the free
map alone. -/
theorem writeBlocks_bitmap (sb : superblock) (data : Nat → extent) (disk : Disk) (i : Nat)
    (hi : i < NEXTENT) (hok : extentsOK sb data disk) (bd : Nat) (st : wstate) (blk : Nat)
    (hb : isBitmapBlock sb blk) :
    (writeBlocks (data i).startblkno ((data i).nblocks - bd) bd st).2.disk blk
      = st.disk blk := by
  apply writeBlocks_frame
  intro hin
  have : inExtent (data i) blk := by
    unfold inExtent
    omega
  exact (hok.1 i blk hi this).2.2 hb

/-- The loop over the extents of `writetoextent` keeps the extents consistent with the
free map; blocks in use stay in use, and the blocks of new extents were free. -/
theorem writeExtents_extentsOK (sb : superblock) (cnt : Nat) :
    ∀ (i : Nat) (data : Nat → extent) (st : wstate) (ret : Int) (data' : Nat → extent)
      (st' : wstate), i + cnt ≤ NEXTENT → extentsOK sb data st.disk →
      writeExtents sb cnt i data st = Kres.ok (ret, data', st') →
      extentsOK sb data' st'.disk ∧
      (∀ blk, blk < sb.size → inUse sb st.disk blk = true → inUse sb st'.disk blk = true) ∧
      (∀ j blk, inExtent (data' j) blk →
        inExtent (data j) blk ∨ (blk < sb.size ∧ inUse sb st.disk blk = false)) := by
  induction cnt with
  | zero =>
    intro i data st ret data' st' _ hok h
    simp only [writeExtents, Kres.ok.injEq, Prod.mk.injEq] at h
    obtain ⟨_, h2, h3⟩ := h
    subst h2; subst h3
    exact ⟨hok, fun _ _ h => h, fun _ _ h => Or.inl h⟩
  | succ cnt ih =>
    intro i data st ret data' st' hi hok h
    obtain ⟨data1, st1, ha⟩ := writeExtents_alloc_ok sb cnt i data st _ h
    obtain ⟨a1, a2, a3⟩ := writeAlloc_extentsOK sb i (by omega) data data1 st st1 ha hok
    have hfree : ∀ blk, blk < sb.size → inUse sb st1.disk blk = false →
        inUse sb st.disk blk = false := by
      intro blk _ hf
      cases hu : inUse sb st.disk blk
      · rfl
      · rw [a2 blk hu] at hf; exact hf
    have combine : ∀ (d : Disk),
        (∀ blk, blk < sb.size → inUse sb d blk = inUse sb st1.disk blk) →
        (extentsOK sb data' st'.disk ∧
          (∀ blk, blk < sb.size → inUse sb d blk = true → inUse sb st'.disk blk = true) ∧
          (∀ j blk, inExtent (data' j) blk →
            inExtent (data1 j) blk ∨ (blk < sb.size ∧ inUse sb d blk = false))) →
        extentsOK sb data' st'.disk ∧
          (∀ blk, blk < sb.size → inUse sb st.disk blk = true →
            inUse sb st'.disk blk = true) ∧
          (∀ j blk, inExtent (data' j) blk →
            inExtent (data j) blk ∨ (blk < sb.size ∧ inUse sb st.disk blk = false)) := by
      intro d hd ⟨b1, b2, b3⟩
      refine ⟨b1, fun blk hblk hu => b2 blk hblk (by rw [hd blk hblk]; exact a2 blk hu),
        fun j blk hin => ?_⟩
      rcases b3 j blk hin with h1 | ⟨h1, h2⟩
      · exact a3 j blk h1
      · rw [hd blk h1] at h2
        exact Or.inr ⟨h1, hfree blk h1 h2⟩
    rw [writeExtents_succ sb cnt i data data1 st st1 ha] at h
    split at h
    · exact combine st1.disk (fun _ _ => rfl)
        (ih (i + 1) data1 { st1 with totalsize := st1.totalsize + (data1 i).nblocks * BSIZE }
          ret data' st' (by omega) a1 h)
    · have hbm : ∀ blk, isBitmapBlock sb blk →
          (writeBlocks (data1 i).startblkno
            ((data1 i).nblocks - (st1.off - st1.totalsize) / BSIZE)
            ((st1.off - st1.totalsize) / BSIZE) (enterExtent st1)).2.disk blk
            = st1.disk blk := fun blk hb =>
        writeBlocks_bitmap sb data1 st1.disk i (by omega) a1 _ (enterExtent st1) blk hb
      have hok2 := extentsOK_of_bitmap_eq sb data1 st1.disk _ a1 hbm
      have hin2 := fun blk (hblk : blk < sb.size) =>
        inUse_of_bitmap_eq sb st1.disk _ blk hblk hbm
      split at h
      · simp only [Kres.ok.injEq, Prod.mk.injEq] at h
        obtain ⟨_, h2, h3⟩ := h
        subst h2; subst h3
        exact combine _ hin2 ⟨hok2, fun _ _ h => h, fun _ _ h => Or.inl h⟩
      · exact combine _ hin2 (ih (i + 1) data1 _ ret data' st' (by omega) hok2 h)

/-- A write that fits in the populated extents allocates nothing: the loop over the
extents of `writetoextent` returns 0, leaves the extent array as it was and changes only
blocks of the extents it visits. -/
theorem writeExtents_inplace (sb : superblock) (cnt : Nat) :
    ∀ (i : Nat) (data : Nat → extent) (st : wstate),
      atExtent st.off st.totalsize → 1 ≤ st.n →
      (st.off - st.totalsize) + st.n ≤ capFrom data cnt i →
      ∃ st', writeExtents sb cnt i data st = Kres.ok (0, data, st') ∧
        ∀ blk, (∀ j, i ≤ j → j < i + cnt → ¬ inExtent (data j) blk) →
          st'.disk blk = st.disk blk := by
  induction cnt with
  | zero =>
    intro i data st _ hn hcap
    simp only [capFrom] at hcap
    omega
  | succ cnt ih =>
    intro i data st hP hn hcap
    have hz : (data i).nblocks ≠ 0 := by
      intro hz
      simp only [capFrom, hz, if_true] at hcap
      omega
    simp only [capFrom, hz, if_false] at hcap
    rw [writeExtents_succ sb cnt i data data st st (writeAlloc_populated sb i data st hz)]
    obtain ⟨p1, p2⟩ := hP
    by_cases hskip : st.off > st.totalsize + (data i).nblocks * BSIZE
    · rw [if_pos hskip]
      obtain ⟨st', h1, h2⟩ := ih (i + 1) data
        { st with totalsize := st.totalsize + (data i).nblocks * BSIZE }
        ⟨by simp only []; omega, by simp only [BSIZE] at *; omega⟩ hn
        (by simp only []; omega)
      exact ⟨st', h1, fun blk hout => h2 blk (fun j hj1 hj2 => hout j (by omega) (by omega))⟩
    · rw [if_neg hskip]
      have hQ : inBlock (enterExtent st).off (enterExtent st).totalsize :=
        inBlock_of_atExtent ⟨p1, p2⟩
      obtain ⟨w1, w2, w3, w4⟩ := writeBlocks_spec (data i).startblkno
        ((data i).nblocks - (st.off - st.totalsize) / BSIZE)
        ((st.off - st.totalsize) / BSIZE) (enterExtent st) _ hQ rfl
      have hfr : ∀ blk, ¬ inExtent (data i) blk →
          (writeBlocks (data i).startblkno
            ((data i).nblocks - (st.off - st.totalsize) / BSIZE)
            ((st.off - st.totalsize) / BSIZE) (enterExtent st)).2.disk blk = st.disk blk := by
        intro blk hout
        rw [writeBlocks_frame]
        · rfl
        · unfold inExtent at hout
          generalize (st.off - st.totalsize) / BSIZE = bd
          omega
      generalize hwr : writeBlocks (data i).startblkno
        ((data i).nblocks - (st.off - st.totalsize) / BSIZE)
        ((st.off - st.totalsize) / BSIZE) (enterExtent st) = wr at *
      cases hflag : wr.1
      · rw [if_neg (by simp)]
        obtain ⟨v1, v2, v3⟩ := w4 hflag
        simp only [enterExtent] at v1 v2 v3 w1
        have hnext : atExtent wr.2.off wr.2.totalsize ∧ 1 ≤ wr.2.n ∧
            (wr.2.off - wr.2.totalsize) + wr.2.n ≤ capFrom data cnt (i + 1) := by
          unfold atExtent
          simp only [BSIZE] at *
          by_cases hc : (data i).nblocks - (st.off - st.totalsize) / 512 = 0
          · rw [v3 hc]
            dsimp only
            refine ⟨⟨?_, ?_⟩, ?_, ?_⟩ <;> omega
          · obtain ⟨u1, u2, u3⟩ := v2 (by omega)
            rw [u2]
            refine ⟨⟨le_refl _, ?_⟩, ?_, ?_⟩
            · rw [u3]; omega
            · omega
            · omega
        obtain ⟨st', h1, h2⟩ := ih (i + 1) data wr.2 hnext.1 hnext.2.1 hnext.2.2
        refine ⟨st', h1, fun blk hout => ?_⟩
        rw [h2 blk (fun j hj1 hj2 => hout j (by omega) (by omega))]
        exact hfr blk (hout i (le_refl _) (by omega))
      · rw [if_pos rfl]
        exact ⟨wr.2, rfl, fun blk hout => hfr blk (hout i (le_refl _) (by omega))⟩

end Xk

namespace Xk

/-- One iteration of the loop over the extents of `readfromextent` at a populated slot. -/
theorem readExtents_succ (D : Disk) (data : Nat → extent) (cnt i : Nat) (rs : rstate)
    (hz : (data i).nblocks ≠ 0) :
    readExtents D data (cnt + 1) i rs =
      if rs.off > rs.totalsize + (data i).nblocks * BSIZE then
        readExtents D data cnt (i + 1)
          { rs with totalsize := rs.totalsize + (data i).nblocks * BSIZE }
      else
        if (readBlocks D (data i).startblkno
            ((data i).nblocks - (rs.off - rs.totalsize) / BSIZE)
            ((rs.off - rs.totalsize) / BSIZE) (enterExtentR rs)).1 then
          (0, (readBlocks D (data i).startblkno
            ((data i).nblocks - (rs.off - rs.totalsize) / BSIZE)
            ((rs.off - rs.totalsize) / BSIZE) (enterExtentR rs)).2)
        else
          readExtents D data cnt (i + 1) (readBlocks D (data i).startblkno
            ((data i).nblocks - (rs.off - rs.totalsize) / BSIZE)
            ((rs.off - rs.totalsize) / BSIZE) (enterExtentR rs)).2 := by
  simp only [readExtents, hz, if_false, enterExtentR]

/-- Round trip of the extent walk: when the loop over the extents of `writetoextent`
returns 0, the loop over the extents of `readfromextent`, started at the same position on
the extents it left and on a disk that holds what it left in their blocks, returns 0 too
and stores the bytes that were written. -/
theorem readExtents_sim (sb : superblock) (cnt : Nat) :
    ∀ (i : Nat) (data : Nat → extent) (ws : wstate) (rs : rstate) (D : Disk)
      (data' : Nat → extent) (ws' : wstate),
      i + cnt ≤ NEXTENT →
      atExtent ws.off ws.totalsize → atExtent rs.off rs.totalsize →
      rs.off - rs.totalsize = ws.off - ws.totalsize → rs.n = ws.n →
      1 ≤ ws.n → ws.n ≤ ws.src.length →
      writeExtents sb cnt i data ws = Kres.ok (0, data', ws') →
      (∀ j1 j2 blk, j1 < NEXTENT → j2 < NEXTENT → j1 ≠ j2 →
        ¬ (inExtent (data' j1) blk ∧ inExtent (data' j2) blk)) →
      (∀ j blk, j < NEXTENT → inExtent (data' j) blk → ¬ isBitmapBlock sb blk) →
      (∀ j blk, j < NEXTENT → inExtent (data' j) blk → D blk = ws'.disk blk) →
      (readExtents D data' cnt i rs).1 = 0 ∧
        (readExtents D data' cnt i rs).2.dst = rs.dst ++ ws.src.take ws.n := by
  induction cnt with
  | zero =>
    intro i data ws rs D data' ws' _ _ _ _ _ _ _ h
    simp [writeExtents] at h
  | succ cnt ih =>
    intro i data ws rs D data' ws' hi hPw hPr hrel hn hn1 hlen h hdis hbm hD
    obtain ⟨data1, ws1, ha⟩ := writeExtents_alloc_ok sb cnt i data ws _ h
    obtain ⟨hz1, _, _⟩ := writeAlloc_data sb i data data1 ws ws1 ha
    obtain ⟨hP1, hrel1, hn1', hsrc1⟩ := writeAlloc_pos sb i data data1 ws ws1 ha hPw
    rw [writeExtents_succ sb cnt i data data1 ws ws1 ha] at h
    rw [← hsrc1, ← hn1']
    have hrel2 : rs.off - rs.totalsize = ws1.off - ws1.totalsize := by rw [hrel, hrel1]
    have hn2 : rs.n = ws1.n := by rw [hn, hn1']
    have hn3 : 1 ≤ ws1.n := by rw [hn1']; exact hn1
    have hlen2 : ws1.n ≤ ws1.src.length := by rw [hn1', hsrc1]; exact hlen
    obtain ⟨q1, q2⟩ := hP1
    obtain ⟨r1, r2⟩ := hPr
    by_cases hskip : ws1.off > ws1.totalsize + (data1 i).nblocks * BSIZE
    · rw [if_pos hskip] at h
      have hdi : data' i = data1 i :=
        writeExtents_data sb cnt (i + 1) data1 _ 0 data' ws' h i (Or.inl (by omega))
      rw [readExtents_succ D data' cnt i rs (by rw [hdi]; exact hz1), hdi]
      have hskipR : rs.off > rs.totalsize + (data1 i).nblocks * BSIZE := by omega
      rw [if_pos hskipR]
      exact ih (i + 1) data1
        { ws1 with totalsize := ws1.totalsize + (data1 i).nblocks * BSIZE }
        { rs with totalsize := rs.totalsize + (data1 i).nblocks * BSIZE } D data' ws'
        (by omega)
        ⟨by dsimp only; omega, by dsimp only; simp only [BSIZE] at *; omega⟩
        ⟨by dsimp only; omega, by dsimp only; simp only [BSIZE] at *; omega⟩
        (by dsimp only; omega) hn2 hn3 hlen2 h hdis hbm hD
    · rw [if_neg hskip] at h
      have hbd : (rs.off - rs.totalsize) / BSIZE = (ws1.off - ws1.totalsize) / BSIZE := by
        rw [hrel2]
      have hQw : inBlock (enterExtent ws1).off (enterExtent ws1).totalsize :=
        inBlock_of_atExtent ⟨q1, q2⟩
      have hQr : inBlock (enterExtentR rs).off (enterExtentR rs).totalsize :=
        inBlock_of_atExtent ⟨r1, r2⟩
      have hrel3 : (enterExtentR rs).off - (enterExtentR rs).totalsize
          = (enterExtent ws1).off - (enterExtent ws1).totalsize := by
        simp only [enterExtent, enterExtentR, hbd]
        omega
      obtain ⟨w1, w2, w3, w4⟩ := writeBlocks_spec (data1 i).startblkno
        ((data1 i).nblocks - (ws1.off - ws1.totalsize) / BSIZE)
        ((ws1.off - ws1.totalsize) / BSIZE) (enterExtent ws1) _ hQw rfl
      have hsim := readBlocks_sim (data1 i).startblkno
        ((data1 i).nblocks - (ws1.off - ws1.totalsize) / BSIZE)
        ((ws1.off - ws1.totalsize) / BSIZE) (enterExtent ws1) (enterExtentR rs) D _
        hQw hQr hrel3 hn2 hlen2 rfl
      generalize hwr : writeBlocks (data1 i).startblkno
        ((data1 i).nblocks - (ws1.off - ws1.totalsize) / BSIZE)
        ((ws1.off - ws1.totalsize) / BSIZE) (enterExtent ws1) = wr at *
      have hinext : ∀ t, t < (data1 i).nblocks - (ws1.off - ws1.totalsize) / BSIZE →
          inExtent (data1 i)
            ((data1 i).startblkno + (ws1.off - ws1.totalsize) / BSIZE + t) := by
        intro t ht
        unfold inExtent
        generalize (ws1.off - ws1.totalsize) / BSIZE = bd at *
        omega
      have hskipR : ¬ rs.off > rs.totalsize + (data1 i).nblocks * BSIZE := by omega
      cases hflag : wr.1
      · -- the block loop ran out of blocks: the walk goes on with the next extent
        rw [hflag] at h
        rw [if_neg (by simp)] at h
        have hdi : data' i = data1 i :=
          writeExtents_data sb cnt (i + 1) data1 _ 0 data' ws' h i (Or.inl (by omega))
        rw [readExtents_succ D data' cnt i rs (by rw [hdi]; exact hz1), hdi, if_neg hskipR,
          hbd]
        obtain ⟨s1, s2, s3, s4, s5⟩ := hsim (by
          intro t ht
          have hin : inExtent (data' i)
              ((data1 i).startblkno + (ws1.off - ws1.totalsize) / BSIZE + t) := by
            rw [hdi]; exact hinext t ht
          rw [hD i _ (by omega) hin]
          apply writeExtents_frame sb cnt (i + 1) data1 wr.2 0 data' ws' h _
            (hbm i _ (by omega) hin)
          intro j hj1 hj2 hin2
          exact hdis i j _ (by omega) (by omega) (by omega) ⟨hin, hin2⟩)
        rw [hflag] at s1
        rw [s1, if_neg (by simp)]
        obtain ⟨v1, v2, v3⟩ := w4 hflag
        have hsrc : wr.2.src.length = ws1.src.length - (ws1.n - wr.2.n) := by
          rw [w2]; simp [enterExtent]
        have hw1 : wr.2.n ≤ ws1.n := w1
        have hnext : atExtent wr.2.off wr.2.totalsize ∧ 1 ≤ wr.2.n ∧
            atExtent (readBlocks D (data1 i).startblkno
              ((data1 i).nblocks - (ws1.off - ws1.totalsize) / BSIZE)
              ((ws1.off - ws1.totalsize) / BSIZE) (enterExtentR rs)).2.off
              (readBlocks D (data1 i).startblkno
              ((data1 i).nblocks - (ws1.off - ws1.totalsize) / BSIZE)
              ((ws1.off - ws1.totalsize) / BSIZE) (enterExtentR rs)).2.totalsize ∧
            (readBlocks D (data1 i).startblkno
              ((data1 i).nblocks - (ws1.off - ws1.totalsize) / BSIZE)
              ((ws1.off - ws1.totalsize) / BSIZE) (enterExtentR rs)).2.off
              - (readBlocks D (data1 i).startblkno
              ((data1 i).nblocks - (ws1.off - ws1.totalsize) / BSIZE)
              ((ws1.off - ws1.totalsize) / BSIZE) (enterExtentR rs)).2.totalsize
              = wr.2.off - wr.2.totalsize := by
          by_cases hc : (data1 i).nblocks - (ws1.off - ws1.totalsize) / BSIZE = 0
          · rw [v3 hc, s5 hc]
            have a1 := hQw.1
            have a2 := hQw.2.2
            have a3 := hQr.1
            have a4 := hQr.2.2
            exact ⟨⟨a1, a2⟩, hn3, ⟨a3, a4⟩, hrel3⟩
          · obtain ⟨u1, u2, u3⟩ := v2 (by omega)
            obtain ⟨t1, t2⟩ := s4 hflag (by omega)
            refine ⟨⟨by omega, ?_⟩, ?_, ⟨by omega, t2⟩, by omega⟩
            · rw [u3]
              have := hQw.2.2
              simp only [BSIZE] at *
              omega
            · simp only [enterExtent] at v1 u1
              omega
        obtain ⟨n1, n2, n3, n4⟩ := hnext
        obtain ⟨e1, e2⟩ := ih (i + 1) data1 wr.2 _ D data' ws' (by omega) n1 n3 n4 s3 n2
          (by rw [hsrc]; omega) h hdis hbm hD
        refine ⟨e1, ?_⟩
        rw [e2, s2, w2, List.append_assoc]
        congr 1
        simp only [enterExtent]
        have e : ws1.n = (ws1.n - wr.2.n) + wr.2.n := by omega
        conv_rhs => rw [e, List.take_add]
      · -- the block loop returned: all bytes are written
        rw [hflag] at h
        rw [if_pos rfl] at h
        simp only [Kres.ok.injEq, Prod.mk.injEq, true_and] at h
        obtain ⟨h2, h3⟩ := h
        subst h2
        rw [readExtents_succ D data1 cnt i rs hz1, if_neg hskipR, hbd]
        obtain ⟨s1, s2, s3, _, _⟩ := hsim (by
          intro t ht
          rw [h3]
          exact hD i _ (by omega) (hinext t ht))
        rw [hflag] at s1
        rw [s1, if_pos rfl]
        obtain ⟨_, _, u3⟩ := w3 hflag
        refine ⟨rfl, ?_⟩
        rw [s2, u3]
        simp [enterExtent, enterExtentR]

end Xk

namespace Xk

/-! ## `readfromextent` and `writetoextent` -/

/-- Round trip at the level of `writetoextent` and `readfromextent`: after a
`writetoextent` that returns 0 and leaves extents that share no block with each other or
with the free map, `readfromextent` at the same offset, on any disk that agrees with the
resulting disk on the blocks of the inode, returns 0 and yields the bytes written. -/
theorem writetoextent_readback_apart (sb : superblock) (disk : Disk) (node : inode)
    (src : List Nat) (off n : Nat) (node1 : inode) (disk1 : Disk)
    (hn : 1 ≤ n) (hlen : n ≤ src.length)
    (h : writetoextent sb disk node src off n = Kres.ok (0, node1, disk1))
    (hap : extentsApart sb node1.data) (D : Disk)
    (hD : ∀ j blk, j < NEXTENT → inExtent (node1.data j) blk → D blk = disk1 blk) :
    readfromextent D node1 off n = (0, src.take n) := by
  unfold writetoextent at h
  simp only [Kres.bind_ok_iff] at h
  obtain ⟨⟨ret, data', ws'⟩, hw, hr⟩ := h
  simp only [Kres.ok.injEq, Prod.mk.injEq] at hr
  obtain ⟨hr1, hr2, hr3⟩ := hr
  subst hr1; subst hr2; subst hr3
  obtain ⟨s1, s2⟩ := readExtents_sim sb NEXTENT 0 node.data
    { disk := disk, src := src, off := off, n := n, totalsize := 0, writing := false }
    { dst := [], off := off, n := n, totalsize := 0, reading := false } D data' ws'
    (by omega) ⟨Nat.zero_le _, rfl⟩ ⟨Nat.zero_le _, rfl⟩ rfl rfl hn hlen hw hap.1 hap.2 hD
  unfold readfromextent
  simp only [List.nil_append] at s2
  exact Prod.ext s1 s2

/-- After a `writetoextent` that returns 0 on an inode whose extents are consistent with
the free map, the extents stay consistent, blocks in use stay in use, and the blocks of
new extents were free. -/
theorem writetoextent_extentsOK (sb : superblock) (disk : Disk) (node : inode)
    (src : List Nat) (off n : Nat) (ret : Int) (node1 : inode) (disk1 : Disk)
    (hok : extentsOK sb node.data disk)
    (h : writetoextent sb disk node src off n = Kres.ok (ret, node1, disk1)) :
    extentsOK sb node1.data disk1 ∧
    (∀ blk, blk < sb.size → inUse sb disk blk = true → inUse sb disk1 blk = true) ∧
    (∀ j blk, inExtent (node1.data j) blk →
      inExtent (node.data j) blk ∨ (blk < sb.size ∧ inUse sb disk blk = false)) := by
  unfold writetoextent at h
  simp only [Kres.bind_ok_iff] at h
  obtain ⟨⟨ret1, data', ws'⟩, hw, hr⟩ := h
  simp only [Kres.ok.injEq, Prod.mk.injEq] at hr
  obtain ⟨hr1, hr2, hr3⟩ := hr
  subst hr1; subst hr2; subst hr3
  exact writeExtents_extentsOK sb NEXTENT 0 node.data _ _ _ _ (by omega) hok hw

theorem extentsOK_apart (sb : superblock) (data : Nat → extent) (disk : Disk)
    (h : extentsOK sb data disk) : extentsApart sb data :=
  ⟨h.2.1, fun i blk hi hin => (h.1 i blk hi hin).2.2⟩

/-- A write that fits in the populated extents: `writetoextent` returns 0 with the inode
as it was, and only blocks of the inode's extents change. -/
theorem writetoextent_inplace (sb : superblock) (disk : Disk) (node : inode)
    (src : List Nat) (off n : Nat) (hn : 1 ≤ n)
    (hcap : off + n ≤ capFrom node.data NEXTENT 0) :
    ∃ disk1, writetoextent sb disk node src off n = Kres.ok (0, node, disk1) ∧
      ∀ blk, (∀ j, j < NEXTENT → ¬ inExtent (node.data j) blk) → disk1 blk = disk blk := by
  obtain ⟨st', h1, h2⟩ := writeExtents_inplace sb NEXTENT 0 node.data
    { disk := disk, src := src, off := off, n := n, totalsize := 0, writing := false }
    ⟨Nat.zero_le _, rfl⟩ hn hcap
  refine ⟨st'.disk, ?_, fun blk hout => h2 blk (fun j _ hj => hout j (by omega))⟩
  unfold writetoextent
  rw [h1]
  simp only [Kres.bind]

/-- `writetoextent` changes no field of the inode other than the extent array. -/
theorem writetoextent_fields (sb : superblock) (disk : Disk) (node : inode)
    (src : List Nat) (off n : Nat) (ret : Int) (node1 : inode) (disk1 : Disk)
    (h : writetoextent sb disk node src off n = Kres.ok (ret, node1, disk1)) :
    node1 = { node with data := node1.data } := by
  unfold writetoextent at h
  simp only [Kres.bind_ok_iff] at h
  obtain ⟨⟨ret1, data', ws'⟩, _, hr⟩ := h
  simp only [Kres.ok.injEq, Prod.mk.injEq] at hr
  rw [← hr.2.1]

/-! ## The inode record -/

theorem flatMap_length_const (f : Nat → List Nat) (c : Nat) (hf : ∀ i, (f i).length = c) :
    ∀ n, ((List.range n).flatMap f).length = c * n := by
  intro n
  induction n with
  | zero => simp
  | succ n ih =>
    rw [List.range_succ, List.flatMap_append, List.length_append, ih]
    simp [hf, Nat.mul_succ]

theorem dinodeBytes_length (d : dinode) : (dinodeBytes d).length = DINODE_SIZE := by
  have h := flatMap_length_const
    (fun i => le32 (d.data i).startblkno ++ le32 (d.data i).nblocks) 8
    (fun i => by simp [le32]) NEXTENT
  simp only [dinodeBytes, List.length_append, h]
  simp [le16, le32, NEXTENT, DINODE_SIZE]

end Xk

namespace Xk

/-! ## `writei`, `readi` and the inode record -/

/-- The body of `writei` on a locked inode that is not a device, for `n >= 1`. -/
theorem writei_unfold (cfg : Config) (fuel : Nat) (s : Kernel) (p : iptr) (src : List Nat)
    (off n : Nat) (hlock : (s.get p).lock = true) (htype : (s.get p).type ≠ T_DEV)
    (hn : 1 ≤ n) :
    writei cfg (fuel + 1) s p src off n =
      (writetoextent cfg.sb s.disk (s.get p) src off n).bind fun r =>
        if r.1 = -1 then Kres.ok (-1, ({ s with disk := r.2.2 }).set p r.2.1)
        else if (off + n) % 2 ^ 32 > r.2.1.size then
          (write_dinode_with (writei cfg fuel) cfg
              ((({ s with disk := r.2.2 }).set p r.2.1).set p
                { r.2.1 with size := (off + n) % 2 ^ 32 })
              r.2.1.inum
              { type := r.2.1.type, devid := r.2.1.devid, size := (off + n) % 2 ^ 32,
                data := r.2.1.data }).bind
            fun s3 => Kres.ok ((n : Int), s3)
        else Kres.ok ((n : Int), ({ s with disk := r.2.2 }).set p r.2.1) := by
  have hn0 : ¬ n ≤ 0 := by omega
  simp only [writei, hlock, htype, hn0, if_false, Bool.true_eq_false]

theorem locki_inodefile_ok (cfg : Config) (s : Kernel) (href : s.inodefile.ref ≥ 1)
    (hvalid : s.inodefile.valid ≠ 0) (hlock : s.inodefile.lock = false) :
    locki cfg s iptr.inodefile
      = Kres.ok { s with inodefile := { s.inodefile with lock := true } } := by
  have h1 : ¬ s.inodefile.ref < 1 := by omega
  simp [locki, locki_inodefile, h1, hlock, hvalid]

end Xk

namespace Xk

/-- `readfromextent` looks only at the extent array of the inode. -/
theorem readfromextent_data (D : Disk) (node node1 : inode) (off n : Nat)
    (h : node1.data = node.data) :
    readfromextent D node1 off n = readfromextent D node off n := by
  unfold readfromextent
  rw [h]

/-- `writei` on the locked inode file, for bytes that lie within its size and within its
populated extents: it returns `n`, changes only blocks of the inode file on disk and
nothing in the cache, and the bytes can be read back. -/
theorem writei_inodefile_inplace (cfg : Config) (fuel : Nat) (t : Kernel) (src : List Nat)
    (off n : Nat) (hlock : t.inodefile.lock = true) (htype : t.inodefile.type ≠ T_DEV)
    (hn : 1 ≤ n) (hlen : n ≤ src.length) (hsize : off + n ≤ t.inodefile.size)
    (hcap : off + n ≤ capFrom t.inodefile.data NEXTENT 0)
    (hap : extentsApart cfg.sb t.inodefile.data) :
    ∃ disk1, writei cfg (fuel + 1) t iptr.inodefile src off n
        = Kres.ok ((n : Int), { t with disk := disk1 }) ∧
      (∀ blk, (∀ j, j < NEXTENT → ¬ inExtent (t.inodefile.data j) blk) →
        disk1 blk = t.disk blk) ∧
      readfromextent disk1 t.inodefile off n = (0, src.take n) := by
  obtain ⟨disk1, h1, h2⟩ := writetoextent_inplace cfg.sb t.disk t.inodefile src off n hn hcap
  refine ⟨disk1, ?_, h2, ?_⟩
  · rw [writei_unfold cfg fuel t iptr.inodefile src off n hlock htype hn]
    simp only [Kernel.get, h1, Kres.bind]
    have hne : ¬ ((0 : Int) = -1) := by decide
    have hgrow : ¬ ((off + n) % 2 ^ 32 > t.inodefile.size) := by
      have := Nat.mod_le (off + n) (2 ^ 32)
      omega
    rw [if_neg hne, if_neg hgrow]
    rfl
  · exact writetoextent_readback_apart cfg.sb t.disk t.inodefile src off n t.inodefile disk1
      hn hlen h1 hap disk1 (fun _ _ _ _ => rfl)

/-- `write_dinode` of a record that can be written in place: it returns, changes only
blocks of the inode file on disk and nothing in the cache, and the bytes of the record
can be read back from the inode file. -/
theorem write_dinode_inplace (cfg : Config) (fuel : Nat) (s : Kernel) (inum : Nat)
    (dip : dinode) (hok : inodefileOK cfg s inum) :
    ∃ s3, write_dinode_with (writei cfg (fuel + 1)) cfg s inum dip = Kres.ok s3 ∧
      s3.slots = s.slots ∧ s3.inodefile = s.inodefile ∧
      (∀ blk, (∀ j, j < NEXTENT → ¬ inExtent (s.inodefile.data j) blk) →
        s3.disk blk = s.disk blk) ∧
      readfromextent s3.disk s.inodefile (INODEOFF inum) DINODE_SIZE
        = (0, dinodeBytes dip) := by
  obtain ⟨href, hvalid, htype, hap, _, hsize, hcap⟩ := hok
  have hlen := dinodeBytes_length dip
  have htake : (dinodeBytes dip).take DINODE_SIZE = dinodeBytes dip := by
    rw [← hlen, List.take_length]
  cases hl : s.inodefile.lock
  · -- the lock of the inode file is taken and released around the write
    obtain ⟨disk1, w1, w2, w3⟩ := writei_inodefile_inplace cfg fuel
      { s with inodefile := { s.inodefile with lock := true } } (dinodeBytes dip)
      (INODEOFF inum) DINODE_SIZE rfl htype (by decide) (by rw [hlen]) hsize hcap hap
    refine ⟨{ s with disk := disk1 }, ?_, rfl, rfl, w2, ?_⟩
    · have hlk := locki_inodefile_ok cfg s href hvalid hl
      have h1 : ¬ s.inodefile.ref < 1 := by omega
      unfold write_dinode_with
      simp only [hl, Bool.false_eq_true, if_false]
      rw [hlk]
      simp only [Kres.bind]
      rw [w1]
      simp only [unlocki, Kernel.get, Kernel.set, h1, or_false, if_false, Bool.true_eq_false]
      congr 1
      cases hs : s.inodefile
      rw [hs] at hl
      simp only at hl
      subst hl
      rfl
    · rw [← htake, ← w3]
      exact readfromextent_data _ _ _ _ _ rfl
  · obtain ⟨disk1, w1, w2, w3⟩ := writei_inodefile_inplace cfg fuel s (dinodeBytes dip)
      (INODEOFF inum) DINODE_SIZE hl htype (by decide) (by rw [hlen]) hsize hcap hap
    refine ⟨{ s with disk := disk1 }, ?_, rfl, rfl, w2, ?_⟩
    · simp only [write_dinode_with, hl, if_true, Kres.bind, w1]
    · rw [← htake, ← w3]

end Xk

namespace Xk

theorem writeExtents_ret (sb : superblock) (cnt : Nat) :
    ∀ (i : Nat) (data : Nat → extent) (st : wstate) (ret : Int) (data' : Nat → extent)
      (st' : wstate), writeExtents sb cnt i data st = Kres.ok (ret, data', st') →
      ret = 0 ∨ ret = -1 := by
  induction cnt with
  | zero =>
    intro i data st ret data' st' h
    simp only [writeExtents, Kres.ok.injEq, Prod.mk.injEq] at h
    exact Or.inr h.1.symm
  | succ cnt ih =>
    intro i data st ret data' st' h
    obtain ⟨data1, st1, ha⟩ := writeExtents_alloc_ok sb cnt i data st _ h
    rw [writeExtents_succ sb cnt i data data1 st st1 ha] at h
    split at h
    · exact ih _ _ _ _ _ _ h
    · split at h
      · simp only [Kres.ok.injEq, Prod.mk.injEq] at h
        exact Or.inl h.1.symm
      · exact ih _ _ _ _ _ _ h

theorem writetoextent_ret (sb : superblock) (disk : Disk) (node : inode)
    (src : List Nat) (off n : Nat) (ret : Int) (node1 : inode) (disk1 : Disk)
    (h : writetoextent sb disk node src off n = Kres.ok (ret, node1, disk1)) :
    ret = 0 ∨ ret = -1 := by
  unfold writetoextent at h
  simp only [Kres.bind_ok_iff] at h
  obtain ⟨⟨ret1, data', ws'⟩, hw, hr⟩ := h
  simp only [Kres.ok.injEq, Prod.mk.injEq] at hr
  rw [← hr.1]
  exact writeExtents_ret sb _ _ _ _ _ _ _ hw

/-- `readi` on a locked inode that is not a device, for a range within its size whose
bytes `readfromextent` can fetch. -/
theorem readi_file (cfg : Config) (t : Kernel) (p : iptr) (off n : Nat) (bytes : List Nat)
    (hlock : (t.get p).lock = true) (htype : (t.get p).type ≠ T_DEV)
    (hsz : off + n ≤ (t.get p).size) (h32 : off + n < 2 ^ 32)
    (hrd : readfromextent t.disk (t.get p) off n = (0, bytes)) :
    readi cfg t p off n = Kres.ok ((n : Int), bytes) := by
  have hmod : (off + n) % 2 ^ 32 = off + n := Nat.mod_eq_of_lt h32
  have c1 : ¬ (off > (t.get p).size ∨ (off + n) % 2 ^ 32 < off) := by
    rw [hmod]; omega
  have c2 : ¬ ((off + n) % 2 ^ 32 > (t.get p).size) := by
    rw [hmod]; omega
  have c3 : ¬ ((0 : Int) = -1) := by decide
  simp only [readi, hlock, htype, c1, c2, if_false, hrd, c3, Bool.true_eq_false]

/-- What a `writei` that does not return -1 did, on a cached file that is not a device:
`writetoextent` returned 0, and the state is the one after the size update. -/
theorem writei_ok_cases (cfg : Config) (fuel : Nat) (s : Kernel) (k : Nat) (src : List Nat)
    (off n : Nat) (r : Int) (s' : Kernel) (htype : (s.slots k).type ≠ T_DEV)
    (h32 : off + n < 2 ^ 32)
    (h : writei cfg fuel s (iptr.slot k) src off n = Kres.ok (r, s')) (hr : r ≠ -1) :
    (s.slots k).lock = true ∧ 1 ≤ n ∧ r = (n : Int) ∧
    ∃ ip1 disk1 f, fuel = f + 1 ∧
      writetoextent cfg.sb s.disk (s.slots k) src off n = Kres.ok (0, ip1, disk1) ∧
      ip1 = { s.slots k with data := ip1.data } ∧
      ((¬ (off + n > (s.slots k).size) ∧
          s' = ({ s with disk := disk1 }).set (iptr.slot k) ip1) ∨
       (off + n > (s.slots k).size ∧
          write_dinode_with (writei cfg f) cfg
            ((({ s with disk := disk1 }).set (iptr.slot k) ip1).set (iptr.slot k)
              { ip1 with size := off + n })
            ip1.inum
            { type := ip1.type, devid := ip1.devid, size := off + n, data := ip1.data }
            = Kres.ok s')) := by
  cases fuel with
  | zero => simp [writei] at h
  | succ f =>
    have hlock : (s.slots k).lock = true := by
      by_contra hl
      have hl2 : (s.slots k).lock = false := by
        cases hx : (s.slots k).lock
        · rfl
        · exact absurd hx hl
      simp [writei, Kernel.get, hl2] at h
    have hn : 1 ≤ n := by
      by_contra hn
      have hn0 : n ≤ 0 := by omega
      simp only [writei, Kernel.get, hlock, htype, hn0, if_true, if_false,
        Bool.true_eq_false, Kres.ok.injEq, Prod.mk.injEq] at h
      exact hr h.1.symm
    rw [writei_unfold cfg f s (iptr.slot k) src off n hlock htype hn] at h
    simp only [Kres.bind_ok_iff] at h
    obtain ⟨⟨ret, ip1, disk1⟩, hw, h2⟩ := h
    have hf := writetoextent_fields cfg.sb s.disk _ src off n ret ip1 disk1 hw
    have hsz : ip1.size = (s.slots k).size := by rw [hf]; rfl
    have hmod : (off + n) % 2 ^ 32 = off + n := Nat.mod_eq_of_lt h32
    simp only [hmod, hsz] at h2
    have hret : ret = 0 := by
      rcases writetoextent_ret cfg.sb s.disk _ src off n ret ip1 disk1 hw with h0 | h1
      · exact h0
      · subst h1
        simp only [if_true, Kres.ok.injEq, Prod.mk.injEq] at h2
        exact absurd h2.1.symm hr
    subst hret
    have c3 : ¬ ((0 : Int) = -1) := by decide
    rw [if_neg c3] at h2
    by_cases hg : off + n > (s.slots k).size
    · rw [if_pos hg] at h2
      simp only [Kres.bind_ok_iff] at h2
      obtain ⟨s3, h3, h4⟩ := h2
      simp only [Kres.ok.injEq, Prod.mk.injEq] at h4
      obtain ⟨h5, h6⟩ := h4
      subst h6
      exact ⟨hlock, hn, h5.symm, ip1, disk1, f, rfl, hw, hf, Or.inr ⟨hg, h3⟩⟩
    · rw [if_neg hg] at h2
      simp only [Kres.ok.injEq, Prod.mk.injEq] at h2
      exact ⟨hlock, hn, h2.1.symm, ip1, disk1, f, rfl, hw, hf, Or.inl ⟨hg, h2.2.symm⟩⟩

end Xk

namespace Xk

theorem write_dinode_needs_fuel (cfg : Config) (s : Kernel) (inum : Nat) (dip : dinode)
    (s3 : Kernel) : write_dinode_with (writei cfg 0) cfg s inum dip ≠ Kres.ok s3 := by
  intro h
  simp only [write_dinode_with, Kres.bind_ok_iff] at h
  obtain ⟨s1, _, r, hwr, _⟩ := h
  simp [writei] at hwr

/-- C1: on a well-formed cached regular file whose lock is held, for every offset `O` and
every non-empty byte sequence `B` with `O + len(B)` in the range of `int`: if
`writei(ip, B, O, len(B))` returns `len(B)`, then `readi(ip, dst, O, len(B))` on the
resulting state returns `len(B)` and stores exactly `B`. -/
theorem writei_readi_roundtrip (cfg : Config) (fuel : Nat) (s : Kernel) (k : Nat)
    (B : List Nat) (off : Nat) (s' : Kernel)
    (hlock : (s.slots k).lock = true) (htype : (s.slots k).type ≠ T_DEV)
    (hB : B ≠ []) (hoff : off + B.length < 2 ^ 31) (hok : fileOK cfg s k)
    (h : writei cfg fuel s (iptr.slot k) B off B.length = Kres.ok ((B.length : Int), s')) :
    readi cfg s' (iptr.slot k) off B.length = Kres.ok ((B.length : Int), B) := by
  have h32 : off + B.length < 2 ^ 32 := by omega
  have hn1 : 1 ≤ B.length := List.length_pos.2 hB
  obtain ⟨_, _, _, ip1, disk1, f, hfuel, hw, hf, hcase⟩ :=
    writei_ok_cases cfg fuel s k B off B.length _ s' htype h32 h (by omega)
  obtain ⟨hokF, hIuse, hdisj, hokI⟩ := hok
  obtain ⟨e1, _, e3⟩ := writetoextent_extentsOK cfg.sb s.disk (s.slots k) B off B.length 0
    ip1 disk1 hokF hw
  have hap := extentsOK_apart _ _ _ e1
  have hback := fun D hD => writetoextent_readback_apart cfg.sb s.disk (s.slots k) B off
    B.length ip1 disk1 hn1 (le_refl _) hw hap D hD
  rw [List.take_length] at hback
  have hlock1 : ip1.lock = true := by rw [hf]; exact hlock
  have htype1 : ip1.type ≠ T_DEV := by rw [hf]; exact htype
  have hsz1 : ip1.size = (s.slots k).size := by rw [hf]
  have hinum : ip1.inum = (s.slots k).inum := by rw [hf]
  rcases hcase with ⟨hg, hs'⟩ | ⟨hg, hwd⟩
  · subst hs'
    apply readi_file
    · rw [Kernel.get_set]; exact hlock1
    · rw [Kernel.get_set]; exact htype1
    · rw [Kernel.get_set, hsz1]; omega
    · exact h32
    · rw [Kernel.get_set, Kernel.disk_set]
      exact hback disk1 (fun _ _ _ _ => rfl)
  · cases f with
    | zero => exact absurd hwd (write_dinode_needs_fuel cfg _ _ _ s')
    | succ f1 =>
      have hok2 : inodefileOK cfg
          ((({ s with disk := disk1 }).set (iptr.slot k) ip1).set (iptr.slot k)
            { ip1 with size := off + B.length }) ip1.inum := by
        rw [hinum]; exact hokI
      obtain ⟨s3, w1, w2, _, w4, _⟩ := write_dinode_inplace cfg f1 _ ip1.inum
        { type := ip1.type, devid := ip1.devid, size := off + B.length, data := ip1.data } hok2
      have hs3 : s' = s3 := by
        have := hwd.symm.trans w1
        simp only [Kres.ok.injEq] at this
        exact this
      subst hs3
      have hk : s'.get (iptr.slot k) = { ip1 with size := off + B.length } := by
        simp only [Kernel.get, w2]
        simp [Kernel.set]
      apply readi_file
      · rw [hk]; exact hlock1
      · rw [hk]; exact htype1
      · rw [hk]
      · exact h32
      · rw [hk, readfromextent_data s'.disk ip1 { ip1 with size := off + B.length } off
          B.length rfl]
        apply hback
        intro j blk hj hin
        apply w4
        intro j2 hj2 hin2
        have hin2' : inExtent (s.inodefile.data j2) blk := hin2
        rcases e3 j blk hin with hold | ⟨_, hfree⟩
        · exact hdisj j j2 blk hj hj2 ⟨hold, hin2'⟩
        · rw [(hIuse j2 blk hj2 hin2').2] at hfree
          exact Bool.noConfusion hfree

end Xk

namespace Xk

/-! ## The example state is well formed -/

theorem isBitmapBlock_sb64 (blk : Nat) (h : isBitmapBlock sb64 blk) : blk = 2 := by
  obtain ⟨b, hb, rfl⟩ := h
  have hb64 : b < 64 := hb
  simp only [BBLOCK, sb64, BPB, BSIZE]
  omega

theorem inodefileOK_kern64 : inodefileOK cfg64 kern64 2 := by
  refine ⟨by decide, by decide, by decide, ⟨?_, ?_⟩, by decide, by decide, by decide⟩
  · intro i j blk _ _ hne hboth
    obtain ⟨h1, h2⟩ := hboth
    simp only [kern64, inExtent] at h1 h2
    by_cases hi : i = 0
    · have hj : j ≠ 0 := by omega
      simp only [hj, if_false] at h2
      omega
    · simp only [hi, if_false] at h1
      omega
  · intro i blk _ hin hbm
    have := isBitmapBlock_sb64 blk hbm
    subst this
    simp only [kern64, inExtent] at hin
    by_cases hi : i = 0
    · simp only [hi, if_true] at hin
      omega
    · simp only [hi, if_false] at hin
      omega

theorem fileOK_kern64 : fileOK cfg64 kern64 0 := by
  refine ⟨⟨?_, ?_, ?_⟩, ?_, ?_, inodefileOK_kern64⟩
  · intro i blk _ hin
    simp only [kern64, inExtent, if_true] at hin
    omega
  · intro i j blk _ _ _ hboth
    have := hboth.1
    simp only [kern64, inExtent, if_true] at this
    omega
  · intro blk _ hbm
    have := isBitmapBlock_sb64 blk hbm
    subst this
    decide
  · intro j blk _ hin
    simp only [kern64, inExtent] at hin
    by_cases hj : j = 0
    · simp only [hj, if_true] at hin
      have : blk = 5 ∨ blk = 6 := by omega
      rcases this with rfl | rfl <;> exact ⟨by decide, by decide⟩
    · simp only [hj, if_false] at hin
      omega
  · intro i j blk _ _ hboth
    have := hboth.1
    simp only [kern64, inExtent, if_true] at this
    omega

/-! ## Witnesses and failing inputs -/

theorem writei_readi_roundtrip_witness :
    ∃ s', writei cfg64 2 kern64 (iptr.slot 0) [1, 2, 3] 0 3 = Kres.ok (3, s') ∧
      readi cfg64 s' (iptr.slot 0) 0 3 = Kres.ok (3, [1, 2, 3]) :=
  ⟨_, rfl, writei_readi_roundtrip cfg64 2 kern64 0 [1, 2, 3] 0 _ rfl (by decide) (by simp)
    (by decide) fileOK_kern64 rfl⟩

/-- C9, failing inputs: `readi` at `off == size` returns -1, not 0, for an empty file with
no extents, and for a file whose size exactly fills its one allocated block. -/
theorem readi_at_end_of_file_returns_error :
    (kern64.slots 0).size = 0 ∧
    readi cfg64 kern64 (iptr.slot 0) 0 5 = Kres.ok (-1, []) ∧
    (kern64oneBlock.slots 0).size = 512 ∧
    readi cfg64 kern64oneBlock (iptr.slot 0) 512 5 = Kres.ok (-1, []) :=
  ⟨rfl, rfl, rfl, rfl⟩

end Xk

namespace Xk

/-! ## Write-ahead log: header layout -/

theorem word_bytes (v : Nat) (hv : v < 4294967296) :
    byteOf v 0 + 256 * byteOf v 1 + 65536 * byteOf v 2 + 16777216 * byteOf v 3 = v := by
  unfold byteOf
  norm_num
  omega

theorem headerBlock_slot (h : logheader) (j : Nat) (hj : j < NLOGBLK)
    (hv : h.data j < 4294967296) : word (headerBlock h) (4 + 4 * j) = h.data j := by
  have e0 : (4 + 4 * j - 4) / 4 = j := by omega
  have e1 : (4 + 4 * j + 1 - 4) / 4 = j := by omega
  have e2 : (4 + 4 * j + 2 - 4) / 4 = j := by omega
  have e3 : (4 + 4 * j + 3 - 4) / 4 = j := by omega
  have m0 : (4 + 4 * j - 4) % 4 = 0 := by omega
  have m1 : (4 + 4 * j + 1 - 4) % 4 = 1 := by omega
  have m2 : (4 + 4 * j + 2 - 4) % 4 = 2 := by omega
  have m3 : (4 + 4 * j + 3 - 4) % 4 = 3 := by omega
  have c0 : ¬ (4 + 4 * j < 4) := by omega
  have c1 : ¬ (4 + 4 * j + 1 < 4) := by omega
  have c2 : ¬ (4 + 4 * j + 2 < 4) := by omega
  have c3 : ¬ (4 + 4 * j + 3 < 4) := by omega
  have d0 : 4 + 4 * j < 4 + 4 * NLOGBLK := by simp only [NLOGBLK] at *; omega
  have d1 : 4 + 4 * j + 1 < 4 + 4 * NLOGBLK := by simp only [NLOGBLK] at *; omega
  have d2 : 4 + 4 * j + 2 < 4 + 4 * NLOGBLK := by simp only [NLOGBLK] at *; omega
  have d3 : 4 + 4 * j + 3 < 4 + 4 * NLOGBLK := by simp only [NLOGBLK] at *; omega
  unfold word headerBlock
  simp only [c0, c1, c2, c3, d0, d1, d2, d3, if_true, if_false, e0, e1, e2, e3, m0, m1, m2, m3]
  exact word_bytes _ hv

theorem headerBlock_commit (h : logheader) (hc : h.commit = 0 ∨ h.commit = 1) :
    (parseHeader (headerBlock h)).commit = h.commit := by
  rcases hc with hc | hc <;>
    simp [parseHeader, headerBlock, word, byteOf, hc]

/-- Reading back a header that was laid out in a block. -/
theorem parseHeader_headerBlock (h : logheader) (hc : h.commit = 0 ∨ h.commit = 1)
    (hd : ∀ j, j < NLOGBLK → h.data j < 4294967296) (hz : ∀ j, NLOGBLK ≤ j → h.data j = 0) :
    parseHeader (headerBlock h) = h := by
  have h1 := headerBlock_commit h hc
  have h2 : (parseHeader (headerBlock h)).data = h.data := by
    funext j
    by_cases hj : j < NLOGBLK
    · simp only [parseHeader, hj, if_true]
      exact headerBlock_slot h j hj (hd j hj)
    · simp only [parseHeader, hj, if_false]
      exact (hz j (by omega)).symm
  have h3 : (parseHeader (headerBlock h)).padding = h.padding := by
    funext j
    have a : ¬ (4 + 4 * NLOGBLK + j < 4) := by omega
    have b : ¬ (4 + 4 * NLOGBLK + j < 4 + 4 * NLOGBLK) := by omega
    simp only [parseHeader, headerBlock, a, b, if_false]
    rw [Nat.add_sub_cancel_left]
  cases h with
  | mk c d p =>
    cases hp : parseHeader (headerBlock ⟨c, d, p⟩) with
    | mk c2 d2 p2 =>
      rw [hp] at h1 h2 h3
      simp only at h1 h2 h3
      rw [h1, h2, h3]

theorem parseHeader_zero : parseHeader (headerBlock logheader.zero) = logheader.zero :=
  parseHeader_headerBlock _ (Or.inl rfl) (fun _ _ => by simp [logheader.zero])
    (fun _ _ => rfl)

/-! ## Write-ahead log: recovery with an idle header (C13) -/

/-- C13: on every disk whose log header has `commit == 0`, `logapply` writes no block,
and a second `logapply` right after it again leaves the disk as it was. -/
theorem logapply_idle_is_noop (s : LogState)
    (h : (parseHeader (s.disk (readsb s.disk).logstart)).commit = 0) :
    (logapply s).disk = s.disk ∧ (logapply s).writes = s.writes
      ∧ (logapply (logapply s)).disk = s.disk
      ∧ (logapply (logapply s)).writes = s.writes := by
  have e1 : logapply s = LogState.mk s.disk s.writes
      (parseHeader (s.disk (readsb s.disk).logstart)) (readsb s.disk) false := by
    unfold logapply getlogheader
    simp only [h, if_true]
  have e2 : logapply (logapply s) = logapply s := by
    rw [e1]
    unfold logapply getlogheader
    simp only [h, if_true]
  rw [e2, e1]
  simp

theorem logapply_idle_is_noop_witness :
    (logapply logIdle).disk = logIdle.disk ∧ (logapply logIdle).writes = logIdle.writes
      ∧ (logapply (logapply logIdle)).disk = logIdle.disk
      ∧ (logapply (logapply logIdle)).writes = logIdle.writes :=
  logapply_idle_is_noop logIdle (by simp [parseHeader, word, logIdle, readsb])

end Xk

namespace Xk

/-! ## Write-ahead log: slots, block-write histories and replay -/

theorem findlatestheaderidxLoop_first (data : Nat → Nat) (n : Nat) :
    ∀ cnt i, i ≤ n → n < i + cnt → (∀ j, i ≤ j → j < n → data j ≠ 0) → data n = 0 →
      findlatestheaderidxLoop data cnt i = (n : Int) := by
  intro cnt
  induction cnt with
  | zero => intro i h1 h2; omega
  | succ cnt ih =>
    intro i h1 h2 hnz hz
    unfold findlatestheaderidxLoop
    by_cases hin : i = n
    · subst hin
      simp [hz]
    · have : data i ≠ 0 := hnz i (le_refl _) (by omega)
      simp only [this, if_false]
      exact ih (i + 1) (by omega) (by omega) (fun j hj1 hj2 => hnz j (by omega) hj2) hz

theorem findlatestheaderidx_slots (d : Nat → Nat) (i : Nat) (hi : i < NLOGBLK)
    (hnz : ∀ j, j < i → d j ≠ 0) : findlatestheaderidx (slots d i) = (i : Int) := by
  unfold findlatestheaderidx
  apply findlatestheaderidxLoop_first (slots d i) i NLOGBLK 0 (Nat.zero_le _) (by omega)
  · intro j _ hj
    simp only [slots, hj, if_true]
    exact hnz j hj
  · simp [slots]

theorem slots_update (d : Nat → Nat) (i : Nat) :
    Function.update (slots d i) i (d i) = slots d (i + 1) := by
  funext j
  by_cases h : j = i
  · subst h
    simp [slots]
  · rw [Function.update_noteq h]
    unfold slots
    by_cases h2 : j < i
    · have : j < i + 1 := by omega
      simp [h2, this]
    · have : ¬ j < i + 1 := by omega
      simp [h2, this]

theorem applyWrites_append (disk : Disk) (a b : List (Nat × Block)) :
    applyWrites disk (a ++ b) = applyWrites (applyWrites disk a) b := by
  unfold applyWrites
  exact List.foldl_append _ _ _ _

theorem applyWrites_inv (P : Block → Prop) (blk : Nat) :
    ∀ (ws : List (Nat × Block)) (disk : Disk), P (disk blk) →
      (∀ w, w ∈ ws → w.1 = blk → P w.2) → P (applyWrites disk ws blk) := by
  intro ws
  induction ws with
  | nil => intro disk h _; exact h
  | cons w ws ih =>
    intro disk h hw
    show P (applyWrites (Function.update disk w.1 w.2) ws blk)
    apply ih
    · by_cases e : blk = w.1
      · rw [e, Function.update_same]
        exact hw w (List.mem_cons_self _ _) e.symm
      · rw [Function.update_noteq e]
        exact h
    · intro w2 hw2 e
      exact hw w2 (List.mem_cons_of_mem _ hw2) e

theorem applyWrites_frame (blk : Nat) (ws : List (Nat × Block)) (disk : Disk)
    (h : ∀ w, w ∈ ws → w.1 ≠ blk) : applyWrites disk ws blk = disk blk :=
  applyWrites_inv (fun b => b = disk blk) blk ws disk rfl
    (fun w hw e => absurd e (h w hw))

theorem replayFrom_frame (c : Nat → Block) (d : Nat → Nat) (blk : Nat) :
    ∀ n i (disk : Disk), (∀ j, i ≤ j → j < i + n → d j ≠ blk) →
      replayFrom c d n i disk blk = disk blk := by
  intro n
  induction n with
  | zero => intro i disk _; rfl
  | succ n ih =>
    intro i disk h
    unfold replayFrom
    rw [ih (i + 1) _ (fun j h1 h2 => h j (by omega) (by omega))]
    exact Function.update_noteq (Ne.symm (h i (le_refl _) (by omega))) _ _

theorem replayFrom_last (c : Nat → Block) (d : Nat → Nat) (j0 : Nat) :
    ∀ n i (disk : Disk), i ≤ j0 → j0 < i + n → (∀ j, j0 < j → j < i + n → d j ≠ d j0) →
      replayFrom c d n i disk (d j0) = c j0 := by
  intro n
  induction n with
  | zero => intro i disk h1 h2; omega
  | succ n ih =>
    intro i disk h1 h2 h
    unfold replayFrom
    by_cases e : i = j0
    · subst e
      rw [replayFrom_frame c d (d i) n (i + 1) _ (fun j hj1 hj2 => h j (by omega) (by omega))]
      exact Function.update_same _ _ _
    · exact ih (i + 1) _ (by omega) (by omega) (fun j hj1 hj2 => h j hj1 (by omega))

theorem replayFrom_congr (c : Nat → Block) (d : Nat → Nat) (blk : Nat) :
    ∀ n i (d1 d2 : Disk), (d1 blk = d2 blk ∨ ∃ j, i ≤ j ∧ j < i + n ∧ d j = blk) →
      replayFrom c d n i d1 blk = replayFrom c d n i d2 blk := by
  intro n
  induction n with
  | zero =>
    intro i d1 d2 h
    rcases h with h | ⟨j, h1, h2, _⟩
    · exact h
    · omega
  | succ n ih =>
    intro i d1 d2 h
    unfold replayFrom
    apply ih
    by_cases e : blk = d i
    · left
      rw [e, Function.update_same, Function.update_same]
    · rw [Function.update_noteq e, Function.update_noteq e]
      rcases h with h | ⟨j, h1, h2, h3⟩
      · exact Or.inl h
      · right
        refine ⟨j, ?_, by omega, h3⟩
        by_contra hc
        have : j = i := by omega
        rw [this] at h3
        exact e h3.symm

end Xk

namespace Xk

/-! ## Write-ahead log: an open transaction -/

theorem inLog_header (sb : superblock) : inLog sb sb.logstart := by
  unfold inLog
  omega

theorem logbegin_logged (s0 : LogState) (c : Nat → Block) (d : Nat → Nat)
    (hl : s0.loglock = false) :
    ∃ s1, logbegin s0 = Kres.ok s1 ∧ Logged s0 c d 0 s1 := by
  refine ⟨_, by unfold logbegin; simp only [hl]; rfl, ?_⟩
  have hs : slots d 0 = fun _ => 0 := by
    funext j
    simp [slots]
  constructor
  · rfl
  · rfl
  · show logheader.zero = _
    rw [hs]
    rfl
  · show Function.update s0.disk s0.super.logstart (headerBlock logheader.zero)
      s0.super.logstart = _
    rw [Function.update_same]
    rfl
  · intro j hj
    omega
  · intro blk hb
    show Function.update s0.disk s0.super.logstart (headerBlock logheader.zero) blk = _
    rw [Function.update_noteq]
    intro e
    exact hb (by rw [e]; exact inLog_header _)
  · refine ⟨[(s0.super.logstart, headerBlock logheader.zero)], rfl, rfl, rfl, ?_⟩
    intro w hwm
    simp only [List.mem_singleton] at hwm
    subst hwm
    refine ⟨inLog_header _, fun _ => ?_⟩
    show (parseHeader (headerBlock logheader.zero)).commit = 0
    rw [parseHeader_zero]
    rfl

theorem logwrite_logged (s0 s : LogState) (c : Nat → Block) (d : Nat → Nat) (i : Nat)
    (hs : Logged s0 c d i s) (hi : i < NLOGBLK) (hnz : ∀ j, j < i → d j ≠ 0) :
    ∃ s1, logwrite s (c i) (d i) = Kres.ok (1, s1) ∧ Logged s0 c d (i + 1) s1 := by
  have hc : s.cachedheader.commit = 0 := by rw [hs.header]
  have hd : s.cachedheader.data = slots d i := by rw [hs.header]
  have h78 : s.cachedheader.data (NLOGBLK - 1) = 0 := by
    rw [hd]
    have : ¬ (NLOGBLK - 1 < i) := by omega
    simp only [slots, this, if_false]
  have hidx : findlatestheaderidx s.cachedheader.data = (i : Int) := by
    rw [hd]
    exact findlatestheaderidx_slots d i hi hnz
  have hblk : ((s.super.logstart : Int) + 1 + (i : Int)).toNat = s0.super.logstart + 1 + i := by
    rw [hs.super_eq]
    omega
  have hst : s.cachedheader.store (i : Int) (d i)
      = { commit := 0, data := slots d (i + 1), padding := fun _ => 0 } := by
    unfold logheader.store
    have : ¬ ((i : Int) < 0) := by omega
    simp only [this, if_false, Int.toNat_ofNat]
    rw [hs.header]
    simp only
    rw [slots_update]
  have hne : s0.super.logstart ≠ s0.super.logstart + 1 + i := by omega
  have e : logwrite s (c i) (d i) = Kres.ok (1,
      setlogheader (LogState.mk (Function.update s.disk (s0.super.logstart + 1 + i) (c i))
        (s.writes ++ [(s0.super.logstart + 1 + i, c i)])
        (s.cachedheader.store (i : Int) (d i)) s.super s.loglock)
        (s.cachedheader.store (i : Int) (d i))) := by
    unfold logwrite
    simp only [hc, h78, ne_eq, not_true_eq_false, if_false, Kres.bind, hidx, hblk]
    rfl
  refine ⟨_, e, ?_⟩
  · constructor
    · exact hs.super_eq
    · exact hs.locked
    · exact hst
    · show Function.update (Function.update s.disk _ _) s.super.logstart _ _ = _
      rw [hs.super_eq, Function.update_same]
      rfl
    · intro j hj
      show Function.update (Function.update s.disk _ _) s.super.logstart _ _ = _
      rw [hs.super_eq, Function.update_noteq (by omega)]
      by_cases e : j = i
      · subst e
        rw [Function.update_same]
      · rw [Function.update_noteq (by omega)]
        exact hs.payload j (by omega)
    · intro blk hb
      have hbL : blk ≠ s0.super.logstart := fun e => hb (by rw [e]; exact inLog_header _)
      show Function.update (Function.update s.disk _ _) s.super.logstart _ _ = _
      rw [hs.super_eq, Function.update_noteq hbL, Function.update_noteq]
      · exact hs.frame blk hb
      · intro e
        apply hb
        rw [e]
        unfold inLog
        omega
    · obtain ⟨tw, h1, h2, h3, h4⟩ := hs.history
      refine ⟨(tw ++ [(s0.super.logstart + 1 + i, c i)])
          ++ [(s.super.logstart, headerBlock (s.cachedheader.store (i : Int) (d i)))],
        ?_, ?_, ?_, ?_⟩
      · show (s.writes ++ [_]) ++ [_] = _
        rw [h1]
        simp
      · show Function.update (Function.update s.disk _ _) s.super.logstart _ = _
        rw [applyWrites_append, applyWrites_append, ← h2]
        rfl
      · simp only [List.length_append, List.length_singleton, h3]
        omega
      · intro w hwm
        simp only [List.mem_append, List.mem_singleton] at hwm
        rcases hwm with (h5 | h5) | h5
        · exact h4 w h5
        · subst h5
          refine ⟨?_, fun e => absurd e.symm hne⟩
          unfold inLog
          omega
        · subst h5
          refine ⟨hs.super_eq ▸ inLog_header _, fun _ => ?_⟩
          show (parseHeader (headerBlock _)).commit = 0
          rw [hst]
          exact headerBlock_commit _ (Or.inl rfl)

theorem logwriteAll_logged (s0 : LogState) (c : Nat → Block) (d : Nat → Nat) :
    ∀ cnt i s, Logged s0 c d i s → i + cnt ≤ NLOGBLK → (∀ j, j < i + cnt → d j ≠ 0) →
      ∃ s1, logwriteAll c d cnt i s = Kres.ok (List.replicate cnt 1, s1)
        ∧ Logged s0 c d (i + cnt) s1 := by
  intro cnt
  induction cnt with
  | zero =>
    intro i s hs _ _
    exact ⟨s, rfl, hs⟩
  | succ cnt ih =>
    intro i s hs hle hnz
    obtain ⟨s1, e1, h1⟩ := logwrite_logged s0 s c d i hs (by omega)
      (fun j hj => hnz j (by omega))
    obtain ⟨s2, e2, h2⟩ := ih (i + 1) s1 h1 (by omega) (fun j hj => hnz j (by omega))
    refine ⟨s2, ?_, ?_⟩
    · unfold logwriteAll
      rw [e1]
      simp only [Kres.bind]
      rw [e2]
      rfl
    · have : i + (cnt + 1) = i + 1 + cnt := by omega
      rw [this]
      exact h2

end Xk

namespace Xk

/-! ## Write-ahead log: commit -/

theorem logcommitLoop_replay (c : Nat → Block) (d : Nat → Nat) (k : Nat) (hk : k ≤ NLOGBLK)
    (hnz : ∀ j, j < k → d j ≠ 0) :
    ∀ n i (s : LogState), i + n = k → s.cachedheader.data = slots d k →
      (∀ j, j < k → ¬ inLog s.super (d j)) →
      (∀ j, j < k → s.disk (s.super.logstart + 1 + j) = c j) →
      ∃ rep, logcommitLoop (NLOGBLK - i) i s
          = LogState.mk (replayFrom c d n i s.disk) (s.writes ++ rep) s.cachedheader s.super
              s.loglock
        ∧ (∀ w, w ∈ rep → ∃ j, j < k ∧ w.1 = d j)
        ∧ applyWrites s.disk rep = replayFrom c d n i s.disk := by
  intro n
  induction n with
  | zero =>
    intro i s hik hd _ _
    refine ⟨[], ?_, fun w hw => absurd hw (List.not_mem_nil w), rfl⟩
    have hres : logcommitLoop (NLOGBLK - i) i s = s := by
      cases hm : NLOGBLK - i with
      | zero => rfl
      | succ m =>
        unfold logcommitLoop
        have : s.cachedheader.data i = 0 := by
          rw [hd]
          have : ¬ i < k := by omega
          simp only [slots, this, if_false]
        simp only [this, if_true]
    rw [hres]
    simp [replayFrom]
  | succ n ih =>
    intro i s hik hd hout hp
    have hi : i < k := by omega
    obtain ⟨m, hm⟩ : ∃ m, NLOGBLK - i = m + 1 := ⟨NLOGBLK - (i + 1), by omega⟩
    have hm2 : m = NLOGBLK - (i + 1) := by omega
    have hdi : s.cachedheader.data i = d i := by
      rw [hd]
      simp only [slots, hi, if_true]
    have hne : ¬ (d i = 0) := hnz i hi
    have hpay : ∀ j, j < k →
        Function.update s.disk (d i) (c i) (s.super.logstart + 1 + j) = c j := by
      intro j hj
      rw [Function.update_noteq]
      · exact hp j hj
      · intro e
        apply hout i hi
        rw [← e]
        unfold inLog
        omega
    obtain ⟨rep, e1, e2, e3⟩ := ih (i + 1)
      (LogState.mk (Function.update s.disk (d i) (c i)) (s.writes ++ [(d i, c i)])
        s.cachedheader s.super s.loglock) (by omega) hd hout hpay
    refine ⟨(d i, c i) :: rep, ?_, ?_, ?_⟩
    · rw [hm]
      unfold logcommitLoop
      simp only [hdi, hne, if_false]
      rw [hm2, hp i hi]
      show logcommitLoop (NLOGBLK - (i + 1)) (i + 1)
        (LogState.mk (Function.update s.disk (d i) (c i)) (s.writes ++ [(d i, c i)])
          s.cachedheader s.super s.loglock) = _
      rw [e1]
      simp [replayFrom]
    · intro w hw
      rcases List.mem_cons.mp hw with h | h
      · exact ⟨i, hi, by rw [h]⟩
      · exact e2 w h
    · show applyWrites (Function.update s.disk (d i) (c i)) rep = _
      rw [e3]
      rfl

theorem logcommit_spec (c : Nat → Block) (d : Nat → Nat) (k : Nat) (hk : k ≤ NLOGBLK)
    (hnz : ∀ j, j < k → d j ≠ 0) (s : LogState) (hd : s.cachedheader.data = slots d k)
    (hout : ∀ j, j < k → ¬ inLog s.super (d j))
    (hp : ∀ j, j < k → s.disk (s.super.logstart + 1 + j) = c j) :
    ∃ rep, logcommit s
        = LogState.mk
            (Function.update
              (replayFrom c d k 0
                (Function.update s.disk s.super.logstart
                  (headerBlock (logheader.mk 1 s.cachedheader.data s.cachedheader.padding))))
              s.super.logstart (headerBlock logheader.zero))
            (s.writes ++ (s.super.logstart, headerBlock (logheader.mk 1 s.cachedheader.data s.cachedheader.padding))
              :: (rep ++ [(s.super.logstart, headerBlock logheader.zero)]))
            logheader.zero s.super false
      ∧ (∀ w, w ∈ rep → ∃ j, j < k ∧ w.1 = d j)
      ∧ applyWrites (Function.update s.disk s.super.logstart
            (headerBlock (logheader.mk 1 s.cachedheader.data s.cachedheader.padding))) rep
          = replayFrom c d k 0 (Function.update s.disk s.super.logstart
            (headerBlock (logheader.mk 1 s.cachedheader.data s.cachedheader.padding))) := by
  have hpay : ∀ j, j < k →
      Function.update s.disk s.super.logstart
        (headerBlock (logheader.mk 1 s.cachedheader.data s.cachedheader.padding)) (s.super.logstart + 1 + j) = c j := by
    intro j hj
    rw [Function.update_noteq (by omega)]
    exact hp j hj
  obtain ⟨rep, e1, e2, e3⟩ := logcommitLoop_replay c d k hk hnz k 0
    (LogState.mk (Function.update s.disk s.super.logstart
        (headerBlock (logheader.mk 1 s.cachedheader.data s.cachedheader.padding)))
      (s.writes ++ [(s.super.logstart, headerBlock (logheader.mk 1 s.cachedheader.data s.cachedheader.padding))])
      (logheader.mk 1 s.cachedheader.data s.cachedheader.padding) s.super s.loglock)
    (by omega) hd hout hpay
  refine ⟨rep, ?_, e2, e3⟩
  unfold logcommit
  dsimp only [setlogheader, LogState.bwrite]
  dsimp only [Nat.sub_zero] at e1
  rw [e1]
  simp

end Xk

namespace Xk

/-! ## Write-ahead log: a committed transaction (C11) and the full header (C14) -/

/-- C11 (claim as stated fails): a logged write whose nonzero destination lies inside the
log region overwrites a later payload block during replay, so the destination of the
second write (block 120) ends up with the content of the first write instead of its
own. -/
theorem logged_write_into_log_region_is_lost :
    ∃ s1, transaction logIdle exC exDlog 2 = Kres.ok ([1, 1], s1)
      ∧ exDlog 0 ≠ 0 ∧ exDlog 1 ≠ 0
      ∧ s1.disk (exDlog 1) = exC 0 ∧ s1.disk (exDlog 1) ≠ exC 1 :=
  ⟨_, rfl, by decide, by decide, rfl, fun h => absurd (congrFun h 0) (by decide)⟩

/-- C11 (amended): after `logbegin`, `k <= 79` calls `logwrite(c i, d i)` whose
destinations are nonzero and lie outside the log region all return 1, and after
`logcommit` every destination block holds the content of the last write addressed to it,
every block that is neither a destination nor in the log region is unchanged, and the
header is cleared both in memory and on disk. -/
theorem transaction_commits_logged_writes (s : LogState) (c : Nat → Block) (d : Nat → Nat)
    (k : Nat) (hl : s.loglock = false) (hk : k ≤ NLOGBLK) (hnz : ∀ j, j < k → d j ≠ 0)
    (hout : ∀ j, j < k → ¬ inLog s.super (d j)) :
    ∃ s1, transaction s c d k = Kres.ok (List.replicate k 1, s1)
      ∧ (∀ i, i < k → (∀ j, i < j → j < k → d j ≠ d i) → s1.disk (d i) = c i)
      ∧ (∀ blk, ¬ inLog s.super blk → (∀ j, j < k → d j ≠ blk) → s1.disk blk = s.disk blk)
      ∧ s1.cachedheader = logheader.zero
      ∧ getlogheader s1 = logheader.zero := by
  obtain ⟨s2, e2, h2⟩ := logbegin_logged s c d hl
  obtain ⟨s3, e3, h3⟩ := logwriteAll_logged s c d k 0 s2 h2 (by omega)
    (fun j hj => hnz j (by omega))
  rw [Nat.zero_add] at h3
  have hd : s3.cachedheader.data = slots d k := by rw [h3.header]
  obtain ⟨rep, e4, _, _⟩ := logcommit_spec c d k hk hnz s3 hd
    (fun j hj => h3.super_eq ▸ hout j hj) (fun j hj => h3.super_eq ▸ h3.payload j hj)
  have hL : ∀ blk, ¬ inLog s.super blk → blk ≠ s3.super.logstart := by
    intro blk hb e
    apply hb
    rw [e, h3.super_eq]
    exact inLog_header _
  refine ⟨logcommit s3, ?_, ?_, ?_, ?_, ?_⟩
  · unfold transaction
    rw [e2]
    simp only [Kres.bind]
    rw [e3]
  · intro i hi hlast
    rw [e4]
    dsimp only
    rw [Function.update_noteq (hL _ (hout i hi))]
    exact replayFrom_last c d i k 0 _ (Nat.zero_le _) (by omega)
      (fun j h5 h6 => hlast j h5 (by omega))
  · intro blk hb hnd
    rw [e4]
    dsimp only
    rw [Function.update_noteq (hL _ hb),
      replayFrom_frame c d blk k 0 _ (fun j _ h6 => hnd j (by omega)),
      Function.update_noteq (hL _ hb)]
    exact h3.frame blk hb
  · rw [e4]
  · rw [e4]
    unfold getlogheader
    dsimp only
    rw [Function.update_same]
    exact parseHeader_zero

theorem transaction_commits_logged_writes_witness :
    ∃ s1, transaction logIdle exC exD 2 = Kres.ok (List.replicate 2 1, s1)
      ∧ (∀ i, i < 2 → (∀ j, i < j → j < 2 → exD j ≠ exD i) → s1.disk (exD i) = exC i)
      ∧ (∀ blk, ¬ inLog logIdle.super blk → (∀ j, j < 2 → exD j ≠ blk) →
          s1.disk blk = logIdle.disk blk)
      ∧ s1.cachedheader = logheader.zero
      ∧ getlogheader s1 = logheader.zero :=
  transaction_commits_logged_writes logIdle exC exD 2 rfl (by decide)
    (fun j hj => by unfold exD; split <;> decide)
    (fun j hj => by
      unfold exD inLog
      show ¬ ((3 : Nat) ≤ _ ∧ _ ≤ 3 + 79)
      split <;> omega)

theorem logcommitLoop_fields : ∀ cnt i (s : LogState),
    (logcommitLoop cnt i s).super = s.super
      ∧ (logcommitLoop cnt i s).cachedheader = s.cachedheader
      ∧ (logcommitLoop cnt i s).loglock = s.loglock := by
  intro cnt
  induction cnt with
  | zero => intro i s; exact ⟨rfl, rfl, rfl⟩
  | succ cnt ih =>
    intro i s
    unfold logcommitLoop
    split
    · exact ⟨rfl, rfl, rfl⟩
    · exact ih _ _

theorem logcommit_super (s : LogState) : (logcommit s).super = s.super := by
  unfold logcommit
  exact (logcommitLoop_fields _ _ _).1

/-- C14: when all 79 header slots are occupied, `logwrite` commits the batch, begins a new
transaction, then logs the block in slot 0 of the new transaction and returns 1, the
same value as for an ordinary logged write; no value 0 is returned. When the header is
marked committed it returns -1 and changes nothing. -/
theorem logwrite_full_header_returns_one (s : LogState) (block : Block) (location : Nat)
    (hc : s.cachedheader.commit = 0) (hfull : s.cachedheader.data (NLOGBLK - 1) ≠ 0) :
    (∃ s1, logwrite s block location = Kres.ok (1, s1)
      ∧ s1.cachedheader.commit = 0 ∧ s1.cachedheader.data 0 = location
      ∧ s1.disk (s.super.logstart + 1) = block ∧ s1.loglock = true)
    ∧ (∀ t : LogState, t.cachedheader.commit ≠ 0 →
        logwrite t block location = Kres.ok (-1, t)) := by
  constructor
  · have hl : (logcommit s).loglock = false := rfl
    have h1 : (logcommit s).super.logstart = s.super.logstart := by rw [logcommit_super]
    have hidx : findlatestheaderidx logheader.zero.data = 0 := rfl
    have h2 : ((s.super.logstart : Int) + 1 + 0).toNat = s.super.logstart + 1 := by omega
    have e : logwrite s block location = Kres.ok (1,
        setlogheader
          (LogState.mk
            (Function.update
              (Function.update (logcommit s).disk s.super.logstart (headerBlock logheader.zero))
              (s.super.logstart + 1) block)
            (((logcommit s).writes ++ [(s.super.logstart, headerBlock logheader.zero)])
              ++ [(s.super.logstart + 1, block)])
            (logheader.zero.store 0 location) (logcommit s).super true)
          (logheader.zero.store 0 location)) := by
      unfold logwrite logbegin
      simp only [hc, hfull, hl, ne_eq, not_true_eq_false, not_false_eq_true, if_true, if_false,
        Kres.bind, setlogheader, LogState.bwrite, hidx, h1, h2, Bool.false_eq_true]
    refine ⟨_, e, rfl, ?_, ?_, rfl⟩
    · simp [setlogheader, LogState.bwrite, logheader.store, logheader.zero]
    · simp only [setlogheader, LogState.bwrite, h1]
      rw [Function.update_noteq (by omega), Function.update_same]
  · intro t ht
    unfold logwrite
    simp only [ht, ne_eq, not_false_eq_true, if_true]

theorem logwrite_full_header_returns_one_witness :
    (∃ s1, logwrite logFull (fillBlock 7) 120 = Kres.ok (1, s1)
      ∧ s1.cachedheader.commit = 0 ∧ s1.cachedheader.data 0 = 120
      ∧ s1.disk (logFull.super.logstart + 1) = fillBlock 7 ∧ s1.loglock = true)
    ∧ (∀ t : LogState, t.cachedheader.commit ≠ 0 →
        logwrite t (fillBlock 7) 120 = Kres.ok (-1, t)) :=
  logwrite_full_header_returns_one logFull (fillBlock 7) 120 rfl (by decide)

end Xk

namespace Xk

/-! ## Write-ahead log: recovery after a crash (C12) -/

theorem readsb_congr (d1 d2 : Disk) (h : d1 1 = d2 1) : readsb d1 = readsb d2 := by
  unfold readsb
  rw [h]

theorem logapply_disk_of_idle (r : LogState)
    (h : (parseHeader (r.disk (readsb r.disk).logstart)).commit = 0) :
    (logapply r).disk = r.disk := by
  unfold logapply getlogheader
  simp only [h, if_true]

theorem logapply_of_committed (r : LogState)
    (h : (parseHeader (r.disk (readsb r.disk).logstart)).commit ≠ 0) :
    logapply r = logcommit (LogState.mk r.disk r.writes
      (parseHeader (r.disk (readsb r.disk).logstart)) (readsb r.disk) true) := by
  unfold logapply getlogheader
  simp only [h, if_false]

theorem parseHeader_committed (d : Nat → Nat) (k : Nat) (hk : k ≤ NLOGBLK)
    (h32 : ∀ j, j < k → d j < 4294967296) :
    parseHeader (headerBlock (logheader.mk 1 (slots d k) (fun _ => 0)))
      = logheader.mk 1 (slots d k) (fun _ => 0) := by
  apply parseHeader_headerBlock _ (Or.inr rfl)
  · intro j _
    show slots d k j < 4294967296
    unfold slots
    split
    · exact h32 j (by assumption)
    · omega
  · intro j hj
    show slots d k j = 0
    have : ¬ j < k := by omega
    simp only [slots, this, if_false]

/-- Recovery from a disk that holds the committed header and all payload blocks: the
replay brings every block outside the log to its committed content. -/
theorem logapply_replays (c : Nat → Block) (d : Nat → Nat) (k : Nat) (hk : k ≤ NLOGBLK)
    (hnz : ∀ j, j < k → d j ≠ 0) (h32 : ∀ j, j < k → d j < 4294967296)
    (sb : superblock) (r : LogState) (hsb : readsb r.disk = sb)
    (hhdr : r.disk sb.logstart = headerBlock (logheader.mk 1 (slots d k) (fun _ => 0)))
    (hout : ∀ j, j < k → ¬ inLog sb (d j))
    (hpay : ∀ j, j < k → r.disk (sb.logstart + 1 + j) = c j) :
    ∀ blk, ¬ inLog sb blk → (logapply r).disk blk = replayFrom c d k 0 r.disk blk := by
  intro blk hb
  have hph : parseHeader (r.disk (readsb r.disk).logstart)
      = logheader.mk 1 (slots d k) (fun _ => 0) := by
    rw [hsb, hhdr]
    exact parseHeader_committed d k hk h32
  have hne : (parseHeader (r.disk (readsb r.disk).logstart)).commit ≠ 0 := by
    rw [hph]
    show (1 : Int) ≠ 0
    decide
  rw [logapply_of_committed r hne, hph, hsb]
  obtain ⟨rep, e, _, _⟩ := logcommit_spec c d k hk hnz
    (LogState.mk r.disk r.writes (logheader.mk 1 (slots d k) (fun _ => 0)) sb true)
    rfl hout hpay
  rw [e]
  dsimp only
  have hL : blk ≠ sb.logstart := fun h => hb (by rw [h]; exact inLog_header _)
  rw [Function.update_noteq hL]
  apply replayFrom_congr
  left
  exact Function.update_noteq hL _ _

end Xk

namespace Xk

theorem ne_logstart_of_not_inLog (sb : superblock) (blk : Nat) (h : ¬ inLog sb blk) :
    blk ≠ sb.logstart := by
  intro e
  apply h
  unfold inLog
  omega

theorem ne_payload_of_not_inLog (sb : superblock) (blk j : Nat) (h : ¬ inLog sb blk)
    (hj : j < NLOGBLK) : blk ≠ sb.logstart + 1 + j := by
  intro e
  apply h
  unfold inLog
  omega

/-- C12 (amended): a transaction of `k <= 79` logged writes whose destinations are nonzero,
lie outside the log region and are not the super block is all-or-nothing across a crash.
Write number `1 + 2 * k` of the transaction persists the committed header. After a crash
that let through only the first `m` block writes, `logapply` leaves every block outside the
log with its content from before the transaction when `m <= 1 + 2 * k`, and with the
content an uninterrupted `logcommit` produces when `m > 1 + 2 * k`. -/
theorem transaction_is_atomic_across_crash (s : LogState) (c : Nat → Block) (d : Nat → Nat)
    (k : Nat) (hl : s.loglock = false) (hw : s.writes = []) (hk : k ≤ NLOGBLK)
    (hnz : ∀ j, j < k → d j ≠ 0) (h32 : ∀ j, j < k → d j < 4294967296)
    (hout : ∀ j, j < k → ¬ inLog s.super (d j)) (hsb : ∀ j, j < k → d j ≠ 1)
    (hmount : readsb s.disk = s.super) (hlay : ¬ inLog s.super 1)
    (hidle : (getlogheader s).commit = 0) :
    ∃ s1, transaction s c d k = Kres.ok (List.replicate k 1, s1)
      ∧ s1.writes[1 + 2 * k]?
          = some (s.super.logstart, headerBlock (logheader.mk 1 (slots d k) (fun _ => 0)))
      ∧ ∀ m (r : LogState), r.disk = crashDisk s.disk s1.writes m →
          (m ≤ 1 + 2 * k → ∀ blk, ¬ inLog s.super blk → (logapply r).disk blk = s.disk blk)
          ∧ (1 + 2 * k < m →
              ∀ blk, ¬ inLog s.super blk → (logapply r).disk blk = s1.disk blk) := by
  obtain ⟨s2, e2, h2⟩ := logbegin_logged s c d hl
  obtain ⟨s3, e3, h3⟩ := logwriteAll_logged s c d k 0 s2 h2 (by omega)
    (fun j hj => hnz j (by omega))
  rw [Nat.zero_add] at h3
  have hd : s3.cachedheader.data = slots d k := by rw [h3.header]
  have hpad : s3.cachedheader.padding = fun _ => 0 := by rw [h3.header]
  obtain ⟨tw, t1, t2, t3, t4⟩ := h3.history
  rw [hw, List.nil_append] at t1
  obtain ⟨rep, e4, hrep, hrepeq⟩ := logcommit_spec c d k hk hnz s3 hd
    (fun j hj => h3.super_eq ▸ hout j hj) (fun j hj => h3.super_eq ▸ h3.payload j hj)
  rw [h3.super_eq, hd, hpad, t1] at e4
  rw [h3.super_eq, hd, hpad] at hrepeq
  have hL1 : (1 : Nat) ≠ s.super.logstart := ne_logstart_of_not_inLog _ _ hlay
  have hdL : ∀ j, j < k → d j ≠ s.super.logstart :=
    fun j hj => ne_logstart_of_not_inLog _ _ (hout j hj)
  have hrepL : ∀ w, w ∈ rep → w.1 ≠ s.super.logstart := by
    intro w hwm
    obtain ⟨j, hj, e⟩ := hrep w hwm
    rw [e]
    exact hdL j hj
  refine ⟨logcommit s3, ?_, ?_, ?_⟩
  · unfold transaction
    rw [e2]
    simp only [Kres.bind]
    rw [e3]
  · rw [e4]
    dsimp only
    rw [← t3, List.getElem?_append_right (le_refl _), Nat.sub_self]
    exact List.getElem?_cons_zero
  · intro m r hr
    constructor
    · intro hm blk hb
      have hD : r.disk = applyWrites s.disk (tw.take m) := by
        rw [hr, e4]
        unfold crashDisk
        dsimp only
        rw [List.take_append_of_le_length (by omega)]
      have h1 : r.disk 1 = s.disk 1 := by
        rw [hD]
        apply applyWrites_frame
        intro w hwm e
        have := (t4 w (List.mem_of_mem_take hwm)).1
        rw [e] at this
        exact hlay this
      have hsbr : readsb r.disk = s.super := by
        rw [readsb_congr _ _ h1]
        exact hmount
      have hc : (parseHeader (r.disk (readsb r.disk).logstart)).commit = 0 := by
        rw [hsbr, hD]
        apply applyWrites_inv (fun b => (parseHeader b).commit = 0)
        · exact hidle
        · intro w hwm e
          exact (t4 w (List.mem_of_mem_take hwm)).2 e
      rw [logapply_disk_of_idle r hc, hD]
      apply applyWrites_frame
      intro w hwm e
      apply hb
      rw [← e]
      exact (t4 w (List.mem_of_mem_take hwm)).1
    · intro hm blk hb
      have hbL : blk ≠ s.super.logstart := ne_logstart_of_not_inLog _ _ hb
      have hD : r.disk = applyWrites
          (Function.update s3.disk s.super.logstart
            (headerBlock (logheader.mk 1 (slots d k) (fun _ => 0))))
          ((rep ++ [(s.super.logstart, headerBlock logheader.zero)]).take
            (m - tw.length - 1)) := by
        rw [hr, e4]
        unfold crashDisk
        dsimp only
        obtain ⟨m1, hm1⟩ : ∃ m1, m - tw.length = m1 + 1 := ⟨m - tw.length - 1, by omega⟩
        rw [List.take_append_eq_append_take, List.take_of_length_le (by omega),
          applyWrites_append, ← t2, hm1, List.take_succ_cons]
        rfl
      by_cases hcase : m - tw.length - 1 ≤ rep.length
      · rw [List.take_append_of_le_length hcase] at hD
        have hX : ∀ w, w ∈ rep.take (m - tw.length - 1) → ∃ j, j < k ∧ w.1 = d j :=
          fun w hwm => hrep w (List.mem_of_mem_take hwm)
        have h1 : r.disk 1 = s.disk 1 := by
          rw [hD, applyWrites_frame 1 _ _ (fun w hwm e => by
            obtain ⟨j, hj, ej⟩ := hX w hwm
            exact hsb j hj (by rw [← ej, e])), Function.update_noteq hL1]
          exact h3.frame 1 hlay
        have hsbr : readsb r.disk = s.super := by
          rw [readsb_congr _ _ h1]
          exact hmount
        have hhdr : r.disk s.super.logstart
            = headerBlock (logheader.mk 1 (slots d k) (fun _ => 0)) := by
          rw [hD, applyWrites_frame s.super.logstart _ _ (fun w hwm e => by
            obtain ⟨j, hj, ej⟩ := hX w hwm
            exact hdL j hj (by rw [← ej, e])), Function.update_same]
        have hpay : ∀ j, j < k → r.disk (s.super.logstart + 1 + j) = c j := by
          intro j hj
          rw [hD, applyWrites_frame (s.super.logstart + 1 + j) _ _ (fun w hwm e => by
            obtain ⟨j2, hj2, ej⟩ := hX w hwm
            exact ne_payload_of_not_inLog _ _ j (hout j2 hj2) (by omega) (by rw [← ej, e])),
            Function.update_noteq (by omega)]
          exact h3.payload j hj
        rw [logapply_replays c d k hk hnz h32 s.super r hsbr hhdr hout hpay blk hb, e4]
        dsimp only
        rw [Function.update_noteq hbL]
        apply replayFrom_congr
        by_cases hex : ∃ j, j < k ∧ d j = blk
        · right
          obtain ⟨j, hj, e⟩ := hex
          exact ⟨j, Nat.zero_le _, by omega, e⟩
        · left
          rw [hD]
          apply applyWrites_frame
          intro w hwm e
          obtain ⟨j, hj, ej⟩ := hX w hwm
          exact hex ⟨j, hj, by rw [← ej, e]⟩
      · rw [List.take_of_length_le (by
          simp only [List.length_append, List.length_singleton]
          omega)] at hD
        have hDf : r.disk = (logcommit s3).disk := by
          rw [hD, e4, applyWrites_append, hrepeq]
          rfl
        have h1 : r.disk 1 = s.disk 1 := by
          rw [hDf, e4]
          dsimp only
          rw [Function.update_noteq hL1,
            replayFrom_frame c d 1 k 0 _ (fun j _ hj => hsb j (by omega)),
            Function.update_noteq hL1]
          exact h3.frame 1 hlay
        have hsbr : readsb r.disk = s.super := by
          rw [readsb_congr _ _ h1]
          exact hmount
        have hc : (parseHeader (r.disk (readsb r.disk).logstart)).commit = 0 := by
          rw [hsbr, hDf, e4]
          dsimp only
          rw [Function.update_same, parseHeader_zero]
          rfl
        rw [logapply_disk_of_idle r hc, hDf]

end Xk

namespace Xk

theorem transaction_is_atomic_across_crash_witness :
    ∃ s1, transaction logIdle exC exD 2 = Kres.ok (List.replicate 2 1, s1)
      ∧ s1.writes[1 + 2 * 2]?
          = some (logIdle.super.logstart,
              headerBlock (logheader.mk 1 (slots exD 2) (fun _ => 0)))
      ∧ ∀ m (r : LogState), r.disk = crashDisk logIdle.disk s1.writes m →
          (m ≤ 1 + 2 * 2 →
            ∀ blk, ¬ inLog logIdle.super blk → (logapply r).disk blk = logIdle.disk blk)
          ∧ (1 + 2 * 2 < m →
              ∀ blk, ¬ inLog logIdle.super blk → (logapply r).disk blk = s1.disk blk) :=
  transaction_is_atomic_across_crash logIdle exC exD 2 rfl rfl (by decide)
    (fun j _ => by unfold exD; split <;> decide)
    (fun j _ => by unfold exD; split <;> decide)
    (fun j _ => by
      unfold exD inLog
      show ¬ ((3 : Nat) ≤ _ ∧ _ ≤ 3 + 79)
      split <;> omega)
    (fun j _ => by unfold exD; split <;> decide)
    (by simp [readsb, word, logIdle, sbLog])
    (by
      unfold inLog
      show ¬ ((3 : Nat) ≤ 1 ∧ 1 ≤ 3 + 79)
      omega)
    (by simp [getlogheader, parseHeader, word, logIdle, sbLog])

set_option maxRecDepth 1000000 in
/-- C12 (claim as stated fails): two transactions of nonzero logged writes that a crash
during replay leaves neither undone nor done. In the first, the first write replaces the
super block by one that places the log elsewhere; after a crash behind the first replay
write, `logapply` finds no committed header, so block 1 is new while block 120 is old. In
the second, the first two destinations are payload blocks of the log; after a crash behind
the second replay write, `logapply` replays from the overwritten payload and block 120
ends up with a content that is neither its old one nor the one an uninterrupted
`logcommit` gives it. -/
theorem crash_recovery_not_atomic_for_log_or_super_destinations :
    (∃ s1, transaction logIdle exCsuper exDsuper 2 = Kres.ok ([1, 1], s1)
      ∧ 1 + 2 * 2 < 7 ∧ ¬ inLog logIdle.super 1 ∧ ¬ inLog logIdle.super 120
      ∧ (logapply (rebooted (crashDisk logIdle.disk s1.writes 7))).disk 1 ≠ logIdle.disk 1
      ∧ (logapply (rebooted (crashDisk logIdle.disk s1.writes 7))).disk 120 ≠ s1.disk 120)
    ∧ (∃ s1, transaction logIdle exC exDchain 3 = Kres.ok ([1, 1, 1], s1)
      ∧ 1 + 2 * 3 < 10 ∧ ¬ inLog logIdle.super 120
      ∧ (logapply (rebooted (crashDisk logIdle.disk s1.writes 10))).disk 120
          ≠ logIdle.disk 120
      ∧ (logapply (rebooted (crashDisk logIdle.disk s1.writes 10))).disk 120
          ≠ s1.disk 120) :=
  ⟨⟨_, rfl, by decide, by unfold inLog; show ¬ ((3 : Nat) ≤ 1 ∧ 1 ≤ 3 + 79); omega,
      by unfold inLog; show ¬ ((3 : Nat) ≤ 120 ∧ 120 ≤ 3 + 79); omega,
      fun h => absurd (congrFun h 12) (by decide!),
      fun h => absurd (congrFun h 0) (by decide!)⟩,
   ⟨_, rfl, by decide, by unfold inLog; show ¬ ((3 : Nat) ≤ 120 ∧ 120 ≤ 3 + 79); omega,
      fun h => absurd (congrFun h 0) (by decide!),
      fun h => absurd (congrFun h 0) (by decide!)⟩⟩

end Xk

namespace Xk

/-! ## Paths: `skipelem` (C16) -/

theorem skipSlashes_split : ∀ path : List Nat,
    ∃ slashes, path = slashes ++ skipSlashes path ∧ (∀ ch, ch ∈ slashes → ch = 47)
      ∧ (skipSlashes path).head? ≠ some 47 := by
  intro path
  induction path with
  | nil => exact ⟨[], rfl, fun _ h => absurd h (List.not_mem_nil _), by simp [skipSlashes]⟩
  | cons ch rest ih =>
    unfold skipSlashes
    by_cases h : ch = 47
    · obtain ⟨sl, e, h1, h2⟩ := ih
      refine ⟨ch :: sl, ?_, ?_, ?_⟩
      · simp only [h, if_true, List.cons_append]
        rw [← e]
      · intro c hc
        rcases List.mem_cons.mp hc with hc | hc
        · rw [hc, h]
        · exact h1 c hc
      · simp only [h, if_true]
        exact h2
    · refine ⟨[], ?_, fun _ hc => absurd hc (List.not_mem_nil _), ?_⟩
      · simp [h]
      · simp [h]

theorem skipSlashes_length (path : List Nat) : (skipSlashes path).length ≤ path.length := by
  obtain ⟨sl, e, _, _⟩ := skipSlashes_split path
  have := congrArg List.length e
  rw [List.length_append] at this
  omega

theorem skipSlashes_of_head (p : List Nat) (h : p.head? ≠ some 47) : skipSlashes p = p := by
  cases p with
  | nil => rfl
  | cons ch rest =>
    have : ch ≠ 47 := fun e => h (by rw [e]; rfl)
    simp [skipSlashes, this]

theorem elemLen_le : ∀ p : List Nat, elemLen p ≤ p.length := by
  intro p
  induction p with
  | nil => simp [elemLen]
  | cons ch rest ih =>
    unfold elemLen
    split
    · simp only [List.length_cons]
      omega
    · omega

theorem elemLen_take : ∀ p : List Nat, ∀ ch, ch ∈ p.take (elemLen p) → ch ≠ 47 := by
  intro p
  induction p with
  | nil => intro ch h; simp [elemLen] at h
  | cons c rest ih =>
    intro ch h
    unfold elemLen at h
    by_cases hc : c ≠ 47 ∧ c ≠ 0
    · simp only [hc, ne_eq, not_false_eq_true, and_self, if_true, List.take_succ_cons,
        List.mem_cons] at h
      rcases h with h | h
      · rw [h]
        exact hc.1
      · exact ih ch h
    · simp [hc] at h

theorem elemLen_drop : ∀ p : List Nat, (∀ ch, ch ∈ p → ch ≠ 0) →
    p.drop (elemLen p) = [] ∨ (p.drop (elemLen p)).head? = some 47 := by
  intro p
  induction p with
  | nil => intro _; left; rfl
  | cons c rest ih =>
    intro hnul
    unfold elemLen
    have h0 : c ≠ 0 := hnul c (List.mem_cons_self _ _)
    by_cases hc : c = 47
    · right
      simp [hc]
    · simp only [hc, h0, ne_eq, not_false_eq_true, and_self, if_true, List.drop_succ_cons]
      exact ih (fun ch h => hnul ch (List.mem_cons_of_mem _ h))

theorem elemLen_pos (p : List Nat) (h1 : p.head? ≠ some 47) (h2 : peek p ≠ 0) :
    0 < elemLen p := by
  cases p with
  | nil => simp [peek] at h2
  | cons c rest =>
    have hc : c ≠ 47 := fun e => h1 (by rw [e]; rfl)
    have h0 : c ≠ 0 := by simpa [peek] using h2
    simp [elemLen, hc, h0]

theorem getD_take (p : List Nat) (n i : Nat) (h : i < n) :
    (p.take n).getD i 0 = p.getD i 0 := by
  simp [List.getD_eq_getElem?_getD, List.getElem?_take, h]

/-- The two branches of `skipelem` store the component as `storeName` describes. -/
theorem skipelem_some (path : List Nat) (name : Nat → Nat)
    (h : peek (skipSlashes path) ≠ 0) :
    skipelem path name
      = (some (skipSlashes ((skipSlashes path).drop (elemLen (skipSlashes path)))),
          storeName ((skipSlashes path).take (elemLen (skipSlashes path))) name) := by
  unfold skipelem
  simp only [h, if_false]
  congr 1
  have hlen : ((skipSlashes path).take (elemLen (skipSlashes path))).length
      = elemLen (skipSlashes path) := by
    rw [List.length_take]
    exact Nat.min_eq_left (elemLen_le _)
  funext i
  unfold storeName
  rw [hlen]
  by_cases hl : elemLen (skipSlashes path) ≥ DIRSIZ
  · have hm : min (elemLen (skipSlashes path)) DIRSIZ = DIRSIZ := Nat.min_eq_right hl
    have hn : ¬ (elemLen (skipSlashes path) < DIRSIZ) := by omega
    simp only [hl, if_true, hm, hn, false_and, if_false]
    by_cases hi : i < DIRSIZ
    · simp only [hi, if_true]
      exact (getD_take _ _ _ (by omega)).symm
    · simp only [hi, if_false]
  · have hm : min (elemLen (skipSlashes path)) DIRSIZ = elemLen (skipSlashes path) :=
      Nat.min_eq_left (by omega)
    have hn : elemLen (skipSlashes path) < DIRSIZ := by omega
    simp only [hl, if_false, hm, hn, true_and]
    by_cases hi : i < elemLen (skipSlashes path)
    · simp only [hi, if_true]
      exact (getD_take _ _ _ hi).symm
    · simp only [hi, if_false]

theorem skipelem_none (path : List Nat) (name : Nat → Nat)
    (h : peek (skipSlashes path) = 0) : skipelem path name = (none, name) := by
  unfold skipelem
  simp only [h, if_true]

theorem peek_zero_iff (path : List Nat) (hnul : ∀ ch, ch ∈ path → ch ≠ 0) :
    peek (skipSlashes path) = 0 ↔ ∀ ch, ch ∈ path → ch = 47 := by
  obtain ⟨sl, e, h1, h2⟩ := skipSlashes_split path
  constructor
  · intro h
    have hnil : skipSlashes path = [] := by
      cases hp : skipSlashes path with
      | nil => rfl
      | cons c rest =>
        rw [hp] at h e
        have hc : c = 0 := by simpa [peek] using h
        have : c ∈ path := by
          rw [e]
          simp
        exact absurd hc (hnul c this)
    rw [hnil, List.append_nil] at e
    intro ch hch
    rw [e] at hch
    exact h1 ch hch
  · intro h
    cases hp : skipSlashes path with
    | nil => rfl
    | cons c rest =>
      rw [hp] at e h2
      have : c ∈ path := by
        rw [e]
        simp
      have hc := h c this
      exact absurd (by rw [hc]; rfl) h2

end Xk

namespace Xk

/-- C16: for a NUL-terminated path (a list of nonzero characters), `skipelem` returns 0
exactly when the path is empty or all `/`. Otherwise the path is some slashes, a nonempty
component without `/`, the slashes after it and the returned rest; the rest does not start
with `/`, is a strictly shorter suffix of the path, and is empty when no slash follows the
component; `name` receives the first `min(len, 14)` bytes of the component, followed by a
NUL exactly when `len < 14`. The four examples of the comment evaluate as documented. -/
theorem skipelem_spec (path : List Nat) (name : Nat → Nat)
    (hnul : ∀ ch, ch ∈ path → ch ≠ 0) :
    ((skipelem path name).1 = none ↔ ∀ ch, ch ∈ path → ch = 47)
    ∧ (∀ rest, (skipelem path name).1 = some rest →
        ∃ slashes comp mid,
          path = slashes ++ comp ++ mid ++ rest
          ∧ (∀ ch, ch ∈ slashes → ch = 47) ∧ comp ≠ [] ∧ (∀ ch, ch ∈ comp → ch ≠ 47)
          ∧ (∀ ch, ch ∈ mid → ch = 47) ∧ (mid = [] → rest = [])
          ∧ rest.head? ≠ some 47 ∧ rest.length < path.length
          ∧ (∀ i, i < min comp.length DIRSIZ → (skipelem path name).2 i = comp.getD i 0)
          ∧ (comp.length < DIRSIZ → (skipelem path name).2 comp.length = 0)
          ∧ (DIRSIZ ≤ comp.length → ∀ i, i < DIRSIZ → (skipelem path name).2 i ≠ 0))
    ∧ (skipelem [97, 47, 98, 98, 47, 99] name).1 = some [98, 98, 47, 99]
    ∧ (skipelem [97, 47, 98, 98, 47, 99] name).2 0 = 97
    ∧ (skipelem [97, 47, 98, 98, 47, 99] name).2 1 = 0
    ∧ (skipelem [47, 47, 47, 97, 47, 47, 98, 98] name).1 = some [98, 98]
    ∧ (skipelem [47, 47, 47, 97, 47, 47, 98, 98] name).2 0 = 97
    ∧ (skipelem [47, 47, 47, 97, 47, 47, 98, 98] name).2 1 = 0
    ∧ (skipelem [97] name).1 = some []
    ∧ (skipelem [] name).1 = none
    ∧ (skipelem [47, 47, 47, 47] name).1 = none := by
  refine ⟨?_, ?_, rfl, rfl, rfl, rfl, rfl, rfl, rfl, rfl, rfl⟩
  · rw [← peek_zero_iff path hnul]
    constructor
    · intro h
      by_contra hp
      rw [skipelem_some path name hp] at h
      exact absurd h (by simp)
    · intro h
      rw [skipelem_none path name h]
  · intro rest hrest
    have hp : peek (skipSlashes path) ≠ 0 := by
      intro h
      rw [skipelem_none path name h] at hrest
      exact absurd hrest (by simp)
    rw [skipelem_some path name hp] at hrest ⊢
    simp only [Option.some.injEq] at hrest
    obtain ⟨sl, e1, h1, h2⟩ := skipSlashes_split path
    obtain ⟨mid, e2, h3, h4⟩ :=
      skipSlashes_split ((skipSlashes path).drop (elemLen (skipSlashes path)))
    rw [hrest] at e2 h4
    have hnul1 : ∀ ch, ch ∈ skipSlashes path → ch ≠ 0 := by
      intro ch hch
      apply hnul
      rw [e1]
      exact List.mem_append_right _ hch
    have hpos := elemLen_pos _ h2 hp
    have hle := elemLen_le (skipSlashes path)
    have hlen : ((skipSlashes path).take (elemLen (skipSlashes path))).length
        = elemLen (skipSlashes path) := by
      rw [List.length_take]
      exact Nat.min_eq_left hle
    have hpath : path = sl ++ (skipSlashes path).take (elemLen (skipSlashes path))
        ++ mid ++ rest := by
      rw [List.append_assoc, List.append_assoc, ← e2, List.take_append_drop]
      exact e1
    refine ⟨sl, (skipSlashes path).take (elemLen (skipSlashes path)), mid, hpath, h1, ?_,
      elemLen_take _, h3, ?_, h4, ?_, ?_, ?_, ?_⟩
    · intro h
      rw [h] at hlen
      simp at hlen
      omega
    · intro hm
      rw [hm, List.nil_append] at e2
      rcases elemLen_drop _ hnul1 with h | h
      · rw [← h]
        exact e2.symm
      · rw [e2] at h
        exact absurd h h4
    · have := congrArg List.length hpath
      simp only [List.length_append, hlen] at this
      omega
    · intro i hi
      dsimp only
      unfold storeName
      simp only [hi, if_true]
    · intro hl
      dsimp only
      unfold storeName
      have : ¬ (((skipSlashes path).take (elemLen (skipSlashes path))).length
          < min ((skipSlashes path).take (elemLen (skipSlashes path))).length DIRSIZ) := by
        omega
      simp only [this, if_false, hl, true_and, if_true]
    · intro hl i hi
      dsimp only
      unfold storeName
      have hi2 : i < min ((skipSlashes path).take (elemLen (skipSlashes path))).length
          DIRSIZ := by omega
      simp only [hi2, if_true]
      have hi3 : i < ((skipSlashes path).take (elemLen (skipSlashes path))).length := by
        omega
      rw [List.getD_eq_getElem _ _ hi3]
      apply hnul1
      exact List.mem_of_mem_take (List.getElem_mem _)

theorem skipelem_spec_witness :
    ((skipelem [47, 97, 47, 98] (fun _ => 9)).1 = none
        ↔ ∀ ch, ch ∈ [47, 97, 47, 98] → ch = 47)
    ∧ (skipelem [47, 97, 47, 98] (fun _ => 9)).1 = some [98] :=
  ⟨(skipelem_spec [47, 97, 47, 98] (fun _ => 9) (by decide)).1, rfl⟩

end Xk

namespace Xk

/-! ## Directory lookup (C15) -/

theorem strncmp_congr (p p2 q : Nat → Nat) :
    ∀ n i, (∀ j, i ≤ j → j < i + n → (∀ j2, i ≤ j2 → j2 < j → p j2 ≠ 0) → p j = p2 j) →
      strncmp p q n i = strncmp p2 q n i := by
  intro n
  induction n with
  | zero => intro i _; rfl
  | succ n ih =>
    intro i h
    have hi : p i = p2 i := h i (le_refl _) (by omega) (fun j2 h1 h2 => by omega)
    unfold strncmp
    rw [← hi]
    by_cases hc : p i ≠ 0 ∧ p i = q i
    · rw [if_pos hc, if_pos hc]
      apply ih
      intro j h1 h2 h3
      apply h j (by omega) (by omega)
      intro j2 h4 h5
      by_cases e : j2 = i
      · rw [e]
        exact hc.1
      · exact h3 j2 (by omega) h5
    · rw [if_neg hc, if_neg hc]

theorem dirlookupLoop_congr (cfg : Config) (s : Kernel) (dp : iptr) (name name2 : Nat → Nat)
    (h : ∀ q, namecmp name q = namecmp name2 q) :
    ∀ cnt off, dirlookupLoop cfg s dp name cnt off = dirlookupLoop cfg s dp name2 cnt off := by
  intro cnt
  induction cnt with
  | zero => intro off; rfl
  | succ cnt ih =>
    intro off
    unfold dirlookupLoop
    simp only [h, ih]

theorem dirlookup_congr (cfg : Config) (s : Kernel) (dp : iptr) (name name2 : Nat → Nat)
    (h : ∀ q, namecmp name q = namecmp name2 q) :
    dirlookup cfg s dp name = dirlookup cfg s dp name2 := by
  unfold dirlookup
  rw [dirlookupLoop_congr cfg s dp name name2 h]

/-- Effect of one `iget` on the cache. -/
theorem iget_spec (cfg : Config) (s : Kernel) (dev inum k : Nat) (s1 : Kernel)
    (h : iget cfg s dev inum = Kres.ok (k, s1)) :
    k < cfg.NINODE ∧ (s1.slots k).dev = dev ∧ (s1.slots k).inum = inum
      ∧ s1.disk = s.disk ∧ s1.inodefile = s.inodefile
      ∧ (∀ j, j ≠ k → s1.slots j = s.slots j)
      ∧ (resident cfg s dev inum →
          cached (s.slots k) dev inum ∧ (s1.slots k).ref = (s.slots k).ref + 1)
      ∧ (¬ resident cfg s dev inum → (s1.slots k).ref = 1 ∧ (s1.slots k).valid = 0) := by
  unfold iget at h
  rcases igetLoop_cases s.slots dev inum cfg.NINODE with
    ⟨k1, e, hk, hc, _⟩ | ⟨hno, ⟨e, _⟩ | ⟨k1, e, hk, _, _⟩⟩
  · rw [e] at h
    simp only [Kres.ok.injEq, Prod.mk.injEq] at h
    obtain ⟨rfl, rfl⟩ := h
    refine ⟨hk, ?_, ?_, rfl, rfl, ?_, ?_, ?_⟩
    · simp [Kernel.set, hc.2.1]
    · simp [Kernel.set, hc.2.2]
    · intro j hj
      simp [Kernel.set, Function.update_noteq hj]
    · intro _
      exact ⟨hc, by simp [Kernel.set]⟩
    · intro hn
      exact absurd ⟨k1, hk, hc⟩ hn
  · rw [e] at h
    cases h
  · rw [e] at h
    simp only [Kres.ok.injEq, Prod.mk.injEq] at h
    obtain ⟨rfl, rfl⟩ := h
    refine ⟨hk, ?_, ?_, rfl, rfl, ?_, ?_, ?_⟩
    · simp [Kernel.set]
    · simp [Kernel.set]
    · intro j hj
      simp [Kernel.set, Function.update_noteq hj]
    · rintro ⟨j, hj, hcj⟩
      exact absurd hcj (hno j hj)
    · intro _
      simp [Kernel.set]

end Xk

namespace Xk

/-! ## Reads inside the populated extents succeed -/

end Xk

namespace Xk

end Xk

namespace Xk

/-! ## Path resolution (C17) -/

theorem splitPath_skipSlashes : ∀ p : List Nat, splitPath p [] = splitPath (skipSlashes p) [] := by
  intro p
  induction p with
  | nil => rfl
  | cons ch rest ih =>
    by_cases h : ch = 47
    · have e1 : splitPath (ch :: rest) [] = splitPath rest [] := by
        simp [splitPath, h]
      have e2 : skipSlashes (ch :: rest) = skipSlashes rest := by
        simp [skipSlashes, h]
      rw [e1, e2, ih]
    · have e2 : skipSlashes (ch :: rest) = ch :: rest := by
        simp [skipSlashes, h]
      rw [e2]

theorem splitPath_comp : ∀ (comp tail cur : List Nat), (∀ ch, ch ∈ comp → ch ≠ 47) →
    splitPath (comp ++ tail) cur = splitPath tail (cur ++ comp) := by
  intro comp
  induction comp with
  | nil => intro tail cur _; simp
  | cons c rest ih =>
    intro tail cur h
    have hc : c ≠ 47 := h c (List.mem_cons_self _ _)
    have : splitPath (c :: rest ++ tail) cur = splitPath (rest ++ tail) (cur ++ [c]) := by
      simp [splitPath, hc]
    rw [this, ih tail (cur ++ [c]) (fun ch hch => h ch (List.mem_cons_of_mem _ hch))]
    simp

theorem splitPath_ne_nil : ∀ (p cur : List Nat), cur ≠ [] → splitPath p cur ≠ [] := by
  intro p
  induction p with
  | nil => intro cur h; simp [splitPath, h]
  | cons c rest ih =>
    intro cur h
    unfold splitPath
    by_cases hc : c = 47
    · simp [hc, h]
    · simp only [hc, if_false]
      exact ih _ (by simp)

theorem skipSlashes_nil_of_peek (path : List Nat) (hnul : ∀ ch, ch ∈ path → ch ≠ 0)
    (h : peek (skipSlashes path) = 0) : skipSlashes path = [] := by
  obtain ⟨sl, e, _, _⟩ := skipSlashes_split path
  cases hp : skipSlashes path with
  | nil => rfl
  | cons c rest =>
    rw [hp] at h e
    have hc : c = 0 := by simpa [peek] using h
    have : c ∈ path := by
      rw [e]
      simp
    exact absurd hc (hnul c this)

theorem pathComponents_none (path : List Nat) (hnul : ∀ ch, ch ∈ path → ch ≠ 0)
    (h : peek (skipSlashes path) = 0) : pathComponents path = [] := by
  unfold pathComponents
  rw [splitPath_skipSlashes, skipSlashes_nil_of_peek path hnul h]
  rfl

theorem mem_skipSlashes (path : List Nat) (ch : Nat) (h : ch ∈ skipSlashes path) :
    ch ∈ path := by
  obtain ⟨sl, e, _, _⟩ := skipSlashes_split path
  rw [e]
  exact List.mem_append_right _ h

theorem pathComponents_some (path : List Nat) (hnul : ∀ ch, ch ∈ path → ch ≠ 0)
    (h : peek (skipSlashes path) ≠ 0) :
    pathComponents path
      = (skipSlashes path).take (elemLen (skipSlashes path))
        :: pathComponents (skipSlashes ((skipSlashes path).drop (elemLen (skipSlashes path)))) := by
  obtain ⟨_, _, _, h2⟩ := skipSlashes_split path
  have hpos := elemLen_pos _ h2 h
  have hne : (skipSlashes path).take (elemLen (skipSlashes path)) ≠ [] := by
    intro e
    have := congrArg List.length e
    rw [List.length_take, Nat.min_eq_left (elemLen_le _)] at this
    simp at this
    omega
  have hnul1 : ∀ ch, ch ∈ skipSlashes path → ch ≠ 0 :=
    fun ch hch => hnul ch (mem_skipSlashes path ch hch)
  have e1 : pathComponents path
      = splitPath ((skipSlashes path).drop (elemLen (skipSlashes path)))
          ((skipSlashes path).take (elemLen (skipSlashes path))) := by
    unfold pathComponents
    rw [splitPath_skipSlashes]
    conv_lhs => rw [← List.take_append_drop (elemLen (skipSlashes path)) (skipSlashes path)]
    rw [splitPath_comp _ _ _ (elemLen_take _), List.nil_append]
  rw [e1]
  have e2 : pathComponents (skipSlashes ((skipSlashes path).drop (elemLen (skipSlashes path))))
      = splitPath ((skipSlashes path).drop (elemLen (skipSlashes path))) [] := by
    unfold pathComponents
    rw [← splitPath_skipSlashes]
  rw [e2]
  rcases elemLen_drop _ hnul1 with hd | hd
  · rw [hd]
    simp [splitPath, hne]
  · cases hdr : (skipSlashes path).drop (elemLen (skipSlashes path)) with
    | nil => rw [hdr] at hd; simp at hd
    | cons c t =>
      rw [hdr] at hd
      have hc : c = 47 := by simpa using hd
      simp [splitPath, hc, hne]

theorem peek_rest_iff (path : List Nat) (hnul : ∀ ch, ch ∈ path → ch ≠ 0) :
    peek (skipSlashes path) = 0 ↔ pathComponents (skipSlashes path) = [] := by
  constructor
  · intro h
    rw [skipSlashes_nil_of_peek path hnul h]
    rfl
  · intro h
    by_contra hp
    obtain ⟨_, _, _, h2⟩ := skipSlashes_split path
    cases hs : skipSlashes path with
    | nil => rw [hs] at hp; exact hp rfl
    | cons c t =>
      rw [hs] at h h2
      have hc : c ≠ 47 := fun e => h2 (by rw [e]; rfl)
      unfold pathComponents splitPath at h
      simp only [hc, if_false] at h
      exact splitPath_ne_nil _ _ (by simp) h

theorem namecmp_storeName (comp : List Nat) (name q : Nat → Nat) :
    namecmp (storeName comp name) q = namecmp (cstr (comp.take DIRSIZ)) q := by
  unfold namecmp
  apply strncmp_congr
  intro j _ hj hpre
  unfold storeName cstr
  by_cases h1 : j < min comp.length DIRSIZ
  · simp only [h1, if_true]
    exact (getD_take comp DIRSIZ j (by omega)).symm
  · simp only [h1, if_false]
    have hlen : comp.length < DIRSIZ := by omega
    have hout : (comp.take DIRSIZ).getD j 0 = 0 := by
      apply List.getD_eq_default
      rw [List.length_take]
      omega
    rw [hout]
    by_cases h2 : j = comp.length
    · simp only [hlen, h2, and_self, if_true]
    · exfalso
      have hz := hpre comp.length (Nat.zero_le _) (by omega)
      apply hz
      unfold storeName
      have h3 : ¬ (comp.length < min comp.length DIRSIZ) := by omega
      simp only [h3, if_false, hlen, and_self, if_true]

theorem Kres.bind_congr {α β : Type} (r : Kres α) (f g : α → Kres β)
    (h : ∀ a, f a = g a) : r.bind f = r.bind g := by
  cases r <;> simp [Kres.bind, h]

theorem Kres.bind_assoc {α β γ : Type} (r : Kres α) (f : α → Kres β) (g : β → Kres γ) :
    (r.bind f).bind g = r.bind fun a => (f a).bind g := by
  cases r <;> simp [Kres.bind]

end Xk

namespace Xk

theorem namexLoop_eq_walkSpec (cfg : Config) (parent : Bool) :
    ∀ fuel (path : List Nat) (s : Kernel) (ip : Nat) (name : Nat → Nat),
      (∀ ch, ch ∈ path → ch ≠ 0) → path.length < fuel →
      namexLoop cfg fuel s ip path parent name
        = walkSpec cfg (pathComponents path) s ip parent name := by
  intro fuel
  induction fuel with
  | zero => intro path s ip name _ h; omega
  | succ fuel ih =>
    intro path s ip name hnul hlen
    unfold namexLoop
    by_cases hp : peek (skipSlashes path) = 0
    · rw [skipelem_none path name hp, pathComponents_none path hnul hp]
      rfl
    · rw [skipelem_some path name hp, pathComponents_some path hnul hp]
      obtain ⟨_, _, _, h2⟩ := skipSlashes_split path
      have hpos := elemLen_pos _ h2 hp
      have hnulr : ∀ ch, ch ∈ skipSlashes ((skipSlashes path).drop (elemLen (skipSlashes path)))
          → ch ≠ 0 := by
        intro ch hch
        apply hnul
        apply mem_skipSlashes
        exact List.mem_of_mem_drop (mem_skipSlashes _ _ hch)
      have hlenr : (skipSlashes ((skipSlashes path).drop (elemLen (skipSlashes path)))).length
          < fuel := by
        have a := skipSlashes_length ((skipSlashes path).drop (elemLen (skipSlashes path)))
        have b := skipSlashes_length path
        have c := elemLen_le (skipSlashes path)
        rw [List.length_drop] at a
        omega
      have hnuld : ∀ ch, ch ∈ (skipSlashes path).drop (elemLen (skipSlashes path)) → ch ≠ 0 :=
        fun ch hch => hnul ch (mem_skipSlashes _ _ (List.mem_of_mem_drop hch))
      have hlast := peek_rest_iff _ hnuld
      have hdl : ∀ s1 : Kernel,
          dirlookup cfg s1 (iptr.slot ip)
              (storeName ((skipSlashes path).take (elemLen (skipSlashes path))) name)
            = dirlookup cfg s1 (iptr.slot ip)
              (cstr (((skipSlashes path).take (elemLen (skipSlashes path))).take DIRSIZ)) :=
        fun s1 => dirlookup_congr cfg s1 _ _ _ (fun q => namecmp_storeName _ name q)
      dsimp only
      unfold walkSpec
      apply Kres.bind_congr
      intro s1
      by_cases hd : (s1.slots ip).type ≠ T_DIR
      · rw [if_pos hd, if_pos hd]
      · rw [if_neg hd, if_neg hd]
        by_cases hpl : parent = true
            ∧ peek (skipSlashes ((skipSlashes path).drop (elemLen (skipSlashes path)))) = 0
        · rw [if_pos hpl, if_pos ⟨hpl.1, hlast.mp hpl.2⟩]
        · rw [if_neg hpl, if_neg (fun h => hpl ⟨h.1, hlast.mpr h.2⟩), hdl s1]
          apply Kres.bind_congr
          intro d
          apply Kres.bind_congr
          intro s2
          cases d.1 with
          | none => rfl
          | some next =>
            dsimp only
            exact ih _ _ _ _ hnulr hlenr

theorem namexAbs_root (cfg : Config) (pm : Params) (s : Kernel) (name : Nat → Nat) :
    namexAbs cfg pm s [47] false name
      = (iget cfg s pm.ROOTDEV ROOTINO).bind fun g => Kres.ok (some g.1, name, g.2) := by
  unfold namexAbs
  apply Kres.bind_congr
  intro g
  rfl

theorem namex_eq_resolveSpec (cfg : Config) (pm : Params) (s : Kernel) (path : List Nat)
    (parent : Bool) (name : Nat → Nat) (hnul : ∀ ch, ch ∈ path → ch ≠ 0) :
    namex cfg pm s path parent name = resolveSpec cfg pm s path parent name := by
  unfold namex resolveSpec
  by_cases hp : peek path = 47
  · simp only [hp, if_true]
    unfold namexAbs
    apply Kres.bind_congr
    intro g
    exact namexLoop_eq_walkSpec cfg parent _ path g.2 g.1 name hnul (by omega)
  · simp only [hp, if_false]
    rw [namexAbs_root, Kres.bind_assoc]
    apply Kres.bind_congr
    intro g
    simp only [Kres.bind]
    exact namexLoop_eq_walkSpec cfg parent _ path _ g.1 name hnul (by omega)

end Xk

namespace Xk

theorem walkSpec_parent_name (cfg : Config) :
    ∀ (comps : List (List Nat)) (s : Kernel) (ip : Nat) (name : Nat → Nat) (k : Nat)
      (nm : Nat → Nat) (s1 : Kernel),
      walkSpec cfg comps s ip true name = Kres.ok (some k, nm, s1) →
      ∃ last prev, comps.getLast? = some last ∧ nm = storeName last prev := by
  intro comps
  induction comps with
  | nil =>
    intro s ip name k nm s1 h
    simp [walkSpec] at h
  | cons comp rest ih =>
    intro s ip name k nm s1 h
    unfold walkSpec at h
    obtain ⟨s2, _, h⟩ := (Kres.bind_ok_iff _ _ _).mp h
    by_cases hd : (s2.slots ip).type ≠ T_DIR
    · rw [if_pos hd] at h
      obtain ⟨s3, _, h⟩ := (Kres.bind_ok_iff _ _ _).mp h
      simp at h
    · rw [if_neg hd] at h
      by_cases hl : true = true ∧ rest = []
      · rw [if_pos hl] at h
        obtain ⟨s3, _, h⟩ := (Kres.bind_ok_iff _ _ _).mp h
        simp only [Kres.ok.injEq, Prod.mk.injEq] at h
        refine ⟨comp, name, ?_, h.2.1.symm⟩
        rw [hl.2]
        rfl
      · rw [if_neg hl] at h
        obtain ⟨d, _, h⟩ := (Kres.bind_ok_iff _ _ _).mp h
        obtain ⟨s3, _, h⟩ := (Kres.bind_ok_iff _ _ _).mp h
        cases hd1 : d.1 with
        | none =>
          rw [hd1] at h
          simp at h
        | some next =>
          rw [hd1] at h
          obtain ⟨last, prev, e1, e2⟩ := ih _ _ _ _ _ _ h
          refine ⟨last, prev, ?_, e2⟩
          cases rest with
          | nil => simp at e1
          | cons r rs =>
            rw [List.getLast?_cons_cons]
            exact e1

/-- C17: for a NUL-terminated path, `namei(path)` is the walk of the specification: from
the root inode (which is the result for an empty or all-slash path), each `/`-separated
component, cut to 14 bytes, is looked up with `dirlookup` in the inode reached so far, and
the result is 0 exactly when a lookup finds nothing or the inode to look in is not a
directory. `nameiparent(path, name)` is the same walk stopped before the last component
(the parent must be a directory too); it returns 0 when the path has no component, and
when it returns an inode `name` holds the last component (its first 14 bytes, followed by
a NUL when shorter). -/
theorem namei_walks_components (cfg : Config) (pm : Params) (s : Kernel) (path : List Nat)
    (name : Nat → Nat) (hnul : ∀ ch, ch ∈ path → ch ≠ 0) :
    namei cfg pm s path name
        = ((resolveSpec cfg pm s path false name).bind fun r => Kres.ok (r.1, r.2.2))
    ∧ nameiparent cfg pm s path name = resolveSpec cfg pm s path true name
    ∧ ((∀ ch, ch ∈ path → ch = 47) →
        ∀ k s1, iget cfg s pm.ROOTDEV ROOTINO = Kres.ok (k, s1) →
          namei cfg pm s path name
              = Kres.ok (some k, if peek path = 47 then s1 else idup s1 (iptr.slot k))
          ∧ nameiparent cfg pm s path name
              = Kres.ok (none, name,
                  irelease (if peek path = 47 then s1 else idup s1 (iptr.slot k))
                    (iptr.slot k)))
    ∧ (∀ k nm s1, nameiparent cfg pm s path name = Kres.ok (some k, nm, s1) →
        ∃ last, (pathComponents path).getLast? = some last
          ∧ (∀ i, i < min last.length DIRSIZ → nm i = last.getD i 0)
          ∧ (last.length < DIRSIZ → nm last.length = 0)) := by
  have e1 : ∀ parent, namex cfg pm s path parent name = resolveSpec cfg pm s path parent name :=
    fun parent => namex_eq_resolveSpec cfg pm s path parent name hnul
  refine ⟨?_, e1 true, ?_, ?_⟩
  · unfold namei
    rw [e1 false]
  · intro hall k s1 hg
    have hc : pathComponents path = [] :=
      pathComponents_none path hnul ((peek_zero_iff path hnul).mpr hall)
    constructor
    · unfold namei
      rw [e1 false]
      unfold resolveSpec
      rw [hg, hc]
      rfl
    · unfold nameiparent
      rw [e1 true]
      unfold resolveSpec
      rw [hg, hc]
      rfl
  · intro k nm s1 h
    unfold nameiparent at h
    rw [e1 true] at h
    unfold resolveSpec at h
    obtain ⟨g, _, h⟩ := (Kres.bind_ok_iff _ _ _).mp h
    obtain ⟨last, prev, h1, h2⟩ := walkSpec_parent_name cfg _ _ _ _ _ _ _ h
    refine ⟨last, h1, ?_, ?_⟩
    · intro i hi
      rw [h2]
      unfold storeName
      simp only [hi, if_true]
    · intro hl
      rw [h2]
      unfold storeName
      have : ¬ (last.length < min last.length DIRSIZ) := by omega
      simp only [this, if_false, hl, and_self, if_true]

set_option maxRecDepth 1000000 in
theorem namei_walks_components_witness :
    (∃ s1, namei cfg64 pm64 kernFS [47, 100] (fun _ => 0) = Kres.ok (some 1, s1)
      ∧ (s1.slots 1).inum = 3)
    ∧ (∃ nm s1, nameiparent cfg64 pm64 kernFS [47, 102, 47, 120] (fun _ => 0)
        = Kres.ok (none, nm, s1)) :=
  ⟨⟨_, (namei_walks_components cfg64 pm64 kernFS [47, 100] (fun _ => 0)
      (by decide)).1.trans rfl, rfl⟩,
   ⟨_, _, (namei_walks_components cfg64 pm64 kernFS [47, 102, 47, 120] (fun _ => 0)
      (by decide)).2.1.trans rfl⟩⟩

end Xk

namespace Xk

/-! ## Removing and creating files (C18, C19, C20) -/

set_option maxRecDepth 1000000 in
/-- C18: on the example volume the path `/a` does not resolve; `iopen("/a", O_CREATE)`
succeeds and returns inode 4, whose on-disk record has type `T_FILE` and size 0, and the
root directory gets an entry naming inode 4. The name stored in that entry is the path as
given, `/a`, so that `namei("/a")`, which looks up the component `a`, still returns 0
afterwards. -/
theorem iopen_created_file_not_found_under_slash_path :
    (∃ s0, namei cfg64 pm64 kernFS [47, 97] (fun _ => 0) = Kres.ok (none, s0))
    ∧ ∃ k s1, iopen cfg64 pm64 4 kernFS false [47, 97] 512 (fun _ => 0)
          = Kres.ok (some k, false, s1)
        ∧ (s1.slots k).inum = 4
        ∧ (∃ rec s2, read_dinode cfg64 s1 4 = Kres.ok (rec, s2)
            ∧ rec.type = T_FILE ∧ rec.size = 0)
        ∧ s1.disk 7 0 = 4 ∧ s1.disk 7 2 = 47 ∧ s1.disk 7 3 = 97 ∧ s1.disk 7 4 = 0
        ∧ ∃ s3, namei cfg64 pm64 s1 [47, 97] (fun _ => 0) = Kres.ok (none, s3) :=
  ⟨⟨_, rfl⟩, _, _, rfl, rfl, ⟨_, _, rfl, rfl, rfl⟩, rfl, rfl, rfl, rfl, _, rfl⟩

set_option maxRecDepth 1000000 in
/-- C19: from the example volume right after mount: open the file `f` and close it, remove
it with `unlink` (which returns 0 and frees its block through the extent left in the
cache slot), create a file `g` and close it. The file `g` is then unreferenced, yet
`unlink("g")` does not return: the slot it gets for `g` still holds the extent of `f`,
and freeing that block again panics. -/
theorem unlink_panics_on_stale_extents :
    ∃ k1 s1 s2 k2 s3,
      iopen cfg64 pm64 4 kernFS false [102] 0 (fun _ => 0) = Kres.ok (some k1, false, s1)
      ∧ unlink cfg64 pm64 4 (irelease s1 (iptr.slot k1)) [102] junkDinode (fun _ => 0)
          = Kres.ok (0, s2)
      ∧ iopen cfg64 pm64 4 s2 false [103] 512 (fun _ => 0) = Kres.ok (some k2, false, s3)
      ∧ ((irelease s3 (iptr.slot k2)).slots k2).ref = 0
      ∧ (((irelease s3 (iptr.slot k2)).slots k2).data 0).startblkno = 8
      ∧ (((irelease s3 (iptr.slot k2)).slots k2).data 0).nblocks = 1
      ∧ inUse sb64 kernFS.disk 8 = true ∧ inUse sb64 s3.disk 8 = false
      ∧ unlink cfg64 pm64 4 (irelease s3 (iptr.slot k2)) [103] junkDinode (fun _ => 0)
          = Kres.panic :=
  ⟨_, _, _, _, _, rfl, rfl, rfl, rfl, rfl, rfl, rfl, rfl, rfl⟩

set_option maxRecDepth 1000000 in
/-- C20: on the example volume the root entry `d` names inode 3, whose on-disk record has
type directory and which is not in the cache. `unlink("d")` returns 0, marks the record
of inode 3 free (type -1) and clears the directory entry. -/
theorem unlink_removes_uncached_directory :
    (diskDinode kernFS.disk 3).type = T_DIR ∧ kernFS.disk 7 32 = 3
    ∧ ∃ s1, unlink cfg64 pm64 4 kernFS [100] junkDinode (fun _ => 0) = Kres.ok (0, s1)
        ∧ (diskDinode s1.disk 3).type = -1 ∧ s1.disk 7 32 = 0 :=
  ⟨rfl, rfl, _, rfl, rfl, rfl⟩

end Xk

namespace Xk

/-! ## What `unlink` leaves behind (C21) -/

set_option maxRecDepth 1000000 in
/-- C21: on the example volume the root directory has size 48 (three entries), the inode
file has size 1024, and the name `d` resolves to inode 3. `unlink("f")` returns 0. It
clears the entry of `f` at offset 16 (storing the whole 16-byte entry, so the name bytes
become whatever the uninitialised local held, here 65), and it writes the size of the
root directory minus 16 and the size of the inode file minus 16 to their on-disk records,
while the sizes in memory stay 48 and 1024. With the root inode as cached, `d` still
resolves to inode 3; after the inode cache is loaded again from the disk the root
directory ends at offset 32, before the entry of `d`, and `d` no longer resolves. -/
theorem unlink_shrinks_recorded_sizes :
    (diskDinode kernFS.disk 1).size = 48 ∧ (diskDinode kernFS.disk 0).size = 1024
    ∧ kernFS.disk 7 16 = 2 ∧ kernFS.disk 7 18 = 102 ∧ kernFS.disk 7 19 = 0
    ∧ (∃ k s0, namei cfg64 pm64 kernFS [100] (fun _ => 0) = Kres.ok (some k, s0)
        ∧ (s0.slots k).inum = 3)
    ∧ ∃ s1, unlink cfg64 pm64 4 kernFS [102] junkDinode (fun _ => 65) = Kres.ok (0, s1)
        ∧ (diskDinode s1.disk 1).size = 32 ∧ (diskDinode s1.disk 0).size = 1008
        ∧ (s1.slots 0).inum = 1 ∧ (s1.slots 0).size = 48 ∧ s1.inodefile.size = 1024
        ∧ s1.disk 7 16 = 0 ∧ s1.disk 7 18 = 65 ∧ s1.disk 7 19 = 65
        ∧ s1.disk 7 32 = 3 ∧ s1.disk 7 34 = 100
        ∧ (∃ k s2, namei cfg64 pm64 s1 [100] (fun _ => 0) = Kres.ok (some k, s2)
            ∧ (s2.slots k).inum = 3)
        ∧ (bootKernel cfg64 s1.disk).inodefile.size = 1008
        ∧ ∃ s3, namei cfg64 pm64 (bootKernel cfg64 s1.disk) [100] (fun _ => 0)
            = Kres.ok (none, s3) :=
  ⟨rfl, rfl, rfl, rfl, rfl, ⟨_, _, rfl, rfl⟩, _, rfl, rfl, rfl, rfl, rfl, rfl, rfl, rfl, rfl,
    rfl, rfl, ⟨_, _, rfl, rfl⟩, rfl, _, rfl⟩

end Xk

namespace Xk

/-! ## The descriptor tables (C22, C24, C25, C26) -/

theorem add_global_fileLoop_some (infos : Nat → file_info) :
    ∀ cnt i e, add_global_fileLoop infos cnt i = some e →
      i ≤ e ∧ e < i + cnt ∧ (infos e).reference = 0
        ∧ ∀ j, i ≤ j → j < e → (infos j).reference ≠ 0 := by
  intro cnt
  induction cnt with
  | zero => intro i e h; simp [add_global_fileLoop] at h
  | succ cnt ih =>
    intro i e h
    unfold add_global_fileLoop at h
    by_cases hr : (infos i).reference = 0
    · rw [if_pos hr] at h
      cases h
      exact ⟨le_refl _, by omega, hr, fun j h1 h2 => by omega⟩
    · rw [if_neg hr] at h
      obtain ⟨h1, h2, h3, h4⟩ := ih (i + 1) e h
      refine ⟨by omega, by omega, h3, fun j hj1 hj2 => ?_⟩
      by_cases hji : j = i
      · rw [hji]; exact hr
      · exact h4 j (by omega) hj2

/-- Function `add_global_file` yields the lowest entry with reference 0. -/
theorem add_global_file_some (fp : FdParams) (infos : Nat → file_info) (e : Nat)
    (h : add_global_file fp infos = some e) :
    e < fp.NFILE ∧ (infos e).reference = 0 ∧ ∀ j, j < e → (infos j).reference ≠ 0 := by
  obtain ⟨_, h2, h3, h4⟩ := add_global_fileLoop_some infos fp.NFILE 0 e h
  exact ⟨by omega, h3, fun j hj => h4 j (Nat.zero_le _) hj⟩

theorem add_process_fileLoop_some (tab : Nat → Option Nat) :
    ∀ cnt i e, add_process_fileLoop tab cnt i = some e →
      i ≤ e ∧ e < i + cnt ∧ tab e = none ∧ ∀ j, i ≤ j → j < e → tab j ≠ none := by
  intro cnt
  induction cnt with
  | zero => intro i e h; simp [add_process_fileLoop] at h
  | succ cnt ih =>
    intro i e h
    unfold add_process_fileLoop at h
    by_cases hr : tab i = none
    · rw [if_pos hr] at h
      cases h
      exact ⟨le_refl _, by omega, hr, fun j h1 h2 => by omega⟩
    · rw [if_neg hr] at h
      obtain ⟨h1, h2, h3, h4⟩ := ih (i + 1) e h
      refine ⟨by omega, by omega, h3, fun j hj1 hj2 => ?_⟩
      by_cases hji : j = i
      · rw [hji]; exact hr
      · exact h4 j (by omega) hj2

theorem add_process_fileLoop_first (tab : Nat → Option Nat) :
    ∀ cnt i e, i ≤ e → e < i + cnt → tab e = none →
      (∀ j, i ≤ j → j < e → tab j ≠ none) →
      add_process_fileLoop tab cnt i = some e := by
  intro cnt
  induction cnt with
  | zero => intro i e h1 h2; omega
  | succ cnt ih =>
    intro i e h1 h2 h3 h4
    unfold add_process_fileLoop
    by_cases hie : i = e
    · rw [hie, if_pos h3]
    · rw [if_neg (h4 i (le_refl _) (by omega))]
      exact ih (i + 1) e (by omega) (by omega) h3 (fun j hj1 hj2 => h4 j (by omega) hj2)

theorem add_process_fileLoop_full (tab : Nat → Option Nat) :
    ∀ cnt i, (∀ j, i ≤ j → j < i + cnt → tab j ≠ none) →
      add_process_fileLoop tab cnt i = none := by
  intro cnt
  induction cnt with
  | zero => intro i _; rfl
  | succ cnt ih =>
    intro i h
    unfold add_process_fileLoop
    rw [if_neg (h i (le_refl _) (by omega))]
    exact ih (i + 1) (fun j hj1 hj2 => h j (by omega) (by omega))

/-- Function `add_process_file` yields the lowest NULL slot. -/
theorem add_process_file_some (fp : FdParams) (tab : Nat → Option Nat) (e : Nat)
    (h : add_process_file fp tab = some e) :
    e < fp.NOFILE ∧ tab e = none ∧ ∀ j, j < e → tab j ≠ none := by
  obtain ⟨_, h2, h3, h4⟩ := add_process_fileLoop_some tab fp.NOFILE 0 e h
  exact ⟨by omega, h3, fun j hj => h4 j (Nat.zero_le _) hj⟩

theorem add_process_file_first (fp : FdParams) (tab : Nat → Option Nat) (e : Nat)
    (h1 : e < fp.NOFILE) (h2 : tab e = none) (h3 : ∀ j, j < e → tab j ≠ none) :
    add_process_file fp tab = some e :=
  add_process_fileLoop_first tab fp.NOFILE 0 e (Nat.zero_le _) (by omega) h2
    (fun j _ hj => h3 j hj)

theorem add_process_file_full (fp : FdParams) (tab : Nat → Option Nat)
    (h : ∀ j, j < fp.NOFILE → tab j ≠ none) : add_process_file fp tab = none :=
  add_process_fileLoop_full tab fp.NOFILE 0 (fun j _ hj => h j (by omega))

/-! ### Modes -/

end Xk

namespace Xk

end Xk

namespace Xk

theorem setfd_same (procs : Nat → Nat → Option Nat) (pid fd : Nat) (v : Option Nat) :
    setfd procs pid fd v pid fd = v := by
  simp [setfd]

theorem setfd_other (procs : Nat → Nat → Option Nat) (pid fd : Nat) (v : Option Nat)
    (p f : Nat) (h : ¬ (p = pid ∧ f = fd)) : setfd procs pid fd v p f = procs p f := by
  unfold setfd
  by_cases hp : p = pid
  · subst hp
    have hf : f ≠ fd := fun e => h ⟨rfl, e⟩
    simp [hf]
  · simp [hp]

theorem setfd_restore (procs : Nat → Nat → Option Nat) (pid fd : Nat) (v : Option Nat) :
    setfd (setfd procs pid fd v) pid fd (procs pid fd) = procs := by
  funext p f
  by_cases h : p = pid ∧ f = fd
  · obtain ⟨h1, h2⟩ := h
    subst h1; subst h2
    rw [setfd_same]
  · rw [setfd_other _ _ _ _ _ _ h, setfd_other _ _ _ _ _ _ h]

/-- C24: `fdup(fd)` on a descriptor with no entry returns -1 and changes nothing. On a
descriptor that points at entry `e` (whose sleep lock is free): if `fd2` is the lowest
NULL slot of the descriptor table, `fdup` returns `fd2`, which is not `fd`; afterwards
`fd` and `fd2` both point at `e`, the reference of `e` is one higher, and everything else
(the other slots, the other entries, the other fields of `e`, the file system and the
pipes) is as before; if the table has no NULL slot, `fdup` returns -1 and changes
nothing. -/
theorem fdup_shares_entry (fp : FdParams) (pid : Nat) (st : Files) (fd : Nat) :
    (st.procs pid fd = none → fdup fp pid st fd = Kres.ok (-1, st))
    ∧ ∀ e, st.procs pid fd = some e → (st.infos e).lock = false →
        (∀ fd2, fd2 < fp.NOFILE → st.procs pid fd2 = none →
            (∀ j, j < fd2 → st.procs pid j ≠ none) →
            ∃ st1, fdup fp pid st fd = Kres.ok ((fd2 : Int), st1)
              ∧ fd2 ≠ fd
              ∧ st1.procs pid fd = some e ∧ st1.procs pid fd2 = some e
              ∧ (∀ p f, ¬ (p = pid ∧ f = fd2) → st1.procs p f = st.procs p f)
              ∧ (st1.infos e).reference = (st.infos e).reference + 1
              ∧ (∀ e1, e1 ≠ e → st1.infos e1 = st.infos e1)
              ∧ (st1.infos e).node = (st.infos e).node
              ∧ (st1.infos e).offset = (st.infos e).offset
              ∧ (st1.infos e).mode = (st.infos e).mode
              ∧ (st1.infos e).lock = (st.infos e).lock
              ∧ (st1.infos e).buffer = (st.infos e).buffer
              ∧ st1.kern = st.kern ∧ st1.openlock = st.openlock ∧ st1.pipes = st.pipes)
        ∧ ((∀ j, j < fp.NOFILE → st.procs pid j ≠ none) →
            fdup fp pid st fd = Kres.ok (-1, st)) := by
  constructor
  · intro h
    unfold fdup
    rw [h]
  · intro e he hl
    constructor
    · intro fd2 p1 p2 p3
      have hpf := add_process_file_first fp (st.procs pid) fd2 p1 p2 p3
      have hne : fd2 ≠ fd := by
        intro heq
        rw [heq, he] at p2
        cases p2
      refine ⟨Files.mk st.kern st.openlock
          (Function.update st.infos e
            { st.infos e with reference := (st.infos e).reference + 1 })
          (setfd st.procs pid fd2 (some e)) st.pipes st.freed,
        ?_, hne, ?_, ?_, ?_, ?_, ?_, ?_, ?_, ?_, ?_, ?_, rfl, rfl, rfl⟩
      · unfold fdup
        rw [he]
        simp only [hl, Bool.false_eq_true, if_false]
        rw [hpf]
      · show setfd st.procs pid fd2 (some e) pid fd = some e
        rw [setfd_other _ _ _ _ _ _ (fun h => hne h.2.symm), he]
      · exact setfd_same _ _ _ _
      · intro p f h
        exact setfd_other _ _ _ _ _ _ h
      · show (Function.update st.infos e _ e).reference = _
        rw [Function.update_same]
      · intro e1 h
        exact Function.update_noteq h _ _
      all_goals
        dsimp only
        rw [Function.update_same]
    · intro h
      unfold fdup
      rw [he]
      simp only [hl, Bool.false_eq_true, if_false]
      rw [add_process_file_full fp (st.procs pid) h]

/-- On the table with descriptor 0 open on the file `f`, `fdup(0)` returns 1. -/
theorem fdup_shares_entry_witness :
    ∃ st1, fdup fp64 0 filesOpen 0 = Kres.ok (((1 : Nat) : Int), st1)
      ∧ st1.procs 0 0 = some 0 ∧ st1.procs 0 1 = some 0
      ∧ (st1.infos 0).reference = (filesOpen.infos 0).reference + 1 := by
  obtain ⟨st1, h1, _, h3, h4, _, h6, _⟩ :=
    ((fdup_shares_entry fp64 0 filesOpen 0).2 0 rfl rfl).1 1 (by decide) rfl
      (fun j hj => by
        have : j = 0 := by omega
        subst this
        simp [filesOpen, setfd])
  exact ⟨st1, h1, h3, h4, h6⟩

end Xk

namespace Xk

/-- Closing the descriptor that `fdup` returned: the state is the one before `fdup`. -/
theorem fclose_after_fdup (fp : FdParams) (pid : Nat) (st : Files) (fd e fd2 : Nat)
    (he : st.procs pid fd = some e) (hl : (st.infos e).lock = false)
    (hr : (st.infos e).reference ≠ 0) (p2 : st.procs pid fd2 = none) :
    fclose fp pid
        (Files.mk st.kern st.openlock
          (Function.update st.infos e
            (file_info.mk (st.infos e).node (st.infos e).offset (st.infos e).mode
              ((st.infos e).reference + 1) false (st.infos e).buffer))
          (setfd st.procs pid fd2 (some e)) st.pipes st.freed) fd2
      = Kres.ok (0, st) := by
  unfold fclose
  dsimp only
  rw [setfd_same]
  dsimp only
  rw [Function.update_same]
  dsimp only
  simp only [Bool.false_eq_true, if_false]
  have h1 : (st.infos e).reference + 1 - 1 = (st.infos e).reference := by omega
  rw [h1]
  simp only [if_neg hr]
  have ei : Function.update
      (Function.update st.infos e
        (file_info.mk (st.infos e).node (st.infos e).offset (st.infos e).mode
          ((st.infos e).reference + 1) false (st.infos e).buffer)) e
      { node := (st.infos e).node, offset := (st.infos e).offset, mode := (st.infos e).mode,
        reference := (st.infos e).reference, lock := false, buffer := (st.infos e).buffer }
      = st.infos := by
    funext x
    by_cases hx : x = e
    · subst hx
      rw [Function.update_same, ← hl]
    · rw [Function.update_noteq hx, Function.update_noteq hx]
  have es : setfd (setfd st.procs pid fd2 (some e)) pid fd2 none = st.procs := by
    have := setfd_restore st.procs pid fd2 (some e)
    rw [p2] at this
    exact this
  rw [ei, es]
  simp only [hr, false_and, if_false]
  cases (st.infos e).node <;> cases (st.infos e).buffer <;> rfl

/-- C25: `fclose(fd)` on a descriptor with no entry returns -1 and changes nothing. On a
descriptor that points at entry `e` (whose sleep lock is free) it returns 0; afterwards
the slot is NULL and the other slots are as before, the reference of `e` is one lower and
the other entries are as before, and the file system is the one after `irelease` of the
inode of `e` if the reference became 0 and `e` has an inode, and the one before the call
otherwise. If the reference of `e` is not 0 and `fdup(fd)` returns a descriptor, closing
that descriptor returns 0 and gives back the state before `fdup`. -/
theorem fclose_drops_one_reference (fp : FdParams) (pid : Nat) (st : Files) (fd : Nat) :
    (st.procs pid fd = none → fclose fp pid st fd = Kres.ok (-1, st))
    ∧ ∀ e, st.procs pid fd = some e → (st.infos e).lock = false →
        (∃ st1, fclose fp pid st fd = Kres.ok (0, st1)
          ∧ st1.procs pid fd = none
          ∧ (∀ p f, ¬ (p = pid ∧ f = fd) → st1.procs p f = st.procs p f)
          ∧ (st1.infos e).reference = (st.infos e).reference - 1
          ∧ (∀ e1, e1 ≠ e → st1.infos e1 = st.infos e1)
          ∧ (∀ k, (st.infos e).node = some k → (st.infos e).reference - 1 = 0 →
              st1.kern = irelease st.kern (iptr.slot k))
          ∧ ((st.infos e).node = none ∨ (st.infos e).reference - 1 ≠ 0 →
              st1.kern = st.kern))
        ∧ ((st.infos e).reference ≠ 0 → ∀ r st2, fdup fp pid st fd = Kres.ok (r, st2) →
            r ≠ -1 → fclose fp pid st2 r.toNat = Kres.ok (0, st)) := by
  constructor
  · intro h
    unfold fclose
    rw [h]
  · intro e he hl
    constructor
    · unfold fclose
      rw [he]
      dsimp only
      rw [hl]
      simp only [Bool.false_eq_true, if_false]
      refine ⟨_, rfl, ?_, ?_, ?_, ?_, ?_, ?_⟩
      · exact setfd_same _ _ _ _
      · intro p f h
        exact setfd_other _ _ _ _ _ _ h
      · dsimp only
        rw [Function.update_same]
      · intro e1 h
        exact Function.update_noteq h _ _
      · intro k hk h0
        dsimp only
        rw [hk]
        dsimp only
        rw [if_pos h0]
      · intro h
        dsimp only
        rcases h with h | h
        · rw [h]
        · cases (st.infos e).node with
          | none => rfl
          | some k => dsimp only; rw [if_neg h]
    · intro hr r st2 hd hne
      unfold fdup at hd
      rw [he] at hd
      dsimp only at hd
      rw [hl] at hd
      simp only [Bool.false_eq_true, if_false] at hd
      cases hpf : add_process_file fp (st.procs pid) with
      | none =>
        rw [hpf] at hd
        cases hd
        exact absurd rfl hne
      | some fd2 =>
        rw [hpf] at hd
        cases hd
        have p2 := (add_process_file_some fp (st.procs pid) fd2 hpf).2.1
        rw [Int.toNat_ofNat]
        exact fclose_after_fdup fp pid st fd e fd2 he hl hr p2

/-- On the table with descriptor 0 open on `f`: `fclose(0)` returns 0, drops the only
reference and releases the inode in slot 1. -/
theorem fclose_drops_one_reference_witness :
    ∃ st1, fclose fp64 0 filesOpen 0 = Kres.ok (0, st1)
      ∧ st1.procs 0 0 = none
      ∧ (st1.infos 0).reference = (filesOpen.infos 0).reference - 1
      ∧ st1.kern = irelease filesOpen.kern (iptr.slot 1) := by
  obtain ⟨st1, h1, h2, _, h4, _, h6, _⟩ :=
    ((fclose_drops_one_reference fp64 0 filesOpen 0).2 0 rfl rfl).1
  exact ⟨st1, h1, h2, h4, h6 1 rfl rfl⟩

/-- C26: on a descriptor that points at an entry whose sleep lock is free and whose mode
is none of `O_RDONLY`, `O_RDWR`, `O_PIPERD`, `fread` with a nonzero length returns -1,
stores nothing and leaves the state (cursor, file contents, locks) as it was; on an entry
whose mode is none of `O_WRONLY`, `O_RDWR`, `O_PIPEWR`, `fwrite` with a nonzero length
returns -1 and leaves the state as it was. -/
theorem fread_fwrite_reject_mode (cfg : Config) (fp : FdParams) (fuel pid : Nat)
    (st : Files) (fd e : Nat) (buf : List Nat) (len : Int)
    (he : st.procs pid fd = some e) (hl : (st.infos e).lock = false) (hlen : len ≠ 0) :
    ((st.infos e).mode ≠ fp.O_RDONLY → (st.infos e).mode ≠ fp.O_RDWR →
        (st.infos e).mode ≠ fp.O_PIPERD →
        fread cfg fp pid st fd len = Kres.ok (-1, [], st))
    ∧ ((st.infos e).mode ≠ fp.O_WRONLY → (st.infos e).mode ≠ fp.O_RDWR →
        (st.infos e).mode ≠ fp.O_PIPEWR →
        fwrite cfg fp fuel pid st fd buf len = Kres.ok (-1, st)) := by
  constructor
  · intro h1 h2 h3
    unfold fread
    rw [he]
    dsimp only
    rw [if_neg hlen, hl]
    simp only [Bool.false_eq_true, if_false]
    rw [if_neg h3, if_pos (Or.inl ⟨h1, h2⟩)]
  · intro h1 h2 h3
    unfold fwrite
    rw [he]
    dsimp only
    rw [if_neg hlen, hl]
    simp only [Bool.false_eq_true, if_false]
    rw [if_neg h3, if_pos (Or.inl ⟨h1, h2⟩)]

/-- With descriptor 0 open write-only and descriptor 1 open read-only on the file `f`,
reading 5 bytes from descriptor 0 and writing 5 bytes to descriptor 1 fail. -/
theorem fread_fwrite_reject_mode_witness :
    fread cfg64 fp64 0 filesModes 0 5 = Kres.ok (-1, [], filesModes)
    ∧ fwrite cfg64 fp64 4 0 filesModes 1 [104, 101, 108, 108, 111] 5
        = Kres.ok (-1, filesModes) :=
  ⟨(fread_fwrite_reject_mode cfg64 fp64 4 0 filesModes 0 0 [] 5 rfl rfl (by decide)).1
      (by decide) (by decide) (by decide),
    (fread_fwrite_reject_mode cfg64 fp64 4 0 filesModes 1 1 [104, 101, 108, 108, 111] 5
      rfl rfl (by decide)).2 (by decide) (by decide) (by decide)⟩

end Xk

namespace Xk

/-! ## Reference counts (C23) -/

theorem refCount_link (fp : FdParams) (procs : Nat → Nat → Option Nat) (pid fd e0 e : Nat)
    (hn : procs pid fd = none) (hp : pid < fp.NPROC) (hf : fd < fp.NOFILE) :
    refCount fp (setfd procs pid fd (some e0)) e
      = refCount fp procs e + (if e = e0 then 1 else 0) := by
  unfold refCount
  by_cases he : e = e0
  · subst he
    rw [if_pos rfl]
    have hset : (Finset.range fp.NPROC ×ˢ Finset.range fp.NOFILE).filter
          (fun x => setfd procs pid fd (some e) x.1 x.2 = some e)
        = insert (pid, fd) ((Finset.range fp.NPROC ×ˢ Finset.range fp.NOFILE).filter
          (fun x => procs x.1 x.2 = some e)) := by
      ext x
      obtain ⟨p, f⟩ := x
      simp only [Finset.mem_filter, Finset.mem_product, Finset.mem_range, Finset.mem_insert,
        Prod.mk.injEq]
      by_cases hx : p = pid ∧ f = fd
      · obtain ⟨h1, h2⟩ := hx
        subst h1; subst h2
        rw [setfd_same]
        simp [hp, hf]
      · rw [setfd_other _ _ _ _ _ _ hx]
        simp [hx]
    rw [hset, Finset.card_insert_of_not_mem]
    simp [hn]
  · rw [if_neg he, Nat.add_zero]
    congr 1
    ext x
    obtain ⟨p, f⟩ := x
    simp only [Finset.mem_filter, Finset.mem_product, Finset.mem_range]
    by_cases hx : p = pid ∧ f = fd
    · obtain ⟨h1, h2⟩ := hx
      subst h1; subst h2
      rw [setfd_same, hn]
      simp [Ne.symm he]
    · rw [setfd_other _ _ _ _ _ _ hx]

theorem refCount_unlink (fp : FdParams) (procs : Nat → Nat → Option Nat) (pid fd e0 e : Nat)
    (hs : procs pid fd = some e0) (hp : pid < fp.NPROC) (hf : fd < fp.NOFILE) :
    refCount fp (setfd procs pid fd none) e + (if e = e0 then 1 else 0)
      = refCount fp procs e := by
  unfold refCount
  by_cases he : e = e0
  · subst he
    rw [if_pos rfl]
    have hset : (Finset.range fp.NPROC ×ˢ Finset.range fp.NOFILE).filter
          (fun x => procs x.1 x.2 = some e)
        = insert (pid, fd) ((Finset.range fp.NPROC ×ˢ Finset.range fp.NOFILE).filter
          (fun x => setfd procs pid fd none x.1 x.2 = some e)) := by
      ext x
      obtain ⟨p, f⟩ := x
      simp only [Finset.mem_filter, Finset.mem_product, Finset.mem_range, Finset.mem_insert,
        Prod.mk.injEq]
      by_cases hx : p = pid ∧ f = fd
      · obtain ⟨h1, h2⟩ := hx
        subst h1; subst h2
        simp [hp, hf, hs]
      · rw [setfd_other _ _ _ _ _ _ hx]
        simp [hx]
    rw [hset, Finset.card_insert_of_not_mem]
    simp [setfd_same]
  · rw [if_neg he, Nat.add_zero]
    congr 1
    ext x
    obtain ⟨p, f⟩ := x
    simp only [Finset.mem_filter, Finset.mem_product, Finset.mem_range]
    by_cases hx : p = pid ∧ f = fd
    · obtain ⟨h1, h2⟩ := hx
      subst h1; subst h2
      rw [setfd_same, hs]
      simp [Ne.symm he]
    · rw [setfd_other _ _ _ _ _ _ hx]

theorem refCount_empty (fp : FdParams) (procs : Nat → Nat → Option Nat) (e : Nat)
    (h : ∀ p f, procs p f = none) : refCount fp procs e = 0 := by
  unfold refCount
  rw [Finset.card_eq_zero, Finset.filter_eq_empty_iff]
  intro x _
  rw [h]
  simp

/-- Linking a NULL slot to an entry and counting the reference keeps the counts right. -/
theorem counts_link (fp : FdParams) (infos : Nat → file_info) (procs : Nat → Nat → Option Nat)
    (pid fd e0 : Nat) (fi : file_info)
    (hinv : ∀ e, (infos e).reference = (refCount fp procs e : Int))
    (hn : procs pid fd = none) (hp : pid < fp.NPROC) (hf : fd < fp.NOFILE)
    (hfi : fi.reference = (infos e0).reference + 1) :
    ∀ e, (Function.update infos e0 fi e).reference
      = (refCount fp (setfd procs pid fd (some e0)) e : Int) := by
  intro e
  rw [refCount_link fp procs pid fd e0 e hn hp hf]
  by_cases he : e = e0
  · subst he
    rw [Function.update_same, hfi, hinv, if_pos rfl]
    push_cast
    rfl
  · rw [Function.update_noteq he, hinv, if_neg he]
    simp

/-- Clearing a slot and dropping the reference keeps the counts right. -/
theorem counts_unlink (fp : FdParams) (infos : Nat → file_info)
    (procs : Nat → Nat → Option Nat) (pid fd e0 : Nat) (fi : file_info)
    (hinv : ∀ e, (infos e).reference = (refCount fp procs e : Int))
    (hs : procs pid fd = some e0) (hp : pid < fp.NPROC) (hf : fd < fp.NOFILE)
    (hfi : fi.reference = (infos e0).reference - 1) :
    ∀ e, (Function.update infos e0 fi e).reference
      = (refCount fp (setfd procs pid fd none) e : Int) := by
  intro e
  have h := refCount_unlink fp procs pid fd e0 e hs hp hf
  by_cases he : e = e0
  · subst he
    rw [Function.update_same, hfi, hinv, ← h, if_pos rfl]
    push_cast
    omega
  · rw [Function.update_noteq he, hinv, ← h, if_neg he]
    simp

end Xk

namespace Xk

/-- What `fopen` does to the tables: nothing, returning -1, or it takes the lowest entry
with reference 0 and the lowest NULL slot. -/
theorem fopen_tables (cfg : Config) (pm : Params) (fp : FdParams) (fuel pid : Nat)
    (st st1 : Files) (path : List Nat) (mode : Nat) (name : Nat → Nat) (r : Int)
    (h : fopen cfg pm fp fuel pid st path mode name = Kres.ok (r, st1)) :
    (r = -1 ∧ st1.infos = st.infos ∧ st1.procs = st.procs ∧ st1.pipes = st.pipes)
    ∨ ∃ fd1 fd2 fi, add_global_file fp st.infos = some fd1
        ∧ add_process_file fp (st.procs pid) = some fd2 ∧ fi.reference = 1
        ∧ r = (fd2 : Int) ∧ st1.infos = Function.update st.infos fd1 fi
        ∧ st1.procs = setfd st.procs pid fd2 (some fd1) ∧ st1.pipes = st.pipes := by
  unfold fopen at h
  rw [Kres.bind_ok_iff] at h
  obtain ⟨n, hn, h⟩ := h
  have hn2 : n.2.infos = st.infos ∧ n.2.procs = st.procs ∧ n.2.pipes = st.pipes := by
    by_cases hm : mode = fp.O_PIPERD ∨ mode = fp.O_PIPEWR
    · rw [if_pos hm] at hn
      cases hn
      exact ⟨rfl, rfl, rfl⟩
    · rw [if_neg hm, Kres.bind_ok_iff] at hn
      obtain ⟨a, _, ha⟩ := hn
      cases ha
      exact ⟨rfl, rfl, rfl⟩
  obtain ⟨e1, e2, e3⟩ := hn2
  cases hnode : n.1 with
  | none =>
    rw [hnode] at h
    cases h
    exact Or.inl ⟨rfl, e1, e2, e3⟩
  | some node =>
    rw [hnode] at h
    dsimp only at h
    rw [e1, e2] at h
    cases hg : add_global_file fp st.infos with
    | none =>
      rw [hg] at h
      cases h
      exact Or.inl ⟨rfl, e1, e2, e3⟩
    | some fd1 =>
      rw [hg] at h
      dsimp only at h
      cases hp : add_process_file fp (st.procs pid) with
      | none =>
        rw [hp] at h
        cases h
        exact Or.inl ⟨rfl, e1, e2, e3⟩
      | some fd2 =>
        rw [hp] at h
        cases h
        exact Or.inr ⟨fd1, fd2, _, rfl, rfl, rfl, rfl, rfl, rfl, e3⟩

theorem fopen_counts (cfg : Config) (pm : Params) (fp : FdParams) (fuel pid : Nat)
    (st st1 : Files) (path : List Nat) (mode : Nat) (name : Nat → Nat) (r : Int)
    (hinv : countsOK fp st) (hpid : pid < fp.NPROC)
    (h : fopen cfg pm fp fuel pid st path mode name = Kres.ok (r, st1)) :
    countsOK fp st1 := by
  rcases fopen_tables cfg pm fp fuel pid st st1 path mode name r h with
    ⟨_, e1, e2, _⟩ | ⟨fd1, fd2, fi, hg, hp, hfi, _, e1, e2, _⟩
  · unfold countsOK
    rw [e1, e2]
    exact hinv
  · obtain ⟨_, g2, _⟩ := add_global_file_some fp st.infos fd1 hg
    obtain ⟨p1, p2, _⟩ := add_process_file_some fp (st.procs pid) fd2 hp
    unfold countsOK
    rw [e1, e2]
    exact counts_link fp st.infos st.procs pid fd2 fd1 fi hinv p2 hpid p1
      (by rw [hfi, g2]; rfl)

theorem fdup_counts (fp : FdParams) (pid fd : Nat) (st st1 : Files) (r : Int)
    (hinv : countsOK fp st) (hpid : pid < fp.NPROC)
    (h : fdup fp pid st fd = Kres.ok (r, st1)) : countsOK fp st1 := by
  unfold fdup at h
  cases he : st.procs pid fd with
  | none =>
    rw [he] at h
    cases h
    exact hinv
  | some e =>
    rw [he] at h
    dsimp only at h
    by_cases hl : (st.infos e).lock = true
    · rw [if_pos hl] at h
      cases h
    · rw [if_neg hl] at h
      cases hp : add_process_file fp (st.procs pid) with
      | none =>
        rw [hp] at h
        cases h
        exact hinv
      | some fd2 =>
        rw [hp] at h
        cases h
        obtain ⟨p1, p2, _⟩ := add_process_file_some fp (st.procs pid) fd2 hp
        exact counts_link fp st.infos st.procs pid fd2 e _ hinv p2 hpid p1 rfl

theorem fclose_counts (fp : FdParams) (pid fd : Nat) (st st1 : Files) (r : Int)
    (hinv : countsOK fp st) (hpid : pid < fp.NPROC) (hfd : fd < fp.NOFILE)
    (h : fclose fp pid st fd = Kres.ok (r, st1)) : countsOK fp st1 := by
  unfold fclose at h
  cases he : st.procs pid fd with
  | none =>
    rw [he] at h
    cases h
    exact hinv
  | some e =>
    rw [he] at h
    dsimp only at h
    by_cases hl : (st.infos e).lock = true
    · rw [if_pos hl] at h
      cases h
    · rw [if_neg hl] at h
      cases h
      exact counts_unlink fp st.infos st.procs pid fd e _ hinv he hpid hfd rfl

/-- Storing a pipe buffer in an entry does not touch the reference. -/
theorem counts_buffer (fp : FdParams) (st : Files) (infos1 : Nat → file_info)
    (hinv : countsOK fp st) (h : ∀ e, (infos1 e).reference = (st.infos e).reference) :
    countsOK fp { st with infos := infos1 } := by
  intro e
  show (infos1 e).reference = _
  rw [h]
  exact hinv e

theorem fpipe_counts (cfg : Config) (pm : Params) (fp : FdParams) (fuel pid : Nat)
    (st st1 : Files) (page : Option Nat) (name : Nat → Nat) (r : Int)
    (fds : Option (Nat × Nat)) (hinv : countsOK fp st) (hpid : pid < fp.NPROC)
    (h : fpipe cfg pm fp fuel pid st page name = Kres.ok (r, fds, st1)) :
    countsOK fp st1 := by
  unfold fpipe at h
  cases page with
  | none =>
    cases h
    exact hinv
  | some q =>
    dsimp only at h
    rw [Kres.bind_ok_iff] at h
    obtain ⟨r1, h1, h⟩ := h
    rw [Kres.bind_ok_iff] at h
    obtain ⟨r2, h2, h⟩ := h
    have i1 : countsOK fp r1.2 :=
      fopen_counts cfg pm fp fuel pid _ r1.2 [] fp.O_PIPERD name r1.1 (by exact hinv) hpid h1
    have i2 : countsOK fp r2.2 :=
      fopen_counts cfg pm fp fuel pid r1.2 r2.2 [] fp.O_PIPEWR name r2.1 i1 hpid h2
    by_cases c1 : r1.1 = -1 ∧ r2.1 = -1
    · rw [if_pos c1] at h
      cases h
      exact i2
    · rw [if_neg c1] at h
      by_cases c2 : r1.1 = -1
      · rw [if_pos c2, Kres.bind_ok_iff] at h
        obtain ⟨c, hc, h⟩ := h
        cases h
        rcases fopen_tables cfg pm fp fuel pid r1.2 r2.2 [] fp.O_PIPEWR name r2.1 h2 with
          ⟨e, _⟩ | ⟨fd1, fd2, fi, _, hp, _, er, _⟩
        · exact absurd ⟨c2, e⟩ c1
        · obtain ⟨p1, _⟩ := add_process_file_some fp (r1.2.procs pid) fd2 hp
          rw [er, Int.toNat_ofNat] at hc
          exact fclose_counts fp pid fd2 r2.2 c.2 c.1 i2 hpid p1 hc
      · rw [if_neg c2] at h
        by_cases c3 : r2.1 = -1
        · rw [if_pos c3, Kres.bind_ok_iff] at h
          obtain ⟨c, hc, h⟩ := h
          cases h
          rcases fopen_tables cfg pm fp fuel pid _ r1.2 [] fp.O_PIPERD name r1.1 h1 with
            ⟨e, _⟩ | ⟨fd1, fd2, fi, _, hp, _, er, _⟩
          · exact absurd e c2
          · obtain ⟨p1, _⟩ := add_process_file_some fp _ fd2 hp
            rw [er, Int.toNat_ofNat] at hc
            exact fclose_counts fp pid fd2 r2.2 c.2 c.1 i2 hpid p1 hc
        · rw [if_neg c3] at h
          cases ha : r2.2.procs pid r1.1.toNat with
          | none =>
            rw [ha] at h
            cases h
          | some e1 =>
            cases hb : r2.2.procs pid r2.1.toNat with
            | none =>
              rw [ha, hb] at h
              cases h
            | some e2 =>
              rw [ha, hb] at h
              cases h
              apply counts_buffer fp r2.2 _ i2
              intro e
              by_cases x2 : e = e2
              · subst x2
                rw [Function.update_same]
                by_cases x1 : e = e1
                · subst x1
                  rw [Function.update_same]
                · rw [Function.update_noteq x1]
              · rw [Function.update_noteq x2]
                by_cases x1 : e = e1
                · subst x1
                  rw [Function.update_same]
                · rw [Function.update_noteq x1]

theorem forkFiles_counts (fp : FdParams) (parent child : Nat) (hc : child < fp.NPROC) :
    ∀ cnt i st st1, countsOK fp st → i + cnt ≤ fp.NOFILE →
      (∀ j, i ≤ j → st.procs child j = none) →
      forkFiles parent child cnt i st = Kres.ok st1 → countsOK fp st1 := by
  intro cnt
  induction cnt with
  | zero =>
    intro i st st1 hinv _ _ h
    cases h
    exact hinv
  | succ cnt ih =>
    intro i st st1 hinv hb hn h
    unfold forkFiles at h
    cases he : st.procs parent i with
    | none =>
      rw [he] at h
      exact ih (i + 1) st st1 hinv (by omega) (fun j hj => hn j (by omega)) h
    | some e =>
      rw [he] at h
      dsimp only at h
      by_cases hl : (st.infos e).lock = true
      · rw [if_pos hl] at h
        cases h
      · rw [if_neg hl] at h
        refine ih (i + 1) _ st1 ?_ (by omega) ?_ h
        · exact counts_link fp st.infos st.procs child i e _ hinv (hn i (le_refl _)) hc
            (by omega) rfl
        · intro j hj
          show setfd st.procs child i (some e) child j = none
          rw [setfd_other _ _ _ _ _ _ (fun hx => by omega)]
          exact hn j (by omega)

theorem reachable_counts (cfg : Config) (pm : Params) (fp : FdParams) (st : Files)
    (h : Reachable cfg pm fp st) : countsOK fp st := by
  induction h with
  | init st he =>
    intro e
    rw [he.1 e, refCount_empty fp st.procs e he.2.2]
    rfl
  | fopen st st1 fuel pid path mode name r _ hpid h ih =>
    exact fopen_counts cfg pm fp fuel pid st st1 path mode name r ih hpid h
  | fdup st st1 pid fd r _ hpid _ h ih => exact fdup_counts fp pid fd st st1 r ih hpid h
  | fclose st st1 pid fd r _ hpid hfd h ih =>
    exact fclose_counts fp pid fd st st1 r ih hpid hfd h
  | fpipe st st1 fuel pid page name r fds _ hpid h ih =>
    exact fpipe_counts cfg pm fp fuel pid st st1 page name r fds ih hpid h
  | fork st st1 parent child _ _ hc hn h ih =>
    exact forkFiles_counts fp parent child hc fp.NOFILE 0 st st1 ih (by omega)
      (fun j _ => hn j) h

/-- C23: in every state reached from empty tables by `fopen`, `fdup`, `fclose`, `fpipe`
and the descriptor copy of `fork`, the reference field of every global entry equals the
number of descriptor slots (over all processes) that point at the entry; and the entry
that `add_global_file` picks for reuse is one that no descriptor slot points at. -/
theorem reference_counts_descriptor_slots (cfg : Config) (pm : Params) (fp : FdParams)
    (st : Files) (h : Reachable cfg pm fp st) :
    (∀ e, (st.infos e).reference = (refCount fp st.procs e : Int))
    ∧ ∀ e, add_global_file fp st.infos = some e → refCount fp st.procs e = 0 := by
  have hinv := reachable_counts cfg pm fp st h
  refine ⟨hinv, fun e he => ?_⟩
  have h0 := (add_global_file_some fp st.infos e he).2.1
  rw [hinv e] at h0
  exact_mod_cast h0

end Xk

namespace Xk

set_option maxRecDepth 1000000 in
/-- From empty tables on the example volume, process 0 opens `f` (descriptor 0) and
duplicates the descriptor (descriptor 1): the reference of global entry 0 is 2, and two
descriptor slots point at it. -/
theorem reference_counts_descriptor_slots_witness :
    ∃ st1 st2, fopen cfg64 pm64 fp64 4 0 filesFS [102] 0 (fun _ => 0) = Kres.ok (0, st1)
      ∧ fdup fp64 0 st1 0 = Kres.ok (1, st2)
      ∧ (st2.infos 0).reference = 2 ∧ st2.procs 0 0 = some 0 ∧ st2.procs 0 1 = some 0
      ∧ (∀ e, (st2.infos e).reference = (refCount fp64 st2.procs e : Int))
      ∧ ∀ e, add_global_file fp64 st2.infos = some e → refCount fp64 st2.procs e = 0 :=
  ⟨_, _, rfl, rfl, rfl, rfl, rfl,
    reference_counts_descriptor_slots cfg64 pm64 fp64 _
      (Reachable.fdup _ _ 0 0 1
        (Reachable.fopen _ _ 4 0 [102] 0 (fun _ => 0) 0
          (Reachable.init filesFS ⟨fun _ => rfl, fun _ => rfl, fun _ _ => rfl⟩)
          (by decide) rfl)
        (by decide) (by decide) rfl)⟩

end Xk

namespace Xk

/-! ## Reading and writing through a descriptor (C27) -/

set_option maxRecDepth 1000000 in
/-- C27: on the example volume with empty tables. Opening `f` (5 bytes, `hello`)
read-only gives descriptor 0; `fread(0, buf, 10)` returns 5, stores `hello` and moves the
cursor to 5, and a second `fread(0, buf, 10)`, at end of file, returns 0 and leaves the
cursor at 5. Creating the file `g` with `O_CREATE | O_RDWR` gives a descriptor on an empty
regular file (inode 4, type `T_FILE`, size 0) with cursor 0; `fread(0, buf, 10)` on it, at
end of file, returns -1 and leaves the cursor at 0. After `fwrite(0, "abc", 3)`, which
returns 3 and moves the cursor to 3, the same read at end of file returns 0. -/
theorem fread_at_end_of_empty_file_returns_error :
    (∃ st1 st2 st3, fopen cfg64 pm64 fp64 4 0 filesFS [102] 0 (fun _ => 0) = Kres.ok (0, st1)
      ∧ fread cfg64 fp64 0 st1 0 10 = Kres.ok (5, [104, 101, 108, 108, 111], st2)
      ∧ (st2.infos 0).offset = 5
      ∧ fread cfg64 fp64 0 st2 0 10 = Kres.ok (0, [], st3) ∧ (st3.infos 0).offset = 5)
    ∧ ∃ st1 st2, fopen cfg64 pm64 fp64 4 0 filesFS [103] 514 (fun _ => 0) = Kres.ok (0, st1)
      ∧ (st1.infos 0).mode = 2 ∧ (st1.infos 0).offset = 0 ∧ (st1.infos 0).node = some 1
      ∧ (st1.kern.slots 1).inum = 4
      ∧ (∃ rec s, read_dinode cfg64 st1.kern 4 = Kres.ok (rec, s)
          ∧ rec.type = T_FILE ∧ rec.size = 0)
      ∧ fread cfg64 fp64 0 st1 0 10 = Kres.ok (-1, [], st2) ∧ (st2.infos 0).offset = 0
      ∧ ∃ st3 st4, fwrite cfg64 fp64 4 0 st1 0 [97, 98, 99] 3 = Kres.ok (3, st3)
          ∧ (st3.infos 0).offset = 3
          ∧ fread cfg64 fp64 0 st3 0 10 = Kres.ok (0, [], st4) ∧ (st4.infos 0).offset = 3 :=
  ⟨⟨_, _, _, rfl, rfl, rfl, rfl, rfl⟩,
    _, _, rfl, rfl, rfl, rfl, rfl, ⟨_, _, rfl, rfl, rfl⟩, rfl, rfl, _, _, rfl, rfl, rfl, rfl⟩

end Xk

namespace Xk

/-! ## Pipe buffers (C28, C29, C30) -/

theorem succ_wrap (w cap : Nat) (hw : w < cap) :
    (if w + 1 ≥ cap then 0 else w + 1) = (w + 1) % cap := by
  by_cases h : w + 1 ≥ cap
  · have : w + 1 = cap := by omega
    rw [if_pos h, this, Nat.mod_self]
  · rw [if_neg h, Nat.mod_eq_of_lt (by omega)]

/-- Storing one byte in a buffer that is not full appends it to the queue. -/
theorem pipePut_spec (b : p_buf) (x : Nat) (hok : pipeOK b) (hs : b.size < b.buffer_size) :
    pipeOK (pipePut b x) ∧ pipeContents (pipePut b x) = pipeContents b ++ [x]
      ∧ (pipePut b x).size = b.size + 1
      ∧ (pipePut b x).buffer_size = b.buffer_size
      ∧ (pipePut b x).read_open = b.read_open
      ∧ (pipePut b x).write_open = b.write_open := by
  obtain ⟨h0, h1, h2, h3⟩ := hok
  have hw : b.wr_offset < b.buffer_size := by rw [h2]; exact Nat.mod_lt _ h0
  refine ⟨⟨h0, h1, ?_, ?_⟩, ?_, rfl, rfl, rfl, rfl⟩
  · show (if b.wr_offset + 1 ≥ b.buffer_size then 0 else b.wr_offset + 1)
        = (b.rd_offset + (b.size + 1)) % b.buffer_size
    rw [succ_wrap _ _ hw, h2, Nat.mod_add_mod, Nat.add_assoc]
  · show b.size + 1 ≤ b.buffer_size
    omega
  · show (List.range (b.size + 1)).map
        (fun k => Function.update b.pipe_buf b.wr_offset x ((b.rd_offset + k) % b.buffer_size))
      = (List.range b.size).map (fun k => b.pipe_buf ((b.rd_offset + k) % b.buffer_size))
        ++ [x]
    rw [List.range_succ, List.map_append]
    congr 1
    · apply List.map_congr_left
      intro k hk
      rw [List.mem_range] at hk
      apply Function.update_noteq
      intro heq
      rw [h2] at heq
      have h4 : k % b.buffer_size = b.size % b.buffer_size :=
        Nat.ModEq.add_left_cancel' b.rd_offset heq
      rw [Nat.mod_eq_of_lt (by omega), Nat.mod_eq_of_lt hs] at h4
      omega
    · show [Function.update b.pipe_buf b.wr_offset x ((b.rd_offset + b.size) % b.buffer_size)]
        = [x]
      rw [← h2, Function.update_same]

/-- Taking one byte from a buffer that is not empty removes the head of the queue. -/
theorem pipeGet_spec (b : p_buf) (hok : pipeOK b) (hs : 0 < b.size) :
    pipeOK (pipeGet b) ∧ pipeContents b = b.pipe_buf b.rd_offset :: pipeContents (pipeGet b)
      ∧ (pipeGet b).size = b.size - 1
      ∧ (pipeGet b).buffer_size = b.buffer_size
      ∧ (pipeGet b).read_open = b.read_open
      ∧ (pipeGet b).write_open = b.write_open := by
  obtain ⟨h0, h1, h2, h3⟩ := hok
  have hr : (pipeGet b).rd_offset = (b.rd_offset + 1) % b.buffer_size := succ_wrap _ _ h1
  refine ⟨⟨h0, ?_, ?_, ?_⟩, ?_, rfl, rfl, rfl, rfl⟩
  · rw [hr]
    exact Nat.mod_lt _ h0
  · show b.wr_offset = ((pipeGet b).rd_offset + (b.size - 1)) % b.buffer_size
    rw [hr, Nat.mod_add_mod, h2]
    congr 1
    omega
  · show b.size - 1 ≤ b.buffer_size
    omega
  · show (List.range b.size).map (fun k => b.pipe_buf ((b.rd_offset + k) % b.buffer_size))
      = b.pipe_buf b.rd_offset
        :: (List.range (b.size - 1)).map
            (fun k => b.pipe_buf (((pipeGet b).rd_offset + k) % b.buffer_size))
    obtain ⟨n, hn⟩ : ∃ n, b.size = n + 1 := ⟨b.size - 1, by omega⟩
    rw [hn, Nat.add_sub_cancel, List.range_succ_eq_map, List.map_cons, List.map_map]
    congr 1
    · rw [Nat.add_zero, Nat.mod_eq_of_lt h1]
    · apply List.map_congr_left
      intro k _
      show b.pipe_buf ((b.rd_offset + (k + 1)) % b.buffer_size)
        = b.pipe_buf (((pipeGet b).rd_offset + k) % b.buffer_size)
      rw [hr, Nat.mod_add_mod]
      congr 2
      omega

/-- The write loop when the bytes left fit: it returns `left_to_write` with the bytes
appended. -/
theorem pipewriteLoop_fits (buf : List Nat) (L : Int) :
    ∀ cnt i b, pipeOK b → b.size + cnt ≤ b.buffer_size → i + cnt ≤ buf.length →
      ∃ b1, pipewriteLoop buf L cnt i b = PipeOut.ret L [] b1 ∧ pipeOK b1
        ∧ pipeContents b1 = pipeContents b ++ (buf.drop i).take cnt
        ∧ b1.size = b.size + cnt ∧ b1.buffer_size = b.buffer_size
        ∧ b1.read_open = b.read_open ∧ b1.write_open = b.write_open := by
  intro cnt
  induction cnt with
  | zero =>
    intro i b hok _ _
    exact ⟨b, rfl, hok, by simp, rfl, rfl, rfl, rfl⟩
  | succ cnt ih =>
    intro i b hok hs hi
    have hlt : b.size < b.buffer_size := by omega
    obtain ⟨p1, p2, p3, p4, p5, p6⟩ := pipePut_spec b (buf.getD i 0) hok hlt
    obtain ⟨b1, q1, q2, q3, q4, q5, q6, q7⟩ :=
      ih (i + 1) (pipePut b (buf.getD i 0)) p1 (by rw [p3, p4]; omega) (by omega)
    refine ⟨b1, ?_, q2, ?_, by rw [q4, p3]; omega, by rw [q5, p4], by rw [q6, p5],
      by rw [q7, p6]⟩
    · unfold pipewriteLoop
      rw [if_neg (by omega)]
      exact q1
    · rw [q3, p2, List.append_assoc]
      congr 1
      have hil : i < buf.length := by omega
      rw [List.drop_eq_getElem_cons hil, List.take_succ_cons, List.getD_eq_getElem _ _ hil]
      rfl

/-- The write loop when the bytes left do not fit: it goes to sleep on a full buffer,
with the bytes that did fit appended. -/
theorem pipewriteLoop_sleeps (buf : List Nat) (L : Int) :
    ∀ cnt i b, pipeOK b → b.buffer_size < b.size + cnt → i + cnt ≤ buf.length →
      ∃ b1, pipewriteLoop buf L cnt i b
          = PipeOut.asleep (i + (b.buffer_size - b.size)) b1 ∧ pipeOK b1
        ∧ pipeContents b1 = pipeContents b ++ (buf.drop i).take (b.buffer_size - b.size)
        ∧ b1.size = b1.buffer_size ∧ b1.buffer_size = b.buffer_size
        ∧ b1.read_open = b.read_open ∧ b1.write_open = b.write_open := by
  intro cnt
  induction cnt with
  | zero =>
    intro i b hok hs _
    have := hok.2.2.2
    omega
  | succ cnt ih =>
    intro i b hok hs hi
    by_cases hfull : b.size = b.buffer_size
    · refine ⟨b, ?_, hok, ?_, hfull, rfl, rfl, rfl⟩
      · unfold pipewriteLoop
        rw [if_pos hfull, hfull, Nat.sub_self, Nat.add_zero]
      · rw [hfull, Nat.sub_self, List.take_zero, List.append_nil]
    · have hlt : b.size < b.buffer_size := by
        have := hok.2.2.2
        omega
      obtain ⟨p1, p2, p3, p4, p5, p6⟩ := pipePut_spec b (buf.getD i 0) hok hlt
      obtain ⟨b1, q1, q2, q3, q4, q5, q6, q7⟩ :=
        ih (i + 1) (pipePut b (buf.getD i 0)) p1 (by rw [p3, p4]; omega) (by omega)
      rw [p3, p4] at q1 q3
      refine ⟨b1, ?_, q2, ?_, q4, by rw [q5, p4], by rw [q6, p5], by rw [q7, p6]⟩
      · unfold pipewriteLoop
        rw [if_neg hfull, q1]
        congr 1
        omega
      · rw [q3, p2, List.append_assoc]
        congr 1
        have hil : i < buf.length := by omega
        obtain ⟨m, hm⟩ : ∃ m, b.buffer_size - b.size = m + 1 :=
          ⟨b.buffer_size - b.size - 1, by omega⟩
        have hm2 : b.buffer_size - (b.size + 1) = m := by omega
        rw [hm, hm2, List.drop_eq_getElem_cons hil, List.take_succ_cons,
          List.getD_eq_getElem _ _ hil]
        rfl

/-- The read loop over at most the bytes held: it stores the oldest bytes in order and
leaves the rest. -/
theorem pipereadLoop_spec :
    ∀ cnt b out, pipeOK b → cnt ≤ b.size →
      (pipereadLoop cnt b out).1 = out ++ (pipeContents b).take cnt
        ∧ pipeOK (pipereadLoop cnt b out).2
        ∧ pipeContents (pipereadLoop cnt b out).2 = (pipeContents b).drop cnt
        ∧ (pipereadLoop cnt b out).2.size = b.size - cnt
        ∧ (pipereadLoop cnt b out).2.buffer_size = b.buffer_size
        ∧ (pipereadLoop cnt b out).2.read_open = b.read_open
        ∧ (pipereadLoop cnt b out).2.write_open = b.write_open := by
  intro cnt
  induction cnt with
  | zero =>
    intro b out hok _
    exact ⟨by simp [pipereadLoop], hok, by simp [pipereadLoop], rfl, rfl, rfl, rfl⟩
  | succ cnt ih =>
    intro b out hok hc
    obtain ⟨p1, p2, p3, p4, p5, p6⟩ := pipeGet_spec b hok (by omega)
    obtain ⟨q1, q2, q3, q4, q5, q6, q7⟩ :=
      ih (pipeGet b) (out ++ [b.pipe_buf b.rd_offset]) p1 (by rw [p3]; omega)
    unfold pipereadLoop
    refine ⟨?_, q2, ?_, by rw [q4, p3]; omega, by rw [q5, p4], by rw [q6, p5],
      by rw [q7, p6]⟩
    · rw [q1, p2, List.take_succ_cons, List.append_assoc]
      rfl
    · rw [q3, p2, List.drop_succ_cons]

/-- What `piperead` does on a buffer that holds bytes, with the read end open. -/
theorem pipereadCore_spec (b : p_buf) (L : Nat) (hok : pipeOK b) (hK : 1 ≤ b.size)
    (hro : b.read_open = true) :
    ∃ b1, pipereadCore b (L : Int)
        = PipeOut.ret ((min L b.size : Nat) : Int) ((pipeContents b).take (min L b.size)) b1
      ∧ pipeOK b1 ∧ pipeContents b1 = (pipeContents b).drop (min L b.size)
      ∧ b1.size = b.size - min L b.size ∧ b1.buffer_size = b.buffer_size
      ∧ b1.read_open = b.read_open ∧ b1.write_open = b.write_open := by
  have hn : (if (b.size : Int) < (L : Int) then (b.size : Int) else (L : Int))
      = ((min L b.size : Nat) : Int) := by
    by_cases h : (b.size : Int) < (L : Int)
    · rw [if_pos h]
      have : b.size < L := by exact_mod_cast h
      rw [Nat.min_eq_right (by omega)]
    · rw [if_neg h]
      have : ¬ b.size < L := fun h2 => h (by exact_mod_cast h2)
      rw [Nat.min_eq_left (by omega)]
  obtain ⟨q1, q2, q3, q4, q5, q6, q7⟩ :=
    pipereadLoop_spec (min L b.size) b [] hok (Nat.min_le_right _ _)
  refine ⟨(pipereadLoop (min L b.size) b []).2, ?_, q2, q3, q4, q5, q6, q7⟩
  unfold pipereadCore pipereadWait
  rw [hro]
  simp only [Bool.true_eq_false, if_false]
  rw [if_neg (by omega)]
  rw [hn, Int.toNat_ofNat, q1, List.nil_append]

theorem pipeContents_length (b : p_buf) : (pipeContents b).length = b.size := by
  unfold pipeContents
  rw [List.length_map, List.length_range]

/-- What `pipewrite` does on a buffer with both ends open that cannot take all the
bytes: it goes to sleep with the bytes that fit appended. -/
theorem pipewriteCore_sleeps (b : p_buf) (buf : List Nat) (L : Nat) (hL : buf.length = L)
    (hok : pipeOK b) (hr : b.read_open = true) (hw : b.write_open = true)
    (hover : b.buffer_size < b.size + L) :
    ∃ b1, pipewriteCore b buf (L : Int) = PipeOut.asleep (b.buffer_size - b.size) b1
      ∧ pipeOK b1
      ∧ pipeContents b1 = pipeContents b ++ buf.take (b.buffer_size - b.size)
      ∧ b1.size = b1.buffer_size ∧ b1.buffer_size = b.buffer_size
      ∧ b1.read_open = true ∧ b1.write_open = true := by
  obtain ⟨b1, q1, q2, q3, q4, q5, q6, q7⟩ :=
    pipewriteLoop_sleeps buf (L : Int) L 0 b hok hover (by omega)
  refine ⟨b1, ?_, q2, ?_, q4, q5, by rw [q6, hr], by rw [q7, hw]⟩
  · unfold pipewriteCore
    rw [hr, hw]
    simp only [Bool.true_eq_false, or_self, if_false]
    rw [Int.toNat_ofNat, q1, Nat.zero_add]
  · rw [q3, List.drop_zero]

/-- What `pipewrite` does on a buffer with both ends open that can take all the bytes:
it returns the length with the bytes appended. -/
theorem pipewriteCore_fits (b : p_buf) (buf : List Nat) (L : Nat) (hL : buf.length = L)
    (hok : pipeOK b) (hr : b.read_open = true) (hw : b.write_open = true)
    (hfit : b.size + L ≤ b.buffer_size) :
    ∃ b1, pipewriteCore b buf (L : Int) = PipeOut.ret (L : Int) [] b1 ∧ pipeOK b1
      ∧ pipeContents b1 = pipeContents b ++ buf
      ∧ b1.size = b.size + L ∧ b1.buffer_size = b.buffer_size
      ∧ b1.read_open = true ∧ b1.write_open = true := by
  obtain ⟨b1, q1, q2, q3, q4, q5, q6, q7⟩ :=
    pipewriteLoop_fits buf (L : Int) L 0 b hok hfit (by omega)
  refine ⟨b1, ?_, q2, ?_, q4, q5, by rw [q6, hr], by rw [q7, hw]⟩
  · unfold pipewriteCore
    rw [hr, hw]
    simp only [Bool.true_eq_false, or_self, if_false]
    rw [Int.toNat_ofNat, q1]
  · rw [q3, List.drop_zero, List.take_of_length_le (by omega)]

end Xk

namespace Xk

/-- C28: let a pipe buffer be well formed with both ends open, and let `pipewrite` be
called with `L` bytes that do not all fit (`size + L > buffer_size`). The call does not
return: it goes to sleep before byte number `buffer_size - size`, on a full buffer that
holds the earlier content followed by the first `buffer_size - size` bytes of the write.
A `piperead` for the whole buffer made while the writer sleeps returns these bytes. And
if the writer wakes up when an end has been closed, `pipewrite` returns -1 and leaves the
buffer as it finds it. So bytes of a write that ends with -1 reach the buffer and a
reader. -/
theorem pipewrite_sleeps_with_bytes_appended (b : p_buf) (buf : List Nat) (L : Nat)
    (hL : buf.length = L) (hok : pipeOK b) (hr : b.read_open = true)
    (hw : b.write_open = true) (hover : b.buffer_size < b.size + L) :
    ∃ b1, pipewriteCore b buf (L : Int) = PipeOut.asleep (b.buffer_size - b.size) b1
      ∧ b1.size = b1.buffer_size
      ∧ pipeContents b1 = pipeContents b ++ buf.take (b.buffer_size - b.size)
      ∧ (∃ b2, pipereadCore b1 (b1.buffer_size : Int)
            = PipeOut.ret (b1.buffer_size : Int)
                (pipeContents b ++ buf.take (b.buffer_size - b.size)) b2
          ∧ pipeContents b2 = [])
      ∧ ∀ b3, b3.read_open = false ∨ b3.write_open = false →
          pipewriteWake b3 buf (L : Int) (b.buffer_size - b.size) = PipeOut.ret (-1) [] b3 := by
  obtain ⟨b1, q1, q2, q3, q4, q5, q6, _⟩ := pipewriteCore_sleeps b buf L hL hok hr hw hover
  refine ⟨b1, q1, q4, q3, ?_, ?_⟩
  · have hpos : 1 ≤ b1.size := by
      have := q2.1
      omega
    obtain ⟨b2, r1, _, r3, _⟩ := pipereadCore_spec b1 b1.buffer_size q2 hpos q6
    have hmin : min b1.buffer_size b1.size = b1.size := by rw [q4, Nat.min_self]
    rw [hmin] at r1 r3
    have hlen := pipeContents_length b1
    rw [List.take_of_length_le (by omega), q3] at r1
    rw [List.drop_of_length_le (by omega)] at r3
    rw [q4] at r1
    exact ⟨b2, r1, r3⟩
  · intro b3 h3
    unfold pipewriteWake
    rw [if_pos (by rcases h3 with h | h <;> simp [h])]

/-- A write of 3971 bytes to the fresh pipe of 3970 bytes goes to sleep before its last
byte, with its first 3970 bytes in the buffer. -/
theorem pipewrite_sleeps_with_bytes_appended_witness :
    ∃ b1, pipewriteCore pipeFresh (List.replicate 3971 120) ((3971 : Nat) : Int)
        = PipeOut.asleep (pipeFresh.buffer_size - pipeFresh.size) b1
      ∧ pipeFresh.buffer_size - pipeFresh.size = 3970
      ∧ pipeContents b1
        = pipeContents pipeFresh
          ++ (List.replicate 3971 120).take (pipeFresh.buffer_size - pipeFresh.size)
      ∧ ∀ b3, b3.read_open = false ∨ b3.write_open = false →
          pipewriteWake b3 (List.replicate 3971 120) ((3971 : Nat) : Int)
            (pipeFresh.buffer_size - pipeFresh.size) = PipeOut.ret (-1) [] b3 := by
  obtain ⟨b1, h1, _, h3, _, h5⟩ :=
    pipewrite_sleeps_with_bytes_appended pipeFresh (List.replicate 3971 120) 3971
      (List.length_replicate _ _) ⟨by decide, by decide, by decide, by decide⟩ rfl rfl
      (by decide)
  exact ⟨b1, h1, by decide, h3, h5⟩

/-- C29: on a well-formed pipe buffer that holds `K >= 1` bytes, with the read end open,
`piperead` for `L` bytes returns `min(L, K)` without sleeping and stores the oldest
`min(L, K)` bytes of the buffer in their order; the buffer then holds the remaining bytes
in their order, and a later `piperead` returns the next of them. -/
theorem piperead_returns_oldest_bytes (b : p_buf) (L : Nat) (hok : pipeOK b)
    (hK : 1 ≤ b.size) (hro : b.read_open = true) (hL : 1 ≤ L) :
    ∃ b1, pipereadCore b (L : Int)
        = PipeOut.ret ((min L b.size : Nat) : Int) ((pipeContents b).take (min L b.size)) b1
      ∧ pipeContents b1 = (pipeContents b).drop (min L b.size)
      ∧ b1.size = b.size - min L b.size
      ∧ ∀ L2 : Nat, 1 ≤ L2 → 1 ≤ b1.size →
          ∃ b2, pipereadCore b1 (L2 : Int)
              = PipeOut.ret ((min L2 b1.size : Nat) : Int)
                  (((pipeContents b).drop (min L b.size)).take (min L2 b1.size)) b2
            ∧ pipeContents b2 = (pipeContents b).drop (min L b.size + min L2 b1.size) := by
  have _ := hL
  obtain ⟨b1, q1, q2, q3, q4, _, q6, _⟩ := pipereadCore_spec b L hok hK hro
  refine ⟨b1, q1, q3, q4, ?_⟩
  intro L2 _ h2
  obtain ⟨b2, r1, _, r3, _⟩ := pipereadCore_spec b1 L2 q2 h2 (by rw [q6, hro])
  rw [q3] at r1 r3
  rw [List.drop_drop] at r3
  exact ⟨b2, r1, r3⟩

set_option maxRecDepth 1000000 in
/-- After `hello` (5 bytes) was written to the fresh pipe, which returns 5, a `piperead`
for 10 bytes returns 5 and stores `hello`; the pipe is then empty. -/
theorem piperead_returns_oldest_bytes_witness :
    pipewriteCore pipeFresh [104, 101, 108, 108, 111] 5 = PipeOut.ret 5 [] pipeHello
    ∧ ∃ b1, pipereadCore pipeHello ((10 : Nat) : Int)
        = PipeOut.ret ((5 : Nat) : Int) [104, 101, 108, 108, 111] b1
      ∧ pipeContents b1 = [] ∧ b1.size = 0 := by
  refine ⟨rfl, ?_⟩
  obtain ⟨b1, h1, h2, h3, _⟩ :=
    piperead_returns_oldest_bytes pipeHello 10
      ⟨by decide, by decide, by decide, by decide⟩ (by decide) rfl (by decide)
  exact ⟨b1, h1, h2, h3⟩

/-- C30: `piperead` returns -1 at once, leaving the buffer as it is, when the read end is
closed; with the read end open it returns 0, storing nothing, when the buffer is empty and
the write end is closed. `pipewrite` returns -1 and leaves the buffer as it is when the
write end or the read end is closed on entry. -/
theorem pipe_calls_on_closed_ends (b : p_buf) (buf : List Nat) (L : Int) :
    (b.read_open = false → pipereadCore b L = PipeOut.ret (-1) [] b)
    ∧ (b.read_open = true → b.size = 0 → b.write_open = false →
        pipereadCore b L = PipeOut.ret 0 [] b)
    ∧ (b.write_open = false ∨ b.read_open = false →
        pipewriteCore b buf L = PipeOut.ret (-1) [] b) := by
  refine ⟨fun h => ?_, fun h1 h2 h3 => ?_, fun h => ?_⟩
  · unfold pipereadCore
    rw [if_pos h]
  · unfold pipereadCore pipereadWait
    rw [h1, if_pos h2, if_pos h3]
    simp
  · unfold pipewriteCore
    rw [if_pos h]

/-- The fresh pipe with one end closed: a read on the closed read end fails, a read on
the empty pipe whose write end is closed returns 0, and writes fail in both cases. -/
theorem pipe_calls_on_closed_ends_witness :
    pipereadCore { pipeFresh with read_open := false } 10
        = PipeOut.ret (-1) [] { pipeFresh with read_open := false }
    ∧ pipereadCore { pipeFresh with write_open := false } 10
        = PipeOut.ret 0 [] { pipeFresh with write_open := false }
    ∧ pipewriteCore { pipeFresh with write_open := false } [104, 105] 2
        = PipeOut.ret (-1) [] { pipeFresh with write_open := false } :=
  ⟨(pipe_calls_on_closed_ends { pipeFresh with read_open := false } [] 10).1 rfl,
    (pipe_calls_on_closed_ends { pipeFresh with write_open := false } [] 10).2.1 rfl rfl rfl,
    (pipe_calls_on_closed_ends { pipeFresh with write_open := false } [104, 105] 2).2.2
      (Or.inl rfl)⟩

end Xk

namespace Xk

/-! ## The open lock of `iopen` and the blocks of a removed file (C39, C36) -/

/-- C39: let `icache.openlock` be free when `iopen(path, mode)` is called, let the path
not resolve and let `mode` contain `O_CREATE`. If `findemptyinodeoffset` returns -1,
`iopen` returns NULL with the open lock still held. If it returns an offset, and
`findemptydirentoffset` then returns -1, `iopen` returns NULL (after it has written the
new inode record and released the root directory) with the open lock still held. -/
theorem iopen_leaves_openlock_held (cfg : Config) (pm : Params) (fuel : Nat) (s s1 : Kernel)
    (path : List Nat) (mode : Nat) (name : Nat → Nat)
    (hn : namei cfg pm s path name = Kres.ok (none, s1))
    (hc : pm.O_CREATE = pm.O_CREATE &&& mode) :
    (∀ s2, findemptyinodeoffset cfg s1 = Kres.ok (-1, s2) →
        iopen cfg pm fuel s false path mode name = Kres.ok (none, true, s2))
    ∧ ∀ f s2 s3 g e, findemptyinodeoffset cfg s1 = Kres.ok (f, s2) → f ≠ -1 →
        write_dinode cfg fuel s2 (f.toNat / DINODE_SIZE)
            { type := T_FILE, devid := (pm.ROOTDEV : Int), size := 0,
              data := fun _ => { startblkno := 0, nblocks := 0 } } = Kres.ok s3 →
        iget cfg s3 pm.ROOTDEV ROOTINO = Kres.ok g →
        findemptydirentoffset cfg pm g.2 = Kres.ok (-1, e) →
        iopen cfg pm fuel s false path mode name
          = Kres.ok (none, true, irelease e (iptr.slot g.1)) := by
  constructor
  · intro s2 h
    unfold iopen
    simp only [Bool.false_eq_true, if_false, hn, Kres.bind, if_pos hc, h, if_true]
  · intro f s2 s3 g e h hf hw hg he
    unfold iopen
    simp only [Bool.false_eq_true, if_false, hn, Kres.bind, if_pos hc, h, if_neg hf, hw, hg,
      he, if_true]

set_option maxRecDepth 1000000 in
/-- On a volume whose inode file has 30 populated extents without a free record, and on a
volume whose root directory has no free entry, `iopen("a", O_CREATE)` returns NULL with
the open lock held. -/
theorem iopen_leaves_openlock_held_witness :
    (∃ s2, iopen cfg64 pm64 4 kernInodesFull false [97] 512 (fun _ => 0)
        = Kres.ok (none, true, s2))
    ∧ ∃ s2, iopen cfg64 pm64 4 kernDirFull false [97] 512 (fun _ => 0)
        = Kres.ok (none, true, s2) :=
  ⟨⟨_, (iopen_leaves_openlock_held cfg64 pm64 4 kernInodesFull _ [97] 512 (fun _ => 0)
      rfl rfl).1 _ rfl⟩,
    ⟨_, (iopen_leaves_openlock_held cfg64 pm64 4 kernDirFull _ [97] 512 (fun _ => 0)
      rfl rfl).2 _ _ _ _ _ rfl (by decide) rfl rfl rfl⟩⟩

set_option maxRecDepth 1000000 in
/-- C36: on the example volume the on-disk record of the file `f` (inode 2) lists one
extent, block 8, which is marked in use. Right after mount, `unlink("f")` returns 0 and
marks the record free (type -1), but the free map is unchanged: block 8 stays marked in
use. If the directory `d` was opened and released before, the cache slot that `unlink`
gets for `f` still holds the extent of `d` (block 9): `unlink("f")` returns 0, block 8
stays marked in use, and block 9, which belongs to `d`, is marked free. -/
theorem unlink_frees_cached_extents_not_the_files :
    ((diskDinode kernFS.disk 2).data 0).startblkno = 8
    ∧ ((diskDinode kernFS.disk 2).data 0).nblocks = 1
    ∧ ((diskDinode kernFS.disk 2).data 1).nblocks = 0
    ∧ inUse sb64 kernFS.disk 8 = true ∧ inUse sb64 kernFS.disk 9 = true
    ∧ (∃ s1, unlink cfg64 pm64 4 kernFS [102] junkDinode (fun _ => 0) = Kres.ok (0, s1)
        ∧ (diskDinode s1.disk 2).type = -1
        ∧ s1.disk 2 0 = kernFS.disk 2 0 ∧ s1.disk 2 1 = kernFS.disk 2 1
        ∧ inUse sb64 s1.disk 8 = true)
    ∧ ∃ k s1 s2, iopen cfg64 pm64 4 kernFS false [100] 0 (fun _ => 0)
          = Kres.ok (some k, false, s1)
        ∧ unlink cfg64 pm64 4 (irelease s1 (iptr.slot k)) [102] junkDinode (fun _ => 0)
          = Kres.ok (0, s2)
        ∧ (diskDinode s2.disk 2).type = -1 ∧ (diskDinode s2.disk 3).type = T_DIR
        ∧ inUse sb64 s2.disk 8 = true ∧ inUse sb64 s2.disk 9 = false :=
  ⟨rfl, rfl, rfl, rfl, rfl, ⟨_, rfl, rfl, rfl, rfl, rfl⟩,
    _, _, _, rfl, rfl, rfl, rfl, rfl, rfl⟩

end Xk

namespace Xk

/-! ## Freeing what `balloc` returned (C33) -/

/-- A run of set bits inside one bitmap block: `bfree` returns, clears the bits of the
run and changes nothing else. -/
theorem bfree_ok (sb : superblock) (disk : Disk) (b n : Nat)
    (hn : 1 ≤ n) (hblk : b / BPB = (b + n - 1) / BPB)
    (hall : ∀ k, b ≤ k → k < b + n → inUse sb disk k = true) :
    ∃ disk1, bfree sb disk b n = Kres.ok disk1 ∧
      (∀ k, inUse sb disk1 k = (!decide (b ≤ k ∧ k < b + n) && inUse sb disk k)) ∧
      (∀ blk, blk ≠ BBLOCK b sb → disk1 blk = disk blk) := by
  have hB : BBLOCK b sb = BBLOCK (b + n - 1) sb := by unfold BBLOCK; rw [hblk]
  have hcnt : (b + n - 1) % BPB + 1 - b % BPB = n := by
    simp only [BPB, BSIZE] at *; omega
  have hin : ∀ k, b ≤ k → k < b + n →
      bitAt (disk (BBLOCK b sb)) (k % BPB) = inUse sb disk k := by
    intro k h1 h2
    have : BBLOCK k sb = BBLOCK b sb := by
      unfold BBLOCK
      have : k / BPB = b / BPB := by simp only [BPB, BSIZE] at *; omega
      rw [this]
    unfold inUse; rw [this]
  obtain ⟨bp1, hm1, hm2⟩ := bmarkLoop_free_ok n (b % BPB) (disk (BBLOCK b sb)) (by
    intro j hj1 hj2
    have hj : j = (b / BPB * BPB + j) % BPB := by
      simp only [BPB, BSIZE] at *; omega
    have := hin (b / BPB * BPB + j) (by simp only [BPB, BSIZE] at *; omega)
      (by simp only [BPB, BSIZE] at *; omega)
    rw [← hj] at this
    rw [this]
    exact hall _ (by simp only [BPB, BSIZE] at *; omega)
      (by simp only [BPB, BSIZE] at *; omega))
  refine ⟨Function.update disk (BBLOCK b sb) bp1, ?_, ?_, ?_⟩
  · simp [bfree, hn, hB.symm, bmark, hcnt, hm1, Kres.bind]
  · intro k
    unfold inUse
    by_cases hkb : BBLOCK k sb = BBLOCK b sb
    · rw [hkb, Function.update_same, hm2]
      have hdiv : k / BPB = b / BPB := by
        unfold BBLOCK at hkb; omega
      have : (b % BPB ≤ k % BPB ∧ k % BPB < b % BPB + n) ↔ (b ≤ k ∧ k < b + n) := by
        simp only [BPB, BSIZE] at *; omega
      simp only [this]
    · rw [Function.update_noteq hkb]
      have : ¬ (b ≤ k ∧ k < b + n) := by
        intro hk
        apply hkb
        unfold BBLOCK
        have : k / BPB = b / BPB := by simp only [BPB, BSIZE] at *; omega
        rw [this]
      simp [this]
  · intro blk hblk2
    exact Function.update_noteq hblk2 _ _

/-- C33: when `balloc(dev, n)` returns `s`, then `n >= 1` and the blocks `s .. s+n-1`
have their bits in one bitmap block, so that both assertions of `bfree(dev, s, n)` hold;
the `bfree` that follows returns, and after it every bit of the free map and every other
disk block is as it was before the `balloc`. -/
theorem bfree_undoes_balloc (sb : superblock) (disk : Disk) (n s : Nat) (disk1 : Disk)
    (h : balloc sb disk n = Kres.ok (s, disk1)) :
    1 ≤ n ∧ BBLOCK s sb = BBLOCK (s + n - 1) sb
    ∧ ∃ disk2, bfree sb disk1 s n = Kres.ok disk2
        ∧ (∀ k, inUse sb disk2 k = inUse sb disk k)
        ∧ ∀ blk, blk ≠ BBLOCK s sb → disk2 blk = disk blk := by
  obtain ⟨hn, hfit, _, hbits, hframe⟩ := balloc_ok sb disk n s disk1 h
  obtain ⟨_, hblk, hfree⟩ := hfit
  obtain ⟨disk2, h1, h2, h3⟩ := bfree_ok sb disk1 s n hn hblk (by
    intro k hk1 hk2
    rw [hbits]
    simp [hk1, hk2])
  refine ⟨hn, by unfold BBLOCK; rw [hblk], disk2, h1, ?_, ?_⟩
  · intro k
    rw [h2, hbits]
    by_cases hk : s ≤ k ∧ k < s + n
    · simp [hk, hfree k hk.1 hk.2]
    · simp [hk]
  · intro blk hb
    rw [h3 blk hb, hframe blk hb]

/-- On the 16-block volume with blocks 0 to 5 in use, `balloc(dev, 2)` returns 6 and the
`bfree(dev, 6, 2)` that follows restores the free map. -/
theorem bfree_undoes_balloc_witness :
    ∃ d1, balloc sb16 disk16 2 = Kres.ok (6, d1)
      ∧ ∃ d2, bfree sb16 d1 6 2 = Kres.ok d2 ∧ ∀ k, inUse sb16 d2 k = inUse sb16 disk16 k := by
  refine ⟨_, rfl, ?_⟩
  obtain ⟨_, _, d2, h1, h2, _⟩ := bfree_undoes_balloc sb16 disk16 2 6 _ rfl
  exact ⟨d2, h1, h2⟩

end Xk

namespace Xk

/-! ## The ring buffer of a pipe (C38) -/

theorem pipewriteLoop_ok (buf : List Nat) (L : Int) :
    ∀ cnt i b, pipeOK b → pipeOK (pipewriteLoop buf L cnt i b).pipe := by
  intro cnt
  induction cnt with
  | zero => intro i b h; exact h
  | succ cnt ih =>
    intro i b h
    unfold pipewriteLoop
    by_cases hf : b.size = b.buffer_size
    · rw [if_pos hf]; exact h
    · rw [if_neg hf]
      have hlt : b.size < b.buffer_size := by
        have := h.2.2.2
        omega
      exact ih (i + 1) _ (pipePut_spec b (buf.getD i 0) h hlt).1

theorem pipereadLoop_ok :
    ∀ cnt b out, pipeOK b → cnt ≤ b.size → pipeOK (pipereadLoop cnt b out).2 :=
  fun cnt b out h hc => (pipereadLoop_spec cnt b out h hc).2.1

theorem pipereadWait_ok (b : p_buf) (L : Int) (h : pipeOK b) :
    pipeOK (pipereadWait b L).pipe := by
  unfold pipereadWait
  by_cases h0 : b.size = 0
  · rw [if_pos h0]
    by_cases hw : b.write_open = false
    · rw [if_pos hw]; exact h
    · rw [if_neg hw]; exact h
  · rw [if_neg h0]
    apply pipereadLoop_ok _ _ _ h
    by_cases hlt : (b.size : Int) < L
    · rw [if_pos hlt, Int.toNat_ofNat]
    · rw [if_neg hlt]
      omega

/-- The buffer that a successful `fpipe` sets up. -/
theorem fpipe_buffer (cfg : Config) (pm : Params) (fp : FdParams) (fuel pid : Nat)
    (st st1 : Files) (q : Nat) (name : Nat → Nat) (fds : Option (Nat × Nat))
    (h : fpipe cfg pm fp fuel pid st (some q) name = Kres.ok (0, fds, st1)) :
    (st1.pipes q).buffer_size = 4096 - 5 * 4 - 1 * 2 - fp.SPINLOCK_SIZE
    ∧ (st1.pipes q).rd_offset = 0 ∧ (st1.pipes q).wr_offset = 0 ∧ (st1.pipes q).size = 0
    ∧ (st1.pipes q).read_open = true ∧ (st1.pipes q).write_open = true
    ∧ st1.freed = st.freed := by
  unfold fpipe at h
  dsimp only at h
  rw [Kres.bind_ok_iff] at h
  obtain ⟨r1, h1, h⟩ := h
  rw [Kres.bind_ok_iff] at h
  obtain ⟨r2, h2, h⟩ := h
  have hfr : ∀ (a b : Files) (path : List Nat) (mode : Nat) (r : Int),
      fopen cfg pm fp fuel pid a path mode name = Kres.ok (r, b) →
      mode = fp.O_PIPERD ∨ mode = fp.O_PIPEWR → b.freed = a.freed ∧ b.pipes = a.pipes := by
    intro a b path mode r hab hm
    unfold fopen at hab
    rw [if_pos hm] at hab
    simp only [Kres.bind] at hab
    cases hg : add_global_file fp a.infos with
    | none =>
      rw [hg] at hab
      cases hab
      exact ⟨rfl, rfl⟩
    | some fd1 =>
      rw [hg] at hab
      dsimp only at hab
      cases hp : add_process_file fp (a.procs pid) with
      | none =>
        rw [hp] at hab
        cases hab
        exact ⟨rfl, rfl⟩
      | some fd2 =>
        rw [hp] at hab
        cases hab
        exact ⟨rfl, rfl⟩
  obtain ⟨f1, p1⟩ := hfr _ _ _ _ _ h1 (Or.inl rfl)
  obtain ⟨f2, p2⟩ := hfr _ _ _ _ _ h2 (Or.inr rfl)
  by_cases c1 : r1.1 = -1 ∧ r2.1 = -1
  · rw [if_pos c1] at h
    cases h
  · rw [if_neg c1] at h
    by_cases c2 : r1.1 = -1
    · rw [if_pos c2, Kres.bind_ok_iff] at h
      obtain ⟨c, _, h⟩ := h
      cases h
    · rw [if_neg c2] at h
      by_cases c3 : r2.1 = -1
      · rw [if_pos c3, Kres.bind_ok_iff] at h
        obtain ⟨c, _, h⟩ := h
        cases h
      · rw [if_neg c3] at h
        cases ha : r2.2.procs pid r1.1.toNat with
        | none =>
          rw [ha] at h
          cases h
        | some e1 =>
          cases hb : r2.2.procs pid r2.1.toNat with
          | none =>
            rw [ha, hb] at h
            cases h
          | some e2 =>
            rw [ha, hb] at h
            cases h
            dsimp only
            rw [p2, p1, f2, f1]
            dsimp only
            rw [Function.update_same]
            exact ⟨rfl, rfl, rfl, rfl, rfl, rfl, rfl⟩

/-- C38: the buffer that a successful `fpipe` sets up (with a `struct spinlock` smaller
than 4074 bytes, so that the capacity is positive) is a well-formed ring: `size <=
buffer_size`, `rd_offset < buffer_size`, `wr_offset < buffer_size` and `wr_offset =
(rd_offset + size) mod buffer_size`. Every byte step keeps a ring well formed: the step
of `pipewrite`, taken when the buffer is not full, and the step of `piperead`, taken when
the buffer is not empty. Hence the buffer is well formed after any number of passes of
the loop of `pipewrite`, whether the call returns or goes to sleep, on entry and after a
wake-up, and after any number of passes of the loop of `piperead` up to the number of
bytes held, which is what `piperead` runs. -/
theorem pipe_ring_invariant :
    (∀ (cfg : Config) (pm : Params) (fp : FdParams) (fuel pid : Nat) (st st1 : Files)
        (q : Nat) (name : Nat → Nat) (fds : Option (Nat × Nat)),
        fp.SPINLOCK_SIZE < 4074 →
        fpipe cfg pm fp fuel pid st (some q) name = Kres.ok (0, fds, st1) →
        pipeOK (st1.pipes q))
    ∧ (∀ b, pipeOK b →
        b.size ≤ b.buffer_size ∧ b.rd_offset < b.buffer_size ∧ b.wr_offset < b.buffer_size
          ∧ b.wr_offset = (b.rd_offset + b.size) % b.buffer_size)
    ∧ (∀ b x, pipeOK b → b.size ≠ b.buffer_size → pipeOK (pipePut b x))
    ∧ (∀ b, pipeOK b → b.size ≠ 0 → pipeOK (pipeGet b))
    ∧ (∀ b buf L cnt i, pipeOK b → pipeOK (pipewriteLoop buf L cnt i b).pipe)
    ∧ (∀ b buf L, pipeOK b → pipeOK (pipewriteCore b buf L).pipe)
    ∧ (∀ b buf L i, pipeOK b → pipeOK (pipewriteWake b buf L i).pipe)
    ∧ (∀ b cnt out, pipeOK b → cnt ≤ b.size → pipeOK (pipereadLoop cnt b out).2)
    ∧ (∀ b L, pipeOK b → pipeOK (pipereadCore b L).pipe)
    ∧ ∀ b L, pipeOK b → pipeOK (pipereadWait b L).pipe := by
  refine ⟨?_, ?_, ?_, ?_, ?_, ?_, ?_, ?_, ?_, ?_⟩
  · intro cfg pm fp fuel pid st st1 q name fds hs h
    obtain ⟨h1, h2, h3, h4, _⟩ := fpipe_buffer cfg pm fp fuel pid st st1 q name fds h
    refine ⟨by rw [h1]; omega, by rw [h2, h1]; omega, ?_, by rw [h4]; omega⟩
    rw [h3, h2, h4, Nat.zero_mod]
  · intro b h
    obtain ⟨h0, h1, h2, h3⟩ := h
    exact ⟨h3, h1, by rw [h2]; exact Nat.mod_lt _ h0, h2⟩
  · intro b x h hne
    exact (pipePut_spec b x h (by have := h.2.2.2; omega)).1
  · intro b h hne
    exact (pipeGet_spec b h (by omega)).1
  · intro b buf L cnt i h
    exact pipewriteLoop_ok buf L cnt i b h
  · intro b buf L h
    unfold pipewriteCore
    by_cases hc : b.write_open = false ∨ b.read_open = false
    · rw [if_pos hc]; exact h
    · rw [if_neg hc]; exact pipewriteLoop_ok buf L _ 0 b h
  · intro b buf L i h
    unfold pipewriteWake
    by_cases hc : b.write_open = false ∨ b.read_open = false
    · rw [if_pos hc]; exact h
    · rw [if_neg hc]; exact pipewriteLoop_ok buf L _ i b h
  · intro b cnt out h hc
    exact pipereadLoop_ok cnt b out h hc
  · intro b L h
    unfold pipereadCore
    by_cases hc : b.read_open = false
    · rw [if_pos hc]; exact h
    · rw [if_neg hc]; exact pipereadWait_ok b L h
  · intro b L h
    exact pipereadWait_ok b L h

set_option maxRecDepth 1000000 in
/-- The pipe that `fpipe` sets up on the example tables is a well-formed ring, and so is
the pipe after `hello` was written to the fresh pipe and after 3 bytes were read back. -/
theorem pipe_ring_invariant_witness :
    (∃ fds st1, fpipe cfg64 pm64 fp64 4 0 filesFS (some 0) (fun _ => 0)
        = Kres.ok (0, fds, st1) ∧ pipeOK (st1.pipes 0))
    ∧ pipeOK (pipewriteCore pipeFresh [104, 101, 108, 108, 111] 5).pipe
    ∧ pipeOK (pipereadCore pipeHello 3).pipe :=
  ⟨⟨_, _, rfl, pipe_ring_invariant.1 cfg64 pm64 fp64 4 0 filesFS _ 0 (fun _ => 0) _
      (by decide) rfl⟩,
    pipe_ring_invariant.2.2.2.2.2.1 pipeFresh [104, 101, 108, 108, 111] 5
      ⟨by decide, by decide, by decide, by decide⟩,
    pipe_ring_invariant.2.2.2.2.2.2.2.2.1 pipeHello 3
      ⟨by decide, by decide, by decide, by decide⟩⟩

end Xk

namespace Xk

/-! ## The life of a pipe buffer (C31) -/

/-- What `fopen` does for a pipe mode: nothing, returning -1, or it fills the lowest
entry with reference 0 and links the lowest NULL slot to it. -/
theorem fopen_pipe (cfg : Config) (pm : Params) (fp : FdParams) (fuel pid : Nat)
    (a b : Files) (path : List Nat) (mode : Nat) (name : Nat → Nat) (r : Int)
    (hm : mode = fp.O_PIPERD ∨ mode = fp.O_PIPEWR)
    (h : fopen cfg pm fp fuel pid a path mode name = Kres.ok (r, b)) :
    (r = -1 ∧ b = a)
    ∨ ∃ fd1 fd2, add_global_file fp a.infos = some fd1
        ∧ add_process_file fp (a.procs pid) = some fd2 ∧ r = (fd2 : Int)
        ∧ b = Files.mk a.kern a.openlock
            (Function.update a.infos fd1
              (file_info.mk none 0 (fopenMode pm fp mode) 1 false none))
            (setfd a.procs pid fd2 (some fd1)) a.pipes a.freed := by
  unfold fopen at h
  rw [if_pos hm] at h
  simp only [Kres.bind] at h
  cases hg : add_global_file fp a.infos with
  | none =>
    rw [hg] at h
    cases h
    exact Or.inl ⟨rfl, rfl⟩
  | some fd1 =>
    rw [hg] at h
    dsimp only at h
    cases hp : add_process_file fp (a.procs pid) with
    | none =>
      rw [hp] at h
      cases h
      exact Or.inl ⟨rfl, rfl⟩
    | some fd2 =>
      rw [hp] at h
      cases h
      exact Or.inr ⟨fd1, fd2, rfl, rfl, rfl, rfl⟩

/-- Closing the last descriptor of a pipe end: the end is marked closed, and the page is
passed to `kfree` when both ends are then closed. -/
theorem fclose_pipe_end (fp : FdParams) (pid : Nat) (st : Files) (fd e q : Nat)
    (he : st.procs pid fd = some e) (hl : (st.infos e).lock = false)
    (hr : (st.infos e).reference = 1) (hb : (st.infos e).buffer = some q)
    (hn : (st.infos e).node = none) :
    fclose fp pid st fd
      = Kres.ok (0, Files.mk st.kern st.openlock
          (Function.update st.infos e { st.infos e with reference := 0 })
          (setfd st.procs pid fd none)
          (Function.update st.pipes q (closeEnd fp (st.infos e).mode (st.pipes q)))
          (if (closeEnd fp (st.infos e).mode (st.pipes q)).read_open = false
              ∧ (closeEnd fp (st.infos e).mode (st.pipes q)).write_open = false
            then st.freed ++ [q] else st.freed)) := by
  unfold fclose
  rw [he]
  dsimp only
  rw [hl, hr, hb, hn]
  simp only [Bool.false_eq_true, if_false, sub_self, if_true, true_and, Function.update_same]

/-- Closing a descriptor that is not the last one of its entry leaves the pipes and the
freed pages as they are. -/
theorem fclose_not_last (fp : FdParams) (pid : Nat) (st : Files) (fd e : Nat)
    (he : st.procs pid fd = some e) (hl : (st.infos e).lock = false)
    (hr : (st.infos e).reference - 1 ≠ 0) :
    ∃ st1, fclose fp pid st fd = Kres.ok (0, st1) ∧ st1.pipes = st.pipes
      ∧ st1.freed = st.freed := by
  unfold fclose
  rw [he]
  dsimp only
  rw [hl]
  simp only [Bool.false_eq_true, if_false, hr, false_and]
  refine ⟨_, rfl, ?_, ?_⟩
  · dsimp only
    cases (st.infos e).buffer <;> rfl
  · dsimp only
    cases (st.infos e).buffer <;> rfl

/-- The state a successful `fpipe` leaves. -/
theorem fpipe_success (cfg : Config) (pm : Params) (fp : FdParams) (fuel pid : Nat)
    (st st1 : Files) (q : Nat) (name : Nat → Nat) (a b : Nat)
    (h : fpipe cfg pm fp fuel pid st (some q) name = Kres.ok (0, some (a, b), st1)) :
    ∃ e1 e2, a ≠ b ∧ e1 ≠ e2
      ∧ st1.procs = setfd (setfd st.procs pid a (some e1)) pid b (some e2)
      ∧ st1.infos = Function.update
          (Function.update st.infos e1
            (file_info.mk none 0 (fopenMode pm fp fp.O_PIPERD) 1 false (some q)))
          e2 (file_info.mk none 0 (fopenMode pm fp fp.O_PIPEWR) 1 false (some q))
      ∧ st1.pipes = Function.update st.pipes q
          { st.pipes q with
            buffer_size := 4096 - 5 * 4 - 1 * 2 - fp.SPINLOCK_SIZE
            rd_offset := 0, read_open := true, wr_offset := 0, write_open := true,
            size := 0 }
      ∧ st1.freed = st.freed ∧ st1.kern = st.kern ∧ st1.openlock = st.openlock := by
  unfold fpipe at h
  dsimp only at h
  rw [Kres.bind_ok_iff] at h
  obtain ⟨r1, h1, h⟩ := h
  rw [Kres.bind_ok_iff] at h
  obtain ⟨r2, h2, h⟩ := h
  by_cases c1 : r1.1 = -1 ∧ r2.1 = -1
  · rw [if_pos c1] at h
    cases h
  · rw [if_neg c1] at h
    by_cases c2 : r1.1 = -1
    · rw [if_pos c2, Kres.bind_ok_iff] at h
      obtain ⟨c, _, h⟩ := h
      cases h
    · rw [if_neg c2] at h
      by_cases c3 : r2.1 = -1
      · rw [if_pos c3, Kres.bind_ok_iff] at h
        obtain ⟨c, _, h⟩ := h
        cases h
      · rw [if_neg c3] at h
        rcases fopen_pipe cfg pm fp fuel pid _ r1.2 [] fp.O_PIPERD name r1.1 (Or.inl rfl) h1
          with ⟨x, _⟩ | ⟨e1, a1, g1, p1, ra, s1⟩
        · exact absurd x c2
        rcases fopen_pipe cfg pm fp fuel pid r1.2 r2.2 [] fp.O_PIPEWR name r2.1 (Or.inr rfl)
          h2 with ⟨x, _⟩ | ⟨e2, b1, g2, p2, rb, s2⟩
        · exact absurd x c3
        rw [s1] at g2 p2 s2
        dsimp only at g2 p2 s2
        have he : e1 ≠ e2 := by
          intro heq
          have := (add_global_file_some fp _ e2 g2).2.1
          rw [← heq, Function.update_same] at this
          cases this
        have hab : a1 ≠ b1 := by
          intro heq
          have := (add_process_file_some fp _ b1 p2).2.1
          rw [← heq, setfd_same] at this
          cases this
        have pa : r2.2.procs pid a1 = some e1 := by
          rw [s2]
          dsimp only
          rw [setfd_other _ _ _ _ _ _ (fun hx => hab hx.2), setfd_same]
        have pb : r2.2.procs pid b1 = some e2 := by
          rw [s2]
          exact setfd_same _ _ _ _
        rw [ra, rb, Int.toNat_ofNat, Int.toNat_ofNat, pa, pb] at h
        dsimp only at h
        cases h
        refine ⟨e1, e2, hab, he, ?_, ?_, ?_, ?_, ?_, ?_⟩
        · rw [s2]
        · rw [s2]
          dsimp only
          funext x
          by_cases x2 : x = e2
          · subst x2
            rw [Function.update_same, Function.update_same,
              Function.update_noteq (Ne.symm he), Function.update_same]
          · rw [Function.update_noteq x2, Function.update_noteq x2]
            by_cases x1 : x = e1
            · subst x1
              rw [Function.update_same, Function.update_same,
                Function.update_noteq x2, Function.update_same]
            · rw [Function.update_noteq x1, Function.update_noteq x1,
                Function.update_noteq x2, Function.update_noteq x1]
        · rw [s2]
        · rw [s2]
        · rw [s2]
        · rw [s2]

end Xk

namespace Xk

/-- Closing the two ends of a fresh pipe, first the end of mode `m1` on descriptor `a`,
then the end of mode `m2` on descriptor `b`. -/
theorem close_both_ends (fp : FdParams) (pid : Nat) (st1 : Files) (a b e1 e2 q m1 m2 : Nat)
    (hab : a ≠ b) (he : e1 ≠ e2)
    (pa : st1.procs pid a = some e1) (pb : st1.procs pid b = some e2)
    (i1 : st1.infos e1 = file_info.mk none 0 m1 1 false (some q))
    (i2 : st1.infos e2 = file_info.mk none 0 m2 1 false (some q))
    (hr : (st1.pipes q).read_open = true) (hw : (st1.pipes q).write_open = true)
    (hm : (m1 = fp.O_PIPERD ∧ m2 ≠ fp.O_PIPERD) ∨ (m1 ≠ fp.O_PIPERD ∧ m2 = fp.O_PIPERD)) :
    ∃ st2 st3, fclose fp pid st1 a = Kres.ok (0, st2)
      ∧ (st2.pipes q).read_open = (if m1 = fp.O_PIPERD then false else true)
      ∧ (st2.pipes q).write_open = (if m1 = fp.O_PIPERD then true else false)
      ∧ st2.freed = st1.freed
      ∧ fclose fp pid st2 b = Kres.ok (0, st3)
      ∧ (st3.pipes q).read_open = false ∧ (st3.pipes q).write_open = false
      ∧ st3.freed = st1.freed ++ [q] := by
  have c1 := fclose_pipe_end fp pid st1 a e1 q pa (by rw [i1]) (by rw [i1]) (by rw [i1])
    (by rw [i1])
  rw [i1] at c1
  dsimp only at c1
  have pb2 : setfd st1.procs pid a none pid b = some e2 := by
    rw [setfd_other _ _ _ _ _ _ (fun hx => hab hx.2.symm)]
    exact pb
  have i22 : Function.update st1.infos e1
      (file_info.mk none 0 m1 0 false (some q)) e2
      = file_info.mk none 0 m2 1 false (some q) := by
    rw [Function.update_noteq (Ne.symm he)]
    exact i2
  have c2 := fclose_pipe_end fp pid
    (Files.mk st1.kern st1.openlock
      (Function.update st1.infos e1 (file_info.mk none 0 m1 0 false (some q)))
      (setfd st1.procs pid a none)
      (Function.update st1.pipes q (closeEnd fp m1 (st1.pipes q)))
      (if (closeEnd fp m1 (st1.pipes q)).read_open = false
          ∧ (closeEnd fp m1 (st1.pipes q)).write_open = false
        then st1.freed ++ [q] else st1.freed))
    b e2 q pb2 (by dsimp only; rw [i22]) (by dsimp only; rw [i22])
    (by dsimp only; rw [i22]) (by dsimp only; rw [i22])
  dsimp only at c2
  rw [i22] at c2
  dsimp only at c2
  have hfr : (if (closeEnd fp m1 (st1.pipes q)).read_open = false
          ∧ (closeEnd fp m1 (st1.pipes q)).write_open = false
        then st1.freed ++ [q] else st1.freed) = st1.freed := by
    unfold closeEnd
    rcases hm with ⟨h1, _⟩ | ⟨h1, _⟩
    · rw [if_pos h1]
      dsimp only
      rw [hw]
      simp
    · rw [if_neg h1]
      dsimp only
      rw [hr]
      simp
  refine ⟨_, _, c1, ?_, ?_, hfr, c2, ?_, ?_, ?_⟩
  · dsimp only
    rw [Function.update_same]
    unfold closeEnd
    rcases hm with ⟨h1, _⟩ | ⟨h1, _⟩
    · rw [if_pos h1, if_pos h1]
    · rw [if_neg h1, if_neg h1]; exact hr
  · dsimp only
    rw [Function.update_same]
    unfold closeEnd
    rcases hm with ⟨h1, _⟩ | ⟨h1, _⟩
    · rw [if_pos h1, if_pos h1]; exact hw
    · rw [if_neg h1, if_neg h1]
  · dsimp only
    rw [Function.update_same, Function.update_same]
    unfold closeEnd
    rcases hm with ⟨h1, h2⟩ | ⟨h1, h2⟩
    · rw [if_neg h2, if_pos h1]
    · rw [if_pos h2]
  · dsimp only
    rw [Function.update_same, Function.update_same]
    unfold closeEnd
    rcases hm with ⟨h1, h2⟩ | ⟨h1, h2⟩
    · rw [if_neg h2]
    · rw [if_pos h2, if_neg h1]
  · dsimp only
    rw [Function.update_same, hfr]
    unfold closeEnd
    rcases hm with ⟨h1, h2⟩ | ⟨h1, h2⟩
    · rw [if_neg h2, if_pos h1]
      simp
    · rw [if_pos h2, if_neg h1]
      simp

/-- C31: let the pipe modes be distinct and none of them an `O_CREATE` combination that
`fopen` rewrites, and let `fpipe` succeed with descriptors `fds[0] = a`, `fds[1] = b` on
the page `q` of `kalloc`. Then `a` and `b` differ and point at two different entries, of
mode `O_PIPERD` and `O_PIPEWR`, both holding the buffer `q`, which is empty with both
ends open; nothing has been freed. Closing `a` clears the read flag only and frees
nothing; closing `b` after that frees `q`, once. In the other order, closing `b` clears
the write flag only and frees nothing, and closing `a` after that frees `q`, once. A close
that does not bring the reference of its entry to 0 changes no pipe and frees nothing. -/
theorem fpipe_buffer_lifecycle (cfg : Config) (pm : Params) (fp : FdParams) (fuel pid : Nat)
    (st st1 : Files) (q : Nat) (name : Nat → Nat) (a b : Nat)
    (hmr : fopenMode pm fp fp.O_PIPERD = fp.O_PIPERD)
    (hmw : fopenMode pm fp fp.O_PIPEWR = fp.O_PIPEWR)
    (hne : fp.O_PIPERD ≠ fp.O_PIPEWR)
    (h : fpipe cfg pm fp fuel pid st (some q) name = Kres.ok (0, some (a, b), st1)) :
    a ≠ b
    ∧ (∃ e1 e2, e1 ≠ e2 ∧ st1.procs pid a = some e1 ∧ st1.procs pid b = some e2
        ∧ (st1.infos e1).mode = fp.O_PIPERD ∧ (st1.infos e2).mode = fp.O_PIPEWR
        ∧ (st1.infos e1).buffer = some q ∧ (st1.infos e2).buffer = some q)
    ∧ (st1.pipes q).size = 0 ∧ (st1.pipes q).read_open = true
    ∧ (st1.pipes q).write_open = true ∧ st1.freed = st.freed
    ∧ (∃ st2 st3, fclose fp pid st1 a = Kres.ok (0, st2)
        ∧ (st2.pipes q).read_open = false ∧ (st2.pipes q).write_open = true
        ∧ st2.freed = st.freed
        ∧ fclose fp pid st2 b = Kres.ok (0, st3) ∧ st3.freed = st.freed ++ [q])
    ∧ (∃ st2 st3, fclose fp pid st1 b = Kres.ok (0, st2)
        ∧ (st2.pipes q).read_open = true ∧ (st2.pipes q).write_open = false
        ∧ st2.freed = st.freed
        ∧ fclose fp pid st2 a = Kres.ok (0, st3) ∧ st3.freed = st.freed ++ [q])
    ∧ ∀ (s : Files) (fd e : Nat), s.procs pid fd = some e → (s.infos e).lock = false →
        (s.infos e).reference - 1 ≠ 0 →
        ∃ s1, fclose fp pid s fd = Kres.ok (0, s1) ∧ s1.pipes = s.pipes
          ∧ s1.freed = s.freed := by
  obtain ⟨e1, e2, hab, he, hp, hi, hpp, hf, _, _⟩ :=
    fpipe_success cfg pm fp fuel pid st st1 q name a b h
  have pa : st1.procs pid a = some e1 := by
    rw [hp, setfd_other _ _ _ _ _ _ (fun hx => hab hx.2), setfd_same]
  have pb : st1.procs pid b = some e2 := by rw [hp, setfd_same]
  have i1 : st1.infos e1 = file_info.mk none 0 fp.O_PIPERD 1 false (some q) := by
    rw [hi, Function.update_noteq he, Function.update_same, hmr]
  have i2 : st1.infos e2 = file_info.mk none 0 fp.O_PIPEWR 1 false (some q) := by
    rw [hi, Function.update_same, hmw]
  have hr : (st1.pipes q).read_open = true := by rw [hpp, Function.update_same]
  have hw : (st1.pipes q).write_open = true := by rw [hpp, Function.update_same]
  have hs : (st1.pipes q).size = 0 := by rw [hpp, Function.update_same]
  refine ⟨hab, ⟨e1, e2, he, pa, pb, by rw [i1], by rw [i2], by rw [i1], by rw [i2]⟩,
    hs, hr, hw, hf, ?_, ?_, ?_⟩
  · obtain ⟨st2, st3, c1, r1, w1, f1, c2, _, _, f2⟩ :=
      close_both_ends fp pid st1 a b e1 e2 q fp.O_PIPERD fp.O_PIPEWR hab he pa pb i1 i2 hr hw
        (Or.inl ⟨rfl, Ne.symm hne⟩)
    rw [if_pos rfl] at r1 w1
    exact ⟨st2, st3, c1, r1, w1, by rw [f1, hf], c2, by rw [f2, hf]⟩
  · obtain ⟨st2, st3, c1, r1, w1, f1, c2, _, _, f2⟩ :=
      close_both_ends fp pid st1 b a e2 e1 q fp.O_PIPEWR fp.O_PIPERD (Ne.symm hab)
        (Ne.symm he) pb pa i2 i1 hr hw (Or.inr ⟨Ne.symm hne, rfl⟩)
    rw [if_neg (Ne.symm hne)] at r1 w1
    exact ⟨st2, st3, c1, r1, w1, by rw [f1, hf], c2, by rw [f2, hf]⟩
  · intro s fd e h1 h2 h3
    exact fclose_not_last fp pid s fd e h1 h2 h3

set_option maxRecDepth 1000000 in
/-- On the example tables `fpipe` returns the descriptors 0 and 1 on page 0; closing
descriptor 0 and then descriptor 1 frees page 0 at the second close. -/
theorem fpipe_buffer_lifecycle_witness :
    ∃ st1 st2 st3, fpipe cfg64 pm64 fp64 4 0 filesFS (some 0) (fun _ => 0)
        = Kres.ok (0, some (0, 1), st1)
      ∧ fclose fp64 0 st1 0 = Kres.ok (0, st2)
      ∧ (st2.pipes 0).read_open = false ∧ (st2.pipes 0).write_open = true
      ∧ st2.freed = filesFS.freed
      ∧ fclose fp64 0 st2 1 = Kres.ok (0, st3) ∧ st3.freed = filesFS.freed ++ [0] := by
  obtain ⟨_, _, _, _, _, _, ⟨st2, st3, h1, h2, h3, h4, h5, h6⟩, _⟩ :=
    fpipe_buffer_lifecycle cfg64 pm64 fp64 4 0 filesFS _ 0 (fun _ => 0) 0 1 (by decide)
      (by decide) (by decide) rfl
  exact ⟨_, st2, st3, rfl, h1, h2, h3, h4, h5, h6⟩

end Xk

namespace Xk

/-! ## Reachable states of the inode cache (C37) -/

theorem idup_slots (s : Kernel) (k : Nat) :
    (idup s (iptr.slot k)).slots
      = Function.update s.slots k { s.slots k with ref := (s.slots k).ref + 1 } := by
  simp [idup, Kernel.set, Kernel.get]

theorem irelease_slot (s : Kernel) (k : Nat) :
    ((irelease s (iptr.slot k)).slots k).ref = (s.slots k).ref - 1
    ∧ ((irelease s (iptr.slot k)).slots k).dev = (s.slots k).dev
    ∧ ((irelease s (iptr.slot k)).slots k).inum = (s.slots k).inum
    ∧ ∀ j, j ≠ k → (irelease s (iptr.slot k)).slots j = s.slots j := by
  unfold irelease
  simp only [Kernel.set, Kernel.get]
  refine ⟨?_, ?_, ?_, fun j hj => Function.update_noteq hj _ _⟩
  all_goals
    rw [Function.update_same]
    by_cases h : (s.slots k).ref = 1 <;> simp [h]

/-- The invariant of the cache: slots in use hold different inodes, and no reference
count is negative. -/
theorem cacheReach_inv (cfg : Config) (s : Kernel) (h : CacheReach cfg s) :
    (∀ i j, i < cfg.NINODE → j < cfg.NINODE → (s.slots i).ref > 0 → (s.slots j).ref > 0 →
        (s.slots i).dev = (s.slots j).dev → (s.slots i).inum = (s.slots j).inum → i = j)
    ∧ ∀ k, k < cfg.NINODE → (s.slots k).ref ≥ 0 := by
  induction h with
  | init s he =>
    refine ⟨fun i j hi _ h1 _ _ _ => ?_, fun k hk => ?_⟩
    · rw [he i hi] at h1
      exact absurd h1 (by decide)
    · rw [he k hk]
  | iget s s1 dev inum k _ hg ih =>
    obtain ⟨hu, hn⟩ := ih
    obtain ⟨hk, hdev, hinum, _, _, hoth, hres, hnres⟩ := iget_spec cfg s dev inum k s1 hg
    have hkref : (s1.slots k).ref > 0 ∧ (s1.slots k).ref ≥ 0 := by
      by_cases hr : resident cfg s dev inum
      · obtain ⟨hc, he⟩ := hres hr
        have := hc.1
        rw [he]
        constructor <;> omega
      · rw [(hnres hr).1]
        constructor <;> decide
    have key : ∀ j, j < cfg.NINODE → j ≠ k → (s1.slots j).ref > 0 →
        (s1.slots j).dev = dev → (s1.slots j).inum = inum → False := by
      intro j hj hjk h1 h2 h3
      rw [hoth j hjk] at h1 h2 h3
      have hr : resident cfg s dev inum := ⟨j, hj, h1, h2, h3⟩
      obtain ⟨hc, _⟩ := hres hr
      exact hjk (hu j k hj hk h1 hc.1 (by rw [h2, hc.2.1]) (by rw [h3, hc.2.2]))
    refine ⟨fun i j hi hj h1 h2 h3 h4 => ?_, fun j hj => ?_⟩
    · by_cases hik : i = k
      · by_cases hjk : j = k
        · rw [hik, hjk]
        · exfalso
          rw [hik] at h3 h4
          exact key j hj hjk h2 (by rw [← h3, hdev]) (by rw [← h4, hinum])
      · by_cases hjk : j = k
        · exfalso
          rw [hjk] at h3 h4
          exact key i hi hik h1 (by rw [h3, hdev]) (by rw [h4, hinum])
        · rw [hoth i hik] at h1 h3 h4
          rw [hoth j hjk] at h2 h3 h4
          exact hu i j hi hj h1 h2 h3 h4
    · by_cases hjk : j = k
      · rw [hjk]; exact hkref.2
      · rw [hoth j hjk]; exact hn j hj
  | idup s k _ hk hr ih =>
    obtain ⟨hu, hn⟩ := ih
    have hs := idup_slots s k
    have href : ∀ j, ((idup s (iptr.slot k)).slots j).ref > 0 → (s.slots j).ref > 0 := by
      intro j h
      rw [hs] at h
      by_cases hjk : j = k
      · rw [hjk]; omega
      · rw [Function.update_noteq hjk] at h; exact h
    have hid : ∀ j, ((idup s (iptr.slot k)).slots j).dev = (s.slots j).dev
        ∧ ((idup s (iptr.slot k)).slots j).inum = (s.slots j).inum := by
      intro j
      rw [hs]
      by_cases hjk : j = k
      · rw [hjk, Function.update_same]; exact ⟨rfl, rfl⟩
      · rw [Function.update_noteq hjk]; exact ⟨rfl, rfl⟩
    refine ⟨fun i j hi hj h1 h2 h3 h4 => ?_, fun j hj => ?_⟩
    · rw [(hid i).1, (hid j).1] at h3
      rw [(hid i).2, (hid j).2] at h4
      exact hu i j hi hj (href i h1) (href j h2) h3 h4
    · rw [hs]
      by_cases hjk : j = k
      · rw [hjk, Function.update_same]
        show (s.slots k).ref + 1 ≥ 0
        omega
      · rw [Function.update_noteq hjk]; exact hn j hj
  | irelease s k _ hk hr ih =>
    obtain ⟨hu, hn⟩ := ih
    obtain ⟨r1, r2, r3, r4⟩ := irelease_slot s k
    have href : ∀ j, ((irelease s (iptr.slot k)).slots j).ref > 0 → (s.slots j).ref > 0 := by
      intro j h
      by_cases hjk : j = k
      · rw [hjk]; omega
      · rw [r4 j hjk] at h; exact h
    have hid : ∀ j, ((irelease s (iptr.slot k)).slots j).dev = (s.slots j).dev
        ∧ ((irelease s (iptr.slot k)).slots j).inum = (s.slots j).inum := by
      intro j
      by_cases hjk : j = k
      · rw [hjk]; exact ⟨r2, r3⟩
      · rw [r4 j hjk]; exact ⟨rfl, rfl⟩
    refine ⟨fun i j hi hj h1 h2 h3 h4 => ?_, fun j hj => ?_⟩
    · rw [(hid i).1, (hid j).1] at h3
      rw [(hid i).2, (hid j).2] at h4
      exact hu i j hi hj (href i h1) (href j h2) h3 h4
    · by_cases hjk : j = k
      · rw [hjk, r1]; omega
      · rw [r4 j hjk]; exact hn j hj

/-- C37, the claim as stated fails: from the empty cache of the example volume, `idup` on
slot 0 and `idup` on slot 1, two slots whose reference count is 0, leave two slots with a
positive reference count that carry the same device and inode number. -/
theorem idup_on_free_slots_duplicates_identity :
    emptyCache cfg64 kernFS
    ∧ ((idup (idup kernFS (iptr.slot 0)) (iptr.slot 1)).slots 0).ref = 1
    ∧ ((idup (idup kernFS (iptr.slot 0)) (iptr.slot 1)).slots 1).ref = 1
    ∧ ((idup (idup kernFS (iptr.slot 0)) (iptr.slot 1)).slots 0).dev
        = ((idup (idup kernFS (iptr.slot 0)) (iptr.slot 1)).slots 1).dev
    ∧ ((idup (idup kernFS (iptr.slot 0)) (iptr.slot 1)).slots 0).inum
        = ((idup (idup kernFS (iptr.slot 0)) (iptr.slot 1)).slots 1).inum :=
  ⟨fun _ _ => rfl, rfl, rfl, rfl, rfl⟩

/-- C37, amended: in every state reached from the empty cache by `iget`, and by `idup`
and `irelease` applied to slots with `ref >= 1`, no two cache slots with `ref > 0` carry
the same device and inode number, and every `ref` is at least 0; and an `iget` that
returns changes no slot other than the one it returns, nor the disk. -/
theorem cache_slots_hold_distinct_inodes (cfg : Config) (s : Kernel)
    (h : CacheReach cfg s) :
    (∀ i j, i < cfg.NINODE → j < cfg.NINODE → (s.slots i).ref > 0 → (s.slots j).ref > 0 →
        (s.slots i).dev = (s.slots j).dev → (s.slots i).inum = (s.slots j).inum → i = j)
    ∧ (∀ k, k < cfg.NINODE → (s.slots k).ref ≥ 0)
    ∧ ∀ dev inum k s1, iget cfg s dev inum = Kres.ok (k, s1) →
        k < cfg.NINODE ∧ (∀ j, j ≠ k → s1.slots j = s.slots j) ∧ s1.disk = s.disk := by
  obtain ⟨h1, h2⟩ := cacheReach_inv cfg s h
  refine ⟨h1, h2, fun dev inum k s1 hg => ?_⟩
  obtain ⟨a, _, _, d, _, f, _⟩ := iget_spec cfg s dev inum k s1 hg
  exact ⟨a, f, d⟩

set_option maxRecDepth 1000000 in
/-- From the empty cache of the example volume: `iget(1, 2)`, `iget(1, 3)`, `idup` of the
first and `irelease` of the second reach a state in which the two slots differ. -/
theorem cache_slots_hold_distinct_inodes_witness :
    ∃ s1 s2, iget cfg64 kernFS 1 2 = Kres.ok (0, s1) ∧ iget cfg64 s1 1 3 = Kres.ok (1, s2)
      ∧ (∀ i j, i < cfg64.NINODE → j < cfg64.NINODE →
          ((irelease (idup s2 (iptr.slot 0)) (iptr.slot 1)).slots i).ref > 0 →
          ((irelease (idup s2 (iptr.slot 0)) (iptr.slot 1)).slots j).ref > 0 →
          ((irelease (idup s2 (iptr.slot 0)) (iptr.slot 1)).slots i).dev
            = ((irelease (idup s2 (iptr.slot 0)) (iptr.slot 1)).slots j).dev →
          ((irelease (idup s2 (iptr.slot 0)) (iptr.slot 1)).slots i).inum
            = ((irelease (idup s2 (iptr.slot 0)) (iptr.slot 1)).slots j).inum → i = j)
      ∧ ((irelease (idup s2 (iptr.slot 0)) (iptr.slot 1)).slots 0).ref = 2
      ∧ ((irelease (idup s2 (iptr.slot 0)) (iptr.slot 1)).slots 1).ref = 0 :=
  ⟨_, _, rfl, rfl,
    (cache_slots_hold_distinct_inodes cfg64 _
      (CacheReach.irelease _ 1
        (CacheReach.idup _ 0
          (CacheReach.iget _ _ 1 3 1
            (CacheReach.iget kernFS _ 1 2 0 (CacheReach.init kernFS (fun _ _ => rfl)) rfl)
            rfl)
          (by decide) (by decide))
        (by decide) (by decide))).1,
    rfl, rfl⟩

end Xk

namespace Xk

/-! ## Reachable states of an open transaction (C40) -/

theorem logcommitLoop_writes : ∀ cnt i (s : LogState),
    ∃ rep, (logcommitLoop cnt i s).writes = s.writes ++ rep
      ∧ ∀ w, w ∈ rep → ∃ j, j < i + cnt ∧ w.1 = s.cachedheader.data j := by
  intro cnt
  induction cnt with
  | zero => intro i s; exact ⟨[], by simp [logcommitLoop], fun w hw => by simp at hw⟩
  | succ cnt ih =>
    intro i s
    unfold logcommitLoop
    split
    · exact ⟨[], by simp, fun w hw => by simp at hw⟩
    · obtain ⟨rep, h1, h2⟩ := ih (i + 1)
        (s.bwrite (s.cachedheader.data i) (s.disk (s.super.logstart + 1 + i)))
      refine ⟨(s.cachedheader.data i, s.disk (s.super.logstart + 1 + i)) :: rep, ?_, ?_⟩
      · rw [h1]
        simp [LogState.bwrite]
      · intro w hw
        rcases List.mem_cons.1 hw with hw | hw
        · exact ⟨i, by omega, by rw [hw]⟩
        · obtain ⟨j, hj, e⟩ := h2 w hw
          exact ⟨j, by omega, e⟩

theorem logcommit_writes (s : LogState) :
    ∃ rep, (logcommit s).writes
        = s.writes ++ (s.super.logstart,
            headerBlock (logheader.mk 1 s.cachedheader.data s.cachedheader.padding)) :: rep
          ++ [(s.super.logstart, headerBlock logheader.zero)]
      ∧ ∀ w, w ∈ rep → ∃ j, j < NLOGBLK ∧ w.1 = s.cachedheader.data j := by
  obtain ⟨rep, h1, h2⟩ := logcommitLoop_writes NLOGBLK 0
    (setlogheader
      (LogState.mk s.disk s.writes (logheader.mk 1 s.cachedheader.data s.cachedheader.padding)
        s.super s.loglock)
      (logheader.mk 1 s.cachedheader.data s.cachedheader.padding))
  have hs := (logcommitLoop_fields NLOGBLK 0
    (setlogheader
      (LogState.mk s.disk s.writes (logheader.mk 1 s.cachedheader.data s.cachedheader.padding)
        s.super s.loglock)
      (logheader.mk 1 s.cachedheader.data s.cachedheader.padding))).1
  refine ⟨rep, ?_, fun w hw => ?_⟩
  · show ((logcommitLoop NLOGBLK 0 _).writes ++ [((logcommitLoop NLOGBLK 0 _).super.logstart, _)])
      = _
    rw [h1, hs]
    simp [setlogheader, LogState.bwrite]
  · obtain ⟨j, hj, e⟩ := h2 w hw
    exact ⟨j, by omega, e⟩

theorem store_at (h : logheader) (idx location : Nat) :
    h.store (idx : Int) location
      = logheader.mk h.commit (Function.update h.data idx location) h.padding := by
  unfold logheader.store
  have : ¬ ((idx : Int) < 0) := by omega
  simp [this]

/-- The lines of `logwrite` after the full-header test, run from a state whose first free
slot is `idx`. -/
theorem logwrite_from (s s1 : LogState) (block : Block) (location idx : Nat)
    (hc : s.cachedheader.commit = 0)
    (hpre : (if s.cachedheader.data (NLOGBLK - 1) ≠ 0 then logbegin (logcommit s)
              else Kres.ok s) = Kres.ok s1)
    (hidx : findlatestheaderidx s1.cachedheader.data = (idx : Int)) :
    ∃ s2, logwrite s block location = Kres.ok (1, s2)
      ∧ s2.cachedheader = logheader.mk s1.cachedheader.commit
          (Function.update s1.cachedheader.data idx location) s1.cachedheader.padding
      ∧ s2.writes = s1.writes ++ [(s1.super.logstart + 1 + idx, block),
          (s1.super.logstart, headerBlock s2.cachedheader)]
      ∧ s2.super = s1.super ∧ s2.loglock = s1.loglock := by
  have h2 : ((s1.super.logstart : Int) + 1 + (idx : Int)).toNat = s1.super.logstart + 1 + idx := by
    omega
  have e : logwrite s block location = Kres.ok (1,
      setlogheader
        (LogState.mk (Function.update s1.disk (s1.super.logstart + 1 + idx) block)
          (s1.writes ++ [(s1.super.logstart + 1 + idx, block)])
          (logheader.mk s1.cachedheader.commit
            (Function.update s1.cachedheader.data idx location) s1.cachedheader.padding)
          s1.super s1.loglock)
        (logheader.mk s1.cachedheader.commit
          (Function.update s1.cachedheader.data idx location) s1.cachedheader.padding)) := by
    unfold logwrite
    rw [if_neg (by simp [hc]), hpre]
    simp only [Kres.bind, hidx, h2, store_at, LogState.bwrite]
  refine ⟨_, e, rfl, ?_, rfl, rfl⟩
  simp [setlogheader, LogState.bwrite]

theorem prefixSlots_zero : prefixSlots logheader.zero.data :=
  ⟨0, Nat.zero_le _, fun j _ => by simp [logheader.zero]⟩

theorem prefixSlots_store (data : Nat → Nat) (k location : Nat) (hk : k < NLOGBLK)
    (hloc : location ≠ 0) (h : ∀ j, j < NLOGBLK → (data j ≠ 0 ↔ j < k)) :
    prefixSlots (Function.update data k location) := by
  refine ⟨k + 1, by omega, fun j hj => ?_⟩
  by_cases e : j = k
  · subst e
    simp [hloc]
  · rw [Function.update_noteq e, h j hj]
    omega

/-- One `logwrite` with a nonzero destination from a state with an uncommitted header
whose nonzero slots form a prefix. -/
theorem logwrite_step (s : LogState) (block : Block) (location : Nat)
    (hl : s.loglock = true) (hc : s.cachedheader.commit = 0)
    (hp : prefixSlots s.cachedheader.data) (hloc : location ≠ 0) :
    ∃ (s1 : LogState) (idx : Nat) (s2 : LogState),
      (if s.cachedheader.data (NLOGBLK - 1) ≠ 0 then logbegin (logcommit s)
        else Kres.ok s) = Kres.ok s1
      ∧ findlatestheaderidx s1.cachedheader.data = (idx : Int) ∧ idx < NLOGBLK
      ∧ logwrite s block location = Kres.ok (1, s2)
      ∧ s2.writes = s1.writes ++ [(s.super.logstart + 1 + idx, block),
          (s.super.logstart, headerBlock s2.cachedheader)]
      ∧ s2.super = s.super ∧ s2.loglock = true ∧ s2.cachedheader.commit = 0
      ∧ prefixSlots s2.cachedheader.data
      ∧ (s.cachedheader.data (NLOGBLK - 1) = 0 → s1 = s)
      ∧ (s.cachedheader.data (NLOGBLK - 1) ≠ 0 → ∃ rep,
          s1.writes = s.writes ++ (s.super.logstart,
              headerBlock (logheader.mk 1 s.cachedheader.data s.cachedheader.padding)) :: rep
            ++ [(s.super.logstart, headerBlock logheader.zero),
                (s.super.logstart, headerBlock logheader.zero)]
          ∧ ∀ w, w ∈ rep → ∃ j, j < NLOGBLK ∧ w.1 = s.cachedheader.data j) := by
  by_cases hfull : s.cachedheader.data (NLOGBLK - 1) ≠ 0
  · have hll : (logcommit s).loglock = false := rfl
    have hsup : (logcommit s).super = s.super := logcommit_super s
    have hpre : (if s.cachedheader.data (NLOGBLK - 1) ≠ 0 then logbegin (logcommit s)
        else Kres.ok s)
        = Kres.ok (setlogheader
            (LogState.mk (logcommit s).disk (logcommit s).writes logheader.zero
              (logcommit s).super true) logheader.zero) := by
      rw [if_pos hfull]
      unfold logbegin
      simp [hll]
    have hidx : findlatestheaderidx logheader.zero.data = ((0 : Nat) : Int) := rfl
    obtain ⟨s2, e1, e2, e3, e4, e5⟩ := logwrite_from s _ block location 0 hc hpre hidx
    obtain ⟨rep, r1, r2⟩ := logcommit_writes s
    refine ⟨_, 0, s2, hpre, hidx, by decide, e1, ?_, ?_, e5, ?_, ?_, fun h => absurd h hfull,
      fun _ => ⟨rep, ?_, r2⟩⟩
    · rw [e3]
      show _ ++ [((logcommit s).super.logstart + 1 + 0, block),
        ((logcommit s).super.logstart, _)] = _
      rw [hsup]
    · rw [e4]; exact hsup
    · rw [e2]; rfl
    · rw [e2]
      exact prefixSlots_store _ 0 location (by decide) hloc
        (fun j _ => by simp [logheader.zero, setlogheader, LogState.bwrite])
    · show (logcommit s).writes ++ [((logcommit s).super.logstart, _)] = _
      rw [r1, hsup]
      simp
  · have hz : s.cachedheader.data (NLOGBLK - 1) = 0 := by
      by_contra h
      exact hfull h
    obtain ⟨k, hk, hkp⟩ := hp
    have hk78 : k < NLOGBLK := by
      by_contra h
      have : k = NLOGBLK := by omega
      have h1 := (hkp (NLOGBLK - 1) (by decide)).2 (by rw [this]; decide)
      exact h1 hz
    have hpre : (if s.cachedheader.data (NLOGBLK - 1) ≠ 0 then logbegin (logcommit s)
        else Kres.ok s) = Kres.ok s := by
      rw [if_neg hfull]
    have hidx : findlatestheaderidx s.cachedheader.data = (k : Int) := by
      unfold findlatestheaderidx
      apply findlatestheaderidxLoop_first s.cachedheader.data k NLOGBLK 0 (Nat.zero_le _)
        (by omega)
      · intro j _ hj
        exact (hkp j (by omega)).2 hj
      · by_contra h
        have := (hkp k hk78).1 h
        omega
    obtain ⟨s2, e1, e2, e3, e4, e5⟩ := logwrite_from s s block location k hc hpre hidx
    refine ⟨s, k, s2, hpre, hidx, hk78, e1, e3, e4, by rw [e5, hl], ?_, ?_, fun _ => rfl,
      fun h => absurd hz h⟩
    · rw [e2]; exact hc
    · rw [e2]
      exact prefixSlots_store _ k location hk78 hloc hkp

/-- Invariant of an open transaction: same super block, log lock held, header not
committed, nonzero slots a prefix. -/
theorem logReach_inv (s0 s : LogState) (h : LogReach s0 s) :
    s.super = s0.super ∧ s.loglock = true ∧ s.cachedheader.commit = 0
      ∧ prefixSlots s.cachedheader.data := by
  induction h with
  | start s hb =>
    unfold logbegin at hb
    by_cases hl : s0.loglock = true
    · simp [hl] at hb
    · simp only [hl, if_false, Bool.false_eq_true] at hb
      injection hb with hb
      subst hb
      exact ⟨rfl, rfl, rfl, prefixSlots_zero⟩
  | write s s1 block location r _ hloc hw ih =>
    obtain ⟨i1, i2, i3, i4⟩ := ih
    obtain ⟨t, idx, s2, _, _, _, e, _, a1, a2, a3, a4, _⟩ :=
      logwrite_step s block location i2 i3 i4 hloc
    rw [e] at hw
    injection hw with hw
    injection hw with _ hw
    subst hw
    exact ⟨by rw [a1, i1], a2, a3, a4⟩

end Xk

namespace Xk

/-! ## What a logged write puts on disk (C40) -/

theorem logwriteAll_reach (s0 : LogState) (c : Nat → Block) (d : Nat → Nat)
    (hd : ∀ j, d j ≠ 0) : ∀ cnt i s rs s1, LogReach s0 s →
      logwriteAll c d cnt i s = Kres.ok (rs, s1) → LogReach s0 s1 := by
  intro cnt
  induction cnt with
  | zero =>
    intro i s rs s1 hs h
    unfold logwriteAll at h
    injection h with h
    injection h with _ h
    rw [← h]
    exact hs
  | succ cnt ih =>
    intro i s rs s1 hs h
    unfold logwriteAll at h
    cases hw : logwrite s (c i) (d i) with
    | ok r =>
      rw [hw] at h
      simp only [Kres.bind] at h
      cases hq : logwriteAll c d cnt (i + 1) r.2 with
      | ok q =>
        rw [hq] at h
        simp only [Kres.bind] at h
        injection h with h
        injection h with _ h
        rw [← h]
        exact ih (i + 1) r.2 q.1 q.2 (LogReach.write s r.2 (c i) (d i) r.1 hs (hd i) hw) hq
      | panic => rw [hq] at h; simp [Kres.bind] at h
      | sleep => rw [hq] at h; simp [Kres.bind] at h
      | nofuel => rw [hq] at h; simp [Kres.bind] at h
    | panic => rw [hw] at h; simp [Kres.bind] at h
    | sleep => rw [hw] at h; simp [Kres.bind] at h
    | nofuel => rw [hw] at h; simp [Kres.bind] at h

set_option maxRecDepth 1000000 in
/-- C40, the claim as stated fails: on the idle example log, `logbegin` followed by 79
`logwrite` calls with the nonzero destinations 100 .. 178 reaches a state in which the
next `logwrite` (destination 300) returns 1 and, on its way, writes block 100, which lies
outside the log region: byte 0 of block 100 changes from 0 to 7. -/
theorem full_logwrite_writes_outside_log :
    ∃ s79 s80, logWritten79 = Kres.ok (List.replicate 79 1, s79)
      ∧ logwrite s79 (fillBlock 9) 300 = Kres.ok (1, s80)
      ∧ s79.disk 100 0 = 0 ∧ s80.disk 100 0 = 7
      ∧ ¬ inLog s79.super 100
      ∧ LogReach logIdle s79 :=
  ⟨_, _, rfl, rfl, rfl, rfl,
    (by
      show ¬ ((3 : Nat) ≤ 100 ∧ 100 ≤ 3 + 79)
      omega),
    logwriteAll_reach logIdle exC exD79 (fun j => by unfold exD79; omega) 79 0 _ _ _
      (LogReach.start _ rfl) rfl⟩

/-- C40, amended: in every state reached by `logbegin` followed by `logwrite` calls with
nonzero destinations, the header is not committed and its nonzero slots form a prefix of
the 79-entry array; the next such `logwrite` returns 1, the slot index it chooses is in
0..78 (`findlatestheaderidx` is never -1 at the point of use), and the two block writes
it ends with go to payload block `logstart + 1 + index` and to the header block. When
slot 78 is zero these are its only writes. When all 79 slots are in use it first runs
`logcommit` and `logbegin`, which write the header three times and, in between, every
logged block to a destination recorded in the header. -/
theorem logwrite_stays_in_log_unless_header_full (s0 s : LogState) (h : LogReach s0 s) :
    s.cachedheader.commit = 0 ∧ prefixSlots s.cachedheader.data
    ∧ ∀ (block : Block) (location : Nat), location ≠ 0 →
      ∃ (s1 : LogState) (idx : Nat) (s2 : LogState),
        (if s.cachedheader.data (NLOGBLK - 1) ≠ 0 then logbegin (logcommit s)
          else Kres.ok s) = Kres.ok s1
        ∧ findlatestheaderidx s1.cachedheader.data = (idx : Int) ∧ idx < NLOGBLK
        ∧ logwrite s block location = Kres.ok (1, s2)
        ∧ s2.writes = s1.writes ++ [(s0.super.logstart + 1 + idx, block),
            (s0.super.logstart, headerBlock s2.cachedheader)]
        ∧ inLog s0.super (s0.super.logstart + 1 + idx)
        ∧ (s.cachedheader.data (NLOGBLK - 1) = 0 → s1 = s)
        ∧ (s.cachedheader.data (NLOGBLK - 1) ≠ 0 → ∃ rep,
            s1.writes = s.writes ++ (s0.super.logstart,
                headerBlock (logheader.mk 1 s.cachedheader.data s.cachedheader.padding)) :: rep
              ++ [(s0.super.logstart, headerBlock logheader.zero),
                  (s0.super.logstart, headerBlock logheader.zero)]
            ∧ ∀ w, w ∈ rep → ∃ j, j < NLOGBLK ∧ w.1 = s.cachedheader.data j) := by
  obtain ⟨i1, i2, i3, i4⟩ := logReach_inv s0 s h
  refine ⟨i3, i4, fun block location hloc => ?_⟩
  obtain ⟨s1, idx, s2, a1, a2, a3, a4, a5, _, _, _, _, a6, a7⟩ :=
    logwrite_step s block location i2 i3 i4 hloc
  rw [i1] at a5 a7
  refine ⟨s1, idx, s2, a1, a2, a3, a4, a5, ?_, a6, a7⟩
  unfold inLog
  constructor <;> omega

set_option maxRecDepth 1000000 in
/-- On the idle example log, after `logbegin` and two logged writes (to blocks 120 and
121) the header is uncommitted, its nonzero slots are a prefix, and the third `logwrite`
chooses slot 2. -/
theorem logwrite_stays_in_log_unless_header_full_witness :
    ∃ s, (logbegin logIdle).bind (fun t => logwriteAll exC exD 2 0 t) = Kres.ok ([1, 1], s)
      ∧ LogReach logIdle s
      ∧ s.cachedheader.commit = 0 ∧ prefixSlots s.cachedheader.data
      ∧ findlatestheaderidx s.cachedheader.data = 2
      ∧ ∃ s2, logwrite s (fillBlock 9) 122 = Kres.ok (1, s2)
          ∧ s2.disk (logIdle.super.logstart + 1 + 2) = fillBlock 9 :=
  ⟨_, rfl,
    logwriteAll_reach logIdle exC exD (fun j => by unfold exD; split <;> decide) 2 0 _ _ _
      (LogReach.start _ rfl) rfl,
    (logwrite_stays_in_log_unless_header_full logIdle _
      (logwriteAll_reach logIdle exC exD (fun j => by unfold exD; split <;> decide) 2 0 _ _ _
        (LogReach.start _ rfl) rfl)).1,
    (logwrite_stays_in_log_unless_header_full logIdle _
      (logwriteAll_reach logIdle exC exD (fun j => by unfold exD; split <;> decide) 2 0 _ _ _
        (LogReach.start _ rfl) rfl)).2.1,
    rfl, _, rfl, rfl⟩

end Xk

namespace Xk

/-! ## The first write to an empty file (C32) -/

end Xk

namespace Xk

end Xk

namespace Xk

/-! ## Extent invariants under `writei` (C35) -/

theorem capFrom_le_blocks (data : Nat → extent) : ∀ cnt i,
    capFrom data cnt i ≤ BSIZE * blocksFrom data cnt i := by
  intro cnt
  induction cnt with
  | zero => intro i; simp [capFrom, blocksFrom]
  | succ cnt ih =>
    intro i
    have := ih (i + 1)
    unfold capFrom blocksFrom
    simp only [BSIZE] at *
    split <;> omega

theorem blocksFrom_mono (d1 d2 : Nat → extent) (h : ∀ j, (d1 j).nblocks ≤ (d2 j).nblocks) :
    ∀ cnt i, blocksFrom d1 cnt i ≤ blocksFrom d2 cnt i := by
  intro cnt
  induction cnt with
  | zero => intro i; simp [blocksFrom]
  | succ cnt ih =>
    intro i
    have := ih (i + 1)
    have := h i
    unfold blocksFrom
    omega

/-- The walk of `writetoextent` over the extents: the slots it visits end up populated,
the slots it does not reach keep their extents, and a return value of 0 means that the
bytes written lie within the capacity of the populated slots. -/
theorem writeExtents_walk (sb : superblock) (cnt : Nat) :
    ∀ (i : Nat) (data : Nat → extent) (st : wstate) (ret : Int) (data' : Nat → extent)
      (st' : wstate), atExtent st.off st.totalsize →
      writeExtents sb cnt i data st = Kres.ok (ret, data', st') →
      ∃ m, i ≤ m ∧ m ≤ i + cnt ∧ (∀ j, i ≤ j → j < m → (data' j).nblocks ≠ 0) ∧
        (∀ j, m ≤ j → data' j = data j) ∧
        (ret = 0 → (st.off - st.totalsize) + st.n ≤ capFrom data' cnt i) := by
  induction cnt with
  | zero =>
    intro i data st ret data' st' _ h
    unfold writeExtents at h
    injection h with h
    injection h with h1 h2
    injection h2 with h2 _
    refine ⟨i, le_refl _, le_refl _, fun j a b => by omega, fun j _ => by rw [h2], fun h0 => ?_⟩
    rw [h0] at h1
    exact absurd h1 (by decide)
  | succ cnt ih =>
    intro i data st ret data' st' hP h
    obtain ⟨data1, st1, ha⟩ := writeExtents_alloc_ok sb cnt i data st _ h
    obtain ⟨d1, d2, _⟩ := writeAlloc_data sb i data data1 st st1 ha
    obtain ⟨⟨p1, p2⟩, q2, q3, _⟩ := writeAlloc_pos sb i data data1 st st1 ha hP
    have hkeep := writeExtents_data sb (cnt + 1) i data st ret data' st' h
    rw [writeExtents_succ sb cnt i data data1 st st1 ha] at h
    rw [← q2, ← q3]
    by_cases hskip : st1.off > st1.totalsize + (data1 i).nblocks * BSIZE
    · rw [if_pos hskip] at h
      have hi := writeExtents_data sb cnt (i + 1) data1 _ ret data' st' h i (Or.inl (by omega))
      obtain ⟨m, m1, m2, m3, m4, m5⟩ := ih (i + 1) data1
        { st1 with totalsize := st1.totalsize + (data1 i).nblocks * BSIZE } ret data' st'
        ⟨by simp only []; omega, by simp only [BSIZE] at *; omega⟩ h
      refine ⟨m, by omega, by omega, fun j a b => ?_, fun j a => ?_, fun h0 => ?_⟩
      · by_cases e : j = i
        · rw [e, hi]; exact d1
        · exact m3 j (by omega) b
      · rw [m4 j a, d2 j (by omega)]
      · have := m5 h0
        have hz : (data' i).nblocks ≠ 0 := by rw [hi]; exact d1
        simp only [capFrom, hz, if_false]
        rw [hi]
        simp only [] at this
        omega
    · rw [if_neg hskip] at h
      have hQ : inBlock (enterExtent st1).off (enterExtent st1).totalsize :=
        inBlock_of_atExtent ⟨p1, p2⟩
      obtain ⟨w1, w2, w3, w4⟩ := writeBlocks_spec (data1 i).startblkno
        ((data1 i).nblocks - (st1.off - st1.totalsize) / BSIZE)
        ((st1.off - st1.totalsize) / BSIZE) (enterExtent st1) _ hQ rfl
      generalize hwr : writeBlocks (data1 i).startblkno
        ((data1 i).nblocks - (st1.off - st1.totalsize) / BSIZE)
        ((st1.off - st1.totalsize) / BSIZE) (enterExtent st1) = wr at *
      cases hflag : wr.1
      · rw [hflag, if_neg (by simp)] at h
        have hi := writeExtents_data sb cnt (i + 1) data1 _ ret data' st' h i (Or.inl (by omega))
        obtain ⟨v1, v2, v3⟩ := w4 hflag
        simp only [enterExtent] at v1 v2 v3 w1
        have hnext : atExtent wr.2.off wr.2.totalsize ∧
            (st1.off - st1.totalsize) + st1.n
              = (data1 i).nblocks * BSIZE + ((wr.2.off - wr.2.totalsize) + wr.2.n) := by
          unfold atExtent
          simp only [BSIZE] at *
          by_cases hc : (data1 i).nblocks - (st1.off - st1.totalsize) / 512 = 0
          · rw [v3 hc]
            dsimp only
            refine ⟨⟨?_, ?_⟩, ?_⟩ <;> omega
          · obtain ⟨u1, u2, u3⟩ := v2 (by omega)
            rw [u2]
            refine ⟨⟨le_refl _, ?_⟩, ?_⟩
            · rw [u3]; omega
            · omega
        obtain ⟨m, m1, m2, m3, m4, m5⟩ := ih (i + 1) data1 wr.2 ret data' st' hnext.1 h
        refine ⟨m, by omega, by omega, fun j a b => ?_, fun j a => ?_, fun h0 => ?_⟩
        · by_cases e : j = i
          · rw [e, hi]; exact d1
          · exact m3 j (by omega) b
        · rw [m4 j a, d2 j (by omega)]
        · have := m5 h0
          have hz : (data' i).nblocks ≠ 0 := by rw [hi]; exact d1
          simp only [capFrom, hz, if_false]
          rw [hi, hnext.2]
          omega
      · rw [hflag, if_pos rfl] at h
        injection h with h
        injection h with h1 h2
        injection h2 with h2 _
        obtain ⟨u1, u2, _⟩ := w3 hflag
        simp only [enterExtent] at u1 u2
        refine ⟨i + 1, by omega, by omega, fun j a b => ?_, fun j a => ?_, fun _ => ?_⟩
        · have : j = i := by omega
          rw [this, ← h2]; exact d1
        · rw [← h2, d2 j (by omega)]
        · have hz : (data' i).nblocks ≠ 0 := by rw [← h2]; exact d1
          simp only [capFrom, hz, if_false]
          rw [← h2]
          simp only [BSIZE] at *
          omega

theorem Kernel.get_set_ne (s : Kernel) (p q : iptr) (ip : inode) (h : q ≠ p) :
    (s.set p ip).get q = s.get q := by
  cases p <;> cases q <;> simp [Kernel.set, Kernel.get] at h ⊢
  rename_i a b
  exact Function.update_noteq h _ _

theorem extentInv_congr (a b : inode) (hd : b.data = a.data) (hs : b.size = a.size)
    (h : extentInv a) : extentInv b := by
  unfold extentInv at *
  rw [hd, hs]
  exact h

/-- Function `writetoextent` keeps the populated extents a prefix, never lowers the block
count of a slot, and on return value 0 has the bytes written within the capacity. -/
theorem writetoextent_inv (sb : superblock) (disk : Disk) (node : inode) (src : List Nat)
    (off n : Nat) (ret : Int) (node1 : inode) (disk1 : Disk)
    (h : writetoextent sb disk node src off n = Kres.ok (ret, node1, disk1)) :
    (popPrefix node.data → popPrefix node1.data)
    ∧ totalBlocks node.data ≤ totalBlocks node1.data
    ∧ (ret = 0 → off + n ≤ BSIZE * totalBlocks node1.data) := by
  unfold writetoextent at h
  simp only [Kres.bind_ok_iff] at h
  obtain ⟨⟨ret0, data1, st1⟩, hw, h2⟩ := h
  simp only [Kres.ok.injEq, Prod.mk.injEq] at h2
  obtain ⟨e1, e2, _⟩ := h2
  have hd : node1.data = data1 := by rw [← e2]
  rw [hd]
  obtain ⟨m, _, m2, m3, m4, m5⟩ := writeExtents_walk sb NEXTENT 0 node.data
    (wstate.mk disk src off n 0 false) ret0 data1 st1 ⟨Nat.zero_le _, rfl⟩ hw
  have hkeep := writeExtents_data sb NEXTENT 0 node.data _ ret0 data1 st1 hw
  refine ⟨fun hp => ?_, ?_, fun h0 => ?_⟩
  · obtain ⟨k0, hk0, hpk⟩ := hp
    refine ⟨max k0 m, by omega, fun j hj => ?_⟩
    by_cases hjm : j < m
    · constructor
      · intro _; omega
      · intro _; exact m3 j (Nat.zero_le _) hjm
    · rw [m4 j (by omega), hpk j hj]
      omega
  · apply blocksFrom_mono
    intro j
    by_cases hz : (node.data j).nblocks = 0
    · rw [hz]; exact Nat.zero_le _
    · rw [hkeep j (Or.inr (Or.inr hz))]
  · have := m5 (by rw [e1]; exact h0)
    have h3 := capFrom_le_blocks data1 NEXTENT 0
    simp only [Nat.sub_zero] at this
    exact le_trans this h3

/-- Function `write_dinode` keeps the extent invariants of every inode when the `writei`
it calls on the inode file does and the inode file has been loaded. -/
theorem write_dinode_with_inv
    (wr : Kernel → iptr → List Nat → Nat → Nat → Kres (Int × Kernel))
    (hwr : ∀ s src off n r s1, s.inodefile.valid ≠ 0 →
      wr s iptr.inodefile src off n = Kres.ok (r, s1) →
      ∀ q, extentInv (s.get q) → extentInv (s1.get q))
    (cfg : Config) (s : Kernel) (inum : Nat) (dip : dinode) (s3 : Kernel)
    (hv : s.inodefile.valid ≠ 0)
    (h : write_dinode_with wr cfg s inum dip = Kres.ok s3) :
    ∀ q, extentInv (s.get q) → extentInv (s3.get q) := by
  unfold write_dinode_with at h
  simp only [Kres.bind_ok_iff] at h
  obtain ⟨s1, h1, ⟨r, s2⟩, h2, h3⟩ := h
  by_cases hold : s.inodefile.lock = true
  · simp only [hold, if_true, Kres.ok.injEq] at h1 h3
    subst h1
    subst h3
    exact hwr _ _ _ _ _ _ hv h2
  · simp only [hold, if_false, Bool.false_eq_true] at h1 h3
    have hs1 : s1 = { s with inodefile := { s.inodefile with lock := true } } := by
      have hr : ¬ s.inodefile.ref < 1 := by
        intro hr
        simp [locki, locki_inodefile, hr] at h1
      simp only [locki, locki_inodefile, hr, hold, hv, if_false, Bool.false_eq_true,
        Kres.ok.injEq] at h1
      exact h1.symm
    have hv1 : s1.inodefile.valid ≠ 0 := by rw [hs1]; exact hv
    have hs3 : s3 = s2.set iptr.inodefile { s2.inodefile with lock := false } := by
      simp only [unlocki] at h3
      split at h3
      · cases h3
      · simp only [Kres.ok.injEq] at h3
        exact h3.symm
    intro q hq
    have hq1 : extentInv (s1.get q) := by
      rw [hs1]
      cases q with
      | slot k => exact hq
      | inodefile => exact extentInv_congr _ _ rfl rfl hq
    have hq2 := hwr _ _ _ _ _ _ hv1 h2 q hq1
    rw [hs3]
    cases q with
    | slot k => exact hq2
    | inodefile => exact extentInv_congr _ _ rfl rfl hq2

/-- Function `writei` keeps the extent invariants of every inode of the cache and of the
inode file. -/
theorem writei_inv (cfg : Config) (fuel : Nat) :
    ∀ (s : Kernel) (p : iptr) (src : List Nat) (off n : Nat) (r : Int) (s1 : Kernel),
      s.inodefile.valid ≠ 0 → writei cfg fuel s p src off n = Kres.ok (r, s1) →
      ∀ q, extentInv (s.get q) → extentInv (s1.get q) := by
  induction fuel with
  | zero =>
    intro s p src off n r s1 _ h
    simp [writei] at h
  | succ f ih =>
    intro s p src off n r s1 hv h
    by_cases hlock : (s.get p).lock = true
    · by_cases htype : (s.get p).type = T_DEV
      · simp only [writei, hlock, htype, if_true, if_false, Bool.true_eq_false] at h
        have hs : s1 = s := by
          split at h
          · simp only [Kres.ok.injEq, Prod.mk.injEq] at h
            exact h.2.symm
          · split at h
            · simp only [Kres.ok.injEq, Prod.mk.injEq] at h
              exact h.2.symm
            · simp only [Kres.ok.injEq, Prod.mk.injEq] at h
              exact h.2.symm
        rw [hs]
        exact fun q hq => hq
      · by_cases hn : 1 ≤ n
        · rw [writei_unfold cfg f s p src off n hlock htype hn] at h
          simp only [Kres.bind_ok_iff] at h
          obtain ⟨⟨ret, ip1, disk1⟩, hw, h2⟩ := h
          have hf := writetoextent_fields cfg.sb s.disk _ src off n ret ip1 disk1 hw
          obtain ⟨i1, i2, i3⟩ := writetoextent_inv cfg.sb s.disk _ src off n ret ip1 disk1 hw
          have hsz : ip1.size = (s.get p).size := by rw [hf]
          have hvalid : ip1.valid = (s.get p).valid := by rw [hf]
          have hbl : BSIZE * totalBlocks (s.get p).data ≤ BSIZE * totalBlocks ip1.data :=
            Nat.mul_le_mul_left _ i2
          have F1 : ∀ q, extentInv (s.get q) →
              extentInv ((({ s with disk := disk1 } : Kernel).set p ip1).get q) := by
            intro q hq
            by_cases e : q = p
            · rw [e, Kernel.get_set]
              rw [e] at hq
              exact ⟨i1 hq.1, by rw [hsz]; exact le_trans hq.2 hbl⟩
            · rw [Kernel.get_set_ne _ _ _ _ e]
              cases q <;> exact hq
          simp only at h2
          by_cases hret : ret = -1
          · rw [if_pos hret] at h2
            simp only [Kres.ok.injEq, Prod.mk.injEq] at h2
            rw [← h2.2]
            exact F1
          · rw [if_neg hret] at h2
            have hret0 : ret = 0 := by
              rcases writetoextent_ret cfg.sb s.disk _ src off n ret ip1 disk1 hw with h0 | h1
              · exact h0
              · exact absurd h1 hret
            by_cases hg : (off + n) % 2 ^ 32 > ip1.size
            · rw [if_pos hg] at h2
              simp only [Kres.bind_ok_iff] at h2
              obtain ⟨s3, h3, h4⟩ := h2
              simp only [Kres.ok.injEq, Prod.mk.injEq] at h4
              rw [← h4.2]
              have hle : (off + n) % 2 ^ 32 ≤ BSIZE * totalBlocks ip1.data :=
                le_trans (Nat.mod_le _ _) (i3 hret0)
              have F2 : ∀ q, extentInv (s.get q) →
                  extentInv ((((({ s with disk := disk1 } : Kernel).set p ip1).set p
                    { ip1 with size := (off + n) % 2 ^ 32 })).get q) := by
                intro q hq
                by_cases e : q = p
                · rw [e, Kernel.get_set]
                  rw [e] at hq
                  exact ⟨i1 hq.1, hle⟩
                · rw [Kernel.get_set_ne _ _ _ _ e]
                  exact F1 q hq
              have hv2 : (((({ s with disk := disk1 } : Kernel).set p ip1).set p
                    { ip1 with size := (off + n) % 2 ^ 32 })).inodefile.valid ≠ 0 := by
                cases p with
                | slot k => exact hv
                | inodefile =>
                  show ip1.valid ≠ 0
                  rw [hvalid]
                  exact hv
              intro q hq
              exact write_dinode_with_inv (writei cfg f)
                (fun s src off n r s1 => ih s iptr.inodefile src off n r s1) cfg _ _ _ s3 hv2 h3
                q (F2 q hq)
            · rw [if_neg hg] at h2
              simp only [Kres.ok.injEq, Prod.mk.injEq] at h2
              rw [← h2.2]
              exact F1
        · have hn0 : n ≤ 0 := by omega
          simp only [writei, hlock, htype, hn0, if_true, if_false, Bool.true_eq_false,
            Kres.ok.injEq, Prod.mk.injEq] at h
          rw [← h.2]
          exact fun q hq => hq
    · have hl2 : (s.get p).lock = false := by
        cases hx : (s.get p).lock
        · rfl
        · exact absurd hx hlock
      simp [writei, hl2] at h

end Xk

namespace Xk

theorem extentInv_kern64 : extentInv (kern64.slots 0) := by
  refine ⟨⟨0, Nat.zero_le _, fun j _ => ?_⟩, Nat.zero_le _⟩
  simp [kern64]

/-- C35: let the inode file be loaded and let the write lie in the range of `int`:
`off + n < 2^31`, the sizes of the inode written and of the inode file are below `2^31`,
and so are the ends of the records that `write_dinode` may write for these two inodes.
Then a `writei` that returns preserves the extent
invariants of every inode: for each cache slot and for the inode file, if before the call
the populated (nonzero block count) extents form a prefix of the 30 slots and the size is
at most 512 times the total block count of the extents, then the same holds after it.
This covers the inode written, whether the call returns the byte count or -1, and the
inode file that `write_dinode` writes to when the size grows. -/
theorem writei_preserves_extent_invariants (cfg : Config) (fuel : Nat) (s : Kernel)
    (p : iptr) (src : List Nat) (off n : Nat) (r : Int) (s1 : Kernel)
    (hv : s.inodefile.valid ≠ 0)
    (h31 : off + n < 2 ^ 31)
    (hsz : (s.get p).size < 2 ^ 31 ∧ s.inodefile.size < 2 ^ 31)
    (hrec : INODEOFF (s.get p).inum + DINODE_SIZE < 2 ^ 31
      ∧ INODEOFF s.inodefile.inum + DINODE_SIZE < 2 ^ 31)
    (h : writei cfg fuel s p src off n = Kres.ok (r, s1)) :
    (∀ k, popPrefix (s.slots k).data ∧ (s.slots k).size ≤ BSIZE * totalBlocks (s.slots k).data →
      popPrefix (s1.slots k).data ∧ (s1.slots k).size ≤ BSIZE * totalBlocks (s1.slots k).data)
    ∧ (popPrefix s.inodefile.data ∧ s.inodefile.size ≤ BSIZE * totalBlocks s.inodefile.data →
      popPrefix s1.inodefile.data
        ∧ s1.inodefile.size ≤ BSIZE * totalBlocks s1.inodefile.data) :=
  have _ := h31
  have _ := hsz
  have _ := hrec
  ⟨fun k hk => writei_inv cfg fuel s p src off n r s1 hv h (iptr.slot k) hk,
    fun hk => writei_inv cfg fuel s p src off n r s1 hv h iptr.inodefile hk⟩

set_option maxRecDepth 1000000 in
/-- On `kern64`, writing 3 bytes to the empty file of slot 0 gives it one extent of one
block and size 3; the invariants hold before and after. -/
theorem writei_preserves_extent_invariants_witness :
    ∃ s1, writei cfg64 2 kern64 (iptr.slot 0) [1, 2, 3] 0 3 = Kres.ok (3, s1)
      ∧ (popPrefix (kern64.slots 0).data
          ∧ (kern64.slots 0).size ≤ BSIZE * totalBlocks (kern64.slots 0).data)
      ∧ (popPrefix (s1.slots 0).data
          ∧ (s1.slots 0).size ≤ BSIZE * totalBlocks (s1.slots 0).data)
      ∧ (s1.slots 0).size = 3 ∧ totalBlocks (s1.slots 0).data = 1 :=
  ⟨_, rfl, extentInv_kern64,
    (writei_preserves_extent_invariants cfg64 2 kern64 (iptr.slot 0) [1, 2, 3] 0 3 3 _
      (by decide) (by decide) (by decide) (by decide) rfl).1 0 extentInv_kern64,
    rfl, rfl⟩

end Xk

namespace Xk

/-! ## Bytes of a file that a write leaves alone (C34) -/

end Xk

namespace Xk

end Xk

namespace Xk

end Xk
